import Mathlib

/-!
# glyphRen: a shallow embedding of the glyph renaming engine

The definitions below follow `src/glyphRen.cc` and `src/fontClass.cc`.

* `std::map<string, string>` is a key-ordered association list (`NameMap`);
  `operator[]` used for reading is `mapGet` followed by `mapTouch` (the
  default-constructed entry it inserts), `operator[]` used for writing is
  `mapSet`.  `std::string` comparison is byte-wise and lexicographic, which agrees with the
  lexicographic order of the code-point lists (`data`) on valid UTF-8.
* `vector<FontChar>` is a `List FontChar`; loops over an index keep the index.
* The file-scope variables `Virama` and `Zwj` are fields of `State`.
* The macro `VIRAMA` is used by `glyphRen.cc` and defined by no file under
  `src/`: its value is the parameter `VIRAMA` of every definition that reads it.
* The collision loop of `renameGlyphs` has no bound in the source. The model
  gives it `dupFuel` iterations and returns `none` when they are used up;
  `dupLoop_some` and `renameGlyphs_some` show that this never happens.
* `int` counters are natural numbers: every counter below only counts up from
  zero and is bounded by the size of the glyph set.
* The error branch of the ligature stage runs `delete &tLig` on an element of
  the ligature vector before `return (FAIL)`. `renameGlyphs` and the functions
  it is made of give the value of that `return`; `renameGlyphsStrict` is the
  stage with the `delete`, and its result is `none` where the `delete` is
  executed, since the language gives it no meaning.
-/

namespace GlyphRen

/-- Return value for success (`#define SUCCESS 0`). -/
def SUCCESS : Int := 0

/-- Return value for failure (`#define FAIL 1`). -/
def FAIL : Int := 1

/-- Zero width joiner glyph (`#define ZWJ "ZWJ"`). -/
def ZWJ : String := "ZWJ"

/-- Chillu glyph name (`#define CHILLU_NANE "chillu"`). -/
def CHILLU_NANE : String := "chillu"

/-- The ligature info of a glyph: `class Ligature`. -/
structure Ligature where
  form : String
  glyphNames : List String
deriving DecidableEq, Repr

/-- The glyph information: `class FontChar` (the fields used by the renaming
engine; `startPos` and `endPos` are never read by it). -/
structure FontChar where
  unicodeVal : Int
  curName : String
  newName : String
  ligatureList : List Ligature
deriving DecidableEq, Repr

/-- The rename map `map<string, string>`: old name to new name, in key order. -/
abbrev NameMap := List (String × String)

/-- The reference data `map<int, CharRefData>`: code point to character name. -/
abbrev RefTable := List (Int × String)

/-- The value read by `nameMap[key]`: the mapped value, or the
default-constructed empty string when the key is absent. -/
def mapGet : NameMap → String → String
  | [], _ => ""
  | (k, v) :: rest, key => if k = key then v else mapGet rest key

/-- The assignment `nameMap[key] = val`: the value of the key is replaced, or
the key is inserted at its place in key order. -/
def mapSet : NameMap → String → String → NameMap
  | [], key, val => [(key, val)]
  | (k, v) :: rest, key, val =>
    if k = key then (k, val) :: rest
    else if key.data < k.data then (key, val) :: (k, v) :: rest
    else (k, v) :: mapSet rest key val

/-- Whether the map has the key (`nameMap.find (key) != nameMap.end ()`). -/
def mapHas : NameMap → String → Bool
  | [], _ => false
  | (k, _) :: rest, key => if k = key then true else mapHas rest key

/-- The side effect of reading `nameMap[key]`: an absent key is inserted, at
its place in key order, with the empty string. -/
def mapTouch (nameMap : NameMap) (key : String) : NameMap :=
  if mapHas nameMap key then nameMap else mapSet nameMap key ""

/-- The name read by `vRefData[cp].getCharName ()`: the reference name, or the
empty name of a default-constructed `CharRefData` when `cp` is absent. -/
def refName : RefTable → Int → String
  | [], _ => ""
  | (c, n) :: rest, cp => if c = cp then n else refName rest cp

/-- The mutable state of a renaming run: the glyph vector, the rename map, the
file-scope `Virama` and `Zwj`, and the `renCount` out-parameter. -/
structure State where
  vFontChar : List FontChar
  nameMap : NameMap
  Virama : String
  Zwj : String
  renCount : Nat
deriving DecidableEq, Repr

/-- The function `FontChar::loadMap`: every glyph of every ligature becomes a
key with an empty value. -/
def loadMap (fc : FontChar) (nameMap : NameMap) : NameMap :=
  fc.ligatureList.foldl (fun m lig => lig.glyphNames.foldl (fun m2 g => mapSet m2 g "") m) nameMap

/-- The state `main` starts the passes from. -/
def initState (vFontChar : List FontChar) : State :=
  { vFontChar := vFontChar
    nameMap := vFontChar.foldl (fun m fc => loadMap fc m) []
    Virama := ""
    Zwj := ""
    renCount := 0 }

/-- The function `checkDups`, scanning from position `i`. -/
def checkDupsFrom (idx : Nat) (newName : String) : Nat → List FontChar → Int
  | _, [] => SUCCESS
  | i, fc :: rest =>
    if i = idx then checkDupsFrom idx newName (i + 1) rest
    else if fc.curName = newName then FAIL
    else if fc.newName = newName then FAIL
    else checkDupsFrom idx newName (i + 1) rest

/-- The function `checkDups`: `FAIL` if the name is the current or the new name
of a glyph other than the one at `idx`. -/
def checkDups (vFontChar : List FontChar) (idx : Nat) (newName : String) : Int :=
  checkDupsFrom idx newName 0 vFontChar

/-- The table `specials` built by `processHalfForms`. -/
def specials : NameMap :=
  [("l3", "l4"), ("l3xx", "l4"), ("r3", "r4"), ("r3xx", "r4"),
   ("v1", "v2"), ("v1xx", "v2"), ("y1", "y2"), ("y1xx", "y2")]

/-- The function `processHalfForms`: the return value and the out-parameter
`hName`. -/
def processHalfForms (curName newName hName : String) : Int × String :=
  if mapGet specials newName = curName then (SUCCESS, curName) else (FAIL, hName)

/-- The local variables of `buildName` together with its out-parameter. -/
structure BuildSt where
  zFlag : Nat
  cFlag : Nat
  newName : String
  out : String
deriving DecidableEq, Repr

/-- The main loop of `buildName` from index `i` on. `VIRAMA` is the value of
the macro of that name, `size` is `comps.size ()`. -/
def buildLoop (VIRAMA Virama Zwj : String) (nameMap : NameMap) (size : Nat) :
    List String → Nat → BuildSt → BuildSt
  | [], _, st => st
  | comp :: rest, i, st =>
    if comp = ZWJ ∨ comp = Zwj then
      let st1 := { st with zFlag := st.zFlag + 1 }
      let st2 := if i = 2 ∧ st1.cFlag = 1 ∧ size = 3 then
        { st1 with out := st1.out ++ CHILLU_NANE } else st1
      buildLoop VIRAMA Virama Zwj nameMap size rest (i + 1) st2
    else if comp = "VIRAMA" ∨ comp = Virama then
      buildLoop VIRAMA Virama Zwj nameMap size rest (i + 1) { st with cFlag := st.cFlag + 1 }
    else
      let mappedName := mapGet nameMap comp
      if mappedName.length ≠ 0 then
        if mappedName = VIRAMA then
          buildLoop VIRAMA Virama Zwj nameMap size rest (i + 1) st
        else
          let newName := st.newName ++ mappedName
          buildLoop VIRAMA Virama Zwj nameMap size rest (i + 1)
            { st with newName := newName, out := newName }
      else
        let newName := st.newName ++ comp
        buildLoop VIRAMA Virama Zwj nameMap size rest (i + 1)
          { st with newName := newName, out := newName }

/-- The function `buildName`: the return value and the out-parameter `out`.
The map is passed by value, so the entries its lookups insert are dropped. -/
def buildName (VIRAMA Virama Zwj : String) (nameMap : NameMap) (comps : List String)
    (out : String) : Int × String :=
  (SUCCESS, (buildLoop VIRAMA Virama Zwj nameMap comps.length comps 0
    { zFlag := 0, cFlag := 0, newName := "", out := out }).out)

/-- The per-record locals of the ligature stage of `renameGlyphs` that survive
from one ligature to the next, with the rename map they read through. -/
structure Scan where
  maxCount : Nat
  copyToMax : Nat
  akhnFlag : Nat
  renFlag : Nat
  nameComps : List String
  akhnComps : List String
  maxComps : List String
  nameMap : NameMap
deriving DecidableEq, Repr

/-- The loop over `k` of the ligature stage: the glyphs `tLig.getNthglyphName (k)`
for `k = 0 .. glyphCount - 1`, in order, with the running `newCount`. -/
def glyphLoop : List String → Scan → Nat → Scan × Nat
  | [], sc, newCount => (sc, newCount)
  | tGlyphName :: rest, sc, newCount =>
    let sc1 := { sc with nameComps := sc.nameComps ++ [tGlyphName] }
    let sc2 := if sc1.copyToMax ≠ 0 then
      { sc1 with maxComps := sc1.maxComps ++ [tGlyphName] } else sc1
    let sc3 := if sc2.akhnFlag ≠ 0 then
      { sc2 with akhnComps := sc2.akhnComps ++ [tGlyphName] } else sc2
    let tNewName := mapGet sc3.nameMap tGlyphName
    let sc4 := { sc3 with nameMap := mapTouch sc3.nameMap tGlyphName }
    glyphLoop rest sc4 (if tNewName.length ≠ 0 then newCount + 1 else newCount)

/-- The body of the loop over `l` of the ligature stage, after its
`InvalidObject` test, for the ligature `tLig`. -/
def formBody (tLig : Ligature) (sc : Scan) : Scan :=
  let glyphCount := tLig.glyphNames.length
  let sc1 := if glyphCount > sc.maxCount then
    { sc with maxCount := glyphCount, copyToMax := 1, maxComps := [] }
    else { sc with copyToMax := 0 }
  let sc2 := if "akhn" = tLig.form then
    { sc1 with akhnFlag := 1, akhnComps := [] } else { sc1 with akhnFlag := 0 }
  let sc3 := { sc2 with nameComps := [] }
  let r := glyphLoop tLig.glyphNames sc3 0
  if r.2 = glyphCount then { r.1 with renFlag := r.1.renFlag + 1 } else r.1

/-- The loop over `l` of the ligature stage. The first component is `FAIL`
when the body took its error branch, whose last statement is `return (FAIL)`.
The statement before it, `delete &tLig`, is left out here: `formLoop` gives the
value the branch returns when the `delete` does nothing, and `formLoopStrict`
is the loop with the `delete`. -/
def formLoop (curName : String) : List Ligature → Scan → Int × Scan
  | [], sc => (SUCCESS, sc)
  | tLig :: rest, sc =>
    if curName = "InvalidObject" then (FAIL, sc)
    else formLoop curName rest (formBody tLig sc)

/-- The choice of `finalComps` after the loop over the ligatures; `none` is
the `continue` taken when `renFlag != LigatureCount`. -/
def selectComps (LigatureCount : Nat) (sc : Scan) : Option (List String) :=
  if LigatureCount = 1 ∧ sc.renFlag = LigatureCount then some sc.nameComps
  else if sc.renFlag ≠ LigatureCount then none
  else if sc.akhnFlag ≠ 0 then some sc.akhnComps
  else some sc.maxComps

/-- The `do ... while (dupRet == FAIL)` loop of `renameGlyphs`, entered with
the sequence number `seq` and the name `newName` to test. The loop of the
source has no bound; `fuel` bounds the number of iterations of the model and
`none` means it was used up (`dupLoop_some` shows that the fuel `renameGlyphs`
passes is never used up). -/
def dupLoop (vFontChar : List FontChar) (i : Nat) (curName base : String) :
    Nat → Nat → String → Option String
  | 0, _, _ => none
  | fuel + 1, seq, newName =>
    if checkDups vFontChar i newName = FAIL then
      let r := processHalfForms curName newName ""
      if r.1 = SUCCESS then some r.2
      else dupLoop vFontChar i curName base fuel (seq + 1) (base ++ toString (seq + 1))
    else some newName

/-- The number of iterations of the collision loop the model allows for a glyph
vector: one more than the number of names the other glyphs can hold. -/
def dupFuel (vFontChar : List FontChar) : Nat := 2 * vFontChar.length + 2

/-- The scan state at the top of the body of the ligature stage. -/
def scanInit (nameMap : NameMap) : Scan :=
  { maxCount := 0, copyToMax := 0, akhnFlag := 0, renFlag := 0
    nameComps := [], akhnComps := [], maxComps := [], nameMap := nameMap }

/-- The body of the ligature stage of `renameGlyphs` for the glyph at index `i`.
The first component of the result is `FAIL` when the body returns `FAIL`
from `renameGlyphs`; the result is `none` only if the collision loop used up
its fuel. -/
def ligStep (VIRAMA : String) (i : Nat) (s : State) : Option (Int × State) :=
  match s.vFontChar[i]? with
  | none => some (SUCCESS, s)
  | some fc =>
    let curName := fc.curName
    let LigatureCount := fc.ligatureList.length
    if LigatureCount = 0 then some (SUCCESS, s)
    else
      let newName := mapGet s.nameMap curName
      let nameMap1 := mapTouch s.nameMap curName
      if newName.length > 0 then some (SUCCESS, { s with nameMap := nameMap1 })
      else
        let r := formLoop curName fc.ligatureList (scanInit nameMap1)
        if r.1 = FAIL then some (FAIL, { s with nameMap := r.2.nameMap })
        else
          match selectComps LigatureCount r.2 with
          | none => some (SUCCESS, { s with nameMap := r.2.nameMap })
          | some finalComps =>
            let built := (buildName VIRAMA s.Virama s.Zwj r.2.nameMap finalComps newName).2
            match dupLoop s.vFontChar i curName (built ++ "_") (dupFuel s.vFontChar) 0 built with
            | none => none
            | some finalName =>
              some (SUCCESS,
                { s with
                  nameMap := mapSet r.2.nameMap curName finalName
                  vFontChar := s.vFontChar.set i { fc with newName := finalName }
                  renCount := s.renCount + 1 })

/-- The ligature stage of `renameGlyphs`: the loop over `i`, with `n` glyphs
still to visit. -/
def ligLoop (VIRAMA : String) : Nat → Nat → State → Option (Int × State)
  | 0, _, s => some (SUCCESS, s)
  | n + 1, i, s =>
    match ligStep VIRAMA i s with
    | none => none
    | some r => if r.1 = FAIL then some r else ligLoop VIRAMA n (i + 1) r.2

/-- The base character stage of `renameGlyphs`: glyphs with a code point get
the reference name, in the map and in the glyph. -/
def seedLoop (vRefData : RefTable) : List FontChar → NameMap → List FontChar × NameMap
  | [], nameMap => ([], nameMap)
  | fc :: rest, nameMap =>
    if fc.unicodeVal = -1 then
      let r := seedLoop vRefData rest nameMap
      (fc :: r.1, r.2)
    else
      let r := seedLoop vRefData rest (mapSet nameMap fc.curName (refName vRefData fc.unicodeVal))
      ({ fc with newName := refName vRefData fc.unicodeVal } :: r.1, r.2)

/-- The loop of `renameGlyphs` over the rename map that sets `Virama` and
`Zwj`; the pair is (`Virama`, `Zwj`). -/
def discover (VIRAMA : String) : NameMap → String × String → String × String
  | [], vz => vz
  | (k, v) :: rest, vz =>
    discover VIRAMA rest (if v = VIRAMA then k else vz.1, if v = ZWJ then k else vz.2)

/-- The loop of `renameGlyphs` that copies the names of the map into the
glyphs. -/
def syncLoop : List FontChar → NameMap → List FontChar × NameMap
  | [], nameMap => ([], nameMap)
  | fc :: rest, nameMap =>
    let tNewName := mapGet nameMap fc.curName
    let r := syncLoop rest (mapTouch nameMap fc.curName)
    ((if tNewName.length ≠ 0 then { fc with newName := tNewName } else fc) :: r.1, r.2)

/-- The state `renameGlyphs` enters its ligature stage with. -/
def preLig (VIRAMA : String) (vRefData : RefTable) (s : State) : State :=
  let seeded := seedLoop vRefData s.vFontChar s.nameMap
  let vz := discover VIRAMA seeded.2 (s.Virama, s.Zwj)
  let synced := syncLoop seeded.1 seeded.2
  { vFontChar := synced.1, nameMap := synced.2, Virama := vz.1, Zwj := vz.2, renCount := 0 }

/-- The function `renameGlyphs`: one pass, with its return value and the state
it leaves. `VIRAMA` is the value of the macro of that name. -/
def renameGlyphs (VIRAMA : String) (vRefData : RefTable) (s : State) : Option (Int × State) :=
  ligLoop VIRAMA (preLig VIRAMA vRefData s).vFontChar.length 0 (preLig VIRAMA vRefData s)

/-- The pass loop of `main`, allowed `passes` calls of `renameGlyphs`: `2` with
the state when `main` returns `2` after a failed pass, `0` with the state when
the loop is left by `break` after a pass without renames, and `none` when the
loop is still running after `passes` passes (a pass itself always returns, see
`renameGlyphs_some`). -/
def mainLoop (VIRAMA : String) (vRefData : RefTable) : Nat → State → Option (Int × State)
  | 0, _ => none
  | passes + 1, s =>
    match renameGlyphs VIRAMA vRefData s with
    | none => none
    | some r =>
      if r.1 ≠ SUCCESS then some (2, r.2)
      else if r.2.renCount = 0 then some (0, r.2)
      else mainLoop VIRAMA vRefData passes r.2

/-- The state after `n` calls of `renameGlyphs` (a failed pass ends the run and
freezes the state). -/
def passN (VIRAMA : String) (vRefData : RefTable) : Nat → State → Option State
  | 0, s => some s
  | n + 1, s =>
    match renameGlyphs VIRAMA vRefData s with
    | none => none
    | some r => if r.1 ≠ SUCCESS then some r.2 else passN VIRAMA vRefData n r.2

/-! ## The ligature stage with the `delete` of its error branch

The error branch of the loop over `l` runs `delete &tLig` before
`return (FAIL)`. The loop calls `getLigature (l)` with `l < LigatureCount`
only, so `tLig` always refers to the element `ligatureList[l]` of the vector
and never to an object made by `new`; the language gives no meaning to that
`delete`. The functions below are the ligature stage with that statement:
their result is `none` when it is executed. -/

/-- The loop over `l` of the ligature stage; `none` when the body executed
`delete &tLig`. -/
def formLoopStrict (curName : String) : List Ligature → Scan → Option (Int × Scan)
  | [], sc => some (SUCCESS, sc)
  | tLig :: rest, sc =>
    if curName = "InvalidObject" then none
    else formLoopStrict curName rest (formBody tLig sc)

/-- The body of the ligature stage of `renameGlyphs` for the glyph at index
`i`; `none` when it executed `delete &tLig` (or, as in `ligStep`, if the
collision loop used up its fuel). -/
def ligStepStrict (VIRAMA : String) (i : Nat) (s : State) : Option (Int × State) :=
  match s.vFontChar[i]? with
  | none => some (SUCCESS, s)
  | some fc =>
    let curName := fc.curName
    let LigatureCount := fc.ligatureList.length
    if LigatureCount = 0 then some (SUCCESS, s)
    else
      let newName := mapGet s.nameMap curName
      let nameMap1 := mapTouch s.nameMap curName
      if newName.length > 0 then some (SUCCESS, { s with nameMap := nameMap1 })
      else
        match formLoopStrict curName fc.ligatureList (scanInit nameMap1) with
        | none => none
        | some r =>
          match selectComps LigatureCount r.2 with
          | none => some (SUCCESS, { s with nameMap := r.2.nameMap })
          | some finalComps =>
            let built := (buildName VIRAMA s.Virama s.Zwj r.2.nameMap finalComps newName).2
            match dupLoop s.vFontChar i curName (built ++ "_") (dupFuel s.vFontChar) 0 built with
            | none => none
            | some finalName =>
              some (SUCCESS,
                { s with
                  nameMap := mapSet r.2.nameMap curName finalName
                  vFontChar := s.vFontChar.set i { fc with newName := finalName }
                  renCount := s.renCount + 1 })

/-- The ligature stage of `renameGlyphs`, the loop over `i`, with `n` glyphs
still to visit; `none` when a body executed `delete &tLig`. -/
def ligLoopStrict (VIRAMA : String) : Nat → Nat → State → Option (Int × State)
  | 0, _, s => some (SUCCESS, s)
  | n + 1, i, s =>
    match ligStepStrict VIRAMA i s with
    | none => none
    | some r => ligLoopStrict VIRAMA n (i + 1) r.2

/-- The function `renameGlyphs` with the `delete` of its error branch: `none`
when the call executed it. -/
def renameGlyphsStrict (VIRAMA : String) (vRefData : RefTable) (s : State) :
    Option (Int × State) :=
  ligLoopStrict VIRAMA (preLig VIRAMA vRefData s).vFontChar.length 0 (preLig VIRAMA vRefData s)

/-! ## Text: `getTok` and the rewriting of the lines

`std::string` is a Lean `String` and the functions on it work on its list of
characters (`data`). Offsets count characters where the source counts bytes;
on the UTF-8 text of the source both give the same matches. -/

/-- The fields `std::getline (s, tok, delim)` reads from the unread characters
of the stream: the characters before the first delimiter and the unread
characters after it, or all characters and `none` (end of input reached, the
stream is at `eof`). -/
def takeField (delim : Char) : List Char → List Char × Option (List Char)
  | [] => ([], none)
  | c :: rest =>
    if c = delim then ([], some rest)
    else ((c :: (takeField delim rest).1), (takeField delim rest).2)

/-- The call `getline (s, tok, delim)` on a stream: `none` when the stream is at
`eof` or has no unread character, so that nothing is read and the call
fails; otherwise the token and the new state of the stream. -/
def getline (delim : Char) : Option (List Char) → Option (List Char × Option (List Char))
  | none => none
  | some [] => none
  | some (c :: rest) => some (takeField delim (c :: rest))

/-- The loop of `getTok`: `pos` calls of `getline`; `none` when one fails. -/
def getTokLoop (delim : Char) : Nat → Option (List Char) → List Char → Option (List Char)
  | 0, _, tok => some tok
  | n + 1, s, _ =>
    match getline delim s with
    | none => none
    | some r => getTokLoop delim n r.2 r.1

/-- The function `getTok`: the return value and the out-parameter `out`. -/
def getTok (inStr out : String) (delim : Char) (pos : Nat) : Int × String :=
  match getTokLoop delim pos (some inStr.data) [] with
  | none => (FAIL, out)
  | some tok => if inStr = String.mk tok then (FAIL, out) else (SUCCESS, String.mk tok)

/-- The search of `needle` in the characters `hay`, which start at offset `i` of
the string that is searched. -/
def findAux (needle : List Char) : List Char → Nat → Option Nat
  | [], i => if needle = [] then some i else none
  | c :: rest, i =>
    if needle.isPrefixOf (c :: rest) then some i else findAux needle rest (i + 1)

/-- The call `s.find (t, pos)`: the first offset at or after `pos` where `t`
occurs in `s`, `none` for `string::npos`. -/
def strFind (s t : String) (pos : Nat) : Option Nat :=
  if pos > s.length then none else findAux t.data (s.data.drop pos) pos

/-- The call `s.replace (pos, len, t)`. -/
def strReplace (s : String) (pos len : Nat) (t : String) : String :=
  String.mk (s.data.take pos ++ t.data ++ s.data.drop (pos + len))

/-- The call `s.at (i)` for an offset inside the string. -/
def strAt (s : String) (i : Nat) : Char := s.data.getD i ' '

/-- The function `replaceFCName`: the return value and the line. -/
def replaceFCName (nameMap : NameMap) (sfdData : String) : Int × String :=
  let r := getTok sfdData "" ' ' 2
  if r.1 = SUCCESS then
    let glyphName := r.2
    let newName := mapGet nameMap glyphName
    if newName.length ≠ 0 ∧ newName ≠ glyphName then
      match strFind sfdData glyphName 0 with
      | some strPos => (SUCCESS, strReplace sfdData strPos glyphName.length newName)
      | none => (SUCCESS, sfdData)
    else (SUCCESS, sfdData)
  else (SUCCESS, sfdData)

/-- The loop of `replaceGlyphNames` that stores the glyph names of the list in
the map `glyphComps`, from the token number `i` on. -/
def compsLoop (glyphNames : String) : Nat → Nat → NameMap → NameMap
  | 0, _, glyphComps => glyphComps
  | fuel + 1, i, glyphComps =>
    let r := getTok glyphNames "" ' ' i
    if r.1 = SUCCESS then
      compsLoop glyphNames fuel (i + 1)
        (if r.2.length ≠ 0 then mapSet glyphComps r.2 r.2 else glyphComps)
    else glyphComps

/-- The `while (1)` loop of `replaceGlyphNames` for the name `oldName`, entered
with the search offset `nextPos`; `none` when the loop is still running after
`fuel` iterations. -/
def scanLoop (nameMap : NameMap) (oldName : String) : Nat → Nat → String → Option String
  | 0, _, _ => none
  | fuel + 1, nextPos, glyphNames =>
    match strFind glyphNames oldName nextPos with
    | none => some glyphNames
    | some gPos =>
      let nextPos1 := gPos + oldName.length
      let newName := mapGet nameMap oldName
      if newName.length = 0 then scanLoop nameMap oldName fuel nextPos1 glyphNames
      else if gPos ≠ 0 ∧ strAt glyphNames (gPos - 1) ≠ ' ' then
        scanLoop nameMap oldName fuel nextPos1 glyphNames
      else if gPos ≠ 0 ∧ gPos + oldName.length < glyphNames.length ∧
          strAt glyphNames (gPos + oldName.length) ≠ ' ' then
        scanLoop nameMap oldName fuel nextPos1 glyphNames
      else
        scanLoop nameMap oldName fuel nextPos1
          (strReplace glyphNames gPos oldName.length newName)

/-- The number of iterations the model allows the scan for one name: the search
offset grows in every iteration and stays within the list, which grows by
less than the new name for every token. -/
def scanFuel (glyphNames newName : String) : Nat :=
  glyphNames.length * (newName.length + 1) + 2

/-- The `for` loop of `replaceGlyphNames` over the names `names`, in that
order; `none` when a scan used up its fuel. -/
def substLoop (nameMap : NameMap) : List String → String → Option String
  | [], glyphNames => some glyphNames
  | oldName :: rest, glyphNames =>
    match scanLoop nameMap oldName (scanFuel glyphNames (mapGet nameMap oldName)) 0
        glyphNames with
    | none => none
    | some g => substLoop nameMap rest g

/-- The map `glyphComps` that `replaceGlyphNames` builds from the glyph list. -/
def glyphComps (glyphNames : String) : NameMap :=
  compsLoop glyphNames (glyphNames.length + 2) 1 []

/-- The function `replaceGlyphNames`: the return value and the line; `none`
when a scan used up its fuel. -/
def replaceGlyphNames (nameMap : NameMap) (sfdData : String) : Option (Int × String) :=
  let r := getTok sfdData "" '"' 3
  if r.1 = SUCCESS then
    let oldGlyphNames := r.2
    match substLoop nameMap ((glyphComps oldGlyphNames).map (fun m => m.1)) oldGlyphNames with
    | none => none
    | some glyphNames =>
      match strFind sfdData oldGlyphNames 0 with
      | some gPos => some (SUCCESS, strReplace sfdData gPos oldGlyphNames.length glyphNames)
      | none => some (SUCCESS, sfdData)
  else some (FAIL, sfdData)

/-! ## The reference file and the ligature accessor -/

/-- The assignment `ref[codeValue] = t` on the map of the reference data, which
is ordered by code point: the entry of the code point is replaced, or inserted
at its place. -/
def refSet : RefTable → Int → String → RefTable
  | [], cp, name => [(cp, name)]
  | (c, n) :: rest, cp, name =>
    if c = cp then (c, name) :: rest
    else if cp < c then (cp, name) :: (c, n) :: rest
    else (c, n) :: refSet rest cp name

/-- The `while (getline (stdFile, readLine))` loop of `loadReferenceData` over
the lines `getline` reads from the file, with the return value and the map
`ref`, which the function changes in place. The conversion `hexStrtoInt` is
done by the stream library (`x << hex << hexVal; x >> h`); the model takes it
as the function `hexStrtoInt`. -/
def loadLines (hexStrtoInt : String → Int) : List String → RefTable → Int × RefTable
  | [], ref => (SUCCESS, ref)
  | readLine :: rest, ref =>
    let r1 := getTok readLine "" ' ' 1
    if r1.1 = SUCCESS then
      let codeValue := hexStrtoInt r1.2
      let r2 := getTok readLine r1.2 ' ' 2
      if r2.1 = SUCCESS then loadLines hexStrtoInt rest (refSet ref codeValue r2.2)
      else (FAIL, ref)
    else (FAIL, ref)

/-- The function `loadReferenceData`; `stdFile` is `none` when the file cannot
be opened and the list of its lines otherwise. -/
def loadReferenceData (hexStrtoInt : String → Int) (stdFile : Option (List String))
    (ref : RefTable) : Int × RefTable :=
  match stdFile with
  | none => (FAIL, ref)
  | some lines => loadLines hexStrtoInt lines ref

/-- The method `Ligature::getNthglyphName`: the return value and the
out-parameter `out`. The result is `none` when the method executes
`out = glyphNames[idx]` with `idx` past the last element, a read the language
gives no meaning to. -/
def getNthglyphName (tLig : Ligature) (idx : Nat) (out : String) : Option (Int × String) :=
  if idx > tLig.glyphNames.length then some (FAIL, out)
  else
    match tLig.glyphNames[idx]? with
    | some g => some (SUCCESS, g)
    | none => none

/-! ## Definitions used to state the properties -/

/-- The number of glyphs of the list that have a non-empty name in the map. -/
def resolvedCount (nameMap : NameMap) (gs : List String) : Nat :=
  (gs.filter (fun g => decide (mapGet nameMap g ≠ ""))).length

/-- The components kept in `maxComps` after the ligatures `forms`, when the
scan starts with the maximum `m` and the kept components `c`. -/
def pickMax : Nat → List String → List Ligature → List String
  | _, c, [] => c
  | m, c, f :: rest =>
    if f.glyphNames.length > m then pickMax f.glyphNames.length f.glyphNames rest
    else pickMax m c rest

/-- The specification of the longest form: the components of the first form,
in source order, whose component count is maximal among the forms. -/
def firstLongest (forms : List Ligature) : List String :=
  match forms.find? (fun f => decide (∀ g ∈ forms, g.glyphNames.length ≤ f.glyphNames.length)) with
  | some f => f.glyphNames
  | none => []

/-- Three fully resolved forms without an akhn tag, the first two of the same,
maximal component count. -/
def tieForms : List Ligature :=
  [⟨"liga", ["k", "s"]⟩, ⟨"pres", ["s", "k"]⟩, ⟨"blws", ["t"]⟩]

/-- A rename map in which the glyphs `k`, `s` and `t` have new names. -/
def tieMap : NameMap := [("k", "k1"), ("s", "s1"), ("t", "t1")]

/-- A state in which the glyph `x` has a fully resolved akhn form and a longer
form with the unresolved component `u`. -/
def blockedState : State :=
  { vFontChar :=
      [ { unicodeVal := -1, curName := "x", newName := "",
          ligatureList := [⟨"liga", ["s", "k", "u"]⟩, ⟨"akhn", ["k", "s"]⟩] },
        { unicodeVal := 3349, curName := "k", newName := "k1", ligatureList := [] },
        { unicodeVal := 3384, curName := "s", newName := "s1", ligatureList := [] } ]
    nameMap := [("k", "k1"), ("s", "s1"), ("u", ""), ("x", "")]
    Virama := ""
    Zwj := ""
    renCount := 0 }

/-- The value of a list of decimal digit characters, most significant first. -/
def decVal : List Char → Nat
  | [] => 0
  | d :: ds => (d.toNat - 48) * 10 ^ ds.length + decVal ds

/-- The names `checkDups` compares with: the current and the new name of every
glyph whose position is not `idx`, scanning from position `i`. -/
def takenFrom (idx : Nat) : Nat → List FontChar → List String
  | _, [] => []
  | i, fc :: rest =>
    if i = idx then takenFrom idx (i + 1) rest
    else fc.curName :: fc.newName :: takenFrom idx (i + 1) rest

/-- The name `n` is the current or the new name of a glyph other than the one
at position `i`. -/
def isTaken (v : List FontChar) (i : Nat) (n : String) : Prop :=
  ∃ (j : Nat) (fc : FontChar), v[j]? = some fc ∧ j ≠ i ∧ (fc.curName = n ∨ fc.newName = n)

/-- The current names of the glyphs at different positions are different. -/
def distinctNames (v : List FontChar) : Prop :=
  ∀ (a b : Nat) (fa fb : FontChar),
    v[a]? = some fa → v[b]? = some fb → a ≠ b → fa.curName ≠ fb.curName

/-- A glyph vector in which the names `kaka` and `kaka_1` are taken. -/
def kakaGlyphs : List FontChar :=
  [ { unicodeVal := -1, curName := "g", newName := "",
      ligatureList := [⟨"liga", ["k", "k"]⟩] },
    { unicodeVal := 3349, curName := "k", newName := "ka", ligatureList := [] },
    { unicodeVal := -1, curName := "kaka", newName := "", ligatureList := [] },
    { unicodeVal := -1, curName := "h", newName := "kaka_1", ligatureList := [] } ]

/-- A composite glyph named `y2` whose built name `y1` is taken, next to a
base glyph whose new name is `y2`. -/
def halfFormGlyphs : List FontChar :=
  [ { unicodeVal := -1, curName := "y2", newName := "", ligatureList := [⟨"liga", ["a"]⟩] },
    { unicodeVal := 3375, curName := "a", newName := "", ligatureList := [] },
    { unicodeVal := 3376, curName := "b", newName := "", ligatureList := [] } ]

/-- The reference table for `halfFormGlyphs`. -/
def halfFormRef : RefTable := [(3375, "y1"), (3376, "y2")]

/-- The glyph after the base character stage of `renameGlyphs`. -/
def seedRec (vRefData : RefTable) (fc : FontChar) : FontChar :=
  if fc.unicodeVal = -1 then fc else { fc with newName := refName vRefData fc.unicodeVal }

/-- Every glyph carries the name the rename map has for its current name. -/
def agree (s : State) : Prop :=
  ∀ fc ∈ s.vFontChar, fc.newName = mapGet s.nameMap fc.curName

/-- Every glyph with a code point that has a reference name carries it. -/
def seeded (vRefData : RefTable) (v : List FontChar) : Prop :=
  ∀ fc ∈ v, fc.unicodeVal ≠ -1 → refName vRefData fc.unicodeVal ≠ "" →
    fc.newName = refName vRefData fc.unicodeVal

/-- The uniqueness property of the names given by the ligature stage: a new
name that is not empty, was not given by the base character stage and is not
the own current name of the glyph (the half-form override) is neither the
current nor the new name of a glyph with another current name. -/
def uniqueNames (vRefData : RefTable) (v : List FontChar) : Prop :=
  ∀ fa ∈ v, ∀ fb ∈ v, fa.curName ≠ fb.curName →
    (fa.unicodeVal = -1 ∨ refName vRefData fa.unicodeVal = "") →
    fa.newName ≠ "" → fa.newName ≠ fa.curName →
    fa.newName ≠ fb.curName ∧ fa.newName ≠ fb.newName

/-- The invariant of the ligature stage. -/
def midInv (vRefData : RefTable) (s : State) : Prop :=
  (s.vFontChar.map (fun fc => fc.curName)).Nodup ∧ agree s ∧
    uniqueNames vRefData s.vFontChar ∧ seeded vRefData s.vFontChar

/-- The invariant of the pass loop. -/
def passInv (vRefData : RefTable) (s : State) : Prop :=
  (s.vFontChar.map (fun fc => fc.curName)).Nodup ∧ agree s ∧
    uniqueNames vRefData s.vFontChar ∧
    (seeded vRefData s.vFontChar ∨ ∀ fc ∈ s.vFontChar, fc.newName = "")

/-- Two base glyphs: the reference name of `k3` is the current name of `k2`. -/
def seedClashGlyphs : List FontChar :=
  [ { unicodeVal := 3349, curName := "k2", newName := "", ligatureList := [] },
    { unicodeVal := 3350, curName := "k3", newName := "", ligatureList := [] } ]

/-- The reference table for `seedClashGlyphs`. -/
def seedClashRef : RefTable := [(3349, "k1"), (3350, "k2")]

/-- The specification of what one component contributes to a composite name: a
joiner and an elision marker contribute nothing; another component
contributes its mapped name when that is not empty, unless the mapped name is
the elision-marker value, and its own name otherwise. -/
def contribution (VIRAMA Virama Zwj : String) (nameMap : NameMap) (comp : String) : String :=
  if comp = ZWJ ∨ comp = Zwj then ""
  else if comp = "VIRAMA" ∨ comp = Virama then ""
  else if mapGet nameMap comp ≠ "" then
    (if mapGet nameMap comp = VIRAMA then "" else mapGet nameMap comp)
  else comp

/-- The specification of the composite name: the contributions of the
components, concatenated from left to right. -/
def compositeName (VIRAMA Virama Zwj : String) (nameMap : NameMap) : List String → String
  | [] => ""
  | comp :: rest =>
    contribution VIRAMA Virama Zwj nameMap comp ++ compositeName VIRAMA Virama Zwj nameMap rest

/-- The base glyphs `k2` and `k3` of `seedClashGlyphs` and a composite glyph `c`
whose ligature is made of them. -/
def chainGlyphs : List FontChar :=
  [ { unicodeVal := 3349, curName := "k2", newName := "", ligatureList := [] },
    { unicodeVal := 3350, curName := "k3", newName := "", ligatureList := [] },
    { unicodeVal := -1, curName := "c", newName := "",
      ligatureList := [⟨"liga", ["k3", "k2"]⟩] } ]

/-- The rename map the passes over `chainGlyphs` end with. -/
def chainMap : NameMap := [("c", "k2k1"), ("k2", "k1"), ("k3", "k2")]

/-- The ligature line of the glyph `c` of `chainGlyphs`. -/
def chainLine : String := "Ligature2: \"'liga' sub\" k3 k2"

/-- A ligature line in which the glyph `uni0D15` occurs twice in a row. -/
def twiceLine : String := "Ligature2: \"'akhn' sub\" uni0D15 uni0D15"

/-- The ligature line of the example of whole-token substitution. -/
def exampleLine : String := "Ligature2: \"'akhn' sub\" xxk1 k1 k1xx"

/-- A ligature line whose glyph list starts right after the quoted name, with
the name `k1xx`. -/
def prefixLine : String := "Ligature2: \"'akhn' sub\"k1xx k1"

/-- The glyph after the loop of `renameGlyphs` that copies the names of the map
`nameMap` into the glyphs. -/
def syncRec (nameMap : NameMap) (fc : FontChar) : FontChar :=
  if (mapGet nameMap fc.curName).length ≠ 0 then
    { fc with newName := mapGet nameMap fc.curName } else fc

/-- The facts about a glyph `fc` at position `j` with a component `g` that no
glyph is named after, kept by every pass: distinct current names, the glyph
itself, and the empty entries of the rename map for the glyph and for `g`. -/
def missingInv (j : Nat) (fc : FontChar) (g : String) (s : State) : Prop :=
  distinctNames s.vFontChar ∧ s.vFontChar[j]? = some fc ∧
    mapGet s.nameMap fc.curName = "" ∧ mapGet s.nameMap g = "" ∧
    ∀ x ∈ s.vFontChar, x.curName ≠ g

/-- A composite glyph with a component `zz` that no glyph is named after. -/
def missingRec : FontChar :=
  { unicodeVal := -1, curName := "c", newName := "",
    ligatureList := [{ form := "liga", glyphNames := ["ka", "zz"] }] }

/-- A base glyph `ka` and the composite `missingRec`. -/
def missingGlyphs : List FontChar :=
  [ { unicodeVal := 3349, curName := "ka", newName := "", ligatureList := [] }, missingRec ]

/-- Two composite glyphs named `a` and `b`: the only ligature of the first
has the single component `b`, the only ligature of the second the single
component `a`; `fa` and `fb` are the forms of the two ligatures. -/
def cycleGlyphs (a b fa fb : String) : List FontChar :=
  [ { unicodeVal := -1, curName := a, newName := "",
      ligatureList := [{ form := fa, glyphNames := [b] }] },
    { unicodeVal := -1, curName := b, newName := "",
      ligatureList := [{ form := fb, glyphNames := [a] }] } ]

/-- The characters of a glyph list made of the names `ts`, each after one
space, as in a `Ligature2:` line. -/
def fragChars : List String → List Char
  | [] => []
  | t :: rest => ' ' :: (t.data ++ fragChars rest)

/-- The glyph list made of the names `ts`, each after one space. -/
def frag (ts : List String) : String := String.mk (fragChars ts)

/-- The name that stands for the name `t` after the scan for the name `o`,
which has the new name `n`. -/
def renameTok (o n t : String) : String := if t = o then n else t

/-- The name that stands for the name `t` after the scans for the names
`names`, in that order, with the rename map `nameMap`. -/
def renameAll (nameMap : NameMap) : List String → String → String
  | [], t => t
  | o :: rest, t =>
    renameAll nameMap rest (if mapGet nameMap o = "" then t else renameTok o (mapGet nameMap o) t)

/-- What the scan for the name `o` knows about the characters `A` it has
passed, in the list `T`, when it searches from the offset `nextPos`: an
occurrence of `o` that starts in `A` at or after `nextPos` comes after a
character that is not a space. -/
def scanInv (o T A : List Char) (nextPos : Nat) : Prop :=
  nextPos ≤ A.length + 1 ∧
    ∀ p, nextPos ≤ p → p < A.length → o <+: T.drop p → p ≠ 0 ∧ T.getD (p - 1) ' ' ≠ ' '

/-- The fields of the characters `s` split at the occurrences of the delimiter
`d`: one more field than there are occurrences. -/
def splitFields (d : Char) : List Char → List (List Char)
  | [] => [[]]
  | c :: rest =>
    if c = d then [] :: splitFields d rest
    else
      match splitFields d rest with
      | [] => [[c]]
      | f :: fs => (c :: f) :: fs

/-- The characters after the first space of a line, `none` for a line without
a space. -/
def afterFirstSpace : List Char → Option (List Char)
  | [] => none
  | c :: rest => if c = ' ' then some rest else afterFirstSpace rest

/-- A line of the reference file is well formed when it has a space and
something follows its first space. -/
def wellFormed (line : String) : Bool :=
  match afterFirstSpace line.data with
  | some (_ :: _) => true
  | _ => false

/-- The code point of a line of the reference file: the conversion of its first
field. -/
def lineCode (hexStrtoInt : String → Int) (line : String) : Int :=
  hexStrtoInt (String.mk ((splitFields ' ' line.data).getD 0 []))

/-- The value of the character `c` as a hexadecimal digit, `none` when it is
not one. -/
def hexDigit (c : Char) : Option Nat :=
  if 48 ≤ c.toNat ∧ c.toNat ≤ 57 then some (c.toNat - 48)
  else if 97 ≤ c.toNat ∧ c.toNat ≤ 102 then some (c.toNat - 87)
  else if 65 ≤ c.toNat ∧ c.toNat ≤ 70 then some (c.toNat - 55)
  else none

/-- The value of the hexadecimal digits the characters start with, after the
value `acc` of the digits already read: the reading stops at the first
character that is not a digit. -/
def hexPrefixVal : List Char → Nat → Nat
  | [], acc => acc
  | c :: rest, acc =>
    match hexDigit c with
    | some d => hexPrefixVal rest (16 * acc + d)
    | none => acc

/-- What `hexStrtoInt` (`x << hex << hexVal; x >> h`) returns for a string that
starts neither with white space nor with a sign nor with the prefix `0x`: the
extraction reads the hexadecimal digits the string starts with and stops at
the first other character; the value is `0` when there is no digit, and the
largest `int` when the digits do not fit in an `int`. -/
def hexDigitsVal (s : String) : Int :=
  if hexPrefixVal s.data 0 ≤ 2147483647 then (hexPrefixVal s.data 0 : Int) else 2147483647

/-- The glyph name of a line of the reference file: its second field. -/
def lineName (line : String) : String :=
  String.mk ((splitFields ' ' line.data).getD 1 [])

/-- The entries of the reference data are ordered by code point. -/
def refSorted (ref : RefTable) : Prop :=
  List.Pairwise (fun a b => a.1 < b.1) ref

/-- The collision loop `dupLoop` with what it went through: the name, the
sequence number `seq` at the end of the loop, and whether the loop ended through
the half-form override (`processHalfForms` returned `SUCCESS`). -/
def dupLoopTrace (vFontChar : List FontChar) (i : Nat) (curName base : String) :
    Nat → Nat → String → Option (String × Nat × Bool)
  | 0, _, _ => none
  | fuel + 1, seq, newName =>
    if checkDups vFontChar i newName = FAIL then
      let r := processHalfForms curName newName ""
      if r.1 = SUCCESS then some (r.2, seq, true)
      else dupLoopTrace vFontChar i curName base fuel (seq + 1) (base ++ toString (seq + 1))
    else some (newName, seq, false)

/-- A composite glyph `x` whose components all have names. -/
def resolvedRec : FontChar :=
  { unicodeVal := -1, curName := "x", newName := "",
    ligatureList := [⟨"akhn", ["k", "s"]⟩] }

/-- A state in which the composite `resolvedRec` has the name `old` in the rename
map. -/
def resolvedState : State :=
  { vFontChar :=
      [ resolvedRec,
        { unicodeVal := 3349, curName := "k", newName := "", ligatureList := [] },
        { unicodeVal := 3384, curName := "s", newName := "", ligatureList := [] } ]
    nameMap := [("k", ""), ("s", ""), ("x", "old")]
    Virama := ""
    Zwj := ""
    renCount := 0 }

/-- The keys of the rename map are in strictly increasing order, as the keys of
a `std::map` are. -/
def keysSorted (m : NameMap) : Prop :=
  List.Pairwise (fun a b => a.1.data < b.1.data) m

/-- The rename map after the base character stage of a pass. -/
def seededMap (vRefData : RefTable) (s : State) : NameMap :=
  (seedLoop vRefData s.vFontChar s.nameMap).2

/-- The key of the last entry of the map with the value `val`, `d` when there
is none. -/
def lastKey (val : String) : NameMap → String → String
  | [], d => d
  | (k, v) :: rest, d => lastKey val rest (if v = val then k else d)

/-- A base glyph, the virama glyph `xx`, the joiner glyph `zw` and a composite
made of the three. -/
def markerGlyphs : List FontChar :=
  [ { unicodeVal := 3349, curName := "k", newName := "", ligatureList := [] },
    { unicodeVal := 3405, curName := "xx", newName := "", ligatureList := [] },
    { unicodeVal := 8205, curName := "zw", newName := "", ligatureList := [] },
    { unicodeVal := -1, curName := "c", newName := "",
      ligatureList := [⟨"akhn", ["k", "xx", "zw"]⟩] } ]

/-- The reference table for `markerGlyphs`. -/
def markerRef : RefTable := [(3349, "ka"), (3405, "VIRAMA"), (8205, "ZWJ")]

/-- The value the base character stage leaves in the rename map for the key
`key`, whose value before the stage is `d`: the reference name of the last
glyph with a code point whose current name is `key`, and `d` when there is
none. -/
def seedVal (vRefData : RefTable) : List FontChar → String → String → String
  | [], d, _ => d
  | fc :: rest, d, key =>
    seedVal vRefData rest
      (if fc.unicodeVal ≠ -1 ∧ fc.curName = key then refName vRefData fc.unicodeVal else d) key

/-- Two scan states of the ligature stage hold the same data: the fields the
loop over the ligatures reads agree, and the rename maps give the same value
for every key. -/
def scanEq (a b : Scan) : Prop :=
  a.maxCount = b.maxCount ∧ a.renFlag = b.renFlag ∧ a.akhnFlag = b.akhnFlag ∧
    a.nameComps = b.nameComps ∧ a.akhnComps = b.akhnComps ∧ a.maxComps = b.maxComps ∧
    ∀ key, mapGet a.nameMap key = mapGet b.nameMap key

/-- The state the first pass over the glyphs `A` and `B` of `cycleGlyphs` leaves. -/
def cycleState : State :=
  { vFontChar := cycleGlyphs "A" "B" "liga" "liga"
    nameMap := [("A", ""), ("B", "")]
    Virama := ""
    Zwj := ""
    renCount := 0 }

/-- The glyph at position `i` of the state makes the ligature stage return
`FAIL`: it has a ligature, its current name is `InvalidObject`, and the rename
map has no name for it. -/
def failsAt (s : State) (i : Nat) : Prop :=
  ∃ fc, s.vFontChar[i]? = some fc ∧ fc.ligatureList ≠ [] ∧
    fc.curName = "InvalidObject" ∧ mapGet s.nameMap "InvalidObject" = ""

/-- A glyph named `InvalidObject` that has a ligature, next to a base glyph. -/
def invalidGlyphs : List FontChar :=
  [ { unicodeVal := 3349, curName := "k", newName := "", ligatureList := [] },
    { unicodeVal := -1, curName := "InvalidObject", newName := "",
      ligatureList := [⟨"liga", ["k", "k"]⟩] } ]

/-- A ligature line whose quoted subtable name ends with the text of its glyph
list, ` k1`. -/
def nameInQuotesLine : String := "Ligature2: \"x k1\" k1"

/-- The name that stands for the name `t` of a glyph list after the rewriting
with the rename map: its new name when `t` has one, and `t` otherwise. -/
def newTok (nameMap : NameMap) (t : String) : String :=
  if t ≠ "" ∧ mapGet nameMap t ≠ "" then mapGet nameMap t else t

/-- The ligature line made of the characters `X`, a double quote, and the glyph
list of the names `ts`, each after one space. -/
def ligLine (X : List Char) (ts : List String) : String :=
  String.mk (X ++ '"' :: fragChars ts)

/-- The base glyph `uni0D15` and a composite glyph `c` whose ligature holds it
twice. -/
def twiceGlyphs : List FontChar :=
  [ { unicodeVal := 3349, curName := "uni0D15", newName := "", ligatureList := [] },
    { unicodeVal := -1, curName := "c", newName := "",
      ligatureList := [⟨"akhn", ["uni0D15", "uni0D15"]⟩] } ]

/-- The rename map the passes over `twiceGlyphs` end with. -/
def twiceMap : NameMap := [("c", "k1k1"), ("uni0D15", "k1")]

/-- The characters of a ligature line up to its second double quote. -/
def akhnPrefix : List Char := "Ligature2: \"'akhn' sub".data

/-! ## Concrete glyph sets used as inputs -/

/-- A base glyph `k` and a glyph `a` that has a code point absent from the
reference table and one ligature made of `k`. -/
def loopGlyphs : List FontChar :=
  [ { unicodeVal := 3333, curName := "a", newName := "", ligatureList := [⟨"liga", ["k"]⟩] },
    { unicodeVal := 3349, curName := "k", newName := "", ligatureList := [] } ]

/-- The reference table for `loopGlyphs`: only the code point of `k`. -/
def loopRef : RefTable := [(3349, "ka")]

/-- The state every pass over `loopGlyphs` returns. -/
def loopState : State :=
  { vFontChar :=
      [ { unicodeVal := 3333, curName := "a", newName := "ka_1", ligatureList := [⟨"liga", ["k"]⟩] },
        { unicodeVal := 3349, curName := "k", newName := "ka", ligatureList := [] } ]
    nameMap := [("a", "ka_1"), ("k", "ka")]
    Virama := ""
    Zwj := ""
    renCount := 1 }

/-- A composite glyph `a` whose only component is the virama glyph `x`, so that
the name built for it is empty. -/
def emptyNameGlyphs : List FontChar :=
  [ { unicodeVal := -1, curName := "a", newName := "", ligatureList := [⟨"liga", ["x"]⟩] },
    { unicodeVal := 3405, curName := "x", newName := "", ligatureList := [] } ]

/-- The reference table for `emptyNameGlyphs`. -/
def emptyNameRef : RefTable := [(3405, "VIRAMA")]

/-- The state every pass over `emptyNameGlyphs` returns. -/
def emptyNameState : State :=
  { vFontChar :=
      [ { unicodeVal := -1, curName := "a", newName := "", ligatureList := [⟨"liga", ["x"]⟩] },
        { unicodeVal := 3405, curName := "x", newName := "VIRAMA", ligatureList := [] } ]
    nameMap := [("a", ""), ("x", "VIRAMA")]
    Virama := "x"
    Zwj := ""
    renCount := 1 }

/-- Three base glyphs `m`, `n`, `q`, two composites `c` and `d`, and a glyph `i`
with a code point absent from the reference table and one ligature. -/
def retractGlyphs : List FontChar :=
  [ { unicodeVal := -1, curName := "c", newName := "", ligatureList := [⟨"liga", ["d", "q"]⟩] },
    { unicodeVal := 3333, curName := "i", newName := "",
      ligatureList := [⟨"liga", ["m", "n", "q"]⟩] },
    { unicodeVal := -1, curName := "d", newName := "", ligatureList := [⟨"liga", ["m", "n"]⟩] },
    { unicodeVal := 3349, curName := "m", newName := "", ligatureList := [] },
    { unicodeVal := 3350, curName := "n", newName := "", ligatureList := [] },
    { unicodeVal := 3351, curName := "q", newName := "", ligatureList := [] } ]

/-- The reference table for `retractGlyphs`. -/
def retractRef : RefTable := [(3349, "a"), (3350, "b"), (3351, "y")]

/-- A composite glyph `x` whose first ligature is tagged akhn and whose second,
longer ligature is not, over three base glyphs. -/
def akhnFirstGlyphs : List FontChar :=
  [ { unicodeVal := -1, curName := "x", newName := "",
      ligatureList := [⟨"akhn", ["k", "s"]⟩, ⟨"liga", ["s", "k", "t"]⟩] },
    { unicodeVal := 3349, curName := "k", newName := "", ligatureList := [] },
    { unicodeVal := 3384, curName := "s", newName := "", ligatureList := [] },
    { unicodeVal := 3364, curName := "t", newName := "", ligatureList := [] } ]

/-- The reference table for `akhnFirstGlyphs`. -/
def akhnFirstRef : RefTable := [(3349, "k1"), (3384, "s1"), (3364, "t1")]

/-! ## Theorems -/

/-! ### The rename map -/

theorem mapGet_mapSet (m : NameMap) (k v key : String) :
    mapGet (mapSet m k v) key = if k = key then v else mapGet m key := by
  induction m with
  | nil => simp [mapSet, mapGet]
  | cons p rest ih =>
    obtain ⟨a, b⟩ := p
    by_cases h1 : a = k
    · subst h1; by_cases h3 : a = key <;> simp [mapSet, mapGet, h3]
    · by_cases h2 : k.data < a.data
      · simp [mapSet, mapGet, h1, h2]
      · by_cases h3 : a = key
        · subst h3
          have : ¬ k = a := fun e => h1 e.symm
          simp [mapSet, mapGet, h1, h2, this]
        · simp [mapSet, mapGet, h1, h2, h3, ih]

theorem mapGet_of_not_mapHas (m : NameMap) (k : String) (h : mapHas m k = false) :
    mapGet m k = "" := by
  induction m with
  | nil => rfl
  | cons p rest ih =>
    obtain ⟨a, b⟩ := p
    by_cases h1 : a = k
    · simp [mapHas, h1] at h
    · simp [mapHas, h1] at h
      simp [mapGet, h1, ih h]

theorem mapGet_mapTouch (m : NameMap) (k key : String) :
    mapGet (mapTouch m k) key = mapGet m key := by
  unfold mapTouch
  by_cases h : mapHas m k = true
  · simp [h]
  · have h2 : mapHas m k = false := by simpa using h
    by_cases h3 : k = key
    · subst h3; simp [h2, mapGet_mapSet, mapGet_of_not_mapHas m k h2]
    · simp [h2, mapGet_mapSet, h3]

theorem length_ne_zero_iff (x : String) : x.length ≠ 0 ↔ x ≠ "" := by
  rw [Ne, Ne, String.length, List.length_eq_zero]
  constructor
  · intro h e; exact h (by rw [e])
  · intro h e; exact h (String.ext e)

/-! ### Claims -/

/-- C3 (the code diverges from the claim): on the glyph set `loopGlyphs`, whose
glyph `a` has a code point that is absent from the reference table and carries
a ligature form, the first pass returns `loopState` with one rename, every
further pass returns `loopState` again with one rename, and the pass loop of
`main` is still running after any number of passes. The same happens on
`emptyNameGlyphs`, whose composite glyph gets an empty built name. -/
theorem C3_mainLoop_never_stops :
    renameGlyphs "VIRAMA" loopRef (initState loopGlyphs) = some (SUCCESS, loopState) ∧
    renameGlyphs "VIRAMA" loopRef loopState = some (SUCCESS, loopState) ∧
    loopState.renCount = 1 ∧
    (∀ passes, mainLoop "VIRAMA" loopRef passes (initState loopGlyphs) = none) ∧
    renameGlyphs "VIRAMA" emptyNameRef (initState emptyNameGlyphs)
      = some (SUCCESS, emptyNameState) ∧
    renameGlyphs "VIRAMA" emptyNameRef emptyNameState = some (SUCCESS, emptyNameState) ∧
    emptyNameState.renCount = 1 ∧
    (∀ passes, mainLoop "VIRAMA" emptyNameRef passes (initState emptyNameGlyphs) = none) := by
  have a1 : renameGlyphs "VIRAMA" loopRef (initState loopGlyphs) = some (SUCCESS, loopState) := by
    decide
  have a2 : renameGlyphs "VIRAMA" loopRef loopState = some (SUCCESS, loopState) := by decide
  have a3 : ∀ n, mainLoop "VIRAMA" loopRef n loopState = none := by
    intro n
    induction n with
    | zero => rfl
    | succ k ih =>
      have h : loopState.renCount ≠ 0 := by decide
      simp only [mainLoop, a2]
      simp [SUCCESS, h, ih]
  have b1 : renameGlyphs "VIRAMA" emptyNameRef (initState emptyNameGlyphs)
      = some (SUCCESS, emptyNameState) := by decide
  have b2 : renameGlyphs "VIRAMA" emptyNameRef emptyNameState
      = some (SUCCESS, emptyNameState) := by decide
  have b3 : ∀ n, mainLoop "VIRAMA" emptyNameRef n emptyNameState = none := by
    intro n
    induction n with
    | zero => rfl
    | succ k ih =>
      have h : emptyNameState.renCount ≠ 0 := by decide
      simp only [mainLoop, b2]
      simp [SUCCESS, h, ih]
  refine ⟨a1, a2, by decide, ?_, b1, b2, by decide, ?_⟩
  · intro n
    cases n with
    | zero => rfl
    | succ k =>
      have h : loopState.renCount ≠ 0 := by decide
      simp only [mainLoop, a1]
      simp [SUCCESS, h, a3]
  · intro n
    cases n with
    | zero => rfl
    | succ k =>
      have h : emptyNameState.renCount ≠ 0 := by decide
      simp only [mainLoop, b1]
      simp [SUCCESS, h, b3]

/-- C4 (the code diverges from the claim): on the glyph set `retractGlyphs` the
rename map maps `i` to the non-empty name `aby` after the first pass and to
`aby_1` after the second pass, and the glyph `i` carries the same two names:
the second call of `renameGlyphs` changed a non-empty registry value and a
non-empty new name. -/
theorem C4_second_pass_changes_name :
    (passN "VIRAMA" retractRef 1 (initState retractGlyphs)).map
        (fun s => (mapGet s.nameMap "i", s.vFontChar.map (fun fc => fc.newName)))
      = some ("aby", ["", "aby", "ab", "a", "b", "y"]) ∧
    (passN "VIRAMA" retractRef 2 (initState retractGlyphs)).map
        (fun s => (mapGet s.nameMap "i", s.vFontChar.map (fun fc => fc.newName)))
      = some ("aby_1", ["aby", "aby_1", "ab", "a", "b", "y"]) := by
  decide

/-- C5 (the code diverges from the claim): for the glyph `x` of
`akhnFirstGlyphs`, whose two forms are fully resolved and whose first form is
tagged akhn, the scan ends with the akhn flag cleared by the second form, the
components chosen are those of the longer second form, and the pass names the
glyph `s1k1t1` from them, not `k1s1` from the akhn form. -/
theorem C5_akhn_first_not_used :
    selectComps 2 (formLoop "x" [⟨"akhn", ["k", "s"]⟩, ⟨"liga", ["s", "k", "t"]⟩]
        (scanInit [("k", "k1"), ("s", "s1"), ("t", "t1")])).2 = some ["s", "k", "t"] ∧
    (renameGlyphs "VIRAMA" akhnFirstRef (initState akhnFirstGlyphs)).map
        (fun r => (r.1, r.2.vFontChar.map (fun fc => fc.newName)))
      = some (SUCCESS, ["s1k1t1", "k1", "s1", "t1"]) := by
  decide

/-- C9 (the code diverges from the claim): with an empty current name and the
candidate `zz`, which is not a key of the override table, `processHalfForms`
returns `SUCCESS` and sets `hName` to the (empty) current name. -/
theorem C9_processHalfForms_empty_curName :
    mapHas specials "zz" = false ∧
    processHalfForms "" "zz" "h" = (SUCCESS, "") := by
  decide

/-- For a current name that is not empty, `processHalfForms` succeeds exactly
when the table has the candidate as a key and maps it to the current name. -/
theorem processHalfForms_of_nonempty (curName newName hName : String) (h : curName ≠ "") :
    processHalfForms curName newName hName
      = (if mapHas specials newName = true ∧ mapGet specials newName = curName
          then (SUCCESS, curName) else (FAIL, hName)) := by
  unfold processHalfForms
  by_cases hs : mapGet specials newName = curName
  · have hh : mapHas specials newName = true := by
      by_contra hn
      have := mapGet_of_not_mapHas specials newName (by simpa using hn)
      rw [this] at hs
      exact h hs.symm
    simp [hs, hh]
  · simp [hs]

/-! ### The scan of the ligatures of a glyph -/

theorem glyphLoop_spec (gs : List String) : ∀ (sc : Scan) (n : Nat),
    (glyphLoop gs sc n).2 = n + resolvedCount sc.nameMap gs ∧
    (∀ key, mapGet (glyphLoop gs sc n).1.nameMap key = mapGet sc.nameMap key) ∧
    (glyphLoop gs sc n).1.renFlag = sc.renFlag ∧
    (glyphLoop gs sc n).1.maxCount = sc.maxCount ∧
    (glyphLoop gs sc n).1.copyToMax = sc.copyToMax ∧
    (glyphLoop gs sc n).1.akhnFlag = sc.akhnFlag ∧
    (glyphLoop gs sc n).1.nameComps = sc.nameComps ++ gs ∧
    (glyphLoop gs sc n).1.maxComps
      = (if sc.copyToMax ≠ 0 then sc.maxComps ++ gs else sc.maxComps) ∧
    (glyphLoop gs sc n).1.akhnComps
      = (if sc.akhnFlag ≠ 0 then sc.akhnComps ++ gs else sc.akhnComps) := by
  induction gs with
  | nil => intro sc n; simp [glyphLoop, resolvedCount]
  | cons g rest ih =>
    intro sc n
    by_cases h1 : sc.copyToMax = 0 <;> by_cases h2 : sc.akhnFlag = 0 <;>
      by_cases h3 : mapGet sc.nameMap g = "" <;>
      simp only [glyphLoop] <;>
      simp [h1, h2, h3, ih, mapGet_mapTouch, resolvedCount, length_ne_zero_iff] <;> omega

theorem resolvedCount_eq_iff (nameMap : NameMap) (gs : List String) :
    resolvedCount nameMap gs = gs.length ↔ ∀ g ∈ gs, mapGet nameMap g ≠ "" := by
  unfold resolvedCount
  induction gs with
  | nil => simp
  | cons g rest ih =>
    have hle : ∀ p : String → Bool, (rest.filter p).length ≤ rest.length :=
      fun p => List.length_filter_le p rest
    by_cases h : mapGet nameMap g = ""
    · simp [List.filter_cons, h]
      have := hle (fun g => !decide (mapGet nameMap g = ""))
      omega
    · simp [List.filter_cons, h]

theorem formBody_spec (f : Ligature) (sc : Scan) :
    (∀ key, mapGet (formBody f sc).nameMap key = mapGet sc.nameMap key) ∧
    (formBody f sc).renFlag
      = (if resolvedCount sc.nameMap f.glyphNames = f.glyphNames.length then sc.renFlag + 1
          else sc.renFlag) ∧
    (formBody f sc).maxCount
      = (if f.glyphNames.length > sc.maxCount then f.glyphNames.length else sc.maxCount) ∧
    (formBody f sc).akhnFlag = (if "akhn" = f.form then 1 else 0) ∧
    (formBody f sc).nameComps = f.glyphNames ∧
    (formBody f sc).maxComps
      = (if f.glyphNames.length > sc.maxCount then f.glyphNames else sc.maxComps) ∧
    (formBody f sc).akhnComps = (if "akhn" = f.form then f.glyphNames else sc.akhnComps) := by
  by_cases h1 : f.glyphNames.length > sc.maxCount <;> by_cases h2 : "akhn" = f.form <;>
    by_cases h3 : resolvedCount sc.nameMap f.glyphNames = f.glyphNames.length <;>
    simp only [formBody] <;>
    simp [h1, h2, h3, glyphLoop_spec]

theorem formLoop_nameMap (curName : String) (forms : List Ligature) : ∀ (sc : Scan) (key : String),
    mapGet (formLoop curName forms sc).2.nameMap key = mapGet sc.nameMap key := by
  induction forms with
  | nil => intro sc key; rfl
  | cons f rest ih =>
    intro sc key
    by_cases h : curName = "InvalidObject"
    · simp [formLoop, h]
    · simp [formLoop, h, ih, (formBody_spec f sc).1]

theorem find_congr {α : Type} (p q : α → Bool) (l : List α) (h : ∀ x ∈ l, p x = q x) :
    l.find? p = l.find? q := by
  induction l with
  | nil => rfl
  | cons a rest ih =>
    have ha : p a = q a := h a (List.mem_cons_self a rest)
    have hr : rest.find? p = rest.find? q :=
      ih (fun x hx => h x (List.mem_cons_of_mem a hx))
    simp [List.find?_cons, ha, hr]

theorem exists_longest (l : List Ligature) (hl : l ≠ []) :
    ∃ x ∈ l, ∀ g ∈ l, g.glyphNames.length ≤ x.glyphNames.length := by
  induction l with
  | nil => exact absurd rfl hl
  | cons a rest ih =>
    by_cases hr : rest = []
    · subst hr
      exact ⟨a, List.mem_cons_self a [], by simp⟩
    · obtain ⟨x, hx, hmax⟩ := ih hr
      by_cases hc : x.glyphNames.length ≤ a.glyphNames.length
      · refine ⟨a, List.mem_cons_self a rest, ?_⟩
        intro g hg
        rcases List.mem_cons.1 hg with e | e
        · rw [e]
        · have := hmax g e
          omega
      · refine ⟨x, List.mem_cons_of_mem a hx, ?_⟩
        intro g hg
        rcases List.mem_cons.1 hg with e | e
        · rw [e]; omega
        · exact hmax g e

theorem pickMax_eq (fs : List Ligature) : ∀ (m : Nat) (c : List String),
    pickMax m c fs =
      match fs.find? (fun f => decide (m < f.glyphNames.length ∧
          ∀ g ∈ fs, g.glyphNames.length ≤ f.glyphNames.length)) with
      | some f => f.glyphNames
      | none => c := by
  induction fs with
  | nil => intro m c; simp [pickMax]
  | cons f rest ih =>
    intro m c
    by_cases h : f.glyphNames.length > m
    · simp only [pickMax, if_pos h]
      rw [ih]
      by_cases hmax : ∀ g ∈ rest, g.glyphNames.length ≤ f.glyphNames.length
      · have h1 : rest.find? (fun x => decide (f.glyphNames.length < x.glyphNames.length ∧
            ∀ g ∈ rest, g.glyphNames.length ≤ x.glyphNames.length)) = none := by
          rw [List.find?_eq_none]
          intro x hx
          have := hmax x hx
          simp
          intro hlt
          omega
        have h2 : (f :: rest).find? (fun x => decide (m < x.glyphNames.length ∧
            ∀ g ∈ f :: rest, g.glyphNames.length ≤ x.glyphNames.length)) = some f := by
          rw [List.find?_cons]
          have : decide (m < f.glyphNames.length ∧
              ∀ g ∈ f :: rest, g.glyphNames.length ≤ f.glyphNames.length) = true := by
            simp
            exact ⟨h, hmax⟩
          rw [this]
        rw [h1, h2]
      · have h2 : (f :: rest).find? (fun x => decide (m < x.glyphNames.length ∧
            ∀ g ∈ f :: rest, g.glyphNames.length ≤ x.glyphNames.length))
            = rest.find? (fun x => decide (m < x.glyphNames.length ∧
            ∀ g ∈ f :: rest, g.glyphNames.length ≤ x.glyphNames.length)) := by
          rw [List.find?_cons]
          have : decide (m < f.glyphNames.length ∧
            ∀ g ∈ f :: rest, g.glyphNames.length ≤ f.glyphNames.length) = false := by
            simp
            intro _
            push_neg at hmax
            obtain ⟨g, hg, hlt⟩ := hmax
            exact ⟨g, hg, hlt⟩
          rw [this]
        push_neg at hmax
        obtain ⟨g, hg, hlt⟩ := hmax
        have e : rest.find? (fun x => decide (f.glyphNames.length < x.glyphNames.length ∧
            ∀ g ∈ rest, g.glyphNames.length ≤ x.glyphNames.length))
            = rest.find? (fun x => decide (m < x.glyphNames.length ∧
            ∀ g ∈ f :: rest, g.glyphNames.length ≤ x.glyphNames.length)) := by
          apply find_congr
          intro x hx
          simp only [List.mem_cons, forall_eq_or_imp, decide_eq_decide]
          constructor
          · rintro ⟨a, b⟩
            exact ⟨by omega, by omega, b⟩
          · rintro ⟨a, b, d⟩
            have := d g hg
            exact ⟨by omega, d⟩
        rw [h2, ← e]
        cases hq : rest.find? (fun x => decide (f.glyphNames.length < x.glyphNames.length ∧
            ∀ g ∈ rest, g.glyphNames.length ≤ x.glyphNames.length)) with
        | some y => rfl
        | none =>
          exfalso
          rw [List.find?_eq_none] at hq
          have hne : rest ≠ [] := List.ne_nil_of_mem hg
          obtain ⟨x, hx, hxmax⟩ := exists_longest rest hne
          have := hq x hx
          simp at this
          have h3 := hxmax g hg
          obtain ⟨y, hy, hlt2⟩ := this (by omega)
          have h4 := hxmax y hy
          omega
    · simp only [pickMax, if_neg h]
      rw [ih]
      have h2 : (f :: rest).find? (fun x => decide (m < x.glyphNames.length ∧
          ∀ g ∈ f :: rest, g.glyphNames.length ≤ x.glyphNames.length))
          = rest.find? (fun x => decide (m < x.glyphNames.length ∧
          ∀ g ∈ f :: rest, g.glyphNames.length ≤ x.glyphNames.length)) := by
        rw [List.find?_cons]
        have : decide (m < f.glyphNames.length ∧
          ∀ g ∈ f :: rest, g.glyphNames.length ≤ f.glyphNames.length) = false := by
          simp
          intro hh
          omega
        rw [this]
      have e : rest.find? (fun x => decide (m < x.glyphNames.length ∧
          ∀ g ∈ rest, g.glyphNames.length ≤ x.glyphNames.length))
          = rest.find? (fun x => decide (m < x.glyphNames.length ∧
          ∀ g ∈ f :: rest, g.glyphNames.length ≤ x.glyphNames.length)) := by
        apply find_congr
        intro x hx
        simp only [List.mem_cons, forall_eq_or_imp, decide_eq_decide]
        constructor
        · rintro ⟨a, b⟩
          exact ⟨a, by omega, b⟩
        · rintro ⟨a, _, d⟩
          exact ⟨a, d⟩
      rw [h2, e]

theorem pickMax_zero_eq_firstLongest (fs : List Ligature) :
    pickMax 0 [] fs = firstLongest fs := by
  rw [pickMax_eq]
  unfold firstLongest
  cases hq : fs.find? (fun f => decide (∀ g ∈ fs, g.glyphNames.length ≤ f.glyphNames.length)) with
  | none =>
    have hnone : fs.find? (fun f => decide (0 < f.glyphNames.length ∧
        ∀ g ∈ fs, g.glyphNames.length ≤ f.glyphNames.length)) = none := by
      rw [List.find?_eq_none] at hq ⊢
      intro x hx
      have := hq x hx
      simp at this ⊢
      intro _
      exact this
    rw [hnone]
  | some f =>
    by_cases hz : f.glyphNames.length = 0
    · have hall : ∀ g ∈ fs, g.glyphNames.length ≤ 0 := by
        have := List.find?_some hq
        simp at this
        intro g hg
        have := this g hg
        omega
      have hnone : fs.find? (fun f => decide (0 < f.glyphNames.length ∧
          ∀ g ∈ fs, g.glyphNames.length ≤ f.glyphNames.length)) = none := by
        rw [List.find?_eq_none]
        intro x hx
        have := hall x hx
        simp
        intro hlt
        omega
      rw [hnone]
      simp
      exact List.length_eq_zero.1 hz
    · have hsame : fs.find? (fun f => decide (0 < f.glyphNames.length ∧
          ∀ g ∈ fs, g.glyphNames.length ≤ f.glyphNames.length))
          = fs.find? (fun f => decide (∀ g ∈ fs, g.glyphNames.length ≤ f.glyphNames.length)) := by
        apply find_congr
        intro x hx
        simp only [decide_eq_decide]
        constructor
        · rintro ⟨_, b⟩; exact b
        · intro b
          refine ⟨?_, b⟩
          have hf : f ∈ fs := List.mem_of_find?_eq_some hq
          have := b f hf
          omega
      rw [hsame, hq]

theorem formLoop_resolved (curName : String) (hc : curName ≠ "InvalidObject")
    (forms : List Ligature) : ∀ (sc : Scan),
    (∀ f ∈ forms, f.form ≠ "akhn") →
    (∀ f ∈ forms, ∀ g ∈ f.glyphNames, mapGet sc.nameMap g ≠ "") →
    (formLoop curName forms sc).1 = SUCCESS ∧
    (formLoop curName forms sc).2.renFlag = sc.renFlag + forms.length ∧
    (formLoop curName forms sc).2.maxComps = pickMax sc.maxCount sc.maxComps forms ∧
    (forms ≠ [] → (formLoop curName forms sc).2.akhnFlag = 0) ∧
    (∀ f, forms.getLast? = some f → (formLoop curName forms sc).2.nameComps = f.glyphNames) := by
  induction forms with
  | nil => intro sc _ _; simp [formLoop, pickMax]
  | cons f rest ih =>
    intro sc hak hres
    obtain ⟨b1, b2, b3, b4, b5, b6, _⟩ := formBody_spec f sc
    have hf : resolvedCount sc.nameMap f.glyphNames = f.glyphNames.length :=
      (resolvedCount_eq_iff _ _).2 (hres f (List.mem_cons_self f rest))
    have hfa : ¬ "akhn" = f.form := fun e => hak f (List.mem_cons_self f rest) e.symm
    rw [if_pos hf] at b2
    rw [if_neg hfa] at b4
    have hak2 : ∀ x ∈ rest, x.form ≠ "akhn" := fun x hx => hak x (List.mem_cons_of_mem f hx)
    have hres2 : ∀ x ∈ rest, ∀ g ∈ x.glyphNames, mapGet (formBody f sc).nameMap g ≠ "" := by
      intro x hx g hg
      rw [b1]
      exact hres x (List.mem_cons_of_mem f hx) g hg
    obtain ⟨i1, i2, i3, i4, i5⟩ := ih (formBody f sc) hak2 hres2
    have hstep : formLoop curName (f :: rest) sc = formLoop curName rest (formBody f sc) := by
      simp [formLoop, hc]
    rw [hstep]
    refine ⟨i1, ?_, ?_, ?_, ?_⟩
    · rw [i2, b2, List.length_cons]; omega
    · rw [i3, b3, b6]
      by_cases hgt : f.glyphNames.length > sc.maxCount
      · simp [pickMax, hgt]
      · simp [pickMax, hgt]
    · intro _
      by_cases hr : rest = []
      · subst hr; simp [formLoop, b4]
      · exact i4 hr
    · intro x hx
      by_cases hr : rest = []
      · subst hr
        simp at hx
        subst hx
        simp [formLoop, b5]
      · obtain ⟨b, t, hbt⟩ := List.exists_cons_of_ne_nil hr
        rw [hbt, List.getLast?_cons_cons, ← hbt] at hx
        exact i5 x hx

/-- C6: for a glyph whose current name is not `InvalidObject` and whose ligature
forms (at least one) are all fully resolved in the rename map and none of which
is tagged akhn, the scan of the forms does not fail and the component list
chosen to build the name is that of the first form in source order whose
component count is maximal (`firstLongest`), which for a single form is that
form. -/
theorem C6_longest_first_seen_wins (curName : String) (forms : List Ligature)
    (nameMap : NameMap) (hc : curName ≠ "InvalidObject") (hne : forms ≠ [])
    (hak : ∀ f ∈ forms, f.form ≠ "akhn")
    (hres : ∀ f ∈ forms, ∀ g ∈ f.glyphNames, mapGet nameMap g ≠ "") :
    (formLoop curName forms (scanInit nameMap)).1 = SUCCESS ∧
    selectComps forms.length (formLoop curName forms (scanInit nameMap)).2
      = some (firstLongest forms) ∧
    (∀ f, forms = [f] → firstLongest forms = f.glyphNames) := by
  obtain ⟨r1, r2, r3, r4, r5⟩ := formLoop_resolved curName hc forms (scanInit nameMap) hak hres
  refine ⟨r1, ?_, ?_⟩
  · have hren : (formLoop curName forms (scanInit nameMap)).2.renFlag = forms.length := by
      rw [r2]; simp [scanInit]
    have hmax : (formLoop curName forms (scanInit nameMap)).2.maxComps = firstLongest forms := by
      rw [r3]; simp only [scanInit]; exact pickMax_zero_eq_firstLongest forms
    by_cases h1 : forms.length = 1
    · obtain ⟨f, hf⟩ := List.length_eq_one.1 h1
      have hlast : forms.getLast? = some f := by rw [hf]; rfl
      have hn := r5 f hlast
      have hfl : firstLongest forms = f.glyphNames := by
        rw [hf]; simp [firstLongest]
      simp [selectComps, h1, hren, hn, hfl]
    · simp [selectComps, h1, hren, r4 hne, hmax]
  · intro f hf
    rw [hf]; simp [firstLongest]

/-- Witness of C6: the forms `tieForms`, whose first two forms tie for the
maximal count; the first one is chosen. -/
theorem C6_longest_first_seen_wins_witness :
    ("x" ≠ "InvalidObject" ∧ tieForms ≠ [] ∧ (∀ f ∈ tieForms, f.form ≠ "akhn") ∧
      (∀ f ∈ tieForms, ∀ g ∈ f.glyphNames, mapGet tieMap g ≠ "")) ∧
    ((formLoop "x" tieForms (scanInit tieMap)).1 = SUCCESS ∧
      selectComps tieForms.length (formLoop "x" tieForms (scanInit tieMap)).2
        = some (firstLongest tieForms) ∧
      (∀ f, tieForms = [f] → firstLongest tieForms = f.glyphNames)) ∧
    firstLongest tieForms = ["k", "s"] :=
  ⟨⟨by decide, by decide, by decide, by decide⟩,
    C6_longest_first_seen_wins "x" tieForms tieMap (by decide) (by decide) (by decide)
      (by decide),
    by decide⟩

theorem formLoop_renFlag_le (curName : String) (forms : List Ligature) : ∀ (sc : Scan),
    (formLoop curName forms sc).2.renFlag ≤ sc.renFlag + forms.length := by
  induction forms with
  | nil => intro sc; simp [formLoop]
  | cons f rest ih =>
    intro sc
    by_cases h : curName = "InvalidObject"
    · simp [formLoop, h]
    · have hb := (formBody_spec f sc).2.1
      have := ih (formBody f sc)
      simp only [formLoop, if_neg h, List.length_cons]
      split at hb <;> omega

theorem formLoop_unresolved (curName : String) (hc : curName ≠ "InvalidObject")
    (forms : List Ligature) : ∀ (sc : Scan),
    (∃ f ∈ forms, ∃ g ∈ f.glyphNames, mapGet sc.nameMap g = "") →
    (formLoop curName forms sc).2.renFlag < sc.renFlag + forms.length := by
  induction forms with
  | nil => intro sc h; simp at h
  | cons f rest ih =>
    intro sc hun
    obtain ⟨b1, b2, _⟩ := formBody_spec f sc
    simp only [formLoop, if_neg hc, List.length_cons]
    by_cases hf : resolvedCount sc.nameMap f.glyphNames = f.glyphNames.length
    · rw [if_pos hf] at b2
      have hall := (resolvedCount_eq_iff _ _).1 hf
      obtain ⟨x, hx, g, hg, hempty⟩ := hun
      rcases List.mem_cons.1 hx with e | e
      · subst e
        exact absurd hempty (hall g hg)
      · have := ih (formBody f sc) ⟨x, e, g, hg, by rw [b1]; exact hempty⟩
        omega
    · rw [if_neg hf] at b2
      have := formLoop_renFlag_le curName rest (formBody f sc)
      omega

/-- A glyph with a ligature form that has a component without a name in the
rename map is not renamed by the body of the ligature stage. -/
theorem ligStep_blocked (VIRAMA : String) (i : Nat) (s : State) (fc : FontChar)
    (hi : s.vFontChar[i]? = some fc)
    (hun : ∃ f ∈ fc.ligatureList, ∃ g ∈ f.glyphNames, mapGet s.nameMap g = "") :
    ∃ r, ligStep VIRAMA i s = some r ∧
      r.2.vFontChar = s.vFontChar ∧
      r.2.renCount = s.renCount ∧
      (∀ key, mapGet r.2.nameMap key = mapGet s.nameMap key) ∧
      r.2.Virama = s.Virama ∧ r.2.Zwj = s.Zwj := by
  have hne : fc.ligatureList.length ≠ 0 := by
    obtain ⟨f, hf, _⟩ := hun
    exact fun h => by
      rw [List.length_eq_zero] at h
      rw [h] at hf
      simp at hf
  unfold ligStep
  simp only [hi, if_neg hne]
  by_cases hnew : (mapGet s.nameMap fc.curName).length > 0
  · simp only [if_pos hnew]
    exact ⟨_, rfl, rfl, rfl, fun key => mapGet_mapTouch _ _ _, rfl, rfl⟩
  · simp only [if_neg hnew]
    by_cases hfail : (formLoop fc.curName fc.ligatureList
        (scanInit (mapTouch s.nameMap fc.curName))).1 = FAIL
    · simp only [if_pos hfail]
      refine ⟨_, rfl, rfl, rfl, ?_, rfl, rfl⟩
      intro key
      simp only [formLoop_nameMap, scanInit, mapGet_mapTouch]
    · simp only [if_neg hfail]
      have hc : fc.curName ≠ "InvalidObject" := by
        intro hc
        apply hfail
        obtain ⟨f, rest, hfr⟩ := List.exists_cons_of_ne_nil
          (fun h => hne (by rw [h]; rfl) : fc.ligatureList ≠ [])
        rw [hfr]
        simp [formLoop, hc]
      have hlt := formLoop_unresolved fc.curName hc fc.ligatureList
        (scanInit (mapTouch s.nameMap fc.curName))
        (by
          obtain ⟨f, hf, g, hg, he⟩ := hun
          exact ⟨f, hf, g, hg, by simp only [scanInit, mapGet_mapTouch]; exact he⟩)
      have hsel : selectComps fc.ligatureList.length (formLoop fc.curName fc.ligatureList
          (scanInit (mapTouch s.nameMap fc.curName))).2 = none := by
        have h0 : (scanInit (mapTouch s.nameMap fc.curName)).renFlag = 0 := rfl
        rw [h0] at hlt
        have hne2 : (formLoop fc.curName fc.ligatureList
          (scanInit (mapTouch s.nameMap fc.curName))).2.renFlag ≠ fc.ligatureList.length := by
          omega
        simp [selectComps, hne2]
      simp only [hsel]
      refine ⟨_, rfl, rfl, rfl, ?_, rfl, rfl⟩
      intro key
      simp only [formLoop_nameMap, scanInit, mapGet_mapTouch]

/-- C7: when the glyph at index `i` has a ligature form with a component whose
entry in the rename map is empty or absent, the body of the ligature stage for
that glyph produces a result, leaves the glyph vector (hence the new name of the
glyph) unchanged, does not increment `renCount`, and leaves the value of every
key of the rename map (hence the entry of the glyph) unchanged, whatever the
other forms of the glyph and their tags are. -/
theorem C7_unresolved_form_blocks (VIRAMA : String) (i : Nat) (s : State) (fc : FontChar)
    (hi : s.vFontChar[i]? = some fc)
    (hun : ∃ f ∈ fc.ligatureList, ∃ g ∈ f.glyphNames, mapGet s.nameMap g = "") :
    ∃ r, ligStep VIRAMA i s = some r ∧
      r.2.vFontChar = s.vFontChar ∧
      r.2.renCount = s.renCount ∧
      (∀ key, mapGet r.2.nameMap key = mapGet s.nameMap key) ∧
      r.2.Virama = s.Virama ∧ r.2.Zwj = s.Zwj :=
  ligStep_blocked VIRAMA i s fc hi hun

/-- Witness of C7: in `blockedState` the glyph `x` has a fully resolved akhn
form and a longer form with the unresolved component `u`; it is not renamed. -/
theorem C7_unresolved_form_blocks_witness :
    (∃ fc, blockedState.vFontChar[0]? = some fc ∧
      ∃ f ∈ fc.ligatureList, ∃ g ∈ f.glyphNames, mapGet blockedState.nameMap g = "") ∧
    ∃ r, ligStep "VIRAMA" 0 blockedState = some r ∧
      r.2.vFontChar = blockedState.vFontChar ∧
      r.2.renCount = blockedState.renCount ∧
      (∀ key, mapGet r.2.nameMap key = mapGet blockedState.nameMap key) ∧
      r.2.Virama = blockedState.Virama ∧ r.2.Zwj = blockedState.Zwj :=
  ⟨⟨_, rfl, by decide⟩,
    C7_unresolved_form_blocks "VIRAMA" 0 blockedState _ rfl (by decide)⟩

/-! ### Decimal numerals -/

theorem digitChar_val : ∀ k, k < 10 → (Nat.digitChar k).toNat - 48 = k := by
  decide

theorem toDigitsCore_val : ∀ (fuel n : Nat) (ds : List Char), n < fuel →
    decVal (Nat.toDigitsCore 10 fuel n ds) = n * 10 ^ ds.length + decVal ds := by
  intro fuel
  induction fuel with
  | zero => intro n ds h; omega
  | succ k ih =>
    intro n ds h
    have hd : (Nat.digitChar (n % 10)).toNat - 48 = n % 10 :=
      digitChar_val (n % 10) (Nat.mod_lt n (by omega))
    by_cases hz : n / 10 = 0
    · have hn : n % 10 = n := Nat.mod_eq_of_lt (by omega)
      rw [hn] at hd
      simp [Nat.toDigitsCore, hz, decVal, hd, hn]
    · have hlt : n / 10 < k := by omega
      simp only [Nat.toDigitsCore, if_neg hz]
      rw [ih (n / 10) _ hlt]
      simp only [decVal, List.length_cons, hd, pow_succ]
      generalize 10 ^ ds.length = P
      have e : n * P = (n / 10) * (P * 10) + (n % 10) * P := by
        conv_lhs => rw [← Nat.div_add_mod n 10]
        ring
      rw [e]
      ring

theorem toString_nat_injective (a b : Nat) (h : toString a = toString b) : a = b := by
  have h1 : (Nat.toDigits 10 a) = (Nat.toDigits 10 b) := by
    have := congrArg String.data h
    simpa [toString, Nat.repr, List.asString] using this
  have h2 := congrArg decVal h1
  simp only [Nat.toDigits] at h2
  rw [toDigitsCore_val _ _ _ (Nat.lt_succ_self a), toDigitsCore_val _ _ _ (Nat.lt_succ_self b)] at h2
  simpa [decVal] using h2

theorem suffix_injective (base : String) (a b : Nat)
    (h : base ++ toString a = base ++ toString b) : a = b := by
  apply toString_nat_injective
  have := congrArg String.data h
  simp only [String.data_append] at this
  exact String.ext (List.append_cancel_left this)

/-! ### `checkDups`, `processHalfForms` and the collision loop -/

theorem checkDupsFrom_cases (idx : Nat) (n : String) (l : List FontChar) : ∀ st,
    checkDupsFrom idx n st l = SUCCESS ∨ checkDupsFrom idx n st l = FAIL := by
  induction l with
  | nil => intro st; exact Or.inl rfl
  | cons fc rest ih =>
    intro st
    simp only [checkDupsFrom]
    split
    · exact ih _
    · split
      · exact Or.inr rfl
      · split
        · exact Or.inr rfl
        · exact ih _

theorem checkDupsFrom_success_iff (idx : Nat) (n : String) (l : List FontChar) : ∀ st,
    checkDupsFrom idx n st l = SUCCESS ↔
      ∀ j fc, l[j]? = some fc → st + j ≠ idx → fc.curName ≠ n ∧ fc.newName ≠ n := by
  induction l with
  | nil => intro st; simp [checkDupsFrom]
  | cons a rest ih =>
    intro st
    have hshift : (∀ j fc, rest[j]? = some fc → st + 1 + j ≠ idx → fc.curName ≠ n ∧ fc.newName ≠ n)
        ↔ (∀ j fc, (a :: rest)[j + 1]? = some fc → st + (j + 1) ≠ idx →
            fc.curName ≠ n ∧ fc.newName ≠ n) := by
      constructor
      · intro h j fc hj hne
        exact h j fc (by simpa using hj) (by omega)
      · intro h j fc hj hne
        exact h j fc (by simpa using hj) (by omega)
    have hsplit : (∀ j fc, (a :: rest)[j]? = some fc → st + j ≠ idx →
          fc.curName ≠ n ∧ fc.newName ≠ n)
        ↔ ((st ≠ idx → a.curName ≠ n ∧ a.newName ≠ n) ∧
          (∀ j fc, (a :: rest)[j + 1]? = some fc → st + (j + 1) ≠ idx →
            fc.curName ≠ n ∧ fc.newName ≠ n)) := by
      constructor
      · intro h
        exact ⟨fun hne => h 0 a (by simp) (by simpa using hne), fun j fc hj hne => h (j + 1) fc hj hne⟩
      · rintro ⟨h0, hs⟩ j fc hj hne
        cases j with
        | zero =>
          simp at hj
          subst hj
          exact h0 (by simpa using hne)
        | succ k => exact hs k fc hj hne
    rw [hsplit, ← hshift, ← ih (st + 1)]
    simp only [checkDupsFrom]
    by_cases h1 : st = idx
    · simp [h1]
    · by_cases h2 : a.curName = n
      · simp [h1, h2, SUCCESS, FAIL]
      · by_cases h3 : a.newName = n
        · simp [h1, h2, h3, SUCCESS, FAIL]
        · simp [h1, h2, h3]

theorem checkDups_success_iff (v : List FontChar) (i : Nat) (n : String) :
    checkDups v i n = SUCCESS ↔
      ∀ j fc, v[j]? = some fc → j ≠ i → fc.curName ≠ n ∧ fc.newName ≠ n := by
  unfold checkDups
  rw [checkDupsFrom_success_iff]
  simp

theorem checkDups_cases (v : List FontChar) (i : Nat) (n : String) :
    checkDups v i n = SUCCESS ∨ checkDups v i n = FAIL :=
  checkDupsFrom_cases i n v 0

theorem checkDupsFrom_fail_mem (idx : Nat) (n : String) (l : List FontChar) : ∀ st,
    checkDupsFrom idx n st l = FAIL → n ∈ takenFrom idx st l := by
  induction l with
  | nil => intro st h; simp [checkDupsFrom, SUCCESS, FAIL] at h
  | cons a rest ih =>
    intro st h
    simp only [checkDupsFrom] at h
    simp only [takenFrom]
    by_cases h1 : st = idx
    · simp only [h1, if_true] at h ⊢
      exact ih _ h
    · simp only [if_neg h1] at h ⊢
      by_cases h2 : a.curName = n
      · simp [h2]
      · by_cases h3 : a.newName = n
        · simp [h3]
        · simp only [if_neg h2, if_neg h3] at h
          exact List.mem_cons_of_mem _ (List.mem_cons_of_mem _ (ih _ h))

theorem takenFrom_length (idx : Nat) (l : List FontChar) : ∀ st,
    (takenFrom idx st l).length ≤ 2 * l.length := by
  induction l with
  | nil => intro st; simp [takenFrom]
  | cons a rest ih =>
    intro st
    have := ih (st + 1)
    simp only [takenFrom]
    split <;> simp only [List.length_cons] <;> omega

theorem mapGet_of_forall_ne (m : NameMap) (key : String) (h : ∀ p ∈ m, p.1 ≠ key) :
    mapGet m key = "" := by
  induction m with
  | nil => rfl
  | cons p rest ih =>
    obtain ⟨a, b⟩ := p
    have h1 : a ≠ key := h (a, b) (List.mem_cons_self _ _)
    simp [mapGet, h1, ih (fun q hq => h q (List.mem_cons_of_mem _ hq))]

theorem specials_underscore (n : String) (h : '_' ∈ n.data) : mapGet specials n = "" := by
  apply mapGet_of_forall_ne
  intro p hp e
  have hk : ∀ q ∈ specials, '_' ∉ q.1.data := by decide
  exact hk p hp (e ▸ h)

theorem processHalfForms_suffixed (curName base hName : String) (k : Nat)
    (hcur : curName ≠ "") :
    (processHalfForms curName (base ++ "_" ++ toString k) hName).1 = FAIL := by
  have hmem : '_' ∈ (base ++ "_" ++ toString k).data := by
    simp [String.data_append]
  have := specials_underscore _ hmem
  have hne : ¬ ("" = curName) := fun e => hcur e.symm
  simp [processHalfForms, this, hne]

theorem dupLoop_none (v : List FontChar) (i : Nat) (curName base : String) : ∀ (fuel seq : Nat)
    (name : String), dupLoop v i curName base fuel seq name = none →
    (0 < fuel → checkDups v i name = FAIL) ∧
    ∀ j, seq < j → j < seq + fuel → checkDups v i (base ++ toString j) = FAIL := by
  intro fuel
  induction fuel with
  | zero => intro seq name _; exact ⟨fun h => absurd h (by omega), fun j h1 h2 => by omega⟩
  | succ k ih =>
    intro seq name h
    simp only [dupLoop] at h
    by_cases hd : checkDups v i name = FAIL
    · simp only [if_pos hd] at h
      by_cases hh : (processHalfForms curName name "").1 = SUCCESS
      · simp [if_pos hh] at h
      · simp only [if_neg hh] at h
        obtain ⟨i1, i2⟩ := ih (seq + 1) _ h
        refine ⟨fun _ => hd, ?_⟩
        intro j h1 h2
        by_cases hj : j = seq + 1
        · subst hj
          exact i1 (by omega)
        · exact i2 j (by omega) (by omega)
    · simp [if_neg hd] at h

/-- The collision loop never uses up the fuel `renameGlyphs` gives it: the
other glyphs hold at most `2 * size` names and the suffixed names are pairwise
distinct. -/
theorem dupLoop_some (v : List FontChar) (i : Nat) (curName base name : String) :
    ∃ r, dupLoop v i curName base (dupFuel v) 0 name = some r := by
  cases h : dupLoop v i curName base (dupFuel v) 0 name with
  | some r => exact ⟨r, rfl⟩
  | none =>
    exfalso
    obtain ⟨_, hall⟩ := dupLoop_none v i curName base (dupFuel v) 0 name h
    have hsub : (List.range (2 * v.length + 1)).map (fun j => base ++ toString (j + 1))
        ⊆ takenFrom i 0 v := by
      intro x hx
      rw [List.mem_map] at hx
      obtain ⟨j, hj, rfl⟩ := hx
      rw [List.mem_range] at hj
      apply checkDupsFrom_fail_mem
      exact hall (j + 1) (by omega) (by unfold dupFuel; omega)
    have hnd : ((List.range (2 * v.length + 1)).map (fun j => base ++ toString (j + 1))).Nodup := by
      apply List.Nodup.map _ (List.nodup_range _)
      intro a b hab
      have := suffix_injective base (a + 1) (b + 1) hab
      omega
    have hlen := (List.subperm_of_subset hnd hsub).length_le
    have := takenFrom_length i v 0
    simp only [List.length_map, List.length_range] at hlen
    omega

theorem dupLoop_result (v : List FontChar) (i : Nat) (curName base : String) : ∀ (fuel seq : Nat)
    (name r : String), dupLoop v i curName base fuel seq name = some r →
    checkDups v i r = SUCCESS ∨
      (r = curName ∧ ∃ n, checkDups v i n = FAIL ∧ mapGet specials n = curName) := by
  intro fuel
  induction fuel with
  | zero => intro seq name r h; simp [dupLoop] at h
  | succ k ih =>
    intro seq name r h
    simp only [dupLoop] at h
    by_cases hd : checkDups v i name = FAIL
    · simp only [if_pos hd] at h
      by_cases hh : (processHalfForms curName name "").1 = SUCCESS
      · simp only [if_pos hh, Option.some.injEq] at h
        right
        unfold processHalfForms at hh h
        by_cases hs : mapGet specials name = curName
        · simp only [if_pos hs] at h
          exact ⟨h.symm, name, hd, hs⟩
        · simp [if_neg hs, SUCCESS, FAIL] at hh
      · simp only [if_neg hh] at h
        exact ih _ _ _ h
    · simp only [if_neg hd, Option.some.injEq] at h
      left
      rcases checkDups_cases v i name with hc | hc
      · rw [← h]; exact hc
      · exact absurd hc hd

theorem dupLoop_run (v : List FontChar) (i : Nat) (curName base : String) : ∀ (n fuel seq : Nat)
    (name : String), n < fuel →
    (checkDups v i name = FAIL ∧ (processHalfForms curName name "").1 ≠ SUCCESS) →
    (∀ j, seq < j → j < seq + n + 1 →
      checkDups v i (base ++ toString j) = FAIL ∧
      (processHalfForms curName (base ++ toString j) "").1 ≠ SUCCESS) →
    checkDups v i (base ++ toString (seq + n + 1)) = SUCCESS →
    dupLoop v i curName base (fuel + 1) seq name = some (base ++ toString (seq + n + 1)) := by
  intro n
  induction n with
  | zero =>
    intro fuel seq name hf h0 _ hk
    obtain ⟨k, rfl⟩ : ∃ k, fuel = k + 1 := ⟨fuel - 1, by omega⟩
    have hne : ¬ checkDups v i (base ++ toString (seq + 1)) = FAIL := by
      rw [hk]; simp [SUCCESS, FAIL]
    simp only [dupLoop, if_pos h0.1, if_neg h0.2]
    simp only [Nat.add_zero] at hk ⊢
    simp [hne]
  | succ m ih =>
    intro fuel seq name hf h0 hall hk
    obtain ⟨k, rfl⟩ : ∃ k, fuel = k + 1 := ⟨fuel - 1, by omega⟩
    have hstep : dupLoop v i curName base (k + 1 + 1) seq name
        = dupLoop v i curName base (k + 1) (seq + 1) (base ++ toString (seq + 1)) := by
      simp only [dupLoop, if_pos h0.1, if_neg h0.2]
    rw [hstep]
    have := ih k (seq + 1) (base ++ toString (seq + 1)) (by omega)
      (hall (seq + 1) (by omega) (by omega))
      (fun j h1 h2 => hall j (by omega) (by omega))
      (by rw [show seq + 1 + m + 1 = seq + (m + 1) + 1 by omega]; exact hk)
    rw [this, show seq + 1 + m + 1 = seq + (m + 1) + 1 by omega]

theorem checkDups_fail_iff (v : List FontChar) (i : Nat) (n : String) :
    checkDups v i n = FAIL ↔ isTaken v i n := by
  constructor
  · intro h
    by_contra hnot
    have hs : checkDups v i n = SUCCESS := by
      rw [checkDups_success_iff]
      intro j fc hj hne
      constructor
      · intro e; exact hnot ⟨j, fc, hj, hne, Or.inl e⟩
      · intro e; exact hnot ⟨j, fc, hj, hne, Or.inr e⟩
    rw [hs] at h
    simp [SUCCESS, FAIL] at h
  · rintro ⟨j, fc, hj, hne, hor⟩
    rcases checkDups_cases v i n with hc | hc
    · rw [checkDups_success_iff] at hc
      have := hc j fc hj hne
      rcases hor with e | e
      · exact absurd e this.1
      · exact absurd e this.2
    · exact hc

theorem checkDups_success_iff_not_taken (v : List FontChar) (i : Nat) (n : String) :
    checkDups v i n = SUCCESS ↔ ¬ isTaken v i n := by
  rw [← checkDups_fail_iff]
  rcases checkDups_cases v i n with hc | hc <;> simp [hc, SUCCESS, FAIL]

/-- C8: when the candidate `c` built for the glyph at position `i`, whose
current name is not empty, is taken by another glyph, the override table does
not map `c` to the current name, and `k` is the least positive number such that
`c_k` is not taken, the collision loop returns `c_k`: the number is appended to
the original candidate followed by an underscore. -/
theorem C8_collision_fallback (v : List FontChar) (i : Nat) (curName c : String) (k : Nat)
    (hcur : curName ≠ "") (hcol : isTaken v i c) (hov : mapGet specials c ≠ curName)
    (hk : 0 < k) (hfree : ¬ isTaken v i (c ++ "_" ++ toString k))
    (hleast : ∀ j, 0 < j → j < k → isTaken v i (c ++ "_" ++ toString j)) :
    dupLoop v i curName (c ++ "_") (dupFuel v) 0 c = some (c ++ "_" ++ toString k) := by
  have hbound : k - 1 ≤ 2 * v.length := by
    have hsub : (List.range (k - 1)).map (fun j => c ++ "_" ++ toString (j + 1))
        ⊆ takenFrom i 0 v := by
      intro x hx
      rw [List.mem_map] at hx
      obtain ⟨j, hj, rfl⟩ := hx
      rw [List.mem_range] at hj
      apply checkDupsFrom_fail_mem
      exact (checkDups_fail_iff v i _).2 (hleast (j + 1) (by omega) (by omega))
    have hnd : ((List.range (k - 1)).map (fun j => c ++ "_" ++ toString (j + 1))).Nodup := by
      apply List.Nodup.map _ (List.nodup_range _)
      intro a b hab
      have := suffix_injective (c ++ "_") (a + 1) (b + 1) hab
      omega
    have hlen := (List.subperm_of_subset hnd hsub).length_le
    have := takenFrom_length i v 0
    simp only [List.length_map, List.length_range] at hlen
    omega
  have hrun := dupLoop_run v i curName (c ++ "_") (k - 1) (2 * v.length + 1) 0 c (by omega)
    ⟨(checkDups_fail_iff v i c).2 hcol, by
      unfold processHalfForms
      simp [if_neg hov, SUCCESS, FAIL]⟩
    (fun j h1 h2 => ⟨(checkDups_fail_iff v i _).2 (hleast j h1 (by omega)), by
      rw [processHalfForms_suffixed curName c "" j hcur]
      simp [SUCCESS, FAIL]⟩)
    (by
      rw [show 0 + (k - 1) + 1 = k by omega]
      exact (checkDups_success_iff_not_taken v i _).2 hfree)
  rw [show 0 + (k - 1) + 1 = k by omega] at hrun
  exact hrun

/-- Witness of C8: in `kakaGlyphs` the names `kaka` and `kaka_1` are taken, so
the candidate `kaka` of the glyph `g` becomes `kaka_2`. -/
theorem C8_collision_fallback_witness :
    ("g" ≠ "" ∧ isTaken kakaGlyphs 0 "kaka" ∧ mapGet specials "kaka" ≠ "g" ∧ 0 < 2 ∧
      ¬ isTaken kakaGlyphs 0 ("kaka" ++ "_" ++ toString 2) ∧
      ∀ j, 0 < j → j < 2 → isTaken kakaGlyphs 0 ("kaka" ++ "_" ++ toString j)) ∧
    dupLoop kakaGlyphs 0 "g" ("kaka" ++ "_") (dupFuel kakaGlyphs) 0 "kaka"
      = some ("kaka" ++ "_" ++ toString 2) ∧
    "kaka" ++ "_" ++ toString 2 = "kaka_2" :=
  have h1 : isTaken kakaGlyphs 0 "kaka" := ⟨2, _, rfl, by decide, Or.inl rfl⟩
  have h2 : ¬ isTaken kakaGlyphs 0 ("kaka" ++ "_" ++ toString 2) :=
    (checkDups_success_iff_not_taken _ _ _).1 (by decide)
  have h3 : ∀ j, 0 < j → j < 2 → isTaken kakaGlyphs 0 ("kaka" ++ "_" ++ toString j) := by
    intro j h0 hj
    have : j = 1 := by omega
    subst this
    exact ⟨3, _, rfl, by decide, Or.inr (by decide)⟩
  ⟨⟨by decide, h1, by decide, by decide, h2, h3⟩,
    C8_collision_fallback kakaGlyphs 0 "g" "kaka" 2 (by decide) h1 (by decide) (by decide) h2 h3,
    by decide⟩

theorem distinctNames_of_nodup (v : List FontChar)
    (h : (v.map (fun fc => fc.curName)).Nodup) : distinctNames v := by
  intro a b fa fb ha hb hab e
  rw [List.nodup_iff_getElem?_ne_getElem?] at h
  have hal : a < v.length := (List.getElem?_eq_some.1 ha).1
  have hbl : b < v.length := (List.getElem?_eq_some.1 hb).1
  have hma : (v.map (fun fc => fc.curName))[a]? = some fa.curName := by
    rw [List.getElem?_map, ha]; rfl
  have hmb : (v.map (fun fc => fc.curName))[b]? = some fb.curName := by
    rw [List.getElem?_map, hb]; rfl
  rcases Nat.lt_or_gt_of_ne hab with hlt | hlt
  · exact h a b hlt (by simpa using hbl) (by rw [hma, hmb, e])
  · exact h b a hlt (by simpa using hal) (by rw [hma, hmb, e])

/-- C2 (counterexample): in `halfFormGlyphs` the current names are pairwise
distinct; the candidate `y1` of the glyph `y2` is taken, the loop ends through
the half-form override with the name `y2`, and `y2` is the new name of the
glyph `b` at the time of the assignment and after the pass. -/
theorem C2_override_collides :
    distinctNames halfFormGlyphs ∧
    (preLig "VIRAMA" halfFormRef (initState halfFormGlyphs)).vFontChar.map (fun fc => fc.newName)
      = ["", "y1", "y2"] ∧
    dupLoop (preLig "VIRAMA" halfFormRef (initState halfFormGlyphs)).vFontChar 0 "y2"
      ("y1" ++ "_") (dupFuel (preLig "VIRAMA" halfFormRef (initState halfFormGlyphs)).vFontChar)
      0 "y1" = some "y2" ∧
    (renameGlyphs "VIRAMA" halfFormRef (initState halfFormGlyphs)).map
        (fun r => (r.1, r.2.vFontChar.map (fun fc => (fc.curName, fc.newName))))
      = some (SUCCESS, [("y2", "y2"), ("a", "y1"), ("b", "y2")]) := by
  exact ⟨distinctNames_of_nodup _ (by decide), by decide, by decide, by decide⟩

/-- C2 (amended): for a glyph vector with pairwise distinct current names, the
collision loop run for the glyph at position `i` with any candidate returns a
name; that name differs from the current name of every other glyph; and it
differs from the new name of every other glyph unless the loop ended through
the half-form override, in which case it is the own current name of the
glyph. -/
theorem C2_resolver_contract (v : List FontChar) (i : Nat) (fc : FontChar) (cand : String)
    (hi : v[i]? = some fc) (hdist : distinctNames v) :
    ∃ r, dupLoop v i fc.curName (cand ++ "_") (dupFuel v) 0 cand = some r ∧
      (∀ j fj, v[j]? = some fj → j ≠ i → fj.curName ≠ r) ∧
      ((∀ j fj, v[j]? = some fj → j ≠ i → fj.newName ≠ r) ∨
        (r = fc.curName ∧ ∃ n, isTaken v i n ∧ mapGet specials n = fc.curName)) := by
  obtain ⟨r, hr⟩ := dupLoop_some v i fc.curName (cand ++ "_") cand
  refine ⟨r, hr, ?_, ?_⟩
  · rcases dupLoop_result v i fc.curName (cand ++ "_") _ _ _ _ hr with h | ⟨h, _⟩
    · intro j fj hj hne
      exact ((checkDups_success_iff v i r).1 h j fj hj hne).1
    · intro j fj hj hne
      rw [h]
      exact hdist j i fj fc hj hi hne
  · rcases dupLoop_result v i fc.curName (cand ++ "_") _ _ _ _ hr with h | ⟨h, n, hn, hs⟩
    · left
      intro j fj hj hne
      exact ((checkDups_success_iff v i r).1 h j fj hj hne).2
    · right
      exact ⟨h, n, (checkDups_fail_iff v i n).1 hn, hs⟩

/-- Witness of C2 (amended): the glyph `g` of `kakaGlyphs` with the candidate
`kaka`. -/
theorem C2_resolver_contract_witness :
    (kakaGlyphs[0]? = some ⟨-1, "g", "", [⟨"liga", ["k", "k"]⟩]⟩ ∧ distinctNames kakaGlyphs) ∧
    ∃ r, dupLoop kakaGlyphs 0 (FontChar.mk (-1) "g" "" [⟨"liga", ["k", "k"]⟩]).curName
        ("kaka" ++ "_") (dupFuel kakaGlyphs) 0 "kaka" = some r ∧
      (∀ j fj, kakaGlyphs[j]? = some fj → j ≠ 0 → fj.curName ≠ r) ∧
      ((∀ j fj, kakaGlyphs[j]? = some fj → j ≠ 0 → fj.newName ≠ r) ∨
        (r = (FontChar.mk (-1) "g" "" [⟨"liga", ["k", "k"]⟩]).curName ∧
          ∃ n, isTaken kakaGlyphs 0 n ∧
            mapGet specials n = (FontChar.mk (-1) "g" "" [⟨"liga", ["k", "k"]⟩]).curName)) :=
  have hd : distinctNames kakaGlyphs := distinctNames_of_nodup _ (by decide)
  ⟨⟨rfl, hd⟩, C2_resolver_contract kakaGlyphs 0 _ "kaka" rfl hd⟩

/-! ### `buildName` -/

/-- C10 (counterexample): when the discovered joiner glyph is the glyph named
`VIRAMA` (`Zwj` is `VIRAMA`), the list `ka`, `VIRAMA`, `ZWJ` has an
elision-marker literal in the middle and a joiner at the end, `ka` is neither
marker and is unmapped, and `buildName` yields `ka` without the chillu
suffix: the middle component is handled as a joiner. -/
theorem C10_marker_overlap :
    ("VIRAMA" = "VIRAMA" ∨ "VIRAMA" = "xx") ∧ ("ZWJ" = ZWJ ∨ "ZWJ" = "VIRAMA") ∧
    ("ka" ≠ ZWJ ∧ "ka" ≠ "VIRAMA" ∧ "ka" ≠ "xx") ∧ mapGet [] "ka" ≠ "VIRAMA" ∧
    buildName "VIRAMA" "xx" "VIRAMA" [] ["ka", "VIRAMA", "ZWJ"] "" = (SUCCESS, "ka") ∧
    (buildName "VIRAMA" "xx" "VIRAMA" [] ["ka", "VIRAMA", "ZWJ"] "").2 ≠ "ka" ++ CHILLU_NANE := by
  decide

/-- C10 (amended): for every rename map and every list of three components
`c`, `v`, `j` in which `v` is an elision-marker component (the literal
`VIRAMA` or the glyph name in `Virama`) that is not also a joiner component,
`j` is a joiner component (the literal `ZWJ` or the glyph name in `Zwj`), and
`c` is neither marker and is not mapped to the elision-marker value,
`buildName` started with an empty output returns `SUCCESS` and the name of `c`
followed by `chillu`, the name of `c` being its entry in the map when that is
not empty and `c` itself otherwise. -/
theorem C10_chillu_composition (VIRAMA Virama Zwj : String) (nameMap : NameMap)
    (c v j : String)
    (hv : v = "VIRAMA" ∨ v = Virama) (hj : j = ZWJ ∨ j = Zwj)
    (hvz : v ≠ ZWJ ∧ v ≠ Zwj)
    (hc : c ≠ ZWJ ∧ c ≠ Zwj ∧ c ≠ "VIRAMA" ∧ c ≠ Virama)
    (hm : mapGet nameMap c ≠ VIRAMA) :
    buildName VIRAMA Virama Zwj nameMap [c, v, j] ""
      = (SUCCESS, (if mapGet nameMap c ≠ "" then mapGet nameMap c else c) ++ CHILLU_NANE) := by
  obtain ⟨hc1, hc2, hc3, hc4⟩ := hc
  obtain ⟨hv1, hv2⟩ := hvz
  by_cases hmc : mapGet nameMap c = ""
  · simp [buildName, buildLoop, hc1, hc2, hc3, hc4, hv1, hv2, hv, hj, hmc]
  · have hl : (mapGet nameMap c).length ≠ 0 := (length_ne_zero_iff _).2 hmc
    simp [buildName, buildLoop, hc1, hc2, hc3, hc4, hv1, hv2, hv, hj, hmc, hm, hl]

/-- Witness of C10 (amended): the components `ka`, `xx`, `ZWJ` with `xx` the
discovered virama glyph and `ka` unmapped give `kachillu`. -/
theorem C10_chillu_composition_witness :
    (("xx" = "VIRAMA" ∨ "xx" = "xx") ∧ ("ZWJ" = ZWJ ∨ "ZWJ" = "zw") ∧
      ("xx" ≠ ZWJ ∧ "xx" ≠ "zw") ∧
      ("ka" ≠ ZWJ ∧ "ka" ≠ "zw" ∧ "ka" ≠ "VIRAMA" ∧ "ka" ≠ "xx") ∧
      mapGet [("xx", "VIRAMA")] "ka" ≠ "VIRAMA") ∧
    buildName "VIRAMA" "xx" "zw" [("xx", "VIRAMA")] ["ka", "xx", "ZWJ"] ""
      = (SUCCESS, (if mapGet [("xx", "VIRAMA")] "ka" ≠ "" then
          mapGet [("xx", "VIRAMA")] "ka" else "ka") ++ CHILLU_NANE) ∧
    (if mapGet [("xx", "VIRAMA")] "ka" ≠ "" then
      mapGet [("xx", "VIRAMA")] "ka" else "ka") ++ CHILLU_NANE = "kachillu" :=
  ⟨by decide,
    C10_chillu_composition "VIRAMA" "xx" "zw" [("xx", "VIRAMA")] "ka" "xx" "ZWJ"
      (by decide) (by decide) (by decide) (by decide) (by decide),
    by decide⟩

/-! ### The stages of a pass -/

theorem seedLoop_fst (ref : RefTable) (v : List FontChar) : ∀ (m : NameMap),
    (seedLoop ref v m).1 = v.map (seedRec ref) := by
  induction v with
  | nil => intro m; rfl
  | cons a rest ih =>
    intro m
    by_cases h : a.unicodeVal = -1
    · simp [seedLoop, seedRec, h, ih]
    · simp [seedLoop, seedRec, h, ih]

theorem seedLoop_snd_other (ref : RefTable) (key : String) (v : List FontChar) :
    ∀ (m : NameMap), (∀ fc ∈ v, fc.unicodeVal ≠ -1 → fc.curName ≠ key) →
    mapGet (seedLoop ref v m).2 key = mapGet m key := by
  induction v with
  | nil => intro m _; rfl
  | cons a rest ih =>
    intro m h
    have hrest : ∀ fc ∈ rest, fc.unicodeVal ≠ -1 → fc.curName ≠ key :=
      fun fc hfc => h fc (List.mem_cons_of_mem a hfc)
    by_cases ha : a.unicodeVal = -1
    · simp [seedLoop, ha, ih m hrest]
    · have hk : a.curName ≠ key := h a (List.mem_cons_self a rest) ha
      simp [seedLoop, ha, ih _ hrest, mapGet_mapSet, hk]

theorem seedLoop_snd_base (ref : RefTable) (v : List FontChar) :
    ∀ (m : NameMap), (v.map (fun fc => fc.curName)).Nodup →
    ∀ fc ∈ v, fc.unicodeVal ≠ -1 →
    mapGet (seedLoop ref v m).2 fc.curName = refName ref fc.unicodeVal := by
  induction v with
  | nil => intro m _ fc hfc; simp at hfc
  | cons a rest ih =>
    intro m hnd fc hfc hcp
    rw [List.map_cons, List.nodup_cons] at hnd
    obtain ⟨hnot, hnd2⟩ := hnd
    rcases List.mem_cons.1 hfc with e | e
    · subst e
      have hother : ∀ x ∈ rest, x.unicodeVal ≠ -1 → x.curName ≠ fc.curName := by
        intro x hx _ hxe
        exact hnot (List.mem_map.2 ⟨x, hx, hxe⟩)
      simp [seedLoop, hcp, seedLoop_snd_other ref fc.curName rest _ hother, mapGet_mapSet]
    · by_cases ha : a.unicodeVal = -1
      · simp [seedLoop, ha, ih m hnd2 fc e hcp]
      · simp [seedLoop, ha, ih _ hnd2 fc e hcp]

theorem syncLoop_snd (key : String) (v : List FontChar) : ∀ (m : NameMap),
    mapGet (syncLoop v m).2 key = mapGet m key := by
  induction v with
  | nil => intro m; rfl
  | cons a rest ih => intro m; simp [syncLoop, ih, mapGet_mapTouch]

theorem syncLoop_fst_of_agree (v : List FontChar) : ∀ (m : NameMap),
    (∀ fc ∈ v, fc.newName = mapGet m fc.curName) → (syncLoop v m).1 = v := by
  induction v with
  | nil => intro m _; rfl
  | cons a rest ih =>
    intro m h
    have ha : a.newName = mapGet m a.curName := h a (List.mem_cons_self a rest)
    have hrest : ∀ fc ∈ rest, fc.newName = mapGet (mapTouch m a.curName) fc.curName := by
      intro fc hfc
      rw [mapGet_mapTouch]
      exact h fc (List.mem_cons_of_mem a hfc)
    simp only [syncLoop, ih _ hrest]
    rw [← ha]
    split <;> rfl

theorem seedRec_curName (ref : RefTable) (fc : FontChar) :
    (seedRec ref fc).curName = fc.curName := by
  unfold seedRec; split <;> rfl

theorem seedRec_unicodeVal (ref : RefTable) (fc : FontChar) :
    (seedRec ref fc).unicodeVal = fc.unicodeVal := by
  unfold seedRec; split <;> rfl

theorem map_seedRec_curName (ref : RefTable) (v : List FontChar) :
    (v.map (seedRec ref)).map (fun fc => fc.curName) = v.map (fun fc => fc.curName) := by
  rw [List.map_map]
  apply List.map_congr_left
  intro fc _
  exact seedRec_curName ref fc

theorem eq_of_curName_eq (v : List FontChar) (hnd : (v.map (fun fc => fc.curName)).Nodup)
    (x y : FontChar) (hx : x ∈ v) (hy : y ∈ v) (h : x.curName = y.curName) : x = y :=
  List.inj_on_of_nodup_map hnd hx hy h

theorem seed_agree (ref : RefTable) (s : State)
    (hnd : (s.vFontChar.map (fun fc => fc.curName)).Nodup) (hag : agree s) :
    ∀ fc ∈ s.vFontChar.map (seedRec ref),
      fc.newName = mapGet (seedLoop ref s.vFontChar s.nameMap).2 fc.curName := by
  intro fc hfc
  obtain ⟨x, hx, rfl⟩ := List.mem_map.1 hfc
  by_cases hcp : x.unicodeVal = -1
  · have hother : ∀ y ∈ s.vFontChar, y.unicodeVal ≠ -1 → y.curName ≠ x.curName := by
      intro y hy hycp hye
      have := eq_of_curName_eq _ hnd y x hy hx hye
      rw [this] at hycp
      exact hycp hcp
    have hsr : seedRec ref x = x := by simp [seedRec, hcp]
    rw [hsr, seedLoop_snd_other ref x.curName _ _ hother]
    exact hag x hx
  · rw [seedRec_curName, seedLoop_snd_base ref _ _ hnd x hx hcp]
    simp [seedRec, hcp]

theorem preLig_vFontChar (VIRAMA : String) (ref : RefTable) (s : State)
    (hnd : (s.vFontChar.map (fun fc => fc.curName)).Nodup) (hag : agree s) :
    (preLig VIRAMA ref s).vFontChar = s.vFontChar.map (seedRec ref) := by
  unfold preLig
  simp only
  rw [syncLoop_fst_of_agree, seedLoop_fst]
  rw [seedLoop_fst]
  exact seed_agree ref s hnd hag

theorem preLig_nameMap (VIRAMA : String) (ref : RefTable) (s : State) (key : String) :
    mapGet (preLig VIRAMA ref s).nameMap key
      = mapGet (seedLoop ref s.vFontChar s.nameMap).2 key := by
  unfold preLig
  simp only [syncLoop_snd]

theorem preLig_midInv (VIRAMA : String) (ref : RefTable) (s : State) (h : passInv ref s) :
    midInv ref (preLig VIRAMA ref s) := by
  obtain ⟨hnd, hag, hun, hse⟩ := h
  have hv := preLig_vFontChar VIRAMA ref s hnd hag
  refine ⟨?_, ?_, ?_, ?_⟩
  · rw [hv, map_seedRec_curName]; exact hnd
  · intro fc hfc
    rw [hv] at hfc
    rw [preLig_nameMap]
    exact seed_agree ref s hnd hag fc hfc
  · rw [hv]
    intro fa hfa fb hfb hne hcomp hnonempty hown
    obtain ⟨xa, hxa, rfl⟩ := List.mem_map.1 hfa
    obtain ⟨xb, hxb, rfl⟩ := List.mem_map.1 hfb
    rw [seedRec_curName, seedRec_curName] at hne
    rw [seedRec_unicodeVal] at hcomp
    rw [seedRec_curName] at hown ⊢
    by_cases hcpa : xa.unicodeVal = -1
    · have hsa : seedRec ref xa = xa := by simp [seedRec, hcpa]
      rw [hsa] at hnonempty hown ⊢
      have hold := hun xa hxa xb hxb hne (Or.inl hcpa) hnonempty hown
      have hseeded : seeded ref s.vFontChar := by
        rcases hse with h1 | h1
        · exact h1
        · exact absurd (h1 xa hxa) hnonempty
      refine ⟨hold.1, ?_⟩
      by_cases hcpb : xb.unicodeVal = -1
      · have hsb : seedRec ref xb = xb := by simp [seedRec, hcpb]
        rw [hsb]; exact hold.2
      · have hnb : (seedRec ref xb).newName = refName ref xb.unicodeVal := by
          simp [seedRec, hcpb]
        rw [hnb]
        by_cases hrb : refName ref xb.unicodeVal = ""
        · rw [hrb]; exact hnonempty
        · rw [← hseeded xb hxb hcpb hrb]; exact hold.2
    · exfalso
      rcases hcomp with h1 | h1
      · exact hcpa h1
      · apply hnonempty
        simp [seedRec, hcpa, h1]
  · rw [hv]
    intro fc hfc hcp _
    obtain ⟨x, hx, rfl⟩ := List.mem_map.1 hfc
    rw [seedRec_unicodeVal] at hcp ⊢
    simp [seedRec, hcp]

/-- What the body of the ligature stage does to the state: nothing but map
lookups, or one rename of the glyph at `i`, whose map entry was empty, to a
name that passed `checkDups` or is the own current name of the glyph. -/
theorem ligStep_cases (VIRAMA : String) (i : Nat) (s : State) (r : Int × State)
    (h : ligStep VIRAMA i s = some r) :
    (r.2.vFontChar = s.vFontChar ∧ r.2.renCount = s.renCount ∧
      (∀ key, mapGet r.2.nameMap key = mapGet s.nameMap key) ∧
      r.2.Virama = s.Virama ∧ r.2.Zwj = s.Zwj) ∨
    (∃ fc X, s.vFontChar[i]? = some fc ∧ fc.ligatureList ≠ [] ∧
      mapGet s.nameMap fc.curName = "" ∧ r.1 = SUCCESS ∧
      r.2.vFontChar = s.vFontChar.set i { fc with newName := X } ∧
      (∀ key, mapGet r.2.nameMap key = if fc.curName = key then X else mapGet s.nameMap key) ∧
      r.2.renCount = s.renCount + 1 ∧ r.2.Virama = s.Virama ∧ r.2.Zwj = s.Zwj ∧
      (checkDups s.vFontChar i X = SUCCESS ∨ X = fc.curName)) := by
  unfold ligStep at h
  cases hi : s.vFontChar[i]? with
  | none =>
    simp only [hi, Option.some.injEq] at h
    subst h
    exact Or.inl ⟨rfl, rfl, fun _ => rfl, rfl, rfl⟩
  | some fc =>
    simp only [hi] at h
    by_cases hl : fc.ligatureList.length = 0
    · simp only [if_pos hl, Option.some.injEq] at h
      subst h
      exact Or.inl ⟨rfl, rfl, fun _ => rfl, rfl, rfl⟩
    · simp only [if_neg hl] at h
      by_cases hnew : (mapGet s.nameMap fc.curName).length > 0
      · simp only [if_pos hnew, Option.some.injEq] at h
        subst h
        exact Or.inl ⟨rfl, rfl, fun key => mapGet_mapTouch _ _ _, rfl, rfl⟩
      · simp only [if_neg hnew] at h
        have hempty : mapGet s.nameMap fc.curName = "" := by
          by_contra hne
          exact hnew (Nat.pos_of_ne_zero ((length_ne_zero_iff _).2 hne))
        by_cases hfail : (formLoop fc.curName fc.ligatureList
            (scanInit (mapTouch s.nameMap fc.curName))).1 = FAIL
        · simp only [if_pos hfail, Option.some.injEq] at h
          subst h
          refine Or.inl ⟨rfl, rfl, ?_, rfl, rfl⟩
          intro key
          simp only [formLoop_nameMap, scanInit, mapGet_mapTouch]
        · simp only [if_neg hfail] at h
          cases hsel : selectComps fc.ligatureList.length (formLoop fc.curName fc.ligatureList
              (scanInit (mapTouch s.nameMap fc.curName))).2 with
          | none =>
            simp only [hsel, Option.some.injEq] at h
            subst h
            refine Or.inl ⟨rfl, rfl, ?_, rfl, rfl⟩
            intro key
            simp only [formLoop_nameMap, scanInit, mapGet_mapTouch]
          | some finalComps =>
            simp only [hsel] at h
            cases hdup : dupLoop s.vFontChar i fc.curName
                ((buildName VIRAMA s.Virama s.Zwj (formLoop fc.curName fc.ligatureList
                  (scanInit (mapTouch s.nameMap fc.curName))).2.nameMap finalComps
                  (mapGet s.nameMap fc.curName)).2 ++ "_") (dupFuel s.vFontChar) 0
                (buildName VIRAMA s.Virama s.Zwj (formLoop fc.curName fc.ligatureList
                  (scanInit (mapTouch s.nameMap fc.curName))).2.nameMap finalComps
                  (mapGet s.nameMap fc.curName)).2 with
            | none => simp [hdup] at h
            | some X =>
              simp only [hdup, Option.some.injEq] at h
              subst h
              refine Or.inr ⟨fc, X, rfl, ?_, hempty, rfl, rfl, ?_, rfl, rfl, rfl, ?_⟩
              · intro hnil; exact hl (by rw [hnil]; rfl)
              · intro key
                simp only [mapGet_mapSet, formLoop_nameMap, scanInit, mapGet_mapTouch]
              · rcases dupLoop_result _ _ _ _ _ _ _ _ hdup with hc | ⟨hc, _⟩
                · exact Or.inl hc
                · exact Or.inr hc

/-- The body of the ligature stage always produces a result. -/
theorem ligStep_some (VIRAMA : String) (i : Nat) (s : State) :
    ∃ r, ligStep VIRAMA i s = some r := by
  unfold ligStep
  cases hi : s.vFontChar[i]? with
  | none => exact ⟨_, rfl⟩
  | some fc =>
    simp only
    split
    · exact ⟨_, rfl⟩
    · split
      · exact ⟨_, rfl⟩
      · split
        · exact ⟨_, rfl⟩
        · cases hsel : selectComps fc.ligatureList.length (formLoop fc.curName fc.ligatureList
              (scanInit (mapTouch s.nameMap fc.curName))).2 with
          | none => exact ⟨_, rfl⟩
          | some finalComps =>
            simp only
            obtain ⟨X, hX⟩ := dupLoop_some s.vFontChar i fc.curName
              ((buildName VIRAMA s.Virama s.Zwj (formLoop fc.curName fc.ligatureList
                  (scanInit (mapTouch s.nameMap fc.curName))).2.nameMap finalComps
                  (mapGet s.nameMap fc.curName)).2 ++ "_")
              (buildName VIRAMA s.Virama s.Zwj (formLoop fc.curName fc.ligatureList
                  (scanInit (mapTouch s.nameMap fc.curName))).2.nameMap finalComps
                  (mapGet s.nameMap fc.curName)).2
            rw [hX]
            exact ⟨_, rfl⟩

theorem mem_set_cases (v : List FontChar) (i : Nat) (fc y : FontChar)
    (hnd : (v.map (fun fc => fc.curName)).Nodup) (hi : v[i]? = some fc) (x : FontChar)
    (hx : x ∈ v.set i y) : x = y ∨ (x ∈ v ∧ x.curName ≠ fc.curName ∧ ∃ j, v[j]? = some x ∧ j ≠ i) := by
  obtain ⟨j, hj⟩ := List.mem_iff_getElem?.1 hx
  by_cases hij : i = j
  · subst hij
    rw [List.getElem?_set] at hj
    simp only [if_true] at hj
    split at hj
    · left; exact (Option.some.inj hj).symm
    · exact absurd hj (by simp)
  · rw [List.getElem?_set_ne hij] at hj
    right
    refine ⟨List.mem_iff_getElem?.2 ⟨j, hj⟩, ?_, j, hj, fun e => hij e.symm⟩
    exact distinctNames_of_nodup v hnd j i x fc hj hi (fun e => hij e.symm)

theorem map_set_curName (v : List FontChar) (i : Nat) (fc : FontChar) (X : String)
    (hi : v[i]? = some fc) :
    (v.set i { fc with newName := X }).map (fun fc => fc.curName)
      = v.map (fun fc => fc.curName) := by
  apply List.ext_getElem?
  intro j
  rw [List.getElem?_map, List.getElem?_map]
  by_cases hij : i = j
  · subst hij
    rw [List.getElem?_set, hi]
    simp [(List.getElem?_eq_some.1 hi).1]
  · rw [List.getElem?_set_ne hij]

/-- The invariant of the ligature stage is kept by its body. -/
theorem ligStep_midInv (VIRAMA : String) (ref : RefTable) (i : Nat) (s : State)
    (r : Int × State) (h : ligStep VIRAMA i s = some r) (hinv : midInv ref s) :
    midInv ref r.2 := by
  obtain ⟨hnd, hag, hun, hse⟩ := hinv
  rcases ligStep_cases VIRAMA i s r h with ⟨hv, _, hm, _, _⟩ |
    ⟨fc, X, hi, _, hempty, _, hv, hm, _, _, _, hX⟩
  · refine ⟨by rw [hv]; exact hnd, ?_, by rw [hv]; exact hun, by rw [hv]; exact hse⟩
    intro x hx
    rw [hv] at hx
    rw [hm]
    exact hag x hx
  · have hfc : fc ∈ s.vFontChar := List.mem_iff_getElem?.2 ⟨i, hi⟩
    have hfcnew : fc.newName = "" := by rw [hag fc hfc, hempty]
    refine ⟨by rw [hv, map_set_curName _ _ _ _ hi]; exact hnd, ?_, ?_, ?_⟩
    · intro x hx
      rw [hv] at hx
      rw [hm]
      rcases mem_set_cases _ _ fc _ hnd hi x hx with e | ⟨hxv, hxne, _⟩
      · subst e; simp
      · rw [if_neg (fun e => hxne e.symm)]
        exact hag x hxv
    · rw [hv]
      intro fa hfa fb hfb hne hcomp hnonempty hown
      rcases mem_set_cases _ _ fc _ hnd hi fa hfa with ea | ⟨hav, hane, ja, hja, hjane⟩
      · subst ea
        rcases mem_set_cases _ _ fc _ hnd hi fb hfb with eb | ⟨hbv, hbne, jb, hjb, hjbne⟩
        · subst eb; exact absurd rfl hne
        · simp only at hown hnonempty ⊢
          rcases hX with hc | hc
          · exact (checkDups_success_iff _ _ _).1 hc jb fb hjb hjbne |>.imp Ne.symm Ne.symm
          · exact absurd hc hown
      · rcases mem_set_cases _ _ fc _ hnd hi fb hfb with eb | ⟨hbv, hbne, jb, hjb, hjbne⟩
        · subst eb
          simp only
          have hold := hun fa hav fc hfc hane hcomp hnonempty hown
          refine ⟨hold.1, ?_⟩
          rcases hX with hc | hc
          · exact ((checkDups_success_iff _ _ _).1 hc ja fa hja hjane).2
          · rw [hc]; exact hold.1
        · exact hun fa hav fb hbv hne hcomp hnonempty hown
    · rw [hv]
      intro x hx hcp hrn
      rcases mem_set_cases _ _ fc _ hnd hi x hx with e | ⟨hxv, _, _⟩
      · subst e
        simp only at hcp hrn ⊢
        exfalso
        have := hse fc hfc hcp hrn
        rw [hfcnew] at this
        exact hrn this.symm
      · exact hse x hxv hcp hrn

theorem ligLoop_midInv (VIRAMA : String) (ref : RefTable) : ∀ (n i : Nat) (s : State)
    (r : Int × State), ligLoop VIRAMA n i s = some r → midInv ref s → midInv ref r.2 := by
  intro n
  induction n with
  | zero =>
    intro i s r h hinv
    simp only [ligLoop, Option.some.injEq] at h
    subst h
    exact hinv
  | succ k ih =>
    intro i s r h hinv
    simp only [ligLoop] at h
    cases hstep : ligStep VIRAMA i s with
    | none => simp [hstep] at h
    | some q =>
      simp only [hstep] at h
      have hq := ligStep_midInv VIRAMA ref i s q hstep hinv
      by_cases hf : q.1 = FAIL
      · simp only [if_pos hf, Option.some.injEq] at h
        subst h
        exact hq
      · simp only [if_neg hf] at h
        exact ih _ _ _ h hq

theorem ligLoop_some (VIRAMA : String) : ∀ (n i : Nat) (s : State),
    ∃ r, ligLoop VIRAMA n i s = some r := by
  intro n
  induction n with
  | zero => intro i s; exact ⟨_, rfl⟩
  | succ k ih =>
    intro i s
    obtain ⟨q, hq⟩ := ligStep_some VIRAMA i s
    simp only [ligLoop, hq]
    by_cases hf : q.1 = FAIL
    · simp only [if_pos hf]; exact ⟨_, rfl⟩
    · simp only [if_neg hf]; exact ih _ _

/-- A call of `renameGlyphs` always returns. -/
theorem renameGlyphs_some (VIRAMA : String) (ref : RefTable) (s : State) :
    ∃ r, renameGlyphs VIRAMA ref s = some r :=
  ligLoop_some VIRAMA _ _ _

theorem renameGlyphs_passInv (VIRAMA : String) (ref : RefTable) (s : State) (r : Int × State)
    (h : renameGlyphs VIRAMA ref s = some r) (hinv : passInv ref s) : passInv ref r.2 := by
  have hmid := ligLoop_midInv VIRAMA ref _ _ _ r h (preLig_midInv VIRAMA ref s hinv)
  exact ⟨hmid.1, hmid.2.1, hmid.2.2.1, Or.inl hmid.2.2.2⟩

theorem passN_some (VIRAMA : String) (ref : RefTable) : ∀ (n : Nat) (s : State),
    ∃ t, passN VIRAMA ref n s = some t := by
  intro n
  induction n with
  | zero => intro s; exact ⟨s, rfl⟩
  | succ k ih =>
    intro s
    obtain ⟨r, hr⟩ := renameGlyphs_some VIRAMA ref s
    simp only [passN, hr]
    split
    · exact ⟨_, rfl⟩
    · exact ih _

theorem passN_passInv (VIRAMA : String) (ref : RefTable) : ∀ (n : Nat) (s t : State),
    passN VIRAMA ref n s = some t → passInv ref s → passInv ref t := by
  intro n
  induction n with
  | zero =>
    intro s t h hinv
    simp only [passN, Option.some.injEq] at h
    subst h
    exact hinv
  | succ k ih =>
    intro s t h hinv
    obtain ⟨r, hr⟩ := renameGlyphs_some VIRAMA ref s
    have hr2 := renameGlyphs_passInv VIRAMA ref s r hr hinv
    simp only [passN, hr] at h
    split at h
    · simp only [Option.some.injEq] at h
      subst h
      exact hr2
    · exact ih _ _ h hr2

theorem mainLoop_passInv (VIRAMA : String) (ref : RefTable) : ∀ (n : Nat) (s : State)
    (r : Int × State), mainLoop VIRAMA ref n s = some r → passInv ref s → passInv ref r.2 := by
  intro n
  induction n with
  | zero => intro s r h _; simp [mainLoop] at h
  | succ k ih =>
    intro s r h hinv
    obtain ⟨q, hq⟩ := renameGlyphs_some VIRAMA ref s
    have hq2 := renameGlyphs_passInv VIRAMA ref s q hq hinv
    simp only [mainLoop, hq] at h
    split at h
    · simp only [Option.some.injEq] at h
      subst h
      exact hq2
    · split at h
      · simp only [Option.some.injEq] at h
        subst h
        exact hq2
      · exact ih _ _ h hq2

theorem nodup_of_distinctNames (v : List FontChar) (h : distinctNames v) :
    (v.map (fun fc => fc.curName)).Nodup := by
  rw [List.nodup_iff_getElem?_ne_getElem?]
  intro i j hij hj
  rw [List.length_map] at hj
  have hi : i < v.length := by omega
  rw [List.getElem?_map, List.getElem?_map, List.getElem?_eq_getElem hi,
    List.getElem?_eq_getElem hj]
  simp only [Option.map_some', ne_eq, Option.some.injEq]
  exact h i j v[i] v[j] (List.getElem?_eq_getElem hi) (List.getElem?_eq_getElem hj) (by omega)

theorem loadMap_empty (fc : FontChar) (m : NameMap) (h : ∀ key, mapGet m key = "") :
    ∀ key, mapGet (loadMap fc m) key = "" := by
  unfold loadMap
  have inner : ∀ (gs : List String) (m2 : NameMap), (∀ key, mapGet m2 key = "") →
      ∀ key, mapGet (gs.foldl (fun m3 g => mapSet m3 g "") m2) key = "" := by
    intro gs
    induction gs with
    | nil => intro m2 h2; exact h2
    | cons g rest ih =>
      intro m2 h2
      apply ih
      intro key
      rw [mapGet_mapSet]
      split
      · rfl
      · exact h2 key
  have outer : ∀ (ls : List Ligature) (m2 : NameMap), (∀ key, mapGet m2 key = "") →
      ∀ key, mapGet (ls.foldl (fun m3 lig => lig.glyphNames.foldl
        (fun m4 g => mapSet m4 g "") m3) m2) key = "" := by
    intro ls
    induction ls with
    | nil => intro m2 h2; exact h2
    | cons l rest ih =>
      intro m2 h2
      exact ih _ (inner l.glyphNames m2 h2)
  exact outer fc.ligatureList m h

theorem initState_empty (v : List FontChar) :
    ∀ key, mapGet (initState v).nameMap key = "" := by
  unfold initState
  simp only
  have : ∀ (l : List FontChar) (m : NameMap), (∀ key, mapGet m key = "") →
      ∀ key, mapGet (l.foldl (fun m fc => loadMap fc m) m) key = "" := by
    intro l
    induction l with
    | nil => intro m h; exact h
    | cons a rest ih =>
      intro m h
      exact ih _ (loadMap_empty a m h)
  exact this v [] (fun _ => rfl)

theorem initState_passInv (ref : RefTable) (v : List FontChar) (hd : distinctNames v)
    (h0 : ∀ fc ∈ v, fc.newName = "") : passInv ref (initState v) := by
  refine ⟨nodup_of_distinctNames v hd, ?_, ?_, Or.inr h0⟩
  · intro fc hfc
    rw [initState_empty]
    exact h0 fc hfc
  · intro fa hfa fb _ _ _ hne _
    exact absurd (h0 fa hfa) hne

theorem passInv_unique (ref : RefTable) (s : State) (h : passInv ref s) :
    ∀ (a b : Nat) (fa fb : FontChar), s.vFontChar[a]? = some fa → s.vFontChar[b]? = some fb →
      a ≠ b → (fa.unicodeVal = -1 ∨ refName ref fa.unicodeVal = "") →
      fa.newName ≠ "" → fa.newName ≠ fa.curName →
      fa.newName ≠ fb.curName ∧ fa.newName ≠ fb.newName := by
  intro a b fa fb ha hb hab hcomp hne hown
  exact h.2.2.1 fa (List.mem_iff_getElem?.2 ⟨a, ha⟩) fb (List.mem_iff_getElem?.2 ⟨b, hb⟩)
    (distinctNames_of_nodup _ h.1 a b fa fb ha hb hab) hcomp hne hown

/-- C1 (counterexample): the two base glyphs of `seedClashGlyphs` have distinct
current names; the first pass renames nothing in its ligature stage, so the
pass loop stops at once; and the new name `k2` that the base character stage
gave to the glyph `k3` is the current name of the other glyph. In
`halfFormGlyphs`, also with distinct current names, the pass loop stops after
two passes and the name `y2` kept by the half-form override for the glyph `y2`
is the new name of the glyph `b`. -/
theorem C1_seeded_name_clash :
    distinctNames seedClashGlyphs ∧
    (mainLoop "VIRAMA" seedClashRef 1 (initState seedClashGlyphs)).map
        (fun r => (r.1, r.2.renCount, r.2.vFontChar.map (fun fc => (fc.curName, fc.newName))))
      = some (0, 0, [("k2", "k1"), ("k3", "k2")]) ∧
    distinctNames halfFormGlyphs ∧
    (mainLoop "VIRAMA" halfFormRef 2 (initState halfFormGlyphs)).map
        (fun r => (r.1, r.2.renCount, r.2.vFontChar.map (fun fc => (fc.curName, fc.newName))))
      = some (0, 0, [("y2", "y2"), ("a", "y1"), ("b", "y2")]) :=
  ⟨distinctNames_of_nodup _ (by decide), by decide,
    distinctNames_of_nodup _ (by decide), by decide⟩

/-- C1 (amended): for every glyph set with pairwise distinct current names and
empty new names and every reference table, every number of passes from the
state `main` starts with returns a state, and in that state, as in every state
the pass loop of `main` stops with, for all records `a ≠ b`: if the new name
of `a` is not empty, was given by the ligature stage (`a` has the code point
`-1` or no reference name) and is not the own current name of `a` (kept by the
half-form override), it differs from the current name and from the new name
of `b`. -/
theorem C1_uniqueness_of_ligature_names (VIRAMA : String) (ref : RefTable)
    (v : List FontChar) (hd : distinctNames v) (h0 : ∀ fc ∈ v, fc.newName = "") :
    (∀ n, ∃ s, passN VIRAMA ref n (initState v) = some s ∧
      ∀ (a b : Nat) (fa fb : FontChar), s.vFontChar[a]? = some fa → s.vFontChar[b]? = some fb →
        a ≠ b → (fa.unicodeVal = -1 ∨ refName ref fa.unicodeVal = "") →
        fa.newName ≠ "" → fa.newName ≠ fa.curName →
        fa.newName ≠ fb.curName ∧ fa.newName ≠ fb.newName) ∧
    (∀ n r, mainLoop VIRAMA ref n (initState v) = some r →
      ∀ (a b : Nat) (fa fb : FontChar), r.2.vFontChar[a]? = some fa →
        r.2.vFontChar[b]? = some fb →
        a ≠ b → (fa.unicodeVal = -1 ∨ refName ref fa.unicodeVal = "") →
        fa.newName ≠ "" → fa.newName ≠ fa.curName →
        fa.newName ≠ fb.curName ∧ fa.newName ≠ fb.newName) := by
  have hinit := initState_passInv ref v hd h0
  constructor
  · intro n
    obtain ⟨s, hs⟩ := passN_some VIRAMA ref n (initState v)
    exact ⟨s, hs, passInv_unique ref s (passN_passInv VIRAMA ref n _ s hs hinit)⟩
  · intro n r hr
    exact passInv_unique ref r.2 (mainLoop_passInv VIRAMA ref n _ r hr hinit)

/-- Witness of C1 (amended): the glyph set `retractGlyphs`. -/
theorem C1_uniqueness_of_ligature_names_witness :
    (distinctNames retractGlyphs ∧ ∀ fc ∈ retractGlyphs, fc.newName = "") ∧
    ((∀ n, ∃ s, passN "VIRAMA" retractRef n (initState retractGlyphs) = some s ∧
      ∀ (a b : Nat) (fa fb : FontChar), s.vFontChar[a]? = some fa → s.vFontChar[b]? = some fb →
        a ≠ b → (fa.unicodeVal = -1 ∨ refName retractRef fa.unicodeVal = "") →
        fa.newName ≠ "" → fa.newName ≠ fa.curName →
        fa.newName ≠ fb.curName ∧ fa.newName ≠ fb.newName) ∧
    (∀ n r, mainLoop "VIRAMA" retractRef n (initState retractGlyphs) = some r →
      ∀ (a b : Nat) (fa fb : FontChar), r.2.vFontChar[a]? = some fa →
        r.2.vFontChar[b]? = some fb →
        a ≠ b → (fa.unicodeVal = -1 ∨ refName retractRef fa.unicodeVal = "") →
        fa.newName ≠ "" → fa.newName ≠ fa.curName →
        fa.newName ≠ fb.curName ∧ fa.newName ≠ fb.newName)) :=
  ⟨⟨distinctNames_of_nodup _ (by decide), by decide⟩,
    C1_uniqueness_of_ligature_names "VIRAMA" retractRef retractGlyphs
      (distinctNames_of_nodup _ (by decide)) (by decide)⟩

theorem buildLoop_concat (VIRAMA Virama Zwj : String) (nameMap : NameMap) (size : Nat)
    (rest : List String) : ∀ (i : Nat) (st : BuildSt), st.out = st.newName →
    (∀ p c, rest[p]? = some c → (c = ZWJ ∨ c = Zwj) → ¬ (i + p = 2 ∧ size = 3)) →
    (buildLoop VIRAMA Virama Zwj nameMap size rest i st).out
      = st.newName ++ compositeName VIRAMA Virama Zwj nameMap rest := by
  induction rest with
  | nil => intro i st h _; simp [buildLoop, compositeName, h]
  | cons comp tl ih =>
    intro i st hout hno
    have htl : ∀ p c, tl[p]? = some c → (c = ZWJ ∨ c = Zwj) → ¬ (i + 1 + p = 2 ∧ size = 3) := by
      intro p c hp hc
      have := hno (p + 1) c (by simpa using hp) hc
      intro hh
      exact this ⟨by omega, hh.2⟩
    by_cases hz : comp = ZWJ ∨ comp = Zwj
    · have hnc : ¬ (i = 2 ∧ size = 3) := by
        have := hno 0 comp (by simp) hz
        simpa using this
      have hcond : ¬ (i = 2 ∧ st.cFlag = 1 ∧ size = 3) := fun hh => hnc ⟨hh.1, hh.2.2⟩
      simp only [buildLoop, if_pos hz, if_neg hcond]
      rw [ih (i + 1) { st with zFlag := st.zFlag + 1 } hout htl]
      simp [compositeName, contribution, hz]
    · by_cases hv : comp = "VIRAMA" ∨ comp = Virama
      · simp only [buildLoop, if_neg hz, if_pos hv]
        rw [ih (i + 1) { st with cFlag := st.cFlag + 1 } hout htl]
        simp [compositeName, contribution, hz, hv]
      · by_cases hm : mapGet nameMap comp = ""
        · have hl : ¬ (mapGet nameMap comp).length ≠ 0 := by
            rw [length_ne_zero_iff]; simp [hm]
          simp only [buildLoop, if_neg hz, if_neg hv, if_neg hl]
          rw [ih (i + 1) _ rfl htl]
          simp [compositeName, contribution, hz, hv, hm, String.append_assoc]
        · have hl : (mapGet nameMap comp).length ≠ 0 := (length_ne_zero_iff _).2 hm
          by_cases hmv : mapGet nameMap comp = VIRAMA
          · simp only [buildLoop, if_neg hz, if_neg hv, if_pos hl, if_pos hmv]
            rw [ih (i + 1) st hout htl]
            have hV : ¬ VIRAMA = "" := by rw [← hmv]; exact hm
            simp [compositeName, contribution, hz, hv, hmv, hV]
          · simp only [buildLoop, if_neg hz, if_neg hv, if_pos hl, if_neg hmv]
            rw [ih (i + 1) _ rfl htl]
            simp [compositeName, contribution, hz, hv, hm, hmv, String.append_assoc]

/-- C11: for every rename map and every component list that is not a list of
three components ending in a joiner, `buildName` started with an empty output
returns `SUCCESS` and the concatenation, from left to right, of the
contributions of the components (`compositeName`). -/
theorem C11_composite_name (VIRAMA Virama Zwj : String) (nameMap : NameMap)
    (comps : List String)
    (h : ¬ (comps.length = 3 ∧ ∃ j, comps[2]? = some j ∧ (j = ZWJ ∨ j = Zwj))) :
    buildName VIRAMA Virama Zwj nameMap comps ""
      = (SUCCESS, compositeName VIRAMA Virama Zwj nameMap comps) := by
  unfold buildName
  rw [buildLoop_concat VIRAMA Virama Zwj nameMap comps.length comps 0 _ rfl]
  · simp
  · intro p c hp hc hh
    apply h
    refine ⟨hh.2, c, ?_, hc⟩
    have : p = 2 := by omega
    rw [← this]; exact hp

/-- Witness of C11: four components, among them the virama glyph `xx`, the
joiner and an unmapped glyph. -/
theorem C11_composite_name_witness :
    ¬ (["ka", "xx", "ZWJ", "ssa"].length = 3 ∧
      ∃ j, ["ka", "xx", "ZWJ", "ssa"][2]? = some j ∧ (j = ZWJ ∨ j = "zw")) ∧
    buildName "VIRAMA" "xx" "zw" [("ka", "k1"), ("xx", "VIRAMA")] ["ka", "xx", "ZWJ", "ssa"] ""
      = (SUCCESS, compositeName "VIRAMA" "xx" "zw" [("ka", "k1"), ("xx", "VIRAMA")]
          ["ka", "xx", "ZWJ", "ssa"]) ∧
    compositeName "VIRAMA" "xx" "zw" [("ka", "k1"), ("xx", "VIRAMA")]
      ["ka", "xx", "ZWJ", "ssa"] = "k1ssa" :=
  ⟨by decide,
    C11_composite_name "VIRAMA" "xx" "zw" [("ka", "k1"), ("xx", "VIRAMA")]
      ["ka", "xx", "ZWJ", "ssa"] (by decide),
    by decide⟩

/-- C12 (the code diverges from the claim): with `xx` the discovered virama
glyph, the list `xx`, `ka`, `ZWJ` ends in a joiner and its second component
`ka` is an ordinary glyph, and `buildName` yields `ka` followed by `chillu`:
the test counts the elision markers seen before the joiner and does not look
at the position of the marker. -/
theorem C12_chillu_after_ordinary_glyph :
    buildName "VIRAMA" "xx" "" [("xx", "VIRAMA")] ["xx", "ka", "ZWJ"] ""
      = (SUCCESS, "ka" ++ CHILLU_NANE) ∧
    buildName "VIRAMA" "xx" "" [("xx", "VIRAMA")] ["ka", "xx", "ZWJ"] ""
      = (SUCCESS, "ka" ++ CHILLU_NANE) := by
  decide

/-! ### The rewriting of the lines -/

/-- C13 (the code diverges from the claim): in `twiceLine` the glyph list is
made of the name `uni0D15` twice, separated by one space, and the map gives it
the shorter name `k1` without a space; `replaceGlyphNames` replaces the first
occurrence only, because the search goes on at the offset computed from the
old name. The example of the claim, `exampleLine`, is rewritten as stated. -/
theorem C13_second_occurrence_missed :
    getTok twiceLine "" '"' 3 = (SUCCESS, " uni0D15 uni0D15") ∧
    replaceGlyphNames [("uni0D15", "k1")] twiceLine
      = some (SUCCESS, "Ligature2: \"'akhn' sub\" k1 uni0D15") ∧
    replaceGlyphNames [("k1", "N")] exampleLine
      = some (SUCCESS, "Ligature2: \"'akhn' sub\" xxk1 N k1xx") := by
  decide

/-- C14 (the code diverges from the claim): the glyph list of `prefixLine`
starts with the token `k1xx`, of which the mapped name `k1` is a proper
prefix; the match at offset `0` is replaced without a look at the character
after it, and the token becomes `Nxx`. -/
theorem C14_prefix_replaced_at_offset_zero :
    getTok prefixLine "" '"' 3 = (SUCCESS, "k1xx k1") ∧
    replaceGlyphNames [("k1", "N")] prefixLine
      = some (SUCCESS, "Ligature2: \"'akhn' sub\"Nxx N") := by
  decide

/-- C15 (counterexample): the glyph list ` k2 k3` has the names `k2` and `k3`,
the map renames `k3` to `k2` and `k2` to `k1`; substituting `k2` first, as the
key order of the code does, gives ` k1 k2`, substituting `k3` first gives
` k1 k1`. -/
theorem C15_order_matters :
    (glyphComps " k2 k3").map (fun m => m.1) = ["k2", "k3"] ∧
    substLoop [("k2", "k1"), ("k3", "k2")] ["k2", "k3"] " k2 k3" = some " k1 k2" ∧
    substLoop [("k2", "k1"), ("k3", "k2")] ["k3", "k2"] " k2 k3" = some " k1 k1" := by
  decide

/-- C16 (counterexample): the passes over `chainGlyphs` reach the fixed point
with the rename map `chainMap`, in which the new name of `k3` is the old name
`k2`; the ligature line of the glyph `c` is rewritten to the names `k2 k1`, and
rewriting that line again gives `k1 k1`: the first stage of a pass gives the
new names without a look at the old names. The second rewriting also changes a
line on which the first one went wrong. The passes over `twiceGlyphs` end with
the rename map `twiceMap`; the line `twiceLine` holds the name `uni0D15` twice,
the first rewriting misses the second one (the search offset is not moved back
by the five characters the new name is shorter) and the second rewriting
replaces it. On the line `nameInQuotesLine` the first rewriting writes the new
glyph list over the text inside the quotes (the list is searched from the start
of the line) and the second rewriting replaces the name after the quotes. A
new name with a space is read as two names by the second rewriting, and a new
name with a double quote moves the end of the glyph list the second rewriting
reads. -/
theorem C16_second_rewrite_changes :
    (mainLoop "VIRAMA" seedClashRef 2 (initState chainGlyphs)).map
        (fun r => (r.1, r.2.renCount, r.2.nameMap)) = some (0, 0, chainMap) ∧
    replaceGlyphNames chainMap chainLine
      = some (SUCCESS, "Ligature2: \"'liga' sub\" k2 k1") ∧
    replaceGlyphNames chainMap "Ligature2: \"'liga' sub\" k2 k1"
      = some (SUCCESS, "Ligature2: \"'liga' sub\" k1 k1") ∧
    (mainLoop "VIRAMA" seedClashRef 2 (initState twiceGlyphs)).map
        (fun r => (r.1, r.2.renCount, r.2.nameMap)) = some (0, 0, twiceMap) ∧
    replaceGlyphNames twiceMap twiceLine
      = some (SUCCESS, "Ligature2: \"'akhn' sub\" k1 uni0D15") ∧
    replaceGlyphNames twiceMap "Ligature2: \"'akhn' sub\" k1 uni0D15"
      = some (SUCCESS, "Ligature2: \"'akhn' sub\" k1 k1") ∧
    replaceGlyphNames [("k1", "N")] nameInQuotesLine
      = some (SUCCESS, "Ligature2: \"x N\" k1") ∧
    replaceGlyphNames [("k1", "N")] "Ligature2: \"x N\" k1"
      = some (SUCCESS, "Ligature2: \"x N\" N") ∧
    replaceGlyphNames [("k1", "k1 x")] "Ligature2: \"'akhn' sub\" k1"
      = some (SUCCESS, "Ligature2: \"'akhn' sub\" k1 x") ∧
    replaceGlyphNames [("k1", "k1 x")] "Ligature2: \"'akhn' sub\" k1 x"
      = some (SUCCESS, "Ligature2: \"'akhn' sub\" k1 x x") ∧
    replaceGlyphNames [("a", "z"), ("k1", "a\"b")] "Ligature2: \"'akhn' sub\" k1"
      = some (SUCCESS, "Ligature2: \"'akhn' sub\" a\"b") ∧
    replaceGlyphNames [("a", "z"), ("k1", "a\"b")] "Ligature2: \"'akhn' sub\" a\"b"
      = some (SUCCESS, "Ligature2: \"'akhn' sub\" z\"b") :=
  ⟨by decide, by decide, by decide, by decide, by decide, by decide, by decide, by decide,
    by decide, by decide, by decide, by decide⟩

/-- C17 (the code diverges from the claim): the header of the glyph `a`, whose
new name is `ka`; the name is searched from the start of the line and found in
the keyword, so the keyword is altered and the glyph name is kept. A header
whose glyph name does not occur in the keyword is rewritten as stated. -/
theorem C17_keyword_altered :
    replaceFCName [("a", "ka")] "StartChar: a" = (SUCCESS, "StkartChar: a") ∧
    replaceFCName [("k1", "ka")] "StartChar: k1" = (SUCCESS, "StartChar: ka") := by
  decide

/-! ### Frame properties of a pass -/

theorem syncLoop_fst (v : List FontChar) : ∀ (m m0 : NameMap),
    (∀ key, mapGet m key = mapGet m0 key) → (syncLoop v m).1 = v.map (syncRec m0) := by
  induction v with
  | nil => intro m m0 _; rfl
  | cons a rest ih =>
    intro m m0 h
    have hrest : ∀ key, mapGet (mapTouch m a.curName) key = mapGet m0 key := by
      intro key; rw [mapGet_mapTouch]; exact h key
    simp only [syncLoop, ih _ m0 hrest, List.map_cons, syncRec, h]

theorem syncRec_curName (m : NameMap) (fc : FontChar) : (syncRec m fc).curName = fc.curName := by
  unfold syncRec; split <;> rfl

theorem preLig_vFontChar_eq (VIRAMA : String) (ref : RefTable) (s : State) :
    (preLig VIRAMA ref s).vFontChar
      = (s.vFontChar.map (seedRec ref)).map
          (syncRec (seedLoop ref s.vFontChar s.nameMap).2) := by
  unfold preLig
  simp only
  rw [syncLoop_fst _ _ (seedLoop ref s.vFontChar s.nameMap).2 (fun _ => rfl), seedLoop_fst]

theorem preLig_names (VIRAMA : String) (ref : RefTable) (s : State) :
    (preLig VIRAMA ref s).vFontChar.map (fun fc => fc.curName)
      = s.vFontChar.map (fun fc => fc.curName) := by
  rw [preLig_vFontChar_eq, List.map_map, List.map_map]
  apply List.map_congr_left
  intro fc _
  simp [syncRec_curName, seedRec_curName]

theorem preLig_getElem (VIRAMA : String) (ref : RefTable) (s : State) (j : Nat) (fc : FontChar)
    (h : s.vFontChar[j]? = some fc) :
    (preLig VIRAMA ref s).vFontChar[j]?
      = some (syncRec (seedLoop ref s.vFontChar s.nameMap).2 (seedRec ref fc)) := by
  rw [preLig_vFontChar_eq, List.getElem?_map, List.getElem?_map, h]
  rfl

theorem distinctNames_of_names_eq (v w : List FontChar)
    (h : w.map (fun fc => fc.curName) = v.map (fun fc => fc.curName))
    (hd : distinctNames v) : distinctNames w := by
  apply distinctNames_of_nodup
  rw [h]
  exact nodup_of_distinctNames v hd

theorem mem_names_iff (v w : List FontChar)
    (h : w.map (fun fc => fc.curName) = v.map (fun fc => fc.curName)) (g : String) :
    (∀ x ∈ w, x.curName ≠ g) ↔ (∀ x ∈ v, x.curName ≠ g) := by
  have key : ∀ (u : List FontChar), (∀ x ∈ u, x.curName ≠ g)
      ↔ g ∉ u.map (fun fc => fc.curName) := by
    intro u
    simp only [List.mem_map, not_exists, not_and]
  rw [key w, key v, h]

/-- The body of the ligature stage keeps the current names of the glyphs. -/
theorem ligStep_names (VIRAMA : String) (i : Nat) (s : State) (r : Int × State)
    (h : ligStep VIRAMA i s = some r) :
    r.2.vFontChar.map (fun fc => fc.curName) = s.vFontChar.map (fun fc => fc.curName) := by
  rcases ligStep_cases VIRAMA i s r h with ⟨hv, _⟩ | ⟨fc, X, hi, _, _, _, hv, _⟩
  · rw [hv]
  · rw [hv, map_set_curName _ _ _ _ hi]

/-- The body of the ligature stage does not change the entry of a key that is
not the current name of a glyph. -/
theorem ligStep_nonname (VIRAMA : String) (i : Nat) (s : State) (r : Int × State)
    (h : ligStep VIRAMA i s = some r) (g : String) (hg : ∀ x ∈ s.vFontChar, x.curName ≠ g) :
    mapGet r.2.nameMap g = mapGet s.nameMap g := by
  rcases ligStep_cases VIRAMA i s r h with ⟨_, _, hm, _⟩ | ⟨fc, X, hi, _, _, _, _, hm, _⟩
  · exact hm g
  · rw [hm g, if_neg (hg fc (List.mem_iff_getElem?.2 ⟨i, hi⟩))]

/-- The body of the ligature stage keeps a glyph and its map entry when the
glyph is not the one visited, or has no ligature, or has a name in the map, or
has a form with a component without a name in the map. -/
theorem ligStep_keeps (VIRAMA : String) (i j : Nat) (s : State) (r : Int × State)
    (fc : FontChar) (h : ligStep VIRAMA i s = some r) (hd : distinctNames s.vFontChar)
    (hj : s.vFontChar[j]? = some fc)
    (hc : i = j → (fc.ligatureList = [] ∨ mapGet s.nameMap fc.curName ≠ "" ∨
      ∃ f ∈ fc.ligatureList, ∃ g ∈ f.glyphNames, mapGet s.nameMap g = "")) :
    r.2.vFontChar[j]? = some fc ∧
      mapGet r.2.nameMap fc.curName = mapGet s.nameMap fc.curName := by
  by_cases hij : i = j
  · subst hij
    rcases hc rfl with h1 | h1 | h1
    · rcases ligStep_cases VIRAMA i s r h with ⟨hv, _, hm, _⟩ |
        ⟨fc2, X, hi, hl, _, _, _, _⟩
      · exact ⟨by rw [hv]; exact hj, hm _⟩
      · rw [hj] at hi
        rw [Option.some.inj hi] at h1
        exact absurd h1 hl
    · rcases ligStep_cases VIRAMA i s r h with ⟨hv, _, hm, _⟩ |
        ⟨fc2, X, hi, _, he, _, _, _⟩
      · exact ⟨by rw [hv]; exact hj, hm _⟩
      · rw [hj] at hi
        rw [Option.some.inj hi] at h1
        exact absurd he h1
    · obtain ⟨r2, hr2, hv, _, hm, _⟩ := ligStep_blocked VIRAMA i s fc hj h1
      rw [h] at hr2
      rw [Option.some.inj hr2]
      exact ⟨by rw [hv]; exact hj, hm _⟩
  · rcases ligStep_cases VIRAMA i s r h with ⟨hv, _, hm, _⟩ |
      ⟨fc2, X, hi, _, _, _, hv, hm, _⟩
    · exact ⟨by rw [hv]; exact hj, hm _⟩
    · refine ⟨by rw [hv, List.getElem?_set_ne hij]; exact hj, ?_⟩
      rw [hm, if_neg (hd i j fc2 fc hi hj hij)]

/-- The body of the ligature stage returns `SUCCESS`, or `FAIL` for a glyph
with a ligature that is named `InvalidObject`. -/
theorem ligStep_ret (VIRAMA : String) (i : Nat) (s : State) (r : Int × State)
    (h : ligStep VIRAMA i s = some r) :
    r.1 = SUCCESS ∨ (r.1 = FAIL ∧ ∃ fc, s.vFontChar[i]? = some fc ∧
      fc.curName = "InvalidObject" ∧ fc.ligatureList ≠ []) := by
  unfold ligStep at h
  cases hi : s.vFontChar[i]? with
  | none =>
    simp only [hi, Option.some.injEq] at h
    subst h; exact Or.inl rfl
  | some fc =>
    simp only [hi] at h
    by_cases hl : fc.ligatureList.length = 0
    · simp only [if_pos hl, Option.some.injEq] at h
      subst h; exact Or.inl rfl
    · simp only [if_neg hl] at h
      split at h
      · simp only [Option.some.injEq] at h
        subst h; exact Or.inl rfl
      · split at h
        · rename_i hfail
          simp only [Option.some.injEq] at h
          subst h
          right
          refine ⟨rfl, fc, rfl, ?_, fun e => hl (by rw [e]; rfl)⟩
          by_contra hne
          have : ∀ (l : List Ligature) (sc : Scan), (formLoop fc.curName l sc).1 = SUCCESS := by
            intro l
            induction l with
            | nil => intro sc; rfl
            | cons a t ih => intro sc; simp only [formLoop, if_neg hne]; exact ih _
          rw [this] at hfail
          simp [SUCCESS, FAIL] at hfail
        · split at h
          · simp only [Option.some.injEq] at h
            subst h; exact Or.inl rfl
          · split at h
            · simp at h
            · simp only [Option.some.injEq] at h
              subst h; exact Or.inl rfl

theorem ligLoop_names (VIRAMA : String) : ∀ (n i : Nat) (s : State) (r : Int × State),
    ligLoop VIRAMA n i s = some r →
    r.2.vFontChar.map (fun fc => fc.curName) = s.vFontChar.map (fun fc => fc.curName) := by
  intro n
  induction n with
  | zero =>
    intro i s r h
    simp only [ligLoop, Option.some.injEq] at h
    subst h; rfl
  | succ k ih =>
    intro i s r h
    simp only [ligLoop] at h
    cases hstep : ligStep VIRAMA i s with
    | none => simp [hstep] at h
    | some q =>
      simp only [hstep] at h
      have hq := ligStep_names VIRAMA i s q hstep
      by_cases hf : q.1 = FAIL
      · simp only [if_pos hf, Option.some.injEq] at h
        subst h; exact hq
      · simp only [if_neg hf] at h
        rw [ih _ _ _ h, hq]

theorem ligLoop_ret (VIRAMA : String) : ∀ (n i : Nat) (s : State) (r : Int × State),
    ligLoop VIRAMA n i s = some r →
    r.1 = SUCCESS ∨ (r.1 = FAIL ∧ ∃ fc ∈ s.vFontChar,
      fc.curName = "InvalidObject" ∧ fc.ligatureList ≠ []) := by
  intro n
  induction n with
  | zero =>
    intro i s r h
    simp only [ligLoop, Option.some.injEq] at h
    subst h; exact Or.inl rfl
  | succ k ih =>
    intro i s r h
    simp only [ligLoop] at h
    cases hstep : ligStep VIRAMA i s with
    | none => simp [hstep] at h
    | some q =>
      simp only [hstep] at h
      by_cases hf : q.1 = FAIL
      · simp only [if_pos hf, Option.some.injEq] at h
        subst h
        rcases ligStep_ret VIRAMA i s q hstep with h1 | ⟨_, fc, hi, hn, hl⟩
        · exact Or.inl h1
        · exact Or.inr ⟨hf, fc, List.mem_iff_getElem?.2 ⟨i, hi⟩, hn, hl⟩
      · simp only [if_neg hf] at h
        rcases ih _ _ _ h with h1 | ⟨h1, fc, hfc, hn, hl⟩
        · exact Or.inl h1
        · right
          refine ⟨h1, ?_⟩
          rcases ligStep_cases VIRAMA i s q hstep with ⟨hv, _⟩ | ⟨fc2, X, hi, hl2, _, _, hv, _⟩
          · exact ⟨fc, by rw [← hv]; exact hfc, hn, hl⟩
          · rw [hv] at hfc
            obtain ⟨p, hp⟩ := List.mem_iff_getElem?.1 hfc
            by_cases hip : i = p
            · subst hip
              rw [List.getElem?_set] at hp
              simp only [if_true] at hp
              split at hp
              · have e := Option.some.inj hp
                refine ⟨fc2, List.mem_iff_getElem?.2 ⟨i, hi⟩, ?_, hl2⟩
                rw [← e] at hn; exact hn
              · exact absurd hp (by simp)
            · rw [List.getElem?_set_ne hip] at hp
              exact ⟨fc, List.mem_iff_getElem?.2 ⟨p, hp⟩, hn, hl⟩

theorem ligLoop_keeps (VIRAMA : String) (j : Nat) (fc : FontChar) (c : String)
    (hc : fc.ligatureList = [] ∨ c ≠ "") : ∀ (n i : Nat) (s : State) (r : Int × State),
    ligLoop VIRAMA n i s = some r → distinctNames s.vFontChar →
    s.vFontChar[j]? = some fc → mapGet s.nameMap fc.curName = c →
    r.2.vFontChar[j]? = some fc ∧ mapGet r.2.nameMap fc.curName = c := by
  intro n
  induction n with
  | zero =>
    intro i s r h _ hj hm
    simp only [ligLoop, Option.some.injEq] at h
    subst h; exact ⟨hj, hm⟩
  | succ k ih =>
    intro i s r h hd hj hm
    simp only [ligLoop] at h
    cases hstep : ligStep VIRAMA i s with
    | none => simp [hstep] at h
    | some q =>
      simp only [hstep] at h
      have hq := ligStep_keeps VIRAMA i j s q fc hstep hd hj (fun _ => by
        rcases hc with h1 | h1
        · exact Or.inl h1
        · exact Or.inr (Or.inl (by rw [hm]; exact h1)))
      have hd2 : distinctNames q.2.vFontChar :=
        distinctNames_of_names_eq _ _ (ligStep_names VIRAMA i s q hstep) hd
      by_cases hf : q.1 = FAIL
      · simp only [if_pos hf, Option.some.injEq] at h
        subst h; exact ⟨hq.1, by rw [hq.2, hm]⟩
      · simp only [if_neg hf] at h
        exact ih _ _ _ h hd2 hq.1 (by rw [hq.2, hm])

theorem refName_of_absent (ref : RefTable) (cp : Int) (h : ∀ p ∈ ref, p.1 ≠ cp) :
    refName ref cp = "" := by
  induction ref with
  | nil => rfl
  | cons p rest ih =>
    obtain ⟨c, n⟩ := p
    have h1 : c ≠ cp := h (c, n) (List.mem_cons_self _ _)
    simp [refName, h1, ih (fun q hq => h q (List.mem_cons_of_mem _ hq))]

theorem seedRec_ligatureList (ref : RefTable) (fc : FontChar) :
    (seedRec ref fc).ligatureList = fc.ligatureList := by
  unfold seedRec; split <;> rfl

theorem syncRec_ligatureList (m : NameMap) (fc : FontChar) :
    (syncRec m fc).ligatureList = fc.ligatureList := by
  unfold syncRec; split <;> rfl

/-- A call of `renameGlyphs` keeps the current names of the glyphs. -/
theorem renameGlyphs_names (VIRAMA : String) (ref : RefTable) (s : State) (r : Int × State)
    (h : renameGlyphs VIRAMA ref s = some r) :
    r.2.vFontChar.map (fun fc => fc.curName) = s.vFontChar.map (fun fc => fc.curName) := by
  rw [ligLoop_names VIRAMA _ _ _ r h, preLig_names]

/-- A call of `renameGlyphs` returns `SUCCESS`, or `FAIL` when a glyph with a
ligature is named `InvalidObject`. -/
theorem renameGlyphs_ret (VIRAMA : String) (ref : RefTable) (s : State) (r : Int × State)
    (h : renameGlyphs VIRAMA ref s = some r) :
    r.1 = SUCCESS ∨ (r.1 = FAIL ∧ ∃ fc ∈ s.vFontChar,
      fc.curName = "InvalidObject" ∧ fc.ligatureList ≠ []) := by
  rcases ligLoop_ret VIRAMA _ _ _ r h with h1 | ⟨h1, fc, hfc, hn, hl⟩
  · exact Or.inl h1
  · right
    refine ⟨h1, ?_⟩
    rw [preLig_vFontChar_eq] at hfc
    obtain ⟨y, hy, rfl⟩ := List.mem_map.1 hfc
    obtain ⟨x, hx, rfl⟩ := List.mem_map.1 hy
    refine ⟨x, hx, ?_, ?_⟩
    · rw [syncRec_curName, seedRec_curName] at hn; exact hn
    · rw [syncRec_ligatureList, seedRec_ligatureList] at hl; exact hl

/-- C18: for a state whose glyphs have pairwise distinct current names and
every reference table, a call of `renameGlyphs` returns; after it every glyph
whose code point is not `-1` and has a non-empty reference name carries that
name, as new name and as entry of the rename map; a glyph without ligature
whose code point is not `-1` and is absent from the table has the empty new
name and the empty entry; and the call returns `SUCCESS` unless a glyph with
a ligature is named `InvalidObject`. -/
theorem C18_seeding (VIRAMA : String) (ref : RefTable) (s : State)
    (hd : distinctNames s.vFontChar) :
    ∃ r, renameGlyphs VIRAMA ref s = some r ∧
      (∀ (j : Nat) (fc : FontChar), s.vFontChar[j]? = some fc → fc.unicodeVal ≠ -1 →
        refName ref fc.unicodeVal ≠ "" →
        r.2.vFontChar[j]? = some { fc with newName := refName ref fc.unicodeVal } ∧
        mapGet r.2.nameMap fc.curName = refName ref fc.unicodeVal) ∧
      (∀ (j : Nat) (fc : FontChar), s.vFontChar[j]? = some fc → fc.unicodeVal ≠ -1 → fc.ligatureList = [] →
        (∀ p ∈ ref, p.1 ≠ fc.unicodeVal) →
        r.2.vFontChar[j]? = some { fc with newName := "" } ∧
        mapGet r.2.nameMap fc.curName = "") ∧
      (r.1 = SUCCESS ∨ (r.1 = FAIL ∧ ∃ fc ∈ s.vFontChar,
        fc.curName = "InvalidObject" ∧ fc.ligatureList ≠ [])) := by
  obtain ⟨r, hr⟩ := renameGlyphs_some VIRAMA ref s
  have hnd := nodup_of_distinctNames _ hd
  have hdp : distinctNames (preLig VIRAMA ref s).vFontChar :=
    distinctNames_of_names_eq _ _ (preLig_names VIRAMA ref s) hd
  have hbase : ∀ (j : Nat) (fc : FontChar), s.vFontChar[j]? = some fc → fc.unicodeVal ≠ -1 →
      (preLig VIRAMA ref s).vFontChar[j]?
        = some { fc with newName := refName ref fc.unicodeVal } ∧
      mapGet (preLig VIRAMA ref s).nameMap fc.curName = refName ref fc.unicodeVal := by
    intro j fc hj hcp
    have hmem : fc ∈ s.vFontChar := List.mem_iff_getElem?.2 ⟨j, hj⟩
    have hm1 := seedLoop_snd_base ref _ s.nameMap hnd fc hmem hcp
    refine ⟨?_, by rw [preLig_nameMap]; exact hm1⟩
    rw [preLig_getElem VIRAMA ref s j fc hj]
    have hs : seedRec ref fc = { fc with newName := refName ref fc.unicodeVal } := by
      simp [seedRec, hcp]
    rw [hs]
    unfold syncRec
    simp only [hm1]
    split <;> rfl
  refine ⟨r, hr, ?_, ?_, renameGlyphs_ret VIRAMA ref s r hr⟩
  · intro j fc hj hcp hrn
    obtain ⟨h1, h2⟩ := hbase j fc hj hcp
    exact ligLoop_keeps VIRAMA j { fc with newName := refName ref fc.unicodeVal }
      (refName ref fc.unicodeVal) (Or.inr hrn) _ _ _ r hr hdp h1 h2
  · intro j fc hj hcp hl habs
    obtain ⟨h1, h2⟩ := hbase j fc hj hcp
    rw [refName_of_absent ref _ habs] at h1 h2
    exact ligLoop_keeps VIRAMA j { fc with newName := "" } "" (Or.inl hl) _ _ _ r hr hdp h1 h2

/-- Witness of C18: the state `main` starts with for `retractGlyphs`. -/
theorem C18_seeding_witness :
    distinctNames (initState retractGlyphs).vFontChar ∧
    ∃ r, renameGlyphs "VIRAMA" retractRef (initState retractGlyphs) = some r ∧
      (∀ (j : Nat) (fc : FontChar), (initState retractGlyphs).vFontChar[j]? = some fc → fc.unicodeVal ≠ -1 →
        refName retractRef fc.unicodeVal ≠ "" →
        r.2.vFontChar[j]? = some { fc with newName := refName retractRef fc.unicodeVal } ∧
        mapGet r.2.nameMap fc.curName = refName retractRef fc.unicodeVal) ∧
      (∀ (j : Nat) (fc : FontChar), (initState retractGlyphs).vFontChar[j]? = some fc → fc.unicodeVal ≠ -1 →
        fc.ligatureList = [] → (∀ p ∈ retractRef, p.1 ≠ fc.unicodeVal) →
        r.2.vFontChar[j]? = some { fc with newName := "" } ∧
        mapGet r.2.nameMap fc.curName = "") ∧
      (r.1 = SUCCESS ∨ (r.1 = FAIL ∧ ∃ fc ∈ (initState retractGlyphs).vFontChar,
        fc.curName = "InvalidObject" ∧ fc.ligatureList ≠ [])) :=
  ⟨distinctNames_of_nodup _ (by decide),
    C18_seeding "VIRAMA" retractRef (initState retractGlyphs)
      (distinctNames_of_nodup _ (by decide))⟩

theorem ligLoop_missing (VIRAMA : String) (j : Nat) (fc : FontChar) (f : Ligature) (g : String)
    (hf : f ∈ fc.ligatureList) (hg : g ∈ f.glyphNames) :
    ∀ (n i : Nat) (s : State) (r : Int × State),
    ligLoop VIRAMA n i s = some r → missingInv j fc g s → missingInv j fc g r.2 := by
  intro n
  induction n with
  | zero =>
    intro i s r h hinv
    simp only [ligLoop, Option.some.injEq] at h
    subst h; exact hinv
  | succ k ih =>
    intro i s r h hinv
    obtain ⟨hd, hj, hm, hmg, hno⟩ := hinv
    simp only [ligLoop] at h
    cases hstep : ligStep VIRAMA i s with
    | none => simp [hstep] at h
    | some q =>
      simp only [hstep] at h
      have hq := ligStep_keeps VIRAMA i j s q fc hstep hd hj
        (fun _ => Or.inr (Or.inr ⟨f, hf, g, hg, hmg⟩))
      have hnames := ligStep_names VIRAMA i s q hstep
      have hinv2 : missingInv j fc g q.2 :=
        ⟨distinctNames_of_names_eq _ _ hnames hd, hq.1, by rw [hq.2, hm],
          by rw [ligStep_nonname VIRAMA i s q hstep g hno, hmg],
          (mem_names_iff _ _ hnames g).2 hno⟩
      by_cases hfail : q.1 = FAIL
      · simp only [if_pos hfail, Option.some.injEq] at h
        subst h; exact hinv2
      · simp only [if_neg hfail] at h
        exact ih _ _ _ h hinv2

theorem renameGlyphs_missing (VIRAMA : String) (ref : RefTable) (j : Nat) (fc : FontChar)
    (f : Ligature) (g : String) (hf : f ∈ fc.ligatureList) (hg : g ∈ f.glyphNames)
    (hcp : fc.unicodeVal = -1) (s : State) (r : Int × State)
    (h : renameGlyphs VIRAMA ref s = some r) (hinv : missingInv j fc g s) :
    missingInv j fc g r.2 := by
  obtain ⟨hd, hj, hm, hmg, hno⟩ := hinv
  have hnames := preLig_names VIRAMA ref s
  have hother : ∀ x ∈ s.vFontChar, x.unicodeVal ≠ -1 → x.curName ≠ fc.curName := by
    intro x hx hxcp
    obtain ⟨a, ha⟩ := List.mem_iff_getElem?.1 hx
    by_cases haj : a = j
    · subst haj
      rw [hj] at ha
      cases ha
      exact absurd hcp hxcp
    · exact hd a j x fc ha hj haj
  have hm1 : mapGet (seedLoop ref s.vFontChar s.nameMap).2 fc.curName = "" := by
    rw [seedLoop_snd_other ref fc.curName s.vFontChar s.nameMap hother, hm]
  have hg1 : mapGet (seedLoop ref s.vFontChar s.nameMap).2 g = "" := by
    rw [seedLoop_snd_other ref g s.vFontChar s.nameMap (fun x hx _ => hno x hx), hmg]
  have hrec : (preLig VIRAMA ref s).vFontChar[j]? = some fc := by
    rw [preLig_getElem VIRAMA ref s j fc hj]
    have hs : seedRec ref fc = fc := by simp [seedRec, hcp]
    rw [hs]
    simp [syncRec, hm1]
  exact ligLoop_missing VIRAMA j fc f g hf hg _ _ _ r h
    ⟨distinctNames_of_names_eq _ _ hnames hd, hrec,
      by rw [preLig_nameMap]; exact hm1, by rw [preLig_nameMap]; exact hg1,
      (mem_names_iff _ _ hnames g).2 hno⟩

theorem passN_missing (VIRAMA : String) (ref : RefTable) (j : Nat) (fc : FontChar)
    (f : Ligature) (g : String) (hf : f ∈ fc.ligatureList) (hg : g ∈ f.glyphNames)
    (hcp : fc.unicodeVal = -1) : ∀ (n : Nat) (s t : State),
    passN VIRAMA ref n s = some t → missingInv j fc g s → missingInv j fc g t := by
  intro n
  induction n with
  | zero =>
    intro s t h hinv
    simp only [passN, Option.some.injEq] at h
    subst h
    exact hinv
  | succ k ih =>
    intro s t h hinv
    obtain ⟨r, hr⟩ := renameGlyphs_some VIRAMA ref s
    have hr2 := renameGlyphs_missing VIRAMA ref j fc f g hf hg hcp s r hr hinv
    simp only [passN, hr] at h
    split at h
    · simp only [Option.some.injEq] at h
      subst h
      exact hr2
    · exact ih _ _ h hr2

/-- The pass loop of `main` does not end with the value `2` when no glyph is
named `InvalidObject`. -/
theorem mainLoop_no_error (VIRAMA : String) (ref : RefTable) : ∀ (n : Nat) (s : State)
    (r : Int × State), mainLoop VIRAMA ref n s = some r →
    (∀ x ∈ s.vFontChar, x.curName ≠ "InvalidObject") → r.1 = 0 := by
  intro n
  induction n with
  | zero => intro s r h _; simp [mainLoop] at h
  | succ k ih =>
    intro s r h hno
    obtain ⟨q, hq⟩ := renameGlyphs_some VIRAMA ref s
    have hs : q.1 = SUCCESS := by
      rcases renameGlyphs_ret VIRAMA ref s q hq with h1 | ⟨_, x, hx, hn, _⟩
      · exact h1
      · exact absurd hn (hno x hx)
    have hno2 : ∀ x ∈ q.2.vFontChar, x.curName ≠ "InvalidObject" :=
      (mem_names_iff _ _ (renameGlyphs_names VIRAMA ref s q hq) _).2 hno
    simp only [mainLoop, hq] at h
    split at h
    · rename_i hne
      exact absurd hs hne
    · split at h
      · simp only [Option.some.injEq] at h
        subst h
        rfl
      · exact ih _ _ h hno2

/-- C19: for every glyph set (its current names are pairwise distinct: the
current name is the key of a glyph), every reference table and every number `n`
of passes started from the map built by `loadMap`, a glyph with code point `-1`
(whose new name is empty at the start of the run, when no name has been
assigned) that has a ligature with a component no glyph is named after is
unchanged after `n` passes, with an empty new name and an empty entry in the
rename map; and the pass loop of `main` does not end with the error value
because of it: it ends with the error value for no glyph set without a glyph
named `InvalidObject`, whatever the components are. -/
theorem C19_missing_dependency (VIRAMA : String) (ref : RefTable) (v : List FontChar)
    (n j : Nat) (fc : FontChar) (f : Ligature) (g : String)
    (hd : distinctNames v) (hj : v[j]? = some fc) (hcp : fc.unicodeVal = -1)
    (hnew : fc.newName = "") (hf : f ∈ fc.ligatureList) (hg : g ∈ f.glyphNames)
    (hmiss : ∀ x ∈ v, x.curName ≠ g) :
    (∃ t, passN VIRAMA ref n (initState v) = some t ∧
      (t.vFontChar[j]?).map (fun x => x.newName) = some "" ∧
      t.vFontChar[j]? = some fc ∧ mapGet t.nameMap fc.curName = "") ∧
    ((∀ x ∈ v, x.curName ≠ "InvalidObject") →
      ∀ r, mainLoop VIRAMA ref n (initState v) = some r → r.1 = 0) := by
  constructor
  · obtain ⟨t, ht⟩ := passN_some VIRAMA ref n (initState v)
    have hinv := passN_missing VIRAMA ref j fc f g hf hg hcp n (initState v) t ht
      ⟨hd, hj, initState_empty v _, initState_empty v _, hmiss⟩
    exact ⟨t, ht, by rw [hinv.2.1]; simp [hnew], hinv.2.1, hinv.2.2.1⟩
  · intro hno r hr
    exact mainLoop_no_error VIRAMA ref n (initState v) r hr hno

/-- Witness of C19: the composite glyph of `missingGlyphs` after three passes. -/
theorem C19_missing_dependency_witness :
    distinctNames missingGlyphs ∧ missingGlyphs[1]? = some missingRec ∧
    missingRec.unicodeVal = -1 ∧ missingRec.newName = "" ∧
    ({ form := "liga", glyphNames := ["ka", "zz"] } : Ligature) ∈ missingRec.ligatureList ∧
    "zz" ∈ ({ form := "liga", glyphNames := ["ka", "zz"] } : Ligature).glyphNames ∧
    (∀ x ∈ missingGlyphs, x.curName ≠ "zz") ∧
    ((∃ t, passN "VIRAMA" loopRef 3 (initState missingGlyphs) = some t ∧
      (t.vFontChar[1]?).map (fun x => x.newName) = some "" ∧
      t.vFontChar[1]? = some missingRec ∧ mapGet t.nameMap missingRec.curName = "") ∧
    ((∀ x ∈ missingGlyphs, x.curName ≠ "InvalidObject") →
      ∀ r, mainLoop "VIRAMA" loopRef 3 (initState missingGlyphs) = some r → r.1 = 0)) :=
  ⟨distinctNames_of_nodup _ (by decide), by decide, by decide, by decide, by decide,
    by decide, by decide,
    C19_missing_dependency "VIRAMA" loopRef missingGlyphs 3 1 missingRec
      { form := "liga", glyphNames := ["ka", "zz"] } "zz"
      (distinctNames_of_nodup _ (by decide)) (by decide) (by decide) (by decide)
      (by decide) (by decide) (by decide)⟩

/-- With only composite glyphs and an empty rename map the first stages of a
pass change neither the glyphs nor the entries of the map. -/
theorem preLig_idle (VIRAMA : String) (ref : RefTable) (s : State)
    (hcp : ∀ fc ∈ s.vFontChar, fc.unicodeVal = -1) (hm : ∀ key, mapGet s.nameMap key = "") :
    (preLig VIRAMA ref s).vFontChar = s.vFontChar ∧
      ∀ key, mapGet (preLig VIRAMA ref s).nameMap key = "" := by
  have hm1 : ∀ key, mapGet (seedLoop ref s.vFontChar s.nameMap).2 key = "" := by
    intro key
    rw [seedLoop_snd_other ref key s.vFontChar s.nameMap
      (fun fc hfc h => absurd (hcp fc hfc) h), hm]
  refine ⟨?_, fun key => by rw [preLig_nameMap]; exact hm1 key⟩
  rw [preLig_vFontChar_eq, List.map_map]
  conv_rhs => rw [← List.map_id s.vFontChar]
  apply List.map_congr_left
  intro fc hfc
  simp [seedRec, hcp fc hfc, syncRec, hm1]

/-- When every glyph with ligatures has a component without a name in the
rename map, the ligature stage renames nothing. -/
theorem ligLoop_all_blocked (VIRAMA : String) : ∀ (n i : Nat) (s : State) (r : Int × State),
    ligLoop VIRAMA n i s = some r →
    (∀ fc ∈ s.vFontChar, fc.ligatureList = [] ∨
      ∃ f ∈ fc.ligatureList, ∃ g ∈ f.glyphNames, mapGet s.nameMap g = "") →
    r.2.vFontChar = s.vFontChar ∧ r.2.renCount = s.renCount ∧
      ∀ key, mapGet r.2.nameMap key = mapGet s.nameMap key := by
  intro n
  induction n with
  | zero =>
    intro i s r h _
    simp only [ligLoop, Option.some.injEq] at h
    subst h; exact ⟨rfl, rfl, fun _ => rfl⟩
  | succ k ih =>
    intro i s r h hall
    simp only [ligLoop] at h
    have hstep : ∃ q, ligStep VIRAMA i s = some q ∧ q.2.vFontChar = s.vFontChar ∧
        q.2.renCount = s.renCount ∧ ∀ key, mapGet q.2.nameMap key = mapGet s.nameMap key := by
      cases hi : s.vFontChar[i]? with
      | none => exact ⟨(SUCCESS, s), by simp [ligStep, hi], rfl, rfl, fun _ => rfl⟩
      | some fc =>
        rcases hall fc (List.mem_iff_getElem?.2 ⟨i, hi⟩) with hl | hun
        · exact ⟨(SUCCESS, s), by simp [ligStep, hi, hl], rfl, rfl, fun _ => rfl⟩
        · obtain ⟨q, hq, h1, h2, h3, _⟩ := ligStep_blocked VIRAMA i s fc hi hun
          exact ⟨q, hq, h1, h2, h3⟩
    obtain ⟨q, hq, h1, h2, h3⟩ := hstep
    simp only [hq] at h
    by_cases hfail : q.1 = FAIL
    · simp only [if_pos hfail, Option.some.injEq] at h
      subst h; exact ⟨h1, h2, h3⟩
    · simp only [if_neg hfail] at h
      have hall2 : ∀ fc ∈ q.2.vFontChar, fc.ligatureList = [] ∨
          ∃ f ∈ fc.ligatureList, ∃ g ∈ f.glyphNames, mapGet q.2.nameMap g = "" := by
        intro fc hfc
        rw [h1] at hfc
        rcases hall fc hfc with hl | ⟨f, hf, g, hg, hmg⟩
        · exact Or.inl hl
        · exact Or.inr ⟨f, hf, g, hg, by rw [h3, hmg]⟩
      obtain ⟨e1, e2, e3⟩ := ih _ _ _ h hall2
      exact ⟨by rw [e1, h1], by rw [e2, h2], fun key => by rw [e3, h3]⟩

/-- C20: for the two glyphs `a` and `b` of `cycleGlyphs`, each the single
component of the only ligature of the other, neither named `InvalidObject`,
the first pass of `renameGlyphs` returns `SUCCESS` with `renCount = 0`, leaves
the two glyphs with an empty new name and the rename map with empty entries,
and the pass loop of `main` is left by its `break` after that pass. -/
theorem C20_cycle_stops (VIRAMA : String) (ref : RefTable) (a b fa fb : String)
    (ha : a ≠ "InvalidObject") (hb : b ≠ "InvalidObject") :
    ∃ t, renameGlyphs VIRAMA ref (initState (cycleGlyphs a b fa fb)) = some (SUCCESS, t) ∧
      t.renCount = 0 ∧ t.vFontChar = cycleGlyphs a b fa fb ∧
      t.vFontChar.map (fun fc => fc.newName) = ["", ""] ∧
      mapGet t.nameMap a = "" ∧ mapGet t.nameMap b = "" ∧
      ∀ passes, mainLoop VIRAMA ref (passes + 1) (initState (cycleGlyphs a b fa fb))
        = some (0, t) := by
  obtain ⟨r, hr⟩ := renameGlyphs_some VIRAMA ref (initState (cycleGlyphs a b fa fb))
  have hcp : ∀ fc ∈ (initState (cycleGlyphs a b fa fb)).vFontChar, fc.unicodeVal = -1 := by
    intro fc hfc
    simp only [initState, cycleGlyphs, List.mem_cons, List.mem_singleton,
      List.not_mem_nil, or_false] at hfc
    rcases hfc with h | h <;> rw [h]
  obtain ⟨hv, hm⟩ := preLig_idle VIRAMA ref _ hcp (initState_empty _)
  have hall : ∀ fc ∈ (preLig VIRAMA ref (initState (cycleGlyphs a b fa fb))).vFontChar,
      fc.ligatureList = [] ∨ ∃ f ∈ fc.ligatureList, ∃ g ∈ f.glyphNames,
        mapGet (preLig VIRAMA ref (initState (cycleGlyphs a b fa fb))).nameMap g = "" := by
    intro fc hfc
    rw [hv] at hfc
    simp only [initState, cycleGlyphs, List.mem_cons, List.mem_singleton,
      List.not_mem_nil, or_false] at hfc
    right
    rcases hfc with h | h <;> rw [h]
    · exact ⟨_, List.mem_singleton.2 rfl, b, List.mem_singleton.2 rfl, hm b⟩
    · exact ⟨_, List.mem_singleton.2 rfl, a, List.mem_singleton.2 rfl, hm a⟩
  obtain ⟨e1, e2, e3⟩ := ligLoop_all_blocked VIRAMA _ _ _ r hr hall
  have hs : r.1 = SUCCESS := by
    rcases renameGlyphs_ret VIRAMA ref _ r hr with h1 | ⟨_, x, hx, hn, _⟩
    · exact h1
    · simp only [initState, cycleGlyphs, List.mem_cons, List.mem_singleton,
        List.not_mem_nil, or_false] at hx
      rcases hx with h | h <;> rw [h] at hn
      · exact absurd hn ha
      · exact absurd hn hb
  have hren : r.2.renCount = 0 := by rw [e2]; rfl
  have hvec : r.2.vFontChar = cycleGlyphs a b fa fb := by rw [e1, hv]; rfl
  have hr2 : renameGlyphs VIRAMA ref (initState (cycleGlyphs a b fa fb))
      = some (SUCCESS, r.2) := by rw [hr, ← hs]
  refine ⟨r.2, hr2, hren, hvec, by rw [hvec]; rfl, by rw [e3, hm], by rw [e3, hm], ?_⟩
  intro passes
  simp [mainLoop, hr2, hren]

/-- Witness of C20: the glyphs named `A` and `B`, with a `liga` form each. -/
theorem C20_cycle_stops_witness :
    "A" ≠ "InvalidObject" ∧ "B" ≠ "InvalidObject" ∧
    ∃ t, renameGlyphs "VIRAMA" loopRef (initState (cycleGlyphs "A" "B" "liga" "liga"))
        = some (SUCCESS, t) ∧
      t.renCount = 0 ∧ t.vFontChar = cycleGlyphs "A" "B" "liga" "liga" ∧
      t.vFontChar.map (fun fc => fc.newName) = ["", ""] ∧
      mapGet t.nameMap "A" = "" ∧ mapGet t.nameMap "B" = "" ∧
      ∀ passes, mainLoop "VIRAMA" loopRef (passes + 1)
        (initState (cycleGlyphs "A" "B" "liga" "liga")) = some (0, t) :=
  ⟨by decide, by decide,
    C20_cycle_stops "VIRAMA" loopRef "A" "B" "liga" "liga" (by decide) (by decide)⟩

/-! ### Rewriting a line whose names have no entry -/

theorem mapSet_keys (key val : String) : ∀ (m : NameMap) (p : String × String),
    p ∈ mapSet m key val → p.1 = key ∨ ∃ q ∈ m, q.1 = p.1 := by
  intro m
  induction m with
  | nil =>
    intro p hp
    simp only [mapSet, List.mem_singleton] at hp
    left; rw [hp]
  | cons a rest ih =>
    intro p hp
    obtain ⟨k, v⟩ := a
    simp only [mapSet] at hp
    split at hp
    · rename_i hk
      rcases List.mem_cons.1 hp with h | h
      · right; exact ⟨(k, v), List.mem_cons_self _ _, by rw [h]⟩
      · right; exact ⟨p, List.mem_cons_of_mem _ h, rfl⟩
    · split at hp
      · rcases List.mem_cons.1 hp with h | h
        · left; rw [h]
        · right; exact ⟨p, h, rfl⟩
      · rcases List.mem_cons.1 hp with h | h
        · right; exact ⟨(k, v), List.mem_cons_self _ _, by rw [h]⟩
        · rcases ih p h with h1 | ⟨q, hq, h1⟩
          · exact Or.inl h1
          · exact Or.inr ⟨q, List.mem_cons_of_mem _ hq, h1⟩

theorem compsLoop_keys (glyphNames : String) : ∀ (fuel i : Nat) (gc : NameMap),
    (∀ p ∈ gc, p.1 ≠ "") → ∀ p ∈ compsLoop glyphNames fuel i gc, p.1 ≠ "" := by
  intro fuel
  induction fuel with
  | zero => intro i gc h; exact h
  | succ k ih =>
    intro i gc h
    simp only [compsLoop]
    split
    · apply ih
      split
      · rename_i hlen
        intro p hp
        rcases mapSet_keys _ _ gc p hp with h1 | ⟨q, hq, h1⟩
        · rw [h1]
          intro he
          rw [he] at hlen
          exact hlen rfl
        · rw [← h1]; exact h q hq
      · exact h
    · exact h

theorem glyphComps_keys (glyphNames : String) :
    ∀ k ∈ (glyphComps glyphNames).map (fun m => m.1), k ≠ "" := by
  intro k hk
  obtain ⟨p, hp, rfl⟩ := List.mem_map.1 hk
  exact compsLoop_keys glyphNames _ _ [] (fun _ h => absurd h (List.not_mem_nil _)) p hp

theorem findAux_some (needle : List Char) : ∀ (hay : List Char) (i p : Nat),
    findAux needle hay i = some p →
    ∃ k, p = i + k ∧ k + needle.length ≤ hay.length ∧
      hay = hay.take k ++ needle ++ hay.drop (k + needle.length) := by
  intro hay
  induction hay with
  | nil =>
    intro i p h
    simp only [findAux] at h
    split at h
    · rename_i hn
      simp only [Option.some.injEq] at h
      exact ⟨0, by omega, by simp [hn], by simp [hn]⟩
    · simp at h
  | cons c rest ih =>
    intro i p h
    simp only [findAux] at h
    split at h
    · rename_i hpre
      simp only [Option.some.injEq] at h
      have hp : needle <+: c :: rest := List.isPrefixOf_iff_prefix.1 hpre
      obtain ⟨t, ht⟩ := hp
      refine ⟨0, by omega, ?_, ?_⟩
      · rw [← ht]; simp
      · rw [← ht]; simp
    · obtain ⟨k, hk1, hk2, hk3⟩ := ih (i + 1) p h
      refine ⟨k + 1, by omega, by simp only [List.length_cons]; omega, ?_⟩
      have e : k + 1 + needle.length = (k + needle.length) + 1 := by omega
      rw [e, List.take_succ_cons, List.drop_succ_cons]
      simp only [List.cons_append]
      rw [← hk3]

theorem strFind_some (s t : String) (pos g : Nat) (h : strFind s t pos = some g) :
    pos ≤ g ∧ g + t.length ≤ s.length ∧
      s.data = s.data.take g ++ t.data ++ s.data.drop (g + t.length) := by
  unfold strFind at h
  split at h
  · simp at h
  · rename_i hpos
    obtain ⟨k, hk1, hk2, hk3⟩ := findAux_some t.data _ _ _ h
    have hl : s.length = s.data.length := rfl
    have htl : t.length = t.data.length := rfl
    rw [List.length_drop] at hk2
    refine ⟨by omega, by omega, ?_⟩
    have hsplit : s.data = s.data.take pos ++ s.data.drop pos := (List.take_append_drop _ _).symm
    have e1 : s.data.take g = s.data.take pos ++ (s.data.drop pos).take k := by
      rw [hk1, List.take_add]
    have e2 : s.data.drop (g + t.length) = (s.data.drop pos).drop (k + t.data.length) := by
      rw [List.drop_drop, hk1, htl]
      congr 1
      omega
    rw [e1, e2, List.append_assoc, List.append_assoc, ← List.append_assoc _ t.data, ← hk3]
    exact hsplit

theorem strReplace_self (s t : String) (g : Nat) (h : strFind s t 0 = some g) :
    strReplace s g t.length t = s := by
  obtain ⟨_, _, h3⟩ := strFind_some s t 0 g h
  unfold strReplace
  rw [← h3]

theorem scanLoop_empty (nameMap : NameMap) (oldName : String)
    (hm : mapGet nameMap oldName = "") (hne : oldName ≠ "") (glyphNames : String) :
    ∀ (fuel nextPos : Nat), 1 ≤ fuel → glyphNames.length + 2 ≤ fuel + nextPos →
    scanLoop nameMap oldName fuel nextPos glyphNames = some glyphNames := by
  have hlen : 1 ≤ oldName.length := by
    have := (length_ne_zero_iff oldName).2 hne
    omega
  intro fuel
  induction fuel with
  | zero => intro nextPos h; omega
  | succ k ih =>
    intro nextPos _ hb
    simp only [scanLoop]
    cases hf : strFind glyphNames oldName nextPos with
    | none => rfl
    | some gPos =>
      obtain ⟨h1, h2, _⟩ := strFind_some glyphNames oldName nextPos gPos hf
      simp only [hm]
      rw [if_pos (by decide)]
      exact ih _ (by omega) (by omega)

theorem substLoop_empty (nameMap : NameMap) : ∀ (names : List String) (glyphNames : String),
    (∀ k ∈ names, mapGet nameMap k = "" ∧ k ≠ "") →
    substLoop nameMap names glyphNames = some glyphNames := by
  intro names
  induction names with
  | nil => intro g _; rfl
  | cons a rest ih =>
    intro g h
    obtain ⟨hm, hne⟩ := h a (List.mem_cons_self _ _)
    simp only [substLoop]
    rw [scanLoop_empty nameMap a hm hne g _ 0 (by unfold scanFuel; omega)
      (by unfold scanFuel; rw [hm]; simp)]
    exact ih g (fun k hk => h k (List.mem_cons_of_mem _ hk))

/-! ### The scan of a glyph list for one name -/

theorem findAux_occ (needle : List Char) : ∀ (hay : List Char) (i p : Nat),
    findAux needle hay i = some p → ∃ k, p = i + k ∧ needle <+: hay.drop k := by
  intro hay
  induction hay with
  | nil =>
    intro i p h
    simp only [findAux] at h
    split at h
    · rename_i hn
      simp only [Option.some.injEq] at h
      exact ⟨0, by omega, by simp [hn]⟩
    · simp at h
  | cons c rest ih =>
    intro i p h
    simp only [findAux] at h
    split at h
    · rename_i hpre
      simp only [Option.some.injEq] at h
      exact ⟨0, by omega, by simpa using List.isPrefixOf_iff_prefix.1 hpre⟩
    · obtain ⟨k, hk1, hk2⟩ := ih (i + 1) p h
      exact ⟨k + 1, by omega, by simpa using hk2⟩

theorem findAux_le (needle : List Char) : ∀ (hay : List Char) (i k : Nat),
    needle <+: hay.drop k → k ≤ hay.length →
    ∃ p, findAux needle hay i = some p ∧ p ≤ i + k := by
  intro hay
  induction hay with
  | nil =>
    intro i k h _
    simp only [List.drop_nil, List.prefix_nil] at h
    exact ⟨i, by simp [findAux, h], by omega⟩
  | cons c rest ih =>
    intro i k h hk
    simp only [findAux]
    by_cases hpre : needle.isPrefixOf (c :: rest) = true
    · exact ⟨i, by simp [hpre], by omega⟩
    · cases k with
      | zero =>
        exfalso
        apply hpre
        exact List.isPrefixOf_iff_prefix.2 (by simpa using h)
      | succ k1 =>
        simp only [List.drop_succ_cons] at h
        simp only [List.length_cons] at hk
        obtain ⟨p, hp1, hp2⟩ := ih (i + 1) k1 h (by omega)
        exact ⟨p, by simp [hpre, hp1], by omega⟩

/-- The offset `strFind` returns is an occurrence at or after `pos`. -/
theorem strFind_occ (s t : String) (pos g : Nat) (h : strFind s t pos = some g) :
    pos ≤ g ∧ t.data <+: s.data.drop g := by
  unfold strFind at h
  split at h
  · simp at h
  · obtain ⟨k, hk1, hk2⟩ := findAux_occ t.data _ _ _ h
    rw [List.drop_drop] at hk2
    exact ⟨by omega, by rw [hk1]; exact hk2⟩

/-- The search `strFind` finds the first occurrence at or after `pos`. -/
theorem strFind_le (s t : String) (pos p : Nat) (hp : pos ≤ p) (hps : p ≤ s.length)
    (h : t.data <+: s.data.drop p) : ∃ g, strFind s t pos = some g ∧ g ≤ p := by
  unfold strFind
  rw [if_neg (by omega)]
  have hl : s.length = s.data.length := rfl
  have h2 : t.data <+: (s.data.drop pos).drop (p - pos) := by
    rw [List.drop_drop]
    have e : pos + (p - pos) = p := by omega
    rw [e]; exact h
  obtain ⟨g, hg1, hg2⟩ := findAux_le t.data (s.data.drop pos) pos (p - pos) h2
    (by rw [List.length_drop]; omega)
  exact ⟨g, hg1, by omega⟩

/-- The characters of an occurrence. -/
theorem occ_getElem (o T : List Char) (p i : Nat) (h : o <+: T.drop p) (hi : i < o.length) :
    T[p + i]? = o[i]? := by
  obtain ⟨r, hr⟩ := h
  rw [← List.getElem?_drop, ← hr, List.getElem?_append_left hi]

theorem occ_length (o T : List Char) (p : Nat) (h : o <+: T.drop p) :
    p + o.length ≤ T.length ∨ o = [] := by
  have := h.length_le
  rw [List.length_drop] at this
  by_cases ho : o = []
  · exact Or.inr ho
  · left
    have : 0 < o.length := List.length_pos.2 ho
    omega

theorem fragChars_head (ts : List String) :
    (fragChars ts)[0]? = none ∨ (fragChars ts)[0]? = some ' ' := by
  cases ts with
  | nil => left; rfl
  | cons t rest => right; simp [fragChars]

theorem fragChars_length_cons (t : String) (ts : List String) :
    (fragChars (t :: ts)).length = 1 + t.length + (fragChars ts).length := by
  have : t.length = t.data.length := rfl
  simp only [fragChars, List.length_cons, List.length_append]
  omega

theorem scanLoop_reject (R : NameMap) (o : String) (fuel nextPos : Nat) (T : String) (g : Nat)
    (hf : strFind T o nextPos = some g) (hn : mapGet R o ≠ "")
    (hb : (g ≠ 0 ∧ strAt T (g - 1) ≠ ' ') ∨
      (g ≠ 0 ∧ g + o.length < T.length ∧ strAt T (g + o.length) ≠ ' ')) :
    scanLoop R o (fuel + 1) nextPos T = scanLoop R o fuel (g + o.length) T := by
  have hn2 : ¬ (mapGet R o).length = 0 := (length_ne_zero_iff _).2 hn
  simp only [scanLoop, hf, if_neg hn2]
  rcases hb with hb | hb
  · rw [if_pos hb]
  · by_cases h1 : g ≠ 0 ∧ strAt T (g - 1) ≠ ' '
    · rw [if_pos h1]
    · rw [if_neg h1, if_pos hb]

theorem scanLoop_accept (R : NameMap) (o : String) (fuel nextPos : Nat) (T : String) (g : Nat)
    (hf : strFind T o nextPos = some g) (hn : mapGet R o ≠ "")
    (h1 : ¬ (g ≠ 0 ∧ strAt T (g - 1) ≠ ' '))
    (h2 : ¬ (g ≠ 0 ∧ g + o.length < T.length ∧ strAt T (g + o.length) ≠ ' ')) :
    scanLoop R o (fuel + 1) nextPos T
      = scanLoop R o fuel (g + o.length) (strReplace T g o.length (mapGet R o)) := by
  have hn2 : ¬ (mapGet R o).length = 0 := (length_ne_zero_iff _).2 hn
  simp only [scanLoop, hf, if_neg hn2]
  rw [if_neg h1, if_neg h2]

theorem frag_split (A : List Char) (t : String) (ts : List String) :
    A ++ fragChars (t :: ts) = (A ++ ' ' :: t.data) ++ fragChars ts := by
  simp [fragChars]

theorem getD_token (A w rest : List Char) (hw : ' ' ∉ w) (i : Nat)
    (h1 : A.length + 1 ≤ i) (h2 : i < A.length + 1 + w.length) :
    ((A ++ ' ' :: w) ++ rest).getD i ' ' ≠ ' ' := by
  have hlen : (A ++ ' ' :: w).length = A.length + 1 + w.length := by
    simp only [List.length_append, List.length_cons]; omega
  have hi : i - (A.length + 1) < w.length := by omega
  have e : ((A ++ ' ' :: w) ++ rest)[i]? = some (w[i - (A.length + 1)]) := by
    rw [List.getElem?_append_left (by omega)]
    have e2 : A ++ ' ' :: w = (A ++ [' ']) ++ w := by simp
    rw [e2, List.getElem?_append_right (by simp; omega)]
    simp only [List.length_append, List.length_singleton]
    exact List.getElem?_eq_getElem hi
  rw [List.getD_eq_getElem?_getD, e]
  simp only [Option.getD_some]
  intro hc
  exact hw (hc ▸ List.getElem_mem hi)

theorem getD_end (A : List Char) (ts : List String) :
    (A ++ fragChars ts).getD A.length ' ' = ' ' := by
  rw [List.getD_eq_getElem?_getD, List.getElem?_append_right (Nat.le_refl _), Nat.sub_self]
  rcases fragChars_head ts with h | h <;> rw [h] <;> rfl

/-- An occurrence of a name without a space that starts in `A` ends in `A`. -/
theorem occ_inside (o A : List Char) (ts : List String) (g : Nat) (hos : ' ' ∉ o)
    (h : o <+: (A ++ fragChars ts).drop g) (hg : g < A.length) : g + o.length ≤ A.length := by
  by_contra hcon
  have hi : A.length - g < o.length := by omega
  have e1 := occ_getElem o _ g (A.length - g) h hi
  have e2 : g + (A.length - g) = A.length := by omega
  rw [e2, List.getElem?_append_right (Nat.le_refl _), Nat.sub_self,
    List.getElem?_eq_getElem hi] at e1
  rcases fragChars_head ts with h0 | h0
  · rw [h0] at e1; exact absurd e1 (by simp)
  · rw [h0] at e1
    simp only [Option.some.injEq] at e1
    exact hos (e1 ▸ List.getElem_mem hi)

/-- After the scan has dealt with the token `w`, the offsets up to the end of
the token are behind a character of the token. -/
theorem scanInv_token (o A w rest : List Char) (hw : ' ' ∉ w) (q : Nat)
    (hq1 : A.length + 2 ≤ q) (hq2 : q ≤ A.length + 1 + w.length + 1) :
    scanInv o ((A ++ ' ' :: w) ++ rest) (A ++ ' ' :: w) q := by
  have hlen : (A ++ ' ' :: w).length = A.length + 1 + w.length := by
    simp only [List.length_append, List.length_cons]; omega
  refine ⟨by rw [hlen]; exact hq2, ?_⟩
  intro p hp1 hp2 _
  rw [hlen] at hp2
  exact ⟨by omega, getD_token A w rest hw (p - 1) (by omega) (by omega)⟩

/-- The scan for a name `o` that has a new name: in a glyph list made of names
without spaces, each after one space, every name equal to `o` that the scan has
not passed is replaced by the new name, and nothing else changes. The new name
has no space and `o` is at most one character longer. -/
theorem scanLoop_frag (R : NameMap) (o : String) (hn : mapGet R o ≠ "") (ho : o ≠ "")
    (hos : ' ' ∉ o.data) (hns : ' ' ∉ (mapGet R o).data)
    (hlen : o.length ≤ (mapGet R o).length + 1) :
    ∀ (fuel : Nat) (ts : List String) (A : List Char) (nextPos : Nat),
    (∀ t ∈ ts, ' ' ∉ t.data) →
    scanInv o.data (A ++ fragChars ts) A nextPos →
    (A.length + 1 - nextPos) + (fragChars ts).length + ts.length * (mapGet R o).length + 1
      ≤ fuel →
    scanLoop R o fuel nextPos (String.mk (A ++ fragChars ts))
      = some (String.mk (A ++ fragChars (ts.map (renameTok o (mapGet R o))))) := by
  have hol : 1 ≤ o.length := by
    have := (length_ne_zero_iff o).2 ho
    omega
  have hod : o.length = o.data.length := rfl
  intro fuel
  induction fuel with
  | zero => intro ts A nextPos _ _ hf; omega
  | succ f ih =>
    -- an occurrence found in the part of the list the scan has passed
    have stepA : ∀ (ts : List String) (A : List Char) (nextPos g : Nat),
        (∀ t ∈ ts, ' ' ∉ t.data) →
        scanInv o.data (A ++ fragChars ts) A nextPos →
        (A.length + 1 - nextPos) + (fragChars ts).length + ts.length * (mapGet R o).length + 1
          ≤ f + 1 →
        strFind (String.mk (A ++ fragChars ts)) o nextPos = some g → g < A.length →
        scanLoop R o (f + 1) nextPos (String.mk (A ++ fragChars ts))
          = some (String.mk (A ++ fragChars (ts.map (renameTok o (mapGet R o))))) := by
      intro ts A nextPos g htok hinv hfuel hfind hg
      obtain ⟨hge, hocc⟩ := strFind_occ _ _ _ _ hfind
      have hin := occ_inside o.data A ts g hos hocc hg
      have hblock := hinv.2 g hge hg hocc
      rw [scanLoop_reject R o f nextPos _ g hfind hn (Or.inl hblock)]
      refine ih ts A (g + o.length) htok ⟨by omega, ?_⟩ (by omega)
      intro p hp1 hp2 hp3
      exact hinv.2 p (by omega) hp2 hp3
    intro ts
    induction ts with
    | nil =>
      intro A nextPos htok hinv hfuel
      cases hfind : strFind (String.mk (A ++ fragChars [])) o nextPos with
      | none => simp only [scanLoop, hfind]; rfl
      | some g =>
        obtain ⟨hge, hocc⟩ := strFind_occ _ _ _ _ hfind
        have hl : g + o.data.length ≤ (A ++ fragChars []).length := by
          rcases occ_length _ _ _ hocc with h | h
          · exact h
          · rw [h] at hod; simp at hod; omega
        simp only [fragChars, List.append_nil] at hl
        exact stepA [] A nextPos g htok hinv hfuel hfind (by omega)
    | cons t ts1 iht =>
      intro A nextPos htok hinv hfuel
      have htok1 : ∀ x ∈ ts1, ' ' ∉ x.data := fun x hx => htok x (List.mem_cons_of_mem _ hx)
      have htd : t.length = t.data.length := rfl
      have hts : ' ' ∉ t.data := htok t (List.mem_cons_self _ _)
      have hsplit := frag_split A t ts1
      have hlenA1 : (A ++ ' ' :: t.data).length = A.length + 1 + t.length := by
        simp only [List.length_append, List.length_cons]; omega
      have hfl := fragChars_length_cons t ts1
      have hmul : (t :: ts1).length * (mapGet R o).length
          = ts1.length * (mapGet R o).length + (mapGet R o).length := by
        rw [List.length_cons, Nat.succ_mul]
      have hTlen : (String.mk (A ++ fragChars (t :: ts1))).length
          = A.length + 1 + t.length + (fragChars ts1).length := by
        show (A ++ fragChars (t :: ts1)).length = _
        rw [List.length_append, hfl]; omega
      -- the token `t` holds no occurrence the search can find
      have hskip : (∀ p, nextPos ≤ p → p < A.length + 1 + t.length →
            ¬ o.data <+: (A ++ fragChars (t :: ts1)).drop p) →
          scanLoop R o (f + 1) nextPos (String.mk (A ++ fragChars (t :: ts1)))
            = some (String.mk (A ++ fragChars ((t :: ts1).map (renameTok o (mapGet R o))))) := by
        intro hno
        have hto : t ≠ o := by
          intro e
          apply hno (A.length + 1) hinv.1 (by rw [e]; omega)
          rw [hsplit, e]
          have e3 : (A ++ ' ' :: o.data) ++ fragChars ts1
              = (A ++ [' ']) ++ (o.data ++ fragChars ts1) := by simp
          rw [e3]
          have e4 : A.length + 1 = (A ++ [' ']).length := by simp
          rw [e4, List.drop_left]
          exact List.prefix_append _ _
        have hinv1 : scanInv o.data ((A ++ ' ' :: t.data) ++ fragChars ts1)
            (A ++ ' ' :: t.data) nextPos := by
          refine ⟨by rw [hlenA1]; have := hinv.1; omega, ?_⟩
          intro p hp1 hp2 hp3
          rw [hlenA1] at hp2
          rw [← hsplit] at hp3
          exact absurd hp3 (hno p hp1 hp2)
        have hres := iht (A ++ ' ' :: t.data) nextPos htok1 hinv1
          (by rw [hlenA1]; rw [hfl, hmul] at hfuel; have := hinv.1; omega)
        rw [hsplit, hres]
        simp [fragChars, renameTok, hto]
      cases hfind : strFind (String.mk (A ++ fragChars (t :: ts1))) o nextPos with
      | none =>
        apply hskip
        intro p hp1 hp2 hp3
        obtain ⟨g, hg, _⟩ := strFind_le (String.mk (A ++ fragChars (t :: ts1))) o nextPos p hp1
          (by rw [hTlen]; omega) hp3
        rw [hfind] at hg
        exact absurd hg (by simp)
      | some g =>
        obtain ⟨hge, hocc⟩ := strFind_occ _ _ _ _ hfind
        change o.data <+: (A ++ fragChars (t :: ts1)).drop g at hocc
        by_cases hgA : g < A.length
        · exact stepA (t :: ts1) A nextPos g htok hinv hfuel hfind hgA
        · by_cases hgB : A.length + 1 + t.length ≤ g
          · apply hskip
            intro p hp1 hp2 hp3
            obtain ⟨g2, hg2, hle⟩ := strFind_le (String.mk (A ++ fragChars (t :: ts1))) o
              nextPos p hp1 (by rw [hTlen]; omega) hp3
            rw [hfind] at hg2
            simp only [Option.some.injEq] at hg2
            omega
          · -- the occurrence starts in the token `t`
            have hne : g ≠ A.length := by
              intro e
              have e1 := occ_getElem o.data _ g 0 hocc (by omega)
              rw [Nat.add_zero, e, List.getElem?_append_right (Nat.le_refl _), Nat.sub_self,
                List.getElem?_eq_getElem (by omega : 0 < o.data.length)] at e1
              simp only [fragChars, List.getElem?_cons_zero, Option.some.injEq] at e1
              exact hos (e1 ▸ List.getElem_mem _)
            have hend : g + o.data.length ≤ A.length + 1 + t.length := by
              have hocc1 := hocc
              rw [hsplit] at hocc1
              have := occ_inside o.data (A ++ ' ' :: t.data) ts1 g hos hocc1
                (by rw [hlenA1]; omega)
              rw [hlenA1] at this
              exact this
            -- what is left to do after the step, for the token `w` that stands for `t`
            have hrest : ∀ (w : String), renameTok o (mapGet R o) t = w → ' ' ∉ w.data →
                g + o.length ≤ A.length + 1 + w.length + 1 → w.length ≤ t.length +
                  (mapGet R o).length →
                scanLoop R o f (g + o.length) (String.mk ((A ++ ' ' :: w.data) ++ fragChars ts1))
                  = some (String.mk
                      (A ++ fragChars ((t :: ts1).map (renameTok o (mapGet R o))))) := by
              intro w hw hws hq hwl
              have hwd : w.length = w.data.length := rfl
              have hlenW : (A ++ ' ' :: w.data).length = A.length + 1 + w.length := by
                simp only [List.length_append, List.length_cons]; omega
              have hres := ih ts1 (A ++ ' ' :: w.data) (g + o.length) htok1
                (scanInv_token o.data A w.data (fragChars ts1) hws (g + o.length)
                  (by omega) (by omega))
                (by rw [hlenW]; rw [hfl, hmul] at hfuel; omega)
              rw [hres]
              simp [fragChars, hw]
            by_cases hd : A.length + 1 < g
            · -- inside the token: the character before is not a space
              have hto : t ≠ o := by
                intro e; rw [e] at hend; omega
              have hb : g ≠ 0 ∧ strAt (String.mk (A ++ fragChars (t :: ts1))) (g - 1) ≠ ' ' := by
                refine ⟨by omega, ?_⟩
                show (A ++ fragChars (t :: ts1)).getD (g - 1) ' ' ≠ ' '
                rw [hsplit]
                exact getD_token A t.data _ hts (g - 1) (by omega) (by omega)
              rw [scanLoop_reject R o f nextPos _ g hfind hn (Or.inl hb), hsplit]
              exact hrest t (by simp [renameTok, hto]) hts (by omega) (by omega)
            · have hg1 : g = A.length + 1 := by omega
              by_cases hlt : o.length < t.length
              · -- a proper prefix of the token: the character after is not a space
                have hto : t ≠ o := by
                  intro e; rw [e] at hlt; omega
                have hb : g ≠ 0 ∧ g + o.length
                      < (String.mk (A ++ fragChars (t :: ts1))).length ∧
                    strAt (String.mk (A ++ fragChars (t :: ts1))) (g + o.length) ≠ ' ' := by
                  refine ⟨by omega, by rw [hTlen]; omega, ?_⟩
                  show (A ++ fragChars (t :: ts1)).getD (g + o.length) ' ' ≠ ' '
                  rw [hsplit]
                  exact getD_token A t.data _ hts (g + o.length) (by omega) (by omega)
                rw [scanLoop_reject R o f nextPos _ g hfind hn (Or.inr hb), hsplit]
                exact hrest t (by simp [renameTok, hto]) hts (by omega) (by omega)
              · -- the whole token: it is replaced
                have hleq : o.data.length = t.data.length := by omega
                have hto : t = o := by
                  have hp1 : o.data <+: t.data ++ fragChars ts1 := by
                    have e3 : A ++ fragChars (t :: ts1)
                        = (A ++ [' ']) ++ (t.data ++ fragChars ts1) := by simp [fragChars]
                    have e4 : g = (A ++ [' ']).length := by simp [hg1]
                    rw [e3, e4, List.drop_left] at hocc
                    exact hocc
                  have hp2 : o.data <+: t.data :=
                    List.prefix_of_prefix_length_le hp1 (List.prefix_append _ _) (by omega)
                  exact String.ext (hp2.eq_of_length hleq).symm
                have h1 : ¬ (g ≠ 0 ∧
                    strAt (String.mk (A ++ fragChars (t :: ts1))) (g - 1) ≠ ' ') := by
                  intro hc
                  apply hc.2
                  show (A ++ fragChars (t :: ts1)).getD (g - 1) ' ' = ' '
                  have e5 : g - 1 = A.length := by omega
                  rw [e5]
                  exact getD_end A (t :: ts1)
                have h2 : ¬ (g ≠ 0 ∧ g + o.length
                      < (String.mk (A ++ fragChars (t :: ts1))).length ∧
                    strAt (String.mk (A ++ fragChars (t :: ts1))) (g + o.length) ≠ ' ') := by
                  intro hc
                  apply hc.2.2
                  show (A ++ fragChars (t :: ts1)).getD (g + o.length) ' ' = ' '
                  have e5 : g + o.length = (A ++ ' ' :: t.data).length := by
                    rw [hlenA1]; omega
                  rw [hsplit, e5]
                  exact getD_end _ ts1
                have hrep : strReplace (String.mk (A ++ fragChars (t :: ts1))) g o.length
                    (mapGet R o)
                    = String.mk ((A ++ ' ' :: (mapGet R o).data) ++ fragChars ts1) := by
                  unfold strReplace
                  show String.mk ((A ++ fragChars (t :: ts1)).take g ++ (mapGet R o).data
                    ++ (A ++ fragChars (t :: ts1)).drop (g + o.length)) = _
                  have e6 : A ++ fragChars (t :: ts1)
                      = (A ++ [' ']) ++ (t.data ++ fragChars ts1) := by simp [fragChars]
                  have e7 : g = (A ++ [' ']).length := by simp [hg1]
                  have e8 : g + o.length = (A ++ ' ' :: t.data).length := by
                    rw [hlenA1]; omega
                  have t1 : (A ++ fragChars (t :: ts1)).take g = A ++ [' '] := by
                    rw [e6, e7, List.take_left]
                  have t2 : (A ++ fragChars (t :: ts1)).drop (g + o.length) = fragChars ts1 := by
                    rw [hsplit, e8, List.drop_left]
                  rw [t1, t2]
                  simp
                rw [scanLoop_accept R o f nextPos _ g hfind hn h1 h2, hrep]
                exact hrest (mapGet R o) (by simp [renameTok, hto]) hns (by omega) (by omega)

theorem fragChars_length_ge (ts : List String) : ts.length ≤ (fragChars ts).length := by
  induction ts with
  | nil => simp [fragChars]
  | cons t rest ih =>
    rw [fragChars_length_cons, List.length_cons]
    omega

/-- The loop of `replaceGlyphNames` over the names, on a glyph list made of names
without spaces, each after one space: it returns the list in which every name
is replaced as `renameAll` tells. Every name searched for is non-empty and has
no space, and a new name has no space and is at most one character shorter
than the name it replaces. -/
theorem substLoop_frag (R : NameMap) : ∀ (names ts : List String),
    (∀ t ∈ ts, ' ' ∉ t.data) →
    (∀ o ∈ names, o ≠ "" ∧ ' ' ∉ o.data ∧ (mapGet R o ≠ "" →
      ' ' ∉ (mapGet R o).data ∧ o.length ≤ (mapGet R o).length + 1)) →
    substLoop R names (frag ts) = some (frag (ts.map (renameAll R names))) := by
  intro names
  induction names with
  | nil =>
    intro ts _ _
    have e : ts.map (renameAll R []) = ts := by
      conv_rhs => rw [← List.map_id ts]
      exact List.map_congr_left (fun _ _ => rfl)
    rw [e]; rfl
  | cons o rest ih =>
    intro ts htok hnames
    obtain ⟨ho, hos, hnew⟩ := hnames o (List.mem_cons_self _ _)
    have hrest := fun x hx => hnames x (List.mem_cons_of_mem _ hx)
    simp only [substLoop]
    by_cases hm : mapGet R o = ""
    · rw [scanLoop_empty R o hm ho (frag ts) _ 0 (by unfold scanFuel; omega)
        (by unfold scanFuel; rw [hm]; simp)]
      simp only
      rw [ih ts htok hrest]
      have e : ts.map (renameAll R (o :: rest)) = ts.map (renameAll R rest) :=
        List.map_congr_left (fun t _ => by simp [renameAll, hm])
      rw [e]
    · obtain ⟨hns, hlen⟩ := hnew hm
      have hscan := scanLoop_frag R o hm ho hos hns hlen
        (scanFuel (frag ts) (mapGet R o)) ts [] 0 htok
        ⟨by simp, fun p _ hp _ => absurd hp (by simp)⟩
        (by
          have h1 := fragChars_length_ge ts
          have h2 : (frag ts).length = (fragChars ts).length := rfl
          have h3 := Nat.mul_le_mul_right (mapGet R o).length h1
          unfold scanFuel
          rw [h2, Nat.mul_add, Nat.mul_one]
          simp only [List.length_nil]
          omega)
      simp only [List.nil_append] at hscan
      have hscan2 : scanLoop R o (scanFuel (frag ts) (mapGet R o)) 0 (frag ts)
          = some (frag (ts.map (renameTok o (mapGet R o)))) := hscan
      rw [hscan2]
      simp only
      rw [ih (ts.map (renameTok o (mapGet R o))) (by
        intro t ht
        obtain ⟨x, hx, rfl⟩ := List.mem_map.1 ht
        unfold renameTok
        split
        · exact hns
        · exact htok x hx) hrest]
      rw [List.map_map]
      have e : ts.map (renameAll R rest ∘ renameTok o (mapGet R o))
          = ts.map (renameAll R (o :: rest)) :=
        List.map_congr_left (fun t _ => by simp [renameAll, hm])
      rw [e]

/-- When no new name is itself a name that is renamed, the scans for the names
`names`, in any order, leave a name that is renamed with its new name and keep
every other name. -/
theorem renameAll_eq (R : NameMap) : ∀ (names : List String),
    (∀ o ∈ names, mapGet R o ≠ "" → ∀ o2 ∈ names, mapGet R o2 ≠ "" → mapGet R o ≠ o2) →
    ∀ (t : String), renameAll R names t
      = if t ∈ names ∧ mapGet R t ≠ "" then mapGet R t else t := by
  intro names
  induction names with
  | nil => intro _ t; simp [renameAll]
  | cons o rest ih =>
    intro hchain t
    have hchain1 : ∀ a ∈ rest, mapGet R a ≠ "" → ∀ b ∈ rest, mapGet R b ≠ "" →
        mapGet R a ≠ b :=
      fun a ha h1 b hb h2 => hchain a (List.mem_cons_of_mem _ ha) h1 b
        (List.mem_cons_of_mem _ hb) h2
    simp only [renameAll]
    by_cases hm : mapGet R o = ""
    · rw [if_pos hm, ih hchain1 t]
      by_cases hto : t = o
      · subst hto
        simp [hm]
      · simp [hto]
    · rw [if_neg hm]
      by_cases hto : t = o
      · subst hto
        simp only [renameTok, if_true]
        rw [ih hchain1 (mapGet R t)]
        have hno : ¬ (mapGet R t ∈ rest ∧ mapGet R (mapGet R t) ≠ "") := by
          intro hc
          exact hchain t (List.mem_cons_self _ _) hm (mapGet R t)
            (List.mem_cons_of_mem _ hc.1) hc.2 rfl
        rw [if_neg hno]
        simp [hm]
      · simp only [renameTok, if_neg hto]
        rw [ih hchain1 t]
        simp [hto]

theorem takeField_not_mem (delim : Char) : ∀ (l : List Char), delim ∉ (takeField delim l).1 := by
  intro l
  induction l with
  | nil => simp [takeField]
  | cons c rest ih =>
    simp only [takeField]
    split
    · simp
    · rename_i hc
      simp only [List.mem_cons, not_or]
      exact ⟨fun e => hc e.symm, ih⟩

theorem getTokLoop_not_mem (delim : Char) : ∀ (n : Nat) (s : Option (List Char))
    (tok0 tok : List Char), getTokLoop delim n s tok0 = some tok → delim ∉ tok0 →
    delim ∉ tok := by
  intro n
  induction n with
  | zero =>
    intro s tok0 tok h h0
    simp only [getTokLoop, Option.some.injEq] at h
    rw [← h]; exact h0
  | succ k ih =>
    intro s tok0 tok h _
    simp only [getTokLoop] at h
    cases hg : getline delim s with
    | none => simp [hg] at h
    | some r =>
      simp only [hg] at h
      refine ih r.2 r.1 tok h ?_
      cases s with
      | none => simp [getline] at hg
      | some l =>
        cases l with
        | nil => simp [getline] at hg
        | cons c rest =>
          simp only [getline, Option.some.injEq] at hg
          rw [← hg]
          exact takeField_not_mem delim _

theorem getTok_not_mem (inStr : String) (delim : Char) (pos : Nat) :
    delim ∉ (getTok inStr "" delim pos).2.data := by
  unfold getTok
  cases h : getTokLoop delim pos (some inStr.data) [] with
  | none => simp
  | some tok =>
    simp only
    split
    · simp
    · exact getTokLoop_not_mem delim pos _ [] tok h (by simp)

theorem compsLoop_nospace (glyphNames : String) : ∀ (fuel i : Nat) (gc : NameMap),
    (∀ p ∈ gc, ' ' ∉ p.1.data) → ∀ p ∈ compsLoop glyphNames fuel i gc, ' ' ∉ p.1.data := by
  intro fuel
  induction fuel with
  | zero => intro i gc h; exact h
  | succ k ih =>
    intro i gc h
    simp only [compsLoop]
    split
    · apply ih
      split
      · intro p hp
        rcases mapSet_keys _ _ gc p hp with h1 | ⟨q, hq, h1⟩
        · rw [h1]; exact getTok_not_mem glyphNames ' ' i
        · rw [← h1]; exact h q hq
      · exact h
    · exact h

theorem glyphComps_nospace (glyphNames : String) :
    ∀ k ∈ (glyphComps glyphNames).map (fun m => m.1), ' ' ∉ k.data := by
  intro k hk
  obtain ⟨p, hp, rfl⟩ := List.mem_map.1 hk
  exact compsLoop_nospace glyphNames _ _ [] (fun _ h => absurd h (List.not_mem_nil _)) p hp

/-- C15, amended: for a glyph list made of names without spaces, each after
one space, and a rename map in which every new name of a name of the list has
no space, is at most one character shorter than the name it replaces, and is
not itself a name of the list that has a new name: substituting the names of the
list one after the other in any permutation `names` of the key order of the code
gives the same glyph list as the key order, namely the list in which every name
that has a new name is replaced by it. -/
theorem C15_order_independence (R : NameMap) (ts names : List String)
    (htok : ∀ t ∈ ts, ' ' ∉ t.data)
    (hperm : names.Perm ((glyphComps (frag ts)).map (fun m => m.1)))
    (hnew : ∀ o ∈ names, mapGet R o ≠ "" →
      ' ' ∉ (mapGet R o).data ∧ o.length ≤ (mapGet R o).length + 1)
    (hchain : ∀ o ∈ names, mapGet R o ≠ "" → ∀ o2 ∈ names, mapGet R o2 ≠ "" →
      mapGet R o ≠ o2) :
    substLoop R ((glyphComps (frag ts)).map (fun m => m.1)) (frag ts)
      = some (frag (ts.map (fun t => if t ∈ names ∧ mapGet R t ≠ "" then mapGet R t else t))) ∧
    substLoop R names (frag ts)
      = some (frag (ts.map (fun t => if t ∈ names ∧ mapGet R t ≠ "" then mapGet R t else t))) := by
  have hkeys : ∀ o ∈ (glyphComps (frag ts)).map (fun m => m.1), o ≠ "" ∧ ' ' ∉ o.data ∧
      (mapGet R o ≠ "" → ' ' ∉ (mapGet R o).data ∧ o.length ≤ (mapGet R o).length + 1) :=
    fun o ho => ⟨glyphComps_keys _ o ho, glyphComps_nospace _ o ho,
      hnew o (hperm.mem_iff.2 ho)⟩
  have hchain2 : ∀ o ∈ (glyphComps (frag ts)).map (fun m => m.1), mapGet R o ≠ "" →
      ∀ o2 ∈ (glyphComps (frag ts)).map (fun m => m.1), mapGet R o2 ≠ "" → mapGet R o ≠ o2 :=
    fun o ho h1 o2 ho2 h2 => hchain o (hperm.mem_iff.2 ho) h1 o2 (hperm.mem_iff.2 ho2) h2
  constructor
  · rw [substLoop_frag R _ ts htok hkeys]
    congr 2
    apply List.map_congr_left
    intro t _
    rw [renameAll_eq R _ hchain2 t]
    by_cases hm : mapGet R t = ""
    · simp [hm]
    · by_cases ht : t ∈ names
      · simp [hm, ht, hperm.mem_iff.1 ht]
      · have ht2 : t ∉ (glyphComps (frag ts)).map (fun m => m.1) :=
          fun h => ht (hperm.mem_iff.2 h)
        rw [if_neg (fun h => ht2 h.1), if_neg (fun h => ht h.1)]
  · rw [substLoop_frag R names ts htok (fun o ho => by
      obtain ⟨h1, h2, _⟩ := hkeys o (hperm.mem_iff.1 ho)
      exact ⟨h1, h2, hnew o ho⟩)]
    congr 2
    apply List.map_congr_left
    intro t _
    rw [renameAll_eq R names hchain t]

/-- Witness of C15: the names `k2` and `k3` with the new names `x2` and `x3`,
substituted in the order `k3`, `k2`. -/
theorem C15_order_independence_witness :
    (∀ t ∈ ["k2", "k3"], ' ' ∉ t.data) ∧
    ["k3", "k2"].Perm ((glyphComps (frag ["k2", "k3"])).map (fun m => m.1)) ∧
    (∀ o ∈ ["k3", "k2"], mapGet [("k2", "x2"), ("k3", "x3")] o ≠ "" →
      ' ' ∉ (mapGet [("k2", "x2"), ("k3", "x3")] o).data ∧
      o.length ≤ (mapGet [("k2", "x2"), ("k3", "x3")] o).length + 1) ∧
    (∀ o ∈ ["k3", "k2"], mapGet [("k2", "x2"), ("k3", "x3")] o ≠ "" →
      ∀ o2 ∈ ["k3", "k2"], mapGet [("k2", "x2"), ("k3", "x3")] o2 ≠ "" →
      mapGet [("k2", "x2"), ("k3", "x3")] o ≠ o2) ∧
    (substLoop [("k2", "x2"), ("k3", "x3")]
        ((glyphComps (frag ["k2", "k3"])).map (fun m => m.1)) (frag ["k2", "k3"])
      = some (frag (["k2", "k3"].map (fun t =>
          if t ∈ ["k3", "k2"] ∧ mapGet [("k2", "x2"), ("k3", "x3")] t ≠ ""
          then mapGet [("k2", "x2"), ("k3", "x3")] t else t))) ∧
    substLoop [("k2", "x2"), ("k3", "x3")] ["k3", "k2"] (frag ["k2", "k3"])
      = some (frag (["k2", "k3"].map (fun t =>
          if t ∈ ["k3", "k2"] ∧ mapGet [("k2", "x2"), ("k3", "x3")] t ≠ ""
          then mapGet [("k2", "x2"), ("k3", "x3")] t else t)))) :=
  ⟨by decide, by decide, by decide, by decide,
    C15_order_independence [("k2", "x2"), ("k3", "x3")] ["k2", "k3"] ["k3", "k2"]
      (by decide) (by decide) (by decide) (by decide)⟩

/-! ### `getTok` and the fields of a string -/

theorem splitFields_cons (d c : Char) (rest : List Char) :
    splitFields d (c :: rest)
      = if c = d then [] :: splitFields d rest
        else (c :: (splitFields d rest).headD []) :: (splitFields d rest).tail := by
  simp only [splitFields]
  split
  · rfl
  · cases h : splitFields d rest with
    | nil =>
      exfalso
      cases rest with
      | nil => simp [splitFields] at h
      | cons a r =>
        simp only [splitFields] at h
        split at h
        · simp at h
        · split at h <;> simp at h
    | cons f fs => rfl

theorem splitFields_length (d : Char) : ∀ (l : List Char),
    (splitFields d l).length = l.count d + 1 := by
  intro l
  induction l with
  | nil => rfl
  | cons c rest ih =>
    rw [splitFields_cons]
    by_cases h : c = d
    · subst h
      simp [ih]
    · rw [if_neg h, List.count_cons_of_ne (fun e => h e.symm)]
      simp only [List.length_cons, List.length_tail, ih]
      omega

theorem splitFields_no_delim (d : Char) : ∀ (l : List Char) (n : Nat),
    d ∉ (splitFields d l).getD n [] := by
  intro l
  induction l with
  | nil =>
    intro n
    cases n <;> simp [splitFields]
  | cons c rest ih =>
    intro n
    rw [splitFields_cons]
    by_cases h : c = d
    · rw [if_pos h]
      cases n with
      | zero => simp
      | succ m => simpa using ih m
    · rw [if_neg h]
      cases n with
      | zero =>
        have h0 := ih 0
        cases hs : splitFields d rest with
        | nil => simpa using fun e => h e.symm
        | cons f fs =>
          rw [hs] at h0
          simp only [List.getD_cons_zero] at h0
          simp only [List.headD_cons, List.getD_cons_zero, List.mem_cons, not_or]
          exact ⟨fun e => h e.symm, h0⟩
      | succ m =>
        have hm := ih (m + 1)
        cases hs : splitFields d rest with
        | nil => simp
        | cons f fs =>
          rw [hs] at hm
          simpa using hm

theorem splitFields_of_not_mem (d : Char) : ∀ (l : List Char), d ∉ l →
    splitFields d l = [l] := by
  intro l
  induction l with
  | nil => intro _; rfl
  | cons c rest ih =>
    intro h
    simp only [List.mem_cons, not_or] at h
    rw [splitFields_cons, if_neg (fun e => h.1 e.symm), ih h.2]
    rfl

/-- What one call of `getline` reads: the first field, and the other fields
are the fields of what is left in the stream. -/
theorem takeField_fields (d : Char) : ∀ (l : List Char),
    (takeField d l).1 = (splitFields d l).headD [] ∧
    (∀ rest, (takeField d l).2 = some rest → (splitFields d l).tail = splitFields d rest) ∧
    ((takeField d l).2 = none → (splitFields d l).tail = []) := by
  intro l
  induction l with
  | nil => simp [takeField, splitFields]
  | cons c rest ih =>
    rw [splitFields_cons]
    simp only [takeField]
    by_cases h : c = d
    · simp [h]
    · simp only [if_neg h, List.headD_cons, List.tail_cons]
      exact ⟨by rw [ih.1], ih.2.1, ih.2.2⟩

/-- The loop of `getTok` on a stream with the unread characters `l`: after
`n + 1` calls of `getline` the token is the field number `n + 1`, when that
field is not the last one or is not empty, and a call fails otherwise. -/
theorem getTokLoop_fields (d : Char) : ∀ (n : Nat) (l tok0 : List Char),
    getTokLoop d (n + 1) (some l) tok0
      = if n + 1 < (splitFields d l).length ∨
          (n + 1 = (splitFields d l).length ∧ (splitFields d l).getD n [] ≠ [])
        then some ((splitFields d l).getD n []) else none := by
  intro n
  induction n with
  | zero =>
    intro l tok0
    cases l with
    | nil => simp [getTokLoop, getline, splitFields]
    | cons c rest =>
      simp only [getTokLoop, getline]
      have hf := (takeField_fields d (c :: rest)).1
      have hlen := splitFields_length d (c :: rest)
      rw [hf]
      have hcond : 0 + 1 < (splitFields d (c :: rest)).length ∨
          (0 + 1 = (splitFields d (c :: rest)).length ∧
            (splitFields d (c :: rest)).getD 0 [] ≠ []) := by
        by_cases hm : d ∈ c :: rest
        · left
          have := List.count_pos_iff.2 hm
          omega
        · right
          rw [splitFields_of_not_mem d _ hm]
          simp
      rw [if_pos hcond]
      cases hs : splitFields d (c :: rest) <;> rfl
  | succ m ih =>
    intro l tok0
    cases l with
    | nil => simp [getTokLoop, getline, splitFields]
    | cons c rest =>
      have hf := takeField_fields d (c :: rest)
      have hne : splitFields d (c :: rest) ≠ [] := by
        intro e
        have := splitFields_length d (c :: rest)
        rw [e] at this
        simp at this
      obtain ⟨f, fs, hfs⟩ := List.exists_cons_of_ne_nil hne
      rw [hfs] at hf ⊢
      simp only [List.tail_cons] at hf
      rw [getTokLoop]
      simp only [getline]
      cases hr : (takeField d (c :: rest)).2 with
      | none =>
        have ht := hf.2.2 hr
        subst ht
        simp [getTokLoop, getline]
      | some r =>
        have ht := hf.2.1 r hr
        rw [ih r, ← ht]
        simp only [List.length_cons, List.getD_cons_succ]
        simp only [Nat.add_lt_add_iff_right, Nat.add_right_cancel_iff]

/-- The result of `getTok` in terms of the fields of the string. -/
theorem getTok_fields (s out : String) (d : Char) (pos : Nat) (hpos : 1 ≤ pos) :
    getTok s out d pos
      = if 1 ≤ s.data.count d ∧ (pos ≤ s.data.count d ∨
            (pos = s.data.count d + 1 ∧ (splitFields d s.data).getD (pos - 1) [] ≠ []))
        then (SUCCESS, String.mk ((splitFields d s.data).getD (pos - 1) []))
        else (FAIL, out) := by
  have hlen := splitFields_length d s.data
  obtain ⟨n, rfl⟩ : ∃ n, pos = n + 1 := ⟨pos - 1, by omega⟩
  unfold getTok
  rw [getTokLoop_fields d n s.data [], hlen]
  simp only [Nat.add_sub_cancel]
  by_cases hk : 1 ≤ s.data.count d
  · have hmem : d ∈ s.data := List.count_pos_iff.1 (by omega)
    by_cases hc : n + 1 < s.data.count d + 1 ∨
        (n + 1 = s.data.count d + 1 ∧ (splitFields d s.data).getD n [] ≠ [])
    · have hc2 : 1 ≤ s.data.count d ∧ (n + 1 ≤ s.data.count d ∨
          (n + 1 = s.data.count d + 1 ∧ (splitFields d s.data).getD n [] ≠ [])) := by
        refine ⟨hk, ?_⟩
        rcases hc with h | h
        · left; omega
        · right; exact h
      rw [if_pos hc, if_pos hc2]
      simp only
      have hne : ¬ s = String.mk ((splitFields d s.data).getD n []) := by
        intro e
        have h1 := splitFields_no_delim d s.data n
        have h2 : s.data = (splitFields d s.data).getD n [] := congrArg String.data e
        rw [← h2] at h1
        exact h1 hmem
      rw [if_neg hne]
    · have hc2 : ¬ (1 ≤ s.data.count d ∧ (n + 1 ≤ s.data.count d ∨
          (n + 1 = s.data.count d + 1 ∧ (splitFields d s.data).getD n [] ≠ []))) := by
        intro h
        apply hc
        rcases h.2 with h1 | h1
        · left; omega
        · right; exact h1
      rw [if_neg hc, if_neg hc2]
  · have hnm : d ∉ s.data := by
      intro hm
      have := List.count_pos_iff.2 hm
      omega
    have hc2 : ¬ (1 ≤ s.data.count d ∧ (n + 1 ≤ s.data.count d ∨
        (n + 1 = s.data.count d + 1 ∧ (splitFields d s.data).getD n [] ≠ []))) :=
      fun h => hk h.1
    rw [if_neg hc2]
    by_cases hc : n + 1 < s.data.count d + 1 ∨
        (n + 1 = s.data.count d + 1 ∧ (splitFields d s.data).getD n [] ≠ [])
    · rw [if_pos hc]
      simp only
      have hn0 : n = 0 := by
        rcases hc with h | h
        · omega
        · omega
      subst hn0
      rw [splitFields_of_not_mem d _ hnm]
      simp
    · rw [if_neg hc]

/-- C28: for every string `s`, delimiter `d` and position `pos ≥ 1`, with the
fields of `s` split at its `k` occurrences of `d` (`splitFields`, which has
`k + 1` fields), `getTok` returns `SUCCESS` with the field number `pos` when
`k ≥ 1` and `pos ≤ k`, or `pos = k + 1` and the last field is not empty; in
every other case it returns `FAIL` and leaves `out` unchanged. -/
theorem C28_getTok_fields (s out : String) (d : Char) (pos : Nat) (hpos : 1 ≤ pos) :
    (splitFields d s.data).length = s.data.count d + 1 ∧
    getTok s out d pos
      = if 1 ≤ s.data.count d ∧ (pos ≤ s.data.count d ∨
            (pos = s.data.count d + 1 ∧ (splitFields d s.data).getD (pos - 1) [] ≠ []))
        then (SUCCESS, String.mk ((splitFields d s.data).getD (pos - 1) []))
        else (FAIL, out) :=
  ⟨splitFields_length d s.data, getTok_fields s out d pos hpos⟩

/-- Witness of C28: the third field of a ligature line split at the quotes. -/
theorem C28_getTok_fields_witness :
    1 ≤ 3 ∧
    (splitFields '"' exampleLine.data).length = exampleLine.data.count '"' + 1 ∧
    getTok exampleLine "" '"' 3
      = if 1 ≤ exampleLine.data.count '"' ∧ (3 ≤ exampleLine.data.count '"' ∨
            (3 = exampleLine.data.count '"' + 1 ∧
              (splitFields '"' exampleLine.data).getD (3 - 1) [] ≠ []))
        then (SUCCESS, String.mk ((splitFields '"' exampleLine.data).getD (3 - 1) []))
        else (FAIL, "") :=
  ⟨by decide, C28_getTok_fields exampleLine "" '"' 3 (by decide)⟩

/-! ### The ligature accessor and the two-component names -/

/-- C22 (the code diverges from the claim): for the index equal to the size of
the component list the test `idx > size` lets the call through and the method
reads the element past the end instead of returning `FAIL`; for a smaller
index it returns `SUCCESS` with the name at that index, and for a greater index
it returns `FAIL` and keeps `out`. -/
theorem C22_index_equal_to_size (tLig : Ligature) (out : String) :
    getNthglyphName tLig tLig.glyphNames.length out = none ∧
    getNthglyphName ⟨"liga", ["k", "s"]⟩ 2 out = none ∧
    (∀ (idx : Nat) (g : String), tLig.glyphNames[idx]? = some g →
      getNthglyphName tLig idx out = some (SUCCESS, g)) ∧
    (∀ (idx : Nat), idx > tLig.glyphNames.length →
      getNthglyphName tLig idx out = some (FAIL, out)) := by
  refine ⟨?_, ?_, ?_, ?_⟩
  · unfold getNthglyphName
    rw [if_neg (Nat.lt_irrefl _)]
    simp
  · rfl
  · intro idx g h
    have hlt : idx < tLig.glyphNames.length := (List.getElem?_eq_some_iff.1 h).1
    unfold getNthglyphName
    rw [if_neg (by omega), h]
  · intro idx h
    unfold getNthglyphName
    rw [if_pos h]

/-- C23 (counterexample): for the mapped glyph `ka` and the virama glyph `xx`
`buildName` returns `k1`, the new name of `ka` alone; the virama is not
retained. -/
theorem C23_two_component_virama_dropped :
    buildName "VIRAMA" "xx" "" [("ka", "k1"), ("xx", "VIRAMA")] ["ka", "xx"] ""
      = (SUCCESS, "k1") ∧
    buildName "VIRAMA" "xx" "" [("ka", "k1"), ("xx", "VIRAMA")] ["ka", "VIRAMA"] ""
      = (SUCCESS, "k1") := by
  decide

/-- C23, amended: for every rename map and every list of a glyph `g` followed
by the virama glyph, `buildName` started with an empty output returns
`SUCCESS` and what the glyph `g` alone contributes: the virama is skipped in a
list of two components as in every other list. -/
theorem C23_virama_elided (VIRAMA Virama Zwj : String) (nameMap : NameMap) (g : String) :
    buildName VIRAMA Virama Zwj nameMap [g, Virama] ""
      = (SUCCESS, contribution VIRAMA Virama Zwj nameMap g) ∧
    buildName VIRAMA Virama Zwj nameMap [g, "VIRAMA"] ""
      = (SUCCESS, contribution VIRAMA Virama Zwj nameMap g) := by
  have hskip : ∀ v, (v = "VIRAMA" ∨ v = Virama) →
      buildName VIRAMA Virama Zwj nameMap [g, v] ""
        = (SUCCESS, contribution VIRAMA Virama Zwj nameMap g) := by
    intro v hv
    unfold buildName
    rw [buildLoop_concat VIRAMA Virama Zwj nameMap [g, v].length [g, v] 0 _ rfl]
    · have hc : contribution VIRAMA Virama Zwj nameMap v = "" := by
        unfold contribution
        by_cases hz : v = ZWJ ∨ v = Zwj
        · rw [if_pos hz]
        · rw [if_neg hz, if_pos hv]
      simp [compositeName, hc]
    · intro p c _ _ hh
      simp at hh
  exact ⟨hskip Virama (Or.inr rfl), hskip "VIRAMA" (Or.inl rfl)⟩

/-! ### The reference file -/

theorem afterFirstSpace_eq (l : List Char) : afterFirstSpace l = (takeField ' ' l).2 := by
  induction l with
  | nil => rfl
  | cons c rest ih =>
    simp only [afterFirstSpace, takeField]
    split
    · rfl
    · exact ih

/-- A line is well formed exactly when `getTok` finds its second field. -/
theorem wellFormed_iff (line : String) :
    wellFormed line = true ↔
      (1 ≤ line.data.count ' ' ∧ (2 ≤ line.data.count ' ' ∨
        (2 = line.data.count ' ' + 1 ∧ (splitFields ' ' line.data).getD (2 - 1) [] ≠ []))) := by
  have hf := takeField_fields ' ' line.data
  have hlen := splitFields_length ' ' line.data
  unfold wellFormed
  rw [afterFirstSpace_eq]
  cases hr : (takeField ' ' line.data).2 with
  | none =>
    have ht := hf.2.2 hr
    have hl : (splitFields ' ' line.data).length ≤ 1 := by
      have := List.length_tail (splitFields ' ' line.data)
      rw [ht] at this
      simp only [List.length_nil] at this
      omega
    simp only [Bool.false_eq_true, false_iff]
    intro h
    omega
  | some rest =>
    have ht := hf.2.1 rest hr
    have hl : (splitFields ' ' line.data).length = (splitFields ' ' rest).length + 1 := by
      have := List.length_tail (splitFields ' ' line.data)
      rw [ht] at this
      have h0 : (splitFields ' ' line.data).length ≠ 0 := by rw [hlen]; omega
      omega
    have hlr := splitFields_length ' ' rest
    have hget : (splitFields ' ' line.data).getD 1 [] = (splitFields ' ' rest).getD 0 [] := by
      rw [← ht]
      cases splitFields ' ' line.data with
      | nil => rfl
      | cons f fs => rfl
    cases rest with
    | nil =>
      simp only [Bool.false_eq_true, false_iff]
      rw [hget]
      simp only [splitFields, List.length_singleton] at hl
      simp only [splitFields, List.getD_cons_zero, ne_eq, not_true_eq_false, and_false, or_false]
      omega
    | cons c r =>
      simp only [true_iff]
      refine ⟨by omega, ?_⟩
      by_cases hm : ' ' ∈ c :: r
      · left
        have := List.count_pos_iff.2 hm
        omega
      · right
        have hc0 : List.count ' ' (c :: r) = 0 := List.count_eq_zero.2 hm
        refine ⟨by omega, ?_⟩
        rw [hget, splitFields_of_not_mem ' ' _ hm]
        simp

theorem getTok_first_of_wellFormed (line out : String) (h : wellFormed line = true) :
    getTok line out ' ' 1
      = (SUCCESS, String.mk ((splitFields ' ' line.data).getD 0 [])) := by
  have hw := (wellFormed_iff line).1 h
  rw [getTok_fields line out ' ' 1 (Nat.le_refl _), if_pos ⟨hw.1, Or.inl hw.1⟩]

theorem getTok_second_of_wellFormed (line out : String) (h : wellFormed line = true) :
    getTok line out ' ' 2 = (SUCCESS, lineName line) := by
  have hw := (wellFormed_iff line).1 h
  rw [getTok_fields line out ' ' 2 (by omega), if_pos hw]
  rfl

theorem getTok_second_of_not_wellFormed (line out : String) (h : wellFormed line = false) :
    getTok line out ' ' 2 = (FAIL, out) := by
  have hw : ¬ _ := fun hc => by
    have := (wellFormed_iff line).2 hc
    rw [h] at this
    exact Bool.noConfusion this
  rw [getTok_fields line out ' ' 2 (by omega), if_neg hw]

theorem loadLines_line (hex : String → Int) (line : String) (rest : List String)
    (ref : RefTable) :
    loadLines hex (line :: rest) ref
      = if wellFormed line = true
        then loadLines hex rest (refSet ref (lineCode hex line) (lineName line))
        else (FAIL, ref) := by
  by_cases h : wellFormed line = true
  · rw [if_pos h]
    simp only [loadLines]
    rw [getTok_first_of_wellFormed line "" h, getTok_second_of_wellFormed line _ h]
    simp [lineCode]
  · rw [if_neg h]
    have h2 : wellFormed line = false := by
      cases hb : wellFormed line
      · rfl
      · exact absurd hb h
    simp only [loadLines]
    by_cases h1 : (getTok line "" ' ' 1).1 = SUCCESS
    · rw [if_pos h1, getTok_second_of_not_wellFormed line _ h2]
      simp [SUCCESS, FAIL]
    · rw [if_neg h1]

/-- The lines before the first malformed line are loaded and kept; the
malformed line makes the function return `FAIL`. -/
theorem loadLines_append (hex : String → Int) : ∀ (good : List String) (ref : RefTable),
    (∀ l ∈ good, wellFormed l = true) →
    (loadLines hex good ref).1 = SUCCESS ∧
    ∀ bad rest, wellFormed bad = false →
      loadLines hex (good ++ bad :: rest) ref = (FAIL, (loadLines hex good ref).2) := by
  intro good
  induction good with
  | nil =>
    intro ref _
    refine ⟨rfl, ?_⟩
    intro bad rest hb
    rw [List.nil_append, loadLines_line, if_neg (by rw [hb]; exact Bool.noConfusion)]
    rfl
  | cons l ls ih =>
    intro ref hg
    have hl := hg l (List.mem_cons_self _ _)
    have hls := fun x hx => hg x (List.mem_cons_of_mem _ hx)
    rw [loadLines_line, if_pos hl]
    refine ⟨(ih _ hls).1, ?_⟩
    intro bad rest hb
    rw [List.cons_append, loadLines_line, if_pos hl]
    exact (ih _ hls).2 bad rest hb

theorem refSet_mem (cp : Int) (name : String) : ∀ (ref : RefTable) (p : Int × String),
    p ∈ refSet ref cp name → p = (cp, name) ∨ p ∈ ref := by
  intro ref
  induction ref with
  | nil =>
    intro p hp
    simp only [refSet, List.mem_singleton] at hp
    exact Or.inl hp
  | cons a rest ih =>
    intro p hp
    obtain ⟨c, n⟩ := a
    simp only [refSet] at hp
    split at hp
    · rename_i hc
      rcases List.mem_cons.1 hp with h | h
      · left; rw [h, hc]
      · right; exact List.mem_cons_of_mem _ h
    · split at hp
      · rcases List.mem_cons.1 hp with h | h
        · exact Or.inl h
        · exact Or.inr h
      · rcases List.mem_cons.1 hp with h | h
        · right; rw [h]; exact List.mem_cons_self _ _
        · rcases ih p h with h1 | h1
          · exact Or.inl h1
          · exact Or.inr (List.mem_cons_of_mem _ h1)

theorem refSet_keys (cp : Int) (name : String) : ∀ (ref : RefTable) (k : Int),
    k ∈ (refSet ref cp name).map (fun p => p.1) ↔ k = cp ∨ k ∈ ref.map (fun p => p.1) := by
  intro ref
  induction ref with
  | nil => intro k; simp [refSet]
  | cons a rest ih =>
    intro k
    obtain ⟨c, n⟩ := a
    simp only [refSet]
    split
    · rename_i hc
      subst hc
      simp
    · split
      · simp
      · simp only [List.map_cons, List.mem_cons, ih k]
        tauto

theorem refSet_sorted (cp : Int) (name : String) : ∀ (ref : RefTable),
    refSorted ref → refSorted (refSet ref cp name) := by
  intro ref
  induction ref with
  | nil => intro _; simp [refSet, refSorted]
  | cons a rest ih =>
    intro h
    obtain ⟨c, n⟩ := a
    unfold refSorted at h ⊢
    rw [List.pairwise_cons] at h
    simp only [refSet]
    split
    · rw [List.pairwise_cons]
      exact h
    · rename_i hne
      split
      · rename_i hlt
        rw [List.pairwise_cons, List.pairwise_cons]
        refine ⟨?_, h⟩
        intro b hb
        rcases List.mem_cons.1 hb with e | e
        · rw [e]; exact hlt
        · exact lt_trans hlt (h.1 b e)
      · rename_i hnlt
        rw [List.pairwise_cons]
        refine ⟨?_, ih h.2⟩
        intro b hb
        rcases refSet_mem cp name rest b hb with e | e
        · rw [e]
          show c < cp
          omega
        · exact h.1 b e

theorem loadLines_table (hex : String → Int) : ∀ (good : List String) (ref : RefTable),
    (∀ l ∈ good, wellFormed l = true) → refSorted ref →
    refSorted (loadLines hex good ref).2 ∧
    (∀ k, k ∈ (loadLines hex good ref).2.map (fun p => p.1) ↔
      (k ∈ ref.map (fun p => p.1) ∨ ∃ l ∈ good, lineCode hex l = k)) ∧
    (∀ p ∈ (loadLines hex good ref).2,
      p ∈ ref ∨ ∃ l ∈ good, p = (lineCode hex l, lineName l)) := by
  intro good
  induction good with
  | nil =>
    intro ref _ hs
    exact ⟨hs, fun k => by simp [loadLines], fun p hp => Or.inl hp⟩
  | cons l ls ih =>
    intro ref hg hs
    have hl := hg l (List.mem_cons_self _ _)
    have hls := fun x hx => hg x (List.mem_cons_of_mem _ hx)
    rw [loadLines_line, if_pos hl]
    obtain ⟨h1, h2, h3⟩ := ih (refSet ref (lineCode hex l) (lineName l)) hls
      (refSet_sorted _ _ ref hs)
    refine ⟨h1, ?_, ?_⟩
    · intro k
      rw [h2 k, refSet_keys]
      simp only [List.mem_cons, exists_eq_or_imp]
      constructor
      · rintro ((h | h) | h)
        · exact Or.inr (Or.inl h.symm)
        · exact Or.inl h
        · exact Or.inr (Or.inr h)
      · rintro (h | h | h)
        · exact Or.inl (Or.inr h)
        · exact Or.inl (Or.inl h.symm)
        · exact Or.inr h
    · intro p hp
      rcases h3 p hp with h | ⟨x, hx, h⟩
      · rcases refSet_mem _ _ ref p h with e | e
        · exact Or.inr ⟨l, List.mem_cons_self _ _, e⟩
        · exact Or.inl e
      · exact Or.inr ⟨x, List.mem_cons_of_mem _ hx, h⟩

theorem refSorted_nodup (ref : RefTable) (h : refSorted ref) :
    (ref.map (fun p => p.1)).Nodup := by
  unfold refSorted at h
  rw [List.Nodup, List.pairwise_map]
  exact h.imp (fun hab => ne_of_lt hab)

/-- C21 (counterexample): the first line of the file is well formed and the
second has no space; `loadReferenceData` returns `FAIL` and the map passed in,
empty before the call, holds the entry of the first line. -/
theorem C21_partial_table_left :
    wellFormed "0D15 ka" = true ∧ wellFormed "0D16" = false ∧
    loadReferenceData hexDigitsVal (some ["0D15 ka", "0D16"]) []
      = (FAIL, [(3349, "ka")]) := by
  decide

/-- C21, amended: when the lines `good` are well formed, `loadReferenceData`
called with an empty map returns `SUCCESS` on them, with a map that has one
entry for every code point of a line and no other entry, each made of the code
point and the name of a line; and on a file in which a malformed line follows
the lines `good` it returns `FAIL` and leaves in the map the entries loaded
from the lines `good`. -/
theorem C21_load_reference (hexStrtoInt : String → Int) (good : List String)
    (hgood : ∀ l ∈ good, wellFormed l = true) :
    (loadReferenceData hexStrtoInt (some good) []).1 = SUCCESS ∧
    ((loadReferenceData hexStrtoInt (some good) []).2.map (fun p => p.1)).Nodup ∧
    (∀ k, k ∈ (loadReferenceData hexStrtoInt (some good) []).2.map (fun p => p.1) ↔
      ∃ l ∈ good, lineCode hexStrtoInt l = k) ∧
    (∀ p ∈ (loadReferenceData hexStrtoInt (some good) []).2,
      ∃ l ∈ good, p = (lineCode hexStrtoInt l, lineName l)) ∧
    (∀ bad rest, wellFormed bad = false →
      loadReferenceData hexStrtoInt (some (good ++ bad :: rest)) []
        = (FAIL, (loadReferenceData hexStrtoInt (some good) []).2)) := by
  have hs : refSorted [] := List.Pairwise.nil
  obtain ⟨h1, h2, h3⟩ := loadLines_table hexStrtoInt good [] hgood hs
  obtain ⟨h4, h5⟩ := loadLines_append hexStrtoInt good [] hgood
  refine ⟨h4, refSorted_nodup _ h1, ?_, ?_, h5⟩
  · intro k
    have := h2 k
    simp only [List.map_nil, List.not_mem_nil, false_or] at this
    exact this
  · intro p hp
    rcases h3 p hp with h | h
    · exact absurd h (List.not_mem_nil _)
    · exact h

/-- Witness of C21: two lines for the same code point and one for another. -/
theorem C21_load_reference_witness :
    (∀ l ∈ ["0D15 ka", "0D16 kha", "0D15 k1"], wellFormed l = true) ∧
    ((loadReferenceData hexDigitsVal (some ["0D15 ka", "0D16 kha", "0D15 k1"]) []).1 = SUCCESS ∧
    ((loadReferenceData hexDigitsVal (some ["0D15 ka", "0D16 kha", "0D15 k1"]) []).2.map
      (fun p => p.1)).Nodup ∧
    (∀ k, k ∈ (loadReferenceData hexDigitsVal (some ["0D15 ka", "0D16 kha", "0D15 k1"]) []).2.map
        (fun p => p.1) ↔
      ∃ l ∈ ["0D15 ka", "0D16 kha", "0D15 k1"], lineCode hexDigitsVal l = k) ∧
    (∀ p ∈ (loadReferenceData hexDigitsVal (some ["0D15 ka", "0D16 kha", "0D15 k1"]) []).2,
      ∃ l ∈ ["0D15 ka", "0D16 kha", "0D15 k1"], p = (lineCode hexDigitsVal l, lineName l)) ∧
    (∀ bad rest, wellFormed bad = false →
      loadReferenceData hexDigitsVal (some (["0D15 ka", "0D16 kha", "0D15 k1"] ++ bad :: rest)) []
        = (FAIL, (loadReferenceData hexDigitsVal
            (some ["0D15 ka", "0D16 kha", "0D15 k1"]) []).2))) ∧
    loadReferenceData hexDigitsVal (some ["0D15 ka", "0D16 kha", "0D15 k1"]) []
      = (SUCCESS, [(3349, "k1"), (3350, "kha")]) :=
  ⟨by decide,
    C21_load_reference hexDigitsVal ["0D15 ka", "0D16 kha", "0D15 k1"] (by decide),
    by decide⟩

/-! ### The collision loop: bound and uniqueness -/

theorem dupLoopTrace_fst (v : List FontChar) (i : Nat) (curName base : String) :
    ∀ (fuel seq : Nat) (name : String),
    (dupLoopTrace v i curName base fuel seq name).map (fun p => p.1)
      = dupLoop v i curName base fuel seq name := by
  intro fuel
  induction fuel with
  | zero => intro seq name; rfl
  | succ k ih =>
    intro seq name
    simp only [dupLoopTrace, dupLoop]
    split
    · split
      · rfl
      · exact ih _ _
    · rfl

/-- What the collision loop went through when it ends with the sequence
number `k`: the first name and the names with the numbers below `k` were
taken. -/
theorem dupLoopTrace_spec (v : List FontChar) (i : Nat) (curName base : String) :
    ∀ (fuel seq : Nat) (name : String) (p : String × Nat × Bool),
    dupLoopTrace v i curName base fuel seq name = some p →
    seq ≤ p.2.1 ∧
    (seq < p.2.1 → checkDups v i name = FAIL) ∧
    (∀ j, seq < j → j < p.2.1 → checkDups v i (base ++ toString j) = FAIL) ∧
    (p.2.2 = false →
      p.1 = (if p.2.1 = seq then name else base ++ toString p.2.1) ∧
      checkDups v i p.1 = SUCCESS) ∧
    (p.2.2 = true →
      processHalfForms curName (if p.2.1 = seq then name else base ++ toString p.2.1) ""
        = (SUCCESS, p.1)) := by
  intro fuel
  induction fuel with
  | zero => intro seq name p h; simp [dupLoopTrace] at h
  | succ k ih =>
    intro seq name p h
    simp only [dupLoopTrace] at h
    split at h
    · rename_i hfail
      split at h
      · rename_i hov
        simp only [Option.some.injEq] at h
        subst h
        refine ⟨Nat.le_refl _, fun _ => hfail,
          fun j h1 h2 => (Nat.lt_asymm h1 h2).elim, fun hc => by simp at hc, ?_⟩
        intro _
        simp only [if_true]
        exact Prod.ext hov rfl
      · obtain ⟨h1, h0, h2, h3, h4⟩ := ih _ _ p h
        have hne : ¬ p.2.1 = seq := by omega
        refine ⟨by omega, fun _ => hfail, ?_, ?_, ?_⟩
        · intro j hj1 hj2
          by_cases hj : j = seq + 1
          · subst hj
            exact h0 hj2
          · exact h2 j (by omega) hj2
        · intro hf
          have := h3 hf
          rw [if_neg hne]
          by_cases hend : p.2.1 = seq + 1
          · rw [if_pos hend] at this
            rw [hend]
            exact this
          · rw [if_neg hend] at this
            exact this
        · intro ht
          have := h4 ht
          rw [if_neg hne]
          by_cases hend : p.2.1 = seq + 1
          · rw [if_pos hend] at this
            rw [hend]
            exact this
          · rw [if_neg hend] at this
            exact this
    · rename_i hok
      simp only [Option.some.injEq] at h
      subst h
      refine ⟨Nat.le_refl _, fun hc => (Nat.lt_irrefl _ hc).elim,
        fun j h1 h2 => (Nat.lt_asymm h1 h2).elim, ?_, fun hc => by simp at hc⟩
      intro _
      simp only [if_true]
      rcases checkDups_cases v i name with hc | hc
      · exact ⟨trivial, hc⟩
      · exact absurd hc hok

theorem takenFrom_length_lt (idx : Nat) (l : List FontChar) : ∀ st,
    st ≤ idx → idx < st + l.length → (takenFrom idx st l).length + 2 ≤ 2 * l.length := by
  induction l with
  | nil => intro st h1 h2; simp at h2; omega
  | cons fc rest ih =>
    intro st h1 h2
    simp only [takenFrom]
    split
    · have := takenFrom_length idx rest (st + 1)
      simp only [List.length_cons]
      omega
    · rename_i hne
      simp only [List.length_cons] at h2 ⊢
      have := ih (st + 1) (by omega) (by omega)
      omega

theorem dupLoopTrace_some (v : List FontChar) (i : Nat) (curName base name : String) :
    ∃ p, dupLoopTrace v i curName base (dupFuel v) 0 name = some p ∧
      dupLoop v i curName base (dupFuel v) 0 name = some p.1 := by
  obtain ⟨r, hr⟩ := dupLoop_some v i curName base name
  have h := dupLoopTrace_fst v i curName base (dupFuel v) 0 name
  rw [hr] at h
  cases ht : dupLoopTrace v i curName base (dupFuel v) 0 name with
  | none => rw [ht] at h; simp at h
  | some p =>
    rw [ht] at h
    simp only [Option.map_some', Option.some.injEq] at h
    exact ⟨p, rfl, by rw [hr, h]⟩

/-- C25: for a glyph vector of `n` glyphs, a glyph at position `i` with a
non-empty current name and every candidate, the collision loop of
`renameGlyphs` returns a name, and the sequence number it ends with is at most
`2 (n - 1) + 1`; when the loop did not end through the half-form override the
name is the candidate (number `0`) or the candidate followed by `_` and the
number; the override only applies to the candidate itself. -/
theorem C25_bounded_suffix (v : List FontChar) (i : Nat) (fc : FontChar) (cand : String)
    (hi : v[i]? = some fc) (hcur : fc.curName ≠ "") :
    ∃ p, dupLoopTrace v i fc.curName (cand ++ "_") (dupFuel v) 0 cand = some p ∧
      dupLoop v i fc.curName (cand ++ "_") (dupFuel v) 0 cand = some p.1 ∧
      p.2.1 ≤ 2 * (v.length - 1) + 1 ∧
      (p.2.2 = false → p.1 = if p.2.1 = 0 then cand else cand ++ "_" ++ toString p.2.1) ∧
      (p.2.2 = true → p.2.1 = 0 ∧ p.1 = fc.curName) := by
  obtain ⟨p, hp, hd⟩ := dupLoopTrace_some v i fc.curName (cand ++ "_") cand
  obtain ⟨_, _, h2, h3, h4⟩ := dupLoopTrace_spec v i fc.curName (cand ++ "_") _ _ _ p hp
  have hilt : i < v.length := (List.getElem?_eq_some_iff.1 hi).1
  refine ⟨p, hp, hd, ?_, fun hf => (h3 hf).1, ?_⟩
  · have hsub : (List.range (p.2.1 - 1)).map (fun j => cand ++ "_" ++ toString (j + 1))
        ⊆ takenFrom i 0 v := by
      intro x hx
      rw [List.mem_map] at hx
      obtain ⟨j, hj, rfl⟩ := hx
      rw [List.mem_range] at hj
      apply checkDupsFrom_fail_mem
      exact h2 (j + 1) (by omega) (by omega)
    have hnd : ((List.range (p.2.1 - 1)).map
        (fun j => cand ++ "_" ++ toString (j + 1))).Nodup := by
      apply List.Nodup.map _ (List.nodup_range _)
      intro a b hab
      have := suffix_injective (cand ++ "_") (a + 1) (b + 1) hab
      omega
    have hlen := (List.subperm_of_subset hnd hsub).length_le
    have := takenFrom_length_lt i v 0 (Nat.zero_le _) (by omega)
    simp only [List.length_map, List.length_range] at hlen
    omega
  · intro ht
    have h := h4 ht
    by_cases hk : p.2.1 = 0
    · rw [if_pos hk] at h
      refine ⟨hk, ?_⟩
      unfold processHalfForms at h
      split at h
      · exact (congrArg Prod.snd h).symm
      · have hfs : FAIL = SUCCESS := congrArg Prod.fst h
        exact absurd hfs (by decide)
    · rw [if_neg hk] at h
      have hs := processHalfForms_suffixed fc.curName cand "" p.2.1 hcur
      rw [h] at hs
      have hfs : SUCCESS = FAIL := hs
      exact absurd hfs (by decide)

/-- Witness of C25: the glyph `g` of `kakaGlyphs` with the candidate `kaka`; the
loop ends with the number `2`. -/
theorem C25_bounded_suffix_witness :
    (kakaGlyphs[0]? = some ⟨-1, "g", "", [⟨"liga", ["k", "k"]⟩]⟩ ∧
      (FontChar.mk (-1) "g" "" [⟨"liga", ["k", "k"]⟩]).curName ≠ "") ∧
    (∃ p, dupLoopTrace kakaGlyphs 0 (FontChar.mk (-1) "g" "" [⟨"liga", ["k", "k"]⟩]).curName
        ("kaka" ++ "_") (dupFuel kakaGlyphs) 0 "kaka" = some p ∧
      dupLoop kakaGlyphs 0 (FontChar.mk (-1) "g" "" [⟨"liga", ["k", "k"]⟩]).curName
        ("kaka" ++ "_") (dupFuel kakaGlyphs) 0 "kaka" = some p.1 ∧
      p.2.1 ≤ 2 * (kakaGlyphs.length - 1) + 1 ∧
      (p.2.2 = false → p.1 = if p.2.1 = 0 then "kaka" else "kaka" ++ "_" ++ toString p.2.1) ∧
      (p.2.2 = true → p.2.1 = 0 ∧
        p.1 = (FontChar.mk (-1) "g" "" [⟨"liga", ["k", "k"]⟩]).curName)) ∧
    dupLoopTrace kakaGlyphs 0 "g" ("kaka" ++ "_") (dupFuel kakaGlyphs) 0 "kaka"
      = some ("kaka_2", 2, false) :=
  ⟨⟨rfl, by decide⟩, C25_bounded_suffix kakaGlyphs 0 _ "kaka" rfl (by decide), by decide⟩

/-- C29: the collision loop run for the glyph at position `i` returns a name,
and when it did not end through the half-form override, `checkDups` returns
`SUCCESS` for that name: it is neither the current nor the new name of a glyph
at another position of the vector the loop was run on. -/
theorem C29_suffix_path_unique (v : List FontChar) (i : Nat) (curName cand : String) :
    ∃ p, dupLoopTrace v i curName (cand ++ "_") (dupFuel v) 0 cand = some p ∧
      dupLoop v i curName (cand ++ "_") (dupFuel v) 0 cand = some p.1 ∧
      (p.2.2 = false → checkDups v i p.1 = SUCCESS ∧
        ∀ (j : Nat) (fj : FontChar), v[j]? = some fj → j ≠ i →
          fj.curName ≠ p.1 ∧ fj.newName ≠ p.1) := by
  obtain ⟨p, hp, hd⟩ := dupLoopTrace_some v i curName (cand ++ "_") cand
  obtain ⟨_, _, _, h3, _⟩ := dupLoopTrace_spec v i curName (cand ++ "_") _ _ _ p hp
  refine ⟨p, hp, hd, ?_⟩
  intro hf
  have hc := (h3 hf).2
  exact ⟨hc, (checkDups_success_iff v i p.1).1 hc⟩

/-! ### Composites that have a name, and the agreement of glyphs and map -/

/-- The body of the ligature stage counts at most one rename, and none for a
glyph that has a name in the rename map. -/
theorem ligStep_renCount (VIRAMA : String) (i : Nat) (s : State) (r : Int × State)
    (h : ligStep VIRAMA i s = some r) :
    r.2.renCount ≤ s.renCount + 1 ∧
    (∀ fc, s.vFontChar[i]? = some fc → mapGet s.nameMap fc.curName ≠ "" →
      r.2.renCount = s.renCount) := by
  rcases ligStep_cases VIRAMA i s r h with h1 | ⟨fc, X, hi, _, hm, _, _, _, hr, _⟩
  · exact ⟨by rw [h1.2.1]; omega, fun _ _ _ => h1.2.1⟩
  · refine ⟨by rw [hr], ?_⟩
    intro fc2 hi2 hne
    rw [hi] at hi2
    cases hi2
    exact absurd hm hne

theorem ligLoop_renCount (VIRAMA : String) (j : Nat) (fc : FontChar) (c : String)
    (hc : c ≠ "") : ∀ (n i : Nat) (s : State) (r : Int × State),
    ligLoop VIRAMA n i s = some r → distinctNames s.vFontChar →
    s.vFontChar[j]? = some fc → mapGet s.nameMap fc.curName = c →
    r.2.renCount + (if i ≤ j ∧ j < i + n then 1 else 0) ≤ s.renCount + n := by
  intro n
  induction n with
  | zero =>
    intro i s r h _ _ _
    simp only [ligLoop, Option.some.injEq] at h
    subst h
    simp only
    split_ifs <;> omega
  | succ k ih =>
    intro i s r h hd hj hm
    simp only [ligLoop] at h
    cases hstep : ligStep VIRAMA i s with
    | none => simp [hstep] at h
    | some q =>
      simp only [hstep] at h
      obtain ⟨hq1, hq2⟩ := ligStep_renCount VIRAMA i s q hstep
      have hkeep := ligStep_keeps VIRAMA i j s q fc hstep hd hj
        (fun _ => Or.inr (Or.inl (by rw [hm]; exact hc)))
      have hd2 : distinctNames q.2.vFontChar :=
        distinctNames_of_names_eq _ _ (ligStep_names VIRAMA i s q hstep) hd
      have hij : i = j → q.2.renCount = s.renCount := by
        intro e
        subst e
        exact hq2 fc hj (by rw [hm]; exact hc)
      by_cases hf : q.1 = FAIL
      · simp only [if_pos hf, Option.some.injEq] at h
        subst h
        by_cases e : i = j
        · have h3 := hij e
          split_ifs <;> omega
        · split_ifs <;> omega
      · simp only [if_neg hf] at h
        have h4 := ih (i + 1) q.2 r h hd2 hkeep.1 (by rw [hkeep.2, hm])
        by_cases e : i = j
        · have h3 := hij e
          split_ifs at h4 ⊢ <;> omega
        · split_ifs at h4 ⊢ <;> omega

theorem mapTouch_of_get (m : NameMap) (k : String) (h : mapGet m k ≠ "") :
    mapTouch m k = m := by
  unfold mapTouch
  by_cases hh : mapHas m k = true
  · rw [if_pos hh]
  · have h2 : mapHas m k = false := by simpa using hh
    exact absurd (mapGet_of_not_mapHas m k h2) h

/-- The loop over the glyphs in two parts: the first `a` glyphs, and, when the
first part has not returned `FAIL`, the `b` glyphs after them. -/
theorem ligLoop_split (VIRAMA : String) : ∀ (a b i : Nat) (s : State),
    ligLoop VIRAMA (a + b) i s
      = match ligLoop VIRAMA a i s with
        | none => none
        | some q => if q.1 = FAIL then some q else ligLoop VIRAMA b (i + a) q.2 := by
  intro a
  induction a with
  | zero =>
    intro b i s
    simp only [ligLoop, Nat.zero_add, Nat.add_zero]
    rw [if_neg (by decide)]
  | succ k ih =>
    intro b i s
    have e : k + 1 + b = (k + b) + 1 := by omega
    rw [e]
    simp only [ligLoop]
    cases hstep : ligStep VIRAMA i s with
    | none => rfl
    | some q =>
      simp only
      by_cases hf : q.1 = FAIL
      · simp only [if_pos hf]
      · simp only [if_neg hf]
        rw [ih b (i + 1) q.2]
        have e2 : i + 1 + k = i + (k + 1) := by omega
        rw [e2]

/-- The body of the ligature stage for a glyph that has a name in the rename
map returns `SUCCESS` and leaves the whole state as it is. -/
theorem ligStep_skip (VIRAMA : String) (j : Nat) (s : State) (fc : FontChar)
    (hj : s.vFontChar[j]? = some fc) (hne : mapGet s.nameMap fc.curName ≠ "") :
    ligStep VIRAMA j s = some (SUCCESS, s) := by
  unfold ligStep
  rw [hj]
  simp only
  by_cases hl : fc.ligatureList.length = 0
  · rw [if_pos hl]
  · rw [if_neg hl]
    have hpos : (mapGet s.nameMap fc.curName).length > 0 :=
      Nat.pos_of_ne_zero ((length_ne_zero_iff _).2 hne)
    rw [if_pos hpos, mapTouch_of_get _ _ hne]

/-- C24: for every state (the current names of its glyphs are pairwise
distinct: the current name is the key of a glyph) and every glyph with code
point `-1` whose entry in the rename map is not empty, a call of `renameGlyphs`
returns, keeps that entry and leaves the glyph with the entry as new name. The
glyph is not counted in `renCount`: the loop over the glyphs reaches it in a
state `a`, unless the call has returned `FAIL` before, and the body of the loop
for the glyph returns with the state `a` as it is, `renCount` included, whatever
the ligatures of the glyph are; the call ends with the loop over the glyphs
after it. So `renCount` is less than the number of glyphs. -/
theorem C24_resolved_composite_skipped (VIRAMA : String) (ref : RefTable) (s : State)
    (j : Nat) (fc : FontChar) (hd : distinctNames s.vFontChar)
    (hj : s.vFontChar[j]? = some fc) (hcp : fc.unicodeVal = -1)
    (hne : mapGet s.nameMap fc.curName ≠ "") :
    ∃ r, renameGlyphs VIRAMA ref s = some r ∧
      mapGet r.2.nameMap fc.curName = mapGet s.nameMap fc.curName ∧
      r.2.vFontChar[j]? = some { fc with newName := mapGet s.nameMap fc.curName } ∧
      r.2.renCount + 1 ≤ s.vFontChar.length ∧
      ∃ a, ligLoop VIRAMA j 0 (preLig VIRAMA ref s) = some a ∧
        (a.1 = FAIL → r = a) ∧
        (a.1 ≠ FAIL → ligStep VIRAMA j a.2 = some (SUCCESS, a.2) ∧
          ligLoop VIRAMA (s.vFontChar.length - (j + 1)) (j + 1) a.2 = some r) := by
  obtain ⟨r, hr⟩ := renameGlyphs_some VIRAMA ref s
  have hdp : distinctNames (preLig VIRAMA ref s).vFontChar :=
    distinctNames_of_names_eq _ _ (preLig_names VIRAMA ref s) hd
  have hother : ∀ x ∈ s.vFontChar, x.unicodeVal ≠ -1 → x.curName ≠ fc.curName := by
    intro x hx hxcp
    obtain ⟨a, ha⟩ := List.mem_iff_getElem?.1 hx
    by_cases haj : a = j
    · subst haj
      rw [hj] at ha
      cases ha
      exact absurd hcp hxcp
    · exact hd a j x fc ha hj haj
  have hm1 : mapGet (seedLoop ref s.vFontChar s.nameMap).2 fc.curName
      = mapGet s.nameMap fc.curName :=
    seedLoop_snd_other ref fc.curName s.vFontChar s.nameMap hother
  have hrec : (preLig VIRAMA ref s).vFontChar[j]?
      = some { fc with newName := mapGet s.nameMap fc.curName } := by
    rw [preLig_getElem VIRAMA ref s j fc hj]
    have hs : seedRec ref fc = fc := by simp [seedRec, hcp]
    rw [hs]
    unfold syncRec
    rw [hm1, if_pos ((length_ne_zero_iff _).2 hne)]
  have hmap : mapGet (preLig VIRAMA ref s).nameMap fc.curName
      = mapGet s.nameMap fc.curName := by
    rw [preLig_nameMap]; exact hm1
  have hkeep := ligLoop_keeps VIRAMA j { fc with newName := mapGet s.nameMap fc.curName }
    (mapGet s.nameMap fc.curName) (Or.inr hne) _ _ _ r hr hdp hrec hmap
  have hcount := ligLoop_renCount VIRAMA j { fc with newName := mapGet s.nameMap fc.curName }
    (mapGet s.nameMap fc.curName) hne _ _ _ r hr hdp hrec hmap
  have hjl : j < (preLig VIRAMA ref s).vFontChar.length :=
    (List.getElem?_eq_some_iff.1 hrec).1
  have hlen : (preLig VIRAMA ref s).vFontChar.length = s.vFontChar.length := by
    have := congrArg List.length (preLig_names VIRAMA ref s)
    simpa using this
  have hzero : (preLig VIRAMA ref s).renCount = 0 := rfl
  rw [if_pos ⟨Nat.zero_le _, by omega⟩, hzero, hlen] at hcount
  refine ⟨r, hr, hkeep.2, hkeep.1, by omega, ?_⟩
  obtain ⟨a, ha⟩ := ligLoop_some VIRAMA j 0 (preLig VIRAMA ref s)
  have hka := ligLoop_keeps VIRAMA j { fc with newName := mapGet s.nameMap fc.curName }
    (mapGet s.nameMap fc.curName) (Or.inr hne) _ _ _ a ha hdp hrec hmap
  have hskip : ligStep VIRAMA j a.2 = some (SUCCESS, a.2) :=
    ligStep_skip VIRAMA j a.2 _ hka.1 (by rw [hka.2]; exact hne)
  have e : (preLig VIRAMA ref s).vFontChar.length
      = j + ((s.vFontChar.length - (j + 1)) + 1) := by omega
  have hr2 := hr
  unfold renameGlyphs at hr2
  rw [e, ligLoop_split, ha] at hr2
  simp only at hr2
  refine ⟨a, ha, ?_, ?_⟩
  · intro hf
    rw [if_pos hf] at hr2
    exact (Option.some.inj hr2).symm
  · intro hf
    rw [if_neg hf] at hr2
    simp only [Nat.zero_add, ligLoop, hskip] at hr2
    rw [if_neg (by decide)] at hr2
    exact ⟨hskip, hr2⟩

/-- Witness of C24: the composite `resolvedRec` of `resolvedState`. -/
theorem C24_resolved_composite_skipped_witness :
    (distinctNames resolvedState.vFontChar ∧
      resolvedState.vFontChar[0]? = some resolvedRec ∧ resolvedRec.unicodeVal = -1 ∧
      mapGet resolvedState.nameMap resolvedRec.curName ≠ "") ∧
    ∃ r, renameGlyphs "VIRAMA" akhnFirstRef resolvedState = some r ∧
      mapGet r.2.nameMap resolvedRec.curName = mapGet resolvedState.nameMap resolvedRec.curName ∧
      r.2.vFontChar[0]?
        = some { resolvedRec with
            newName := mapGet resolvedState.nameMap resolvedRec.curName } ∧
      r.2.renCount + 1 ≤ resolvedState.vFontChar.length ∧
      ∃ a, ligLoop "VIRAMA" 0 0 (preLig "VIRAMA" akhnFirstRef resolvedState) = some a ∧
        (a.1 = FAIL → r = a) ∧
        (a.1 ≠ FAIL → ligStep "VIRAMA" 0 a.2 = some (SUCCESS, a.2) ∧
          ligLoop "VIRAMA" (resolvedState.vFontChar.length - (0 + 1)) (0 + 1) a.2 = some r) :=
  have hd : distinctNames resolvedState.vFontChar := distinctNames_of_nodup _ (by decide)
  ⟨⟨hd, by decide, by decide, by decide⟩,
    C24_resolved_composite_skipped "VIRAMA" akhnFirstRef resolvedState 0 resolvedRec hd
      (by decide) (by decide) (by decide)⟩

theorem mapSet_sorted (key val : String) : ∀ (m : NameMap),
    keysSorted m → keysSorted (mapSet m key val) := by
  intro m
  induction m with
  | nil => intro _; simp [mapSet, keysSorted]
  | cons a rest ih =>
    intro h
    obtain ⟨k, v⟩ := a
    unfold keysSorted at h ⊢
    rw [List.pairwise_cons] at h
    simp only [mapSet]
    split
    · rw [List.pairwise_cons]
      exact h
    · rename_i hne
      split
      · rename_i hlt
        rw [List.pairwise_cons, List.pairwise_cons]
        refine ⟨?_, h⟩
        intro b hb
        rcases List.mem_cons.1 hb with e | e
        · rw [e]; exact hlt
        · exact lt_trans hlt (h.1 b e)
      · rename_i hnlt
        rw [List.pairwise_cons]
        refine ⟨?_, ih h.2⟩
        intro b hb
        rcases mapSet_keys key val rest b hb with e | ⟨q, hq, e⟩
        · rw [e]
          show k.data < key.data
          rcases lt_trichotomy k.data key.data with h1 | h1 | h1
          · exact h1
          · exact absurd (String.ext h1) hne
          · exact absurd h1 hnlt
        · have := h.1 q hq
          rw [e] at this
          exact this

theorem mapTouch_sorted (key : String) (m : NameMap) (h : keysSorted m) :
    keysSorted (mapTouch m key) := by
  unfold mapTouch
  split
  · exact h
  · exact mapSet_sorted key "" m h

theorem seedLoop_sorted (ref : RefTable) (v : List FontChar) : ∀ (m : NameMap),
    keysSorted m → keysSorted (seedLoop ref v m).2 := by
  induction v with
  | nil => intro m h; exact h
  | cons fc rest ih =>
    intro m h
    simp only [seedLoop]
    split
    · exact ih m h
    · exact ih _ (mapSet_sorted _ _ m h)

theorem syncLoop_sorted (v : List FontChar) : ∀ (m : NameMap),
    keysSorted m → keysSorted (syncLoop v m).2 := by
  induction v with
  | nil => intro m h; exact h
  | cons fc rest ih =>
    intro m h
    simp only [syncLoop]
    exact ih _ (mapTouch_sorted _ m h)

theorem discover_eq (VIRAMA : String) : ∀ (m : NameMap) (vz : String × String),
    discover VIRAMA m vz = (lastKey VIRAMA m vz.1, lastKey ZWJ m vz.2) := by
  intro m
  induction m with
  | nil => intro vz; rfl
  | cons a rest ih =>
    intro vz
    obtain ⟨k, v⟩ := a
    simp only [discover, lastKey]
    rw [ih]

/-- In a map with ordered keys, `lastKey` is the greatest key with the value,
when there is one. -/
theorem lastKey_spec (val : String) : ∀ (m : NameMap) (d : String), keysSorted m →
    ((∀ p ∈ m, p.2 ≠ val) → lastKey val m d = d) ∧
    ((∃ p ∈ m, p.2 = val) → (lastKey val m d, val) ∈ m ∧
      ∀ k, (k, val) ∈ m → k.data ≤ (lastKey val m d).data) := by
  intro m
  induction m with
  | nil =>
    intro d _
    exact ⟨fun _ => rfl, fun ⟨p, hp, _⟩ => absurd hp (List.not_mem_nil _)⟩
  | cons a rest ih =>
    intro d hs
    obtain ⟨k, v⟩ := a
    unfold keysSorted at hs
    rw [List.pairwise_cons] at hs
    obtain ⟨ih1, ih2⟩ := ih (if v = val then k else d) hs.2
    simp only [lastKey]
    constructor
    · intro hno
      have hv : ¬ v = val := hno (k, v) (List.mem_cons_self _ _)
      rw [ih1 (fun p hp => hno p (List.mem_cons_of_mem _ hp)), if_neg hv]
    · intro hex
      by_cases hr : ∃ p ∈ rest, p.2 = val
      · obtain ⟨hm, hg⟩ := ih2 hr
        refine ⟨List.mem_cons_of_mem _ hm, ?_⟩
        intro k2 hk2
        rcases List.mem_cons.1 hk2 with e | e
        · have e1 : k2 = k := congrArg Prod.fst e
          rw [e1]
          exact le_of_lt (hs.1 _ hm)
        · exact hg k2 e
      · have hno : ∀ p ∈ rest, p.2 ≠ val := fun p hp e => hr ⟨p, hp, e⟩
        obtain ⟨p, hp, hpv⟩ := hex
        have hv : v = val := by
          rcases List.mem_cons.1 hp with e | e
          · rw [e] at hpv; exact hpv
          · exact absurd hpv (hno p e)
        rw [ih1 hno, if_pos hv]
        refine ⟨by rw [hv]; exact List.mem_cons_self _ _, ?_⟩
        intro k2 hk2
        rcases List.mem_cons.1 hk2 with e | e
        · have e1 : k2 = k := congrArg Prod.fst e
          rw [e1]
        · exact absurd rfl (hno _ e)

theorem ligLoop_markers (VIRAMA : String) : ∀ (n i : Nat) (s : State) (r : Int × State),
    ligLoop VIRAMA n i s = some r → r.2.Virama = s.Virama ∧ r.2.Zwj = s.Zwj := by
  intro n
  induction n with
  | zero =>
    intro i s r h
    simp only [ligLoop, Option.some.injEq] at h
    subst h; exact ⟨rfl, rfl⟩
  | succ k ih =>
    intro i s r h
    simp only [ligLoop] at h
    cases hstep : ligStep VIRAMA i s with
    | none => simp [hstep] at h
    | some q =>
      simp only [hstep] at h
      have hq : q.2.Virama = s.Virama ∧ q.2.Zwj = s.Zwj := by
        rcases ligStep_cases VIRAMA i s q hstep with h1 | ⟨_, _, _, _, _, _, _, _, _, hv, hz, _⟩
        · exact ⟨h1.2.2.2.1, h1.2.2.2.2⟩
        · exact ⟨hv, hz⟩
      by_cases hf : q.1 = FAIL
      · simp only [if_pos hf, Option.some.injEq] at h
        subst h; exact hq
      · simp only [if_neg hf] at h
        obtain ⟨e1, e2⟩ := ih _ _ _ h
        exact ⟨by rw [e1, hq.1], by rw [e2, hq.2]⟩

theorem preLig_markers (VIRAMA : String) (ref : RefTable) (s : State) :
    (preLig VIRAMA ref s).Virama = lastKey VIRAMA (seededMap ref s) s.Virama ∧
    (preLig VIRAMA ref s).Zwj = lastKey ZWJ (seededMap ref s) s.Zwj := by
  unfold preLig seededMap
  simp only [discover_eq]
  trivial

theorem loadMap_sorted (fc : FontChar) (m : NameMap) (h : keysSorted m) :
    keysSorted (loadMap fc m) := by
  unfold loadMap
  have inner : ∀ (gs : List String) (m2 : NameMap), keysSorted m2 →
      keysSorted (gs.foldl (fun m3 g => mapSet m3 g "") m2) := by
    intro gs
    induction gs with
    | nil => intro m2 h2; exact h2
    | cons g rest ih => intro m2 h2; exact ih _ (mapSet_sorted g "" m2 h2)
  have outer : ∀ (ls : List Ligature) (m2 : NameMap), keysSorted m2 →
      keysSorted (ls.foldl
        (fun m3 lig => lig.glyphNames.foldl (fun m4 g => mapSet m4 g "") m3) m2) := by
    intro ls
    induction ls with
    | nil => intro m2 h2; exact h2
    | cons l rest ih => intro m2 h2; exact ih _ (inner l.glyphNames m2 h2)
  exact outer fc.ligatureList m h

/-- The rename map `main` starts the passes with has its keys in order. -/
theorem initState_sorted (v : List FontChar) : keysSorted (initState v).nameMap := by
  unfold initState
  have hfold : ∀ (l : List FontChar) (m : NameMap), keysSorted m →
      keysSorted (l.foldl (fun m2 fc => loadMap fc m2) m) := by
    intro l
    induction l with
    | nil => intro m h; exact h
    | cons fc rest ih => intro m h; exact ih _ (loadMap_sorted fc m h)
  exact hfold v [] List.Pairwise.nil

/-- C27: for a state whose rename map has its keys in order, after the base
character stage of a pass (`seededMap`): when no key has the value `ZWJ`, `Zwj`
keeps the value it had before the pass; when some key has it, `Zwj` is a key
with that value and no key with that value is greater; the same holds for
`Virama` and the value `VIRAMA`; when one key only has the value, the
identifier is that key; and the ligature stage changes neither identifier. -/
theorem C27_marker_discovery (VIRAMA : String) (ref : RefTable) (s : State)
    (hs : keysSorted s.nameMap) :
    ((∀ p ∈ seededMap ref s, p.2 ≠ ZWJ) → (preLig VIRAMA ref s).Zwj = s.Zwj) ∧
    ((∃ p ∈ seededMap ref s, p.2 = ZWJ) →
      ((preLig VIRAMA ref s).Zwj, ZWJ) ∈ seededMap ref s ∧
      ∀ k, (k, ZWJ) ∈ seededMap ref s → k.data ≤ (preLig VIRAMA ref s).Zwj.data) ∧
    ((∀ p ∈ seededMap ref s, p.2 ≠ VIRAMA) → (preLig VIRAMA ref s).Virama = s.Virama) ∧
    ((∃ p ∈ seededMap ref s, p.2 = VIRAMA) →
      ((preLig VIRAMA ref s).Virama, VIRAMA) ∈ seededMap ref s ∧
      ∀ k, (k, VIRAMA) ∈ seededMap ref s → k.data ≤ (preLig VIRAMA ref s).Virama.data) ∧
    (∀ k, (k, ZWJ) ∈ seededMap ref s → (∀ k2, (k2, ZWJ) ∈ seededMap ref s → k2 = k) →
      (preLig VIRAMA ref s).Zwj = k) ∧
    (∀ k, (k, VIRAMA) ∈ seededMap ref s → (∀ k2, (k2, VIRAMA) ∈ seededMap ref s → k2 = k) →
      (preLig VIRAMA ref s).Virama = k) ∧
    ∃ r, renameGlyphs VIRAMA ref s = some r ∧
      r.2.Virama = (preLig VIRAMA ref s).Virama ∧ r.2.Zwj = (preLig VIRAMA ref s).Zwj := by
  have hsm : keysSorted (seededMap ref s) := seedLoop_sorted ref s.vFontChar s.nameMap hs
  obtain ⟨hv, hz⟩ := preLig_markers VIRAMA ref s
  obtain ⟨z1, z2⟩ := lastKey_spec ZWJ (seededMap ref s) s.Zwj hsm
  obtain ⟨v1, v2⟩ := lastKey_spec VIRAMA (seededMap ref s) s.Virama hsm
  rw [← hz] at z1 z2
  rw [← hv] at v1 v2
  obtain ⟨r, hr⟩ := renameGlyphs_some VIRAMA ref s
  refine ⟨z1, z2, v1, v2, ?_, ?_, r, hr, ligLoop_markers VIRAMA _ _ _ r hr⟩
  · intro k hk huniq
    exact huniq _ (z2 ⟨(k, ZWJ), hk, rfl⟩).1
  · intro k hk huniq
    exact huniq _ (v2 ⟨(k, VIRAMA), hk, rfl⟩).1

/-- Witness of C27: the glyphs `markerGlyphs` before the first pass; the
joiner glyph is `zw` and the virama glyph is `xx`. -/
theorem C27_marker_discovery_witness :
    keysSorted (initState markerGlyphs).nameMap ∧
    (((∀ p ∈ seededMap markerRef (initState markerGlyphs), p.2 ≠ ZWJ) →
      (preLig "VIRAMA" markerRef (initState markerGlyphs)).Zwj
        = (initState markerGlyphs).Zwj) ∧
    ((∃ p ∈ seededMap markerRef (initState markerGlyphs), p.2 = ZWJ) →
      ((preLig "VIRAMA" markerRef (initState markerGlyphs)).Zwj, ZWJ)
        ∈ seededMap markerRef (initState markerGlyphs) ∧
      ∀ k, (k, ZWJ) ∈ seededMap markerRef (initState markerGlyphs) →
        k.data ≤ (preLig "VIRAMA" markerRef (initState markerGlyphs)).Zwj.data) ∧
    ((∀ p ∈ seededMap markerRef (initState markerGlyphs), p.2 ≠ "VIRAMA") →
      (preLig "VIRAMA" markerRef (initState markerGlyphs)).Virama
        = (initState markerGlyphs).Virama) ∧
    ((∃ p ∈ seededMap markerRef (initState markerGlyphs), p.2 = "VIRAMA") →
      ((preLig "VIRAMA" markerRef (initState markerGlyphs)).Virama, "VIRAMA")
        ∈ seededMap markerRef (initState markerGlyphs) ∧
      ∀ k, (k, "VIRAMA") ∈ seededMap markerRef (initState markerGlyphs) →
        k.data ≤ (preLig "VIRAMA" markerRef (initState markerGlyphs)).Virama.data) ∧
    (∀ k, (k, ZWJ) ∈ seededMap markerRef (initState markerGlyphs) →
      (∀ k2, (k2, ZWJ) ∈ seededMap markerRef (initState markerGlyphs) → k2 = k) →
      (preLig "VIRAMA" markerRef (initState markerGlyphs)).Zwj = k) ∧
    (∀ k, (k, "VIRAMA") ∈ seededMap markerRef (initState markerGlyphs) →
      (∀ k2, (k2, "VIRAMA") ∈ seededMap markerRef (initState markerGlyphs) → k2 = k) →
      (preLig "VIRAMA" markerRef (initState markerGlyphs)).Virama = k) ∧
    ∃ r, renameGlyphs "VIRAMA" markerRef (initState markerGlyphs) = some r ∧
      r.2.Virama = (preLig "VIRAMA" markerRef (initState markerGlyphs)).Virama ∧
      r.2.Zwj = (preLig "VIRAMA" markerRef (initState markerGlyphs)).Zwj) ∧
    (preLig "VIRAMA" markerRef (initState markerGlyphs)).Zwj = "zw" ∧
    (preLig "VIRAMA" markerRef (initState markerGlyphs)).Virama = "xx" :=
  ⟨initState_sorted markerGlyphs,
    C27_marker_discovery "VIRAMA" markerRef (initState markerGlyphs)
      (initState_sorted markerGlyphs),
    by decide, by decide⟩

/-! ### A pass without renames -/

theorem glyphLoop_sorted (gs : List String) : ∀ (sc : Scan) (n : Nat),
    keysSorted sc.nameMap → keysSorted (glyphLoop gs sc n).1.nameMap := by
  induction gs with
  | nil => intro sc n h; exact h
  | cons g rest ih =>
    intro sc n h
    simp only [glyphLoop]
    apply ih
    simp only
    split <;> split <;> exact mapTouch_sorted _ _ h

theorem formBody_sorted (f : Ligature) (sc : Scan) (h : keysSorted sc.nameMap) :
    keysSorted (formBody f sc).nameMap := by
  by_cases h1 : f.glyphNames.length > sc.maxCount <;> by_cases h2 : "akhn" = f.form <;>
    simp only [formBody, h1, h2, if_true, if_false] <;>
    split <;> exact glyphLoop_sorted _ _ _ h

theorem formLoop_sorted (curName : String) (forms : List Ligature) : ∀ (sc : Scan),
    keysSorted sc.nameMap → keysSorted (formLoop curName forms sc).2.nameMap := by
  induction forms with
  | nil => intro sc h; exact h
  | cons f rest ih =>
    intro sc h
    simp only [formLoop]
    split
    · exact h
    · exact ih _ (formBody_sorted f sc h)

theorem ligStep_sorted (VIRAMA : String) (i : Nat) (s : State) (r : Int × State)
    (h : ligStep VIRAMA i s = some r) (hs : keysSorted s.nameMap) :
    keysSorted r.2.nameMap := by
  unfold ligStep at h
  cases hi : s.vFontChar[i]? with
  | none =>
    simp only [hi, Option.some.injEq] at h
    subst h; exact hs
  | some fc =>
    simp only [hi] at h
    have ht : keysSorted (mapTouch s.nameMap fc.curName) := mapTouch_sorted _ _ hs
    have hf := formLoop_sorted fc.curName fc.ligatureList
      (scanInit (mapTouch s.nameMap fc.curName)) ht
    split at h
    · simp only [Option.some.injEq] at h
      subst h; exact hs
    · split at h
      · simp only [Option.some.injEq] at h
        subst h; exact ht
      · split at h
        · simp only [Option.some.injEq] at h
          subst h; exact hf
        · split at h
          · simp only [Option.some.injEq] at h
            subst h; exact hf
          · split at h
            · simp at h
            · simp only [Option.some.injEq] at h
              subst h
              exact mapSet_sorted _ _ _ hf

theorem ligLoop_sorted (VIRAMA : String) : ∀ (n i : Nat) (s : State) (r : Int × State),
    ligLoop VIRAMA n i s = some r → keysSorted s.nameMap → keysSorted r.2.nameMap := by
  intro n
  induction n with
  | zero =>
    intro i s r h hs
    simp only [ligLoop, Option.some.injEq] at h
    subst h; exact hs
  | succ k ih =>
    intro i s r h hs
    simp only [ligLoop] at h
    cases hstep : ligStep VIRAMA i s with
    | none => simp [hstep] at h
    | some q =>
      simp only [hstep] at h
      have hq := ligStep_sorted VIRAMA i s q hstep hs
      by_cases hf : q.1 = FAIL
      · simp only [if_pos hf, Option.some.injEq] at h
        subst h; exact hq
      · simp only [if_neg hf] at h
        exact ih _ _ _ h hq

theorem preLig_sorted (VIRAMA : String) (ref : RefTable) (s : State)
    (hs : keysSorted s.nameMap) : keysSorted (preLig VIRAMA ref s).nameMap := by
  unfold preLig
  exact syncLoop_sorted _ _ (seedLoop_sorted ref _ _ hs)

/-- A call of `renameGlyphs` keeps the keys of the rename map in order. -/
theorem renameGlyphs_sorted (VIRAMA : String) (ref : RefTable) (s : State) (r : Int × State)
    (h : renameGlyphs VIRAMA ref s = some r) (hs : keysSorted s.nameMap) :
    keysSorted r.2.nameMap :=
  ligLoop_sorted VIRAMA _ _ _ r h (preLig_sorted VIRAMA ref s hs)

theorem seedLoop_get (ref : RefTable) (key : String) (v : List FontChar) : ∀ (m : NameMap),
    mapGet (seedLoop ref v m).2 key = seedVal ref v (mapGet m key) key := by
  induction v with
  | nil => intro m; rfl
  | cons fc rest ih =>
    intro m
    simp only [seedLoop, seedVal]
    by_cases hcp : fc.unicodeVal = -1
    · rw [if_pos hcp, ih m]
      simp [hcp]
    · rw [if_neg hcp, ih, mapGet_mapSet]
      by_cases hk : fc.curName = key
      · simp [hcp, hk]
      · simp [hk]

theorem seedVal_idem (ref : RefTable) (key : String) (v : List FontChar) : ∀ (d : String),
    seedVal ref v (seedVal ref v d key) key = seedVal ref v d key := by
  induction v with
  | nil => intro d; rfl
  | cons fc rest ih =>
    intro d
    simp only [seedVal]
    by_cases hc : fc.unicodeVal ≠ -1 ∧ fc.curName = key
    · simp only [if_pos hc]
    · simp only [if_neg hc, ih]

theorem seedVal_map (ref : RefTable) (key : String) (f : FontChar → FontChar)
    (hf : ∀ fc, (f fc).unicodeVal = fc.unicodeVal ∧ (f fc).curName = fc.curName)
    (v : List FontChar) : ∀ (d : String), seedVal ref (v.map f) d key = seedVal ref v d key := by
  induction v with
  | nil => intro d; rfl
  | cons fc rest ih =>
    intro d
    simp only [List.map_cons, seedVal, (hf fc).1, (hf fc).2]
    exact ih _

theorem syncRec_unicodeVal (m : NameMap) (fc : FontChar) :
    (syncRec m fc).unicodeVal = fc.unicodeVal := by
  unfold syncRec; split <;> rfl

/-- The first stages of a pass applied again to a glyph they were applied to
leave it as it is. -/
theorem syncRec_seedRec_idem (ref : RefTable) (m m2 : NameMap) (fc : FontChar)
    (h : mapGet m2 fc.curName = mapGet m fc.curName) :
    syncRec m2 (seedRec ref (syncRec m (seedRec ref fc))) = syncRec m (seedRec ref fc) := by
  by_cases hcp : fc.unicodeVal = -1
  · have hs : seedRec ref fc = fc := by simp [seedRec, hcp]
    rw [hs]
    have hs2 : seedRec ref (syncRec m fc) = syncRec m fc := by
      unfold seedRec
      rw [if_pos (by rw [syncRec_unicodeVal]; exact hcp)]
    rw [hs2]
    unfold syncRec
    by_cases hl : (mapGet m fc.curName).length ≠ 0
    · simp only [if_pos hl, h]
    · simp only [if_neg hl, h]
  · have hs : seedRec ref fc = { fc with newName := refName ref fc.unicodeVal } := by
      simp [seedRec, hcp]
    rw [hs]
    unfold syncRec seedRec
    by_cases hl : (mapGet m fc.curName).length ≠ 0
    · simp only [if_pos hl, if_neg hcp, h]
    · simp only [if_neg hl, if_neg hcp, h]

theorem lastKey_indep (val : String) : ∀ (m : NameMap) (d d2 : String),
    (∃ p ∈ m, p.2 = val) → lastKey val m d = lastKey val m d2 := by
  intro m
  induction m with
  | nil => intro d d2 ⟨p, hp, _⟩; exact absurd hp (List.not_mem_nil _)
  | cons a rest ih =>
    intro d d2 hex
    obtain ⟨k, v⟩ := a
    simp only [lastKey]
    by_cases hv : v = val
    · rw [if_pos hv, if_pos hv]
    · rw [if_neg hv, if_neg hv]
      apply ih
      obtain ⟨p, hp, hpv⟩ := hex
      rcases List.mem_cons.1 hp with e | e
      · rw [e] at hpv; exact absurd hpv hv
      · exact ⟨p, e, hpv⟩

theorem lastKey_idem (val : String) (m : NameMap) (d : String) :
    lastKey val m (lastKey val m d) = lastKey val m d := by
  by_cases hex : ∃ p ∈ m, p.2 = val
  · exact lastKey_indep val m _ _ hex
  · have hno : ∀ p ∈ m, p.2 ≠ val := fun p hp e => hex ⟨p, hp, e⟩
    have hn : ∀ (m2 : NameMap) (d2 : String), (∀ p ∈ m2, p.2 ≠ val) →
        lastKey val m2 d2 = d2 := by
      intro m2
      induction m2 with
      | nil => intro d2 _; rfl
      | cons a rest ih =>
        intro d2 h2
        obtain ⟨k, v⟩ := a
        simp only [lastKey]
        rw [if_neg (h2 (k, v) (List.mem_cons_self _ _))]
        exact ih d2 (fun p hp => h2 p (List.mem_cons_of_mem _ hp))
    rw [hn m d hno, hn m d hno]

theorem mapGet_of_mem_sorted : ∀ (m : NameMap) (k v : String), keysSorted m →
    (k, v) ∈ m → mapGet m k = v := by
  intro m
  induction m with
  | nil => intro k v _ h; exact absurd h (List.not_mem_nil _)
  | cons a rest ih =>
    intro k v hs h
    obtain ⟨k1, v1⟩ := a
    unfold keysSorted at hs
    rw [List.pairwise_cons] at hs
    simp only [mapGet]
    rcases List.mem_cons.1 h with e | e
    · cases e
      rw [if_pos rfl]
    · have hlt := hs.1 _ e
      have hne : ¬ k1 = k := by
        intro e2
        rw [e2] at hlt
        exact lt_irrefl _ hlt
      rw [if_neg hne]
      exact ih k v hs.2 e

theorem mem_of_mapGet : ∀ (m : NameMap) (k : String), mapGet m k ≠ "" →
    (k, mapGet m k) ∈ m := by
  intro m
  induction m with
  | nil => intro k h; exact absurd rfl h
  | cons a rest ih =>
    intro k h
    obtain ⟨k1, v1⟩ := a
    simp only [mapGet] at h ⊢
    by_cases hk : k1 = k
    · rw [if_pos hk]
      rw [hk]
      exact List.mem_cons_self _ _
    · rw [if_neg hk] at h ⊢
      exact List.mem_cons_of_mem _ (ih k h)

/-- Two maps with ordered keys that give the same value for every key have
the same last key for a value that is not empty. -/
theorem lastKey_congr (val : String) (hval : val ≠ "") (m m2 : NameMap) (d : String)
    (hs : keysSorted m) (hs2 : keysSorted m2)
    (h : ∀ key, mapGet m2 key = mapGet m key) :
    lastKey val m2 d = lastKey val m d := by
  have move : ∀ (a b : NameMap), keysSorted a → (∀ key, mapGet b key = mapGet a key) →
      ∀ k, (k, val) ∈ a → (k, val) ∈ b := by
    intro a b ha hab k hk
    have h1 := mapGet_of_mem_sorted a k val ha hk
    have h2 : mapGet b k = val := by rw [hab, h1]
    have := mem_of_mapGet b k (by rw [h2]; exact hval)
    rw [h2] at this
    exact this
  obtain ⟨a1, a2⟩ := lastKey_spec val m d hs
  obtain ⟨b1, b2⟩ := lastKey_spec val m2 d hs2
  by_cases hex : ∃ p ∈ m, p.2 = val
  · obtain ⟨p, hp, hpv⟩ := hex
    have hpm : (p.1, val) ∈ m := by rw [← hpv]; exact hp
    have hex2 : ∃ q ∈ m2, q.2 = val := ⟨(p.1, val), move m m2 hs h p.1 hpm, rfl⟩
    obtain ⟨ha, hag⟩ := a2 ⟨p, hp, hpv⟩
    obtain ⟨hb, hbg⟩ := b2 hex2
    have h1 := hbg _ (move m m2 hs h _ ha)
    have h2 := hag _ (move m2 m hs2 (fun key => (h key).symm) _ hb)
    exact String.ext (le_antisymm h2 h1)
  · have hno : ∀ p ∈ m, p.2 ≠ val := fun p hp e => hex ⟨p, hp, e⟩
    have hno2 : ∀ q ∈ m2, q.2 ≠ val := by
      intro q hq e
      have hqm : (q.1, val) ∈ m2 := by rw [← e]; exact hq
      exact hno _ (move m2 m hs2 (fun key => (h key).symm) q.1 hqm) rfl
    rw [a1 hno, b1 hno2]

theorem resolvedCount_congr (m m2 : NameMap) (gs : List String)
    (h : ∀ key, mapGet m key = mapGet m2 key) :
    resolvedCount m gs = resolvedCount m2 gs := by
  unfold resolvedCount
  congr 1
  apply List.filter_congr
  intro g _
  rw [h g]

theorem formBody_scanEq (f : Ligature) (a b : Scan) (h : scanEq a b) :
    scanEq (formBody f a) (formBody f b) := by
  obtain ⟨h1, h2, _, _, h5, h6, h7⟩ := h
  obtain ⟨a1, a2, a3, a4, a5, a6, a7⟩ := formBody_spec f a
  obtain ⟨b1, b2, b3, b4, b5, b6, b7⟩ := formBody_spec f b
  have hrc := resolvedCount_congr a.nameMap b.nameMap f.glyphNames h7
  refine ⟨?_, ?_, ?_, ?_, ?_, ?_, ?_⟩
  · rw [a3, b3, h1]
  · rw [a2, b2, hrc, h2]
  · rw [a4, b4]
  · rw [a5, b5]
  · rw [a7, b7, h5]
  · rw [a6, b6, h1, h6]
  · intro key
    rw [a1, b1, h7]

theorem formLoop_scanEq (curName : String) (forms : List Ligature) : ∀ (a b : Scan),
    scanEq a b →
    (formLoop curName forms a).1 = (formLoop curName forms b).1 ∧
    scanEq (formLoop curName forms a).2 (formLoop curName forms b).2 := by
  induction forms with
  | nil => intro a b h; exact ⟨rfl, h⟩
  | cons f rest ih =>
    intro a b h
    simp only [formLoop]
    split
    · exact ⟨rfl, h⟩
    · exact ih _ _ (formBody_scanEq f a b h)

theorem selectComps_scanEq (n : Nat) (a b : Scan) (h : scanEq a b) :
    selectComps n a = selectComps n b := by
  obtain ⟨_, h2, h3, h4, h5, h6, _⟩ := h
  unfold selectComps
  rw [h2, h3, h4, h5, h6]

theorem ligStep_mono (VIRAMA : String) (i : Nat) (s : State) (r : Int × State)
    (h : ligStep VIRAMA i s = some r) : s.renCount ≤ r.2.renCount := by
  rcases ligStep_cases VIRAMA i s r h with h1 | ⟨_, _, _, _, _, _, _, _, hr, _⟩
  · rw [h1.2.1]
  · rw [hr]; omega

theorem ligLoop_mono (VIRAMA : String) : ∀ (n i : Nat) (s : State) (r : Int × State),
    ligLoop VIRAMA n i s = some r → s.renCount ≤ r.2.renCount := by
  intro n
  induction n with
  | zero =>
    intro i s r h
    simp only [ligLoop, Option.some.injEq] at h
    subst h; exact Nat.le_refl _
  | succ k ih =>
    intro i s r h
    simp only [ligLoop] at h
    cases hstep : ligStep VIRAMA i s with
    | none => simp [hstep] at h
    | some q =>
      simp only [hstep] at h
      have hq := ligStep_mono VIRAMA i s q hstep
      by_cases hf : q.1 = FAIL
      · simp only [if_pos hf, Option.some.injEq] at h
        subst h; exact hq
      · simp only [if_neg hf] at h
        exact Nat.le_trans hq (ih _ _ _ h)

/-- A body of the ligature stage that renames nothing does the same on a state
with the same glyphs and a rename map with the same values: it renames
nothing and returns the same value. -/
theorem ligStep_idle_congr (VIRAMA : String) (i : Nat) (s s2 : State) (q : Int × State)
    (h : ligStep VIRAMA i s = some q) (hidle : q.2.renCount = s.renCount)
    (hv : s2.vFontChar = s.vFontChar)
    (hm : ∀ key, mapGet s2.nameMap key = mapGet s.nameMap key) :
    ∃ q2, ligStep VIRAMA i s2 = some q2 ∧ q2.1 = q.1 ∧ q2.2.renCount = s2.renCount := by
  unfold ligStep at h ⊢
  rw [hv]
  cases hi : s.vFontChar[i]? with
  | none =>
    simp only [hi, Option.some.injEq] at h
    subst h
    exact ⟨_, rfl, rfl, rfl⟩
  | some fc =>
    simp only [hi] at h ⊢
    have hsc : scanEq (scanInit (mapTouch s2.nameMap fc.curName))
        (scanInit (mapTouch s.nameMap fc.curName)) := by
      refine ⟨rfl, rfl, rfl, rfl, rfl, rfl, ?_⟩
      intro key
      simp only [scanInit, mapGet_mapTouch]
      exact hm key
    obtain ⟨hf1, hf2⟩ := formLoop_scanEq fc.curName fc.ligatureList _ _ hsc
    have hsel := selectComps_scanEq fc.ligatureList.length _ _ hf2
    rw [hm fc.curName, hf1, hsel]
    split at h
    · rename_i h0
      simp only [Option.some.injEq] at h
      subst h
      rw [if_pos h0]
      exact ⟨_, rfl, rfl, rfl⟩
    · rename_i h0
      rw [if_neg h0]
      split at h
      · rename_i hl
        simp only [Option.some.injEq] at h
        subst h
        rw [if_pos hl]
        exact ⟨_, rfl, rfl, rfl⟩
      · rename_i hl
        rw [if_neg hl]
        split at h
        · rename_i hfail
          simp only [Option.some.injEq] at h
          subst h
          rw [if_pos hfail]
          exact ⟨_, rfl, rfl, rfl⟩
        · rename_i hfail
          rw [if_neg hfail]
          split at h
          · rename_i hnone
            simp only [Option.some.injEq] at h
            subst h
            exact ⟨_, rfl, rfl, rfl⟩
          · exfalso
            split at h
            · simp at h
            · simp only [Option.some.injEq] at h
              subst h
              simp only at hidle
              omega

theorem ligStep_unchanged (VIRAMA : String) (i : Nat) (s : State) (q : Int × State)
    (h : ligStep VIRAMA i s = some q) (hidle : q.2.renCount = s.renCount) :
    q.2.vFontChar = s.vFontChar ∧ (∀ key, mapGet q.2.nameMap key = mapGet s.nameMap key) ∧
      q.2.Virama = s.Virama ∧ q.2.Zwj = s.Zwj := by
  rcases ligStep_cases VIRAMA i s q h with h1 | ⟨_, _, _, _, _, _, _, _, hr, _⟩
  · exact ⟨h1.1, h1.2.2.1, h1.2.2.2.1, h1.2.2.2.2⟩
  · omega

/-- A ligature stage that renames nothing does the same on a state with the
same glyphs and a rename map with the same values. -/
theorem ligLoop_idle_congr (VIRAMA : String) : ∀ (n i : Nat) (s s2 : State) (r : Int × State),
    ligLoop VIRAMA n i s = some r → r.2.renCount = s.renCount →
    s2.vFontChar = s.vFontChar → (∀ key, mapGet s2.nameMap key = mapGet s.nameMap key) →
    ∃ r2, ligLoop VIRAMA n i s2 = some r2 ∧ r2.1 = r.1 ∧
      r2.2.vFontChar = s2.vFontChar ∧ r2.2.renCount = s2.renCount ∧
      (∀ key, mapGet r2.2.nameMap key = mapGet s2.nameMap key) ∧
      r2.2.Virama = s2.Virama ∧ r2.2.Zwj = s2.Zwj := by
  intro n
  induction n with
  | zero =>
    intro i s s2 r h _ _ _
    simp only [ligLoop, Option.some.injEq] at h
    subst h
    exact ⟨(SUCCESS, s2), rfl, rfl, rfl, rfl, fun _ => rfl, rfl, rfl⟩
  | succ k ih =>
    intro i s s2 r h hidle hv hm
    simp only [ligLoop] at h ⊢
    cases hstep : ligStep VIRAMA i s with
    | none => simp [hstep] at h
    | some q =>
      simp only [hstep] at h
      have hmono := ligStep_mono VIRAMA i s q hstep
      by_cases hf : q.1 = FAIL
      · simp only [if_pos hf, Option.some.injEq] at h
        subst h
        obtain ⟨q2, hq2, hc, hr2⟩ := ligStep_idle_congr VIRAMA i s s2 _ hstep hidle hv hm
        obtain ⟨u1, u2, u3, u4⟩ := ligStep_unchanged VIRAMA i s2 q2 hq2 hr2
        rw [hq2]
        simp only
        rw [if_pos (by rw [hc]; exact hf)]
        exact ⟨q2, rfl, hc, u1, hr2, u2, u3, u4⟩
      · simp only [if_neg hf] at h
        have hmono2 := ligLoop_mono VIRAMA k (i + 1) q.2 r h
        have hqidle : q.2.renCount = s.renCount := by omega
        obtain ⟨q2, hq2, hc, hr2⟩ := ligStep_idle_congr VIRAMA i s s2 q hstep hqidle hv hm
        obtain ⟨u1, u2, u3, u4⟩ := ligStep_unchanged VIRAMA i s2 q2 hq2 hr2
        obtain ⟨w1, w2, _, _⟩ := ligStep_unchanged VIRAMA i s q hstep hqidle
        rw [hq2]
        simp only
        rw [if_neg (by rw [hc]; exact hf)]
        obtain ⟨r2, hr, e1, e2, e3, e4, e5, e6⟩ := ih (i + 1) q.2 q2.2 r h (by omega)
          (by rw [u1, hv, w1]) (fun key => by rw [u2, hm, w2])
        exact ⟨r2, hr, e1, by rw [e2, u1], by rw [e3, hr2], fun key => by rw [e4, u2],
          by rw [e5, u3], by rw [e6, u4]⟩

/-- C26: for a state whose rename map has its keys in order, a reference table
and a value of `VIRAMA` that is not empty, when a call of `renameGlyphs` returns
with `renCount = 0`, a further call on the state it left returns the same
value with `renCount = 0` again, and leaves the glyphs with their new names,
the value of the rename map for every key, `Virama` and `Zwj` unchanged. -/
theorem C26_zero_pass_fixed_point (VIRAMA : String) (ref : RefTable) (s : State)
    (r : Int × State) (hV : VIRAMA ≠ "") (hs : keysSorted s.nameMap)
    (h1 : renameGlyphs VIRAMA ref s = some r) (h0 : r.2.renCount = 0) :
    ∃ r2, renameGlyphs VIRAMA ref r.2 = some r2 ∧ r2.1 = r.1 ∧ r2.2.renCount = 0 ∧
      r2.2.vFontChar = r.2.vFontChar ∧
      (∀ key, mapGet r2.2.nameMap key = mapGet r.2.nameMap key) ∧
      r2.2.Virama = r.2.Virama ∧ r2.2.Zwj = r.2.Zwj := by
  have hp0 : (preLig VIRAMA ref s).renCount = 0 := rfl
  -- the first call left what its first stages had made
  obtain ⟨r1, hr1, _, a2, _, a4, a5, a6⟩ := ligLoop_idle_congr VIRAMA _ _ _
    (preLig VIRAMA ref s) r h1 (by rw [h0, hp0]) rfl (fun _ => rfl)
  have hrr : r1 = r := by
    have : ligLoop VIRAMA (preLig VIRAMA ref s).vFontChar.length 0 (preLig VIRAMA ref s)
        = some r := h1
    rw [this] at hr1
    exact (Option.some.inj hr1).symm
  subst hrr
  -- the map after the base character stage of the second call
  have hget : ∀ key, mapGet (seedLoop ref r1.2.vFontChar r1.2.nameMap).2 key
      = mapGet (seedLoop ref s.vFontChar s.nameMap).2 key := by
    intro key
    rw [seedLoop_get, seedLoop_get, a2, a4, preLig_nameMap, seedLoop_get, preLig_vFontChar_eq,
      List.map_map]
    rw [seedVal_map ref key _ (fun fc => by
      simp only [Function.comp]
      exact ⟨by rw [syncRec_unicodeVal, seedRec_unicodeVal],
        by rw [syncRec_curName, seedRec_curName]⟩)]
    exact seedVal_idem ref key s.vFontChar _
  have hvec : (preLig VIRAMA ref r1.2).vFontChar = (preLig VIRAMA ref s).vFontChar := by
    have hget2 := hget
    rw [preLig_vFontChar_eq VIRAMA ref r1.2]
    generalize (seedLoop ref r1.2.vFontChar r1.2.nameMap).2 = m2 at hget2 ⊢
    rw [a2, preLig_vFontChar_eq VIRAMA ref s]
    simp only [List.map_map]
    apply List.map_congr_left
    intro fc _
    simp only [Function.comp]
    exact syncRec_seedRec_idem ref _ m2 fc (hget2 fc.curName)
  have hmap : ∀ key, mapGet (preLig VIRAMA ref r1.2).nameMap key
      = mapGet (preLig VIRAMA ref s).nameMap key := by
    intro key
    rw [preLig_nameMap, preLig_nameMap, hget]
  have hsr : keysSorted r1.2.nameMap := renameGlyphs_sorted VIRAMA ref s r1 h1 hs
  have hmark : (preLig VIRAMA ref r1.2).Virama = (preLig VIRAMA ref s).Virama ∧
      (preLig VIRAMA ref r1.2).Zwj = (preLig VIRAMA ref s).Zwj := by
    obtain ⟨v1, z1⟩ := preLig_markers VIRAMA ref r1.2
    obtain ⟨v0, z0⟩ := preLig_markers VIRAMA ref s
    have hs1 : keysSorted (seededMap ref s) := seedLoop_sorted ref _ _ hs
    have hs2 : keysSorted (seededMap ref r1.2) := seedLoop_sorted ref _ _ hsr
    constructor
    · rw [v1, a5, v0, lastKey_congr VIRAMA hV (seededMap ref s) (seededMap ref r1.2) _ hs1 hs2
        hget, lastKey_idem]
    · rw [z1, a6, z0, lastKey_congr ZWJ (by decide) (seededMap ref s) (seededMap ref r1.2) _
        hs1 hs2 hget, lastKey_idem]
  -- the ligature stage of the second call
  have hrun : ligLoop VIRAMA (preLig VIRAMA ref r1.2).vFontChar.length 0 (preLig VIRAMA ref s)
      = some r1 := by
    rw [hvec]; exact h1
  obtain ⟨r2, hr2, b1, b2, b3, b4, b5, b6⟩ := ligLoop_idle_congr VIRAMA _ _ _
    (preLig VIRAMA ref r1.2) r1 hrun (by rw [h0, hp0]) hvec hmap
  refine ⟨r2, hr2, b1, by rw [b3]; rfl, by rw [b2, hvec, a2], ?_, ?_, ?_⟩
  · intro key
    rw [b4, hmap, a4]
  · rw [b5, hmark.1, a5]
  · rw [b6, hmark.2, a6]

/-- Witness of C26: the first pass over the glyphs `A` and `B` of `cycleGlyphs`
renames nothing. -/
theorem C26_zero_pass_fixed_point_witness :
    ("VIRAMA" ≠ "" ∧ keysSorted (initState (cycleGlyphs "A" "B" "liga" "liga")).nameMap ∧
      renameGlyphs "VIRAMA" loopRef (initState (cycleGlyphs "A" "B" "liga" "liga"))
        = some (SUCCESS, cycleState) ∧
      cycleState.renCount = 0) ∧
    ∃ r2, renameGlyphs "VIRAMA" loopRef cycleState = some r2 ∧ r2.1 = SUCCESS ∧
      r2.2.renCount = 0 ∧ r2.2.vFontChar = cycleState.vFontChar ∧
      (∀ key, mapGet r2.2.nameMap key = mapGet cycleState.nameMap key) ∧
      r2.2.Virama = cycleState.Virama ∧ r2.2.Zwj = cycleState.Zwj :=
  ⟨⟨by decide, initState_sorted _, by decide, rfl⟩,
    C26_zero_pass_fixed_point "VIRAMA" loopRef (initState (cycleGlyphs "A" "B" "liga" "liga"))
      (SUCCESS, cycleState) (by decide) (initState_sorted _) (by decide) rfl⟩

/-! ### The return value of a pass -/

theorem formLoop_fst (curName : String) (forms : List Ligature) : ∀ (sc : Scan),
    ((formLoop curName forms sc).1 = FAIL ↔ forms ≠ [] ∧ curName = "InvalidObject") ∧
    ((formLoop curName forms sc).1 = SUCCESS ∨ (formLoop curName forms sc).1 = FAIL) := by
  induction forms with
  | nil =>
    intro sc
    have hsf : ¬ SUCCESS = FAIL := by decide
    exact ⟨⟨fun h => absurd h hsf, fun h => absurd rfl h.1⟩, Or.inl rfl⟩
  | cons f rest ih =>
    intro sc
    simp only [formLoop]
    by_cases hc : curName = "InvalidObject"
    · rw [if_pos hc]
      exact ⟨⟨fun _ => ⟨List.cons_ne_nil _ _, hc⟩, fun _ => rfl⟩, Or.inr rfl⟩
    · rw [if_neg hc]
      obtain ⟨h1, h2⟩ := ih (formBody f sc)
      refine ⟨⟨fun h => absurd (h1.1 h).2 hc, fun h => absurd h.2 hc⟩, h2⟩

/-- The body of the ligature stage returns `FAIL` exactly for a glyph that has
a ligature, the current name `InvalidObject` and no name in the rename map. -/
theorem ligStep_fail_iff (VIRAMA : String) (i : Nat) (s : State) (r : Int × State)
    (h : ligStep VIRAMA i s = some r) :
    (r.1 = FAIL ↔ failsAt s i) ∧ (r.1 = SUCCESS ∨ r.1 = FAIL) := by
  have hsf : ¬ SUCCESS = FAIL := by decide
  unfold ligStep at h
  unfold failsAt
  cases hi : s.vFontChar[i]? with
  | none =>
    simp only [hi, Option.some.injEq] at h
    subst h
    exact ⟨⟨fun e => absurd e hsf, fun ⟨fc, hfc, _⟩ => by simp at hfc⟩, Or.inl rfl⟩
  | some fc =>
    simp only [hi] at h
    have hfl := formLoop_fst fc.curName fc.ligatureList
      (scanInit (mapTouch s.nameMap fc.curName))
    split at h
    · rename_i h0
      simp only [Option.some.injEq] at h
      subst h
      refine ⟨⟨fun e => absurd e hsf, ?_⟩, Or.inl rfl⟩
      rintro ⟨fc2, hfc2, hl, _, _⟩
      cases hfc2
      exact absurd (List.length_eq_zero.1 h0) hl
    · rename_i h0
      have hlne : fc.ligatureList ≠ [] := fun e => h0 (by rw [e]; rfl)
      split at h
      · rename_i hl
        simp only [Option.some.injEq] at h
        subst h
        refine ⟨⟨fun e => absurd e hsf, ?_⟩, Or.inl rfl⟩
        rintro ⟨fc2, hfc2, _, hn, hm⟩
        cases hfc2
        rw [hn, hm] at hl
        exact absurd hl (by decide)
      · rename_i hl
        have hm : mapGet s.nameMap fc.curName = "" := by
          by_contra hc
          exact hl (Nat.pos_of_ne_zero ((length_ne_zero_iff _).2 hc))
        split at h
        · rename_i hfail
          simp only [Option.some.injEq] at h
          subst h
          have hcur := (hfl.1.1 hfail).2
          refine ⟨⟨fun _ => ⟨fc, rfl, hlne, hcur, by rw [← hcur]; exact hm⟩,
            fun _ => rfl⟩, Or.inr rfl⟩
        · rename_i hfail
          have hcur : fc.curName ≠ "InvalidObject" := fun e => hfail (hfl.1.2 ⟨hlne, e⟩)
          have hno : ¬ ∃ fc2, some fc = some fc2 ∧ fc2.ligatureList ≠ [] ∧
              fc2.curName = "InvalidObject" ∧ mapGet s.nameMap "InvalidObject" = "" := by
            rintro ⟨fc2, hfc2, _, hn, _⟩
            cases hfc2
            exact hcur hn
          split at h
          · simp only [Option.some.injEq] at h
            subst h
            exact ⟨⟨fun e => absurd e hsf, fun e => absurd e hno⟩, Or.inl rfl⟩
          · split at h
            · simp at h
            · simp only [Option.some.injEq] at h
              subst h
              exact ⟨⟨fun e => absurd e hsf, fun e => absurd e hno⟩, Or.inl rfl⟩

/-- A body of the ligature stage that does not return `FAIL` leaves the later
glyphs as likely to fail as before. -/
theorem ligStep_failsAt (VIRAMA : String) (i j : Nat) (s : State) (q : Int × State)
    (h : ligStep VIRAMA i s = some q) (hq : q.1 ≠ FAIL) (hij : i ≠ j) :
    failsAt q.2 j ↔ failsAt s j := by
  have hnf : ¬ failsAt s i := fun e => hq ((ligStep_fail_iff VIRAMA i s q h).1.2 e)
  rcases ligStep_cases VIRAMA i s q h with ⟨h1, _, h3, _⟩ |
    ⟨fc, X, hi, hl, hm, _, hv, hmap, _⟩
  · unfold failsAt
    rw [h1, h3]
  · have hcur : fc.curName ≠ "InvalidObject" := by
      intro e
      exact hnf ⟨fc, hi, hl, e, by rw [← e]; exact hm⟩
    unfold failsAt
    rw [hv, hmap, if_neg hcur, List.getElem?_set_ne hij]

theorem ligLoop_fail_iff (VIRAMA : String) : ∀ (n i : Nat) (s : State) (r : Int × State),
    ligLoop VIRAMA n i s = some r →
    (r.1 = FAIL ↔ ∃ j, i ≤ j ∧ j < i + n ∧ failsAt s j) ∧ (r.1 = SUCCESS ∨ r.1 = FAIL) := by
  intro n
  induction n with
  | zero =>
    intro i s r h
    simp only [ligLoop, Option.some.injEq] at h
    subst h
    have hsf : ¬ SUCCESS = FAIL := by decide
    exact ⟨⟨fun e => absurd e hsf, fun ⟨j, h1, h2, _⟩ => by omega⟩, Or.inl rfl⟩
  | succ k ih =>
    intro i s r h
    simp only [ligLoop] at h
    cases hstep : ligStep VIRAMA i s with
    | none => simp [hstep] at h
    | some q =>
      simp only [hstep] at h
      obtain ⟨hq1, hq2⟩ := ligStep_fail_iff VIRAMA i s q hstep
      by_cases hf : q.1 = FAIL
      · simp only [if_pos hf, Option.some.injEq] at h
        subst h
        exact ⟨⟨fun _ => ⟨i, Nat.le_refl _, by omega, hq1.1 hf⟩, fun _ => hf⟩, hq2⟩
      · simp only [if_neg hf] at h
        obtain ⟨h1, h2⟩ := ih (i + 1) q.2 r h
        refine ⟨?_, h2⟩
        rw [h1]
        constructor
        · rintro ⟨j, hj1, hj2, hj3⟩
          exact ⟨j, by omega, by omega,
            (ligStep_failsAt VIRAMA i j s q hstep hf (by omega)).1 hj3⟩
        · rintro ⟨j, hj1, hj2, hj3⟩
          have hij : i ≠ j := by
            intro e
            subst e
            exact hf (hq1.2 hj3)
          exact ⟨j, by omega, by omega,
            (ligStep_failsAt VIRAMA i j s q hstep hf hij).2 hj3⟩

theorem preLig_failsAt (VIRAMA : String) (ref : RefTable) (s : State) (j : Nat) :
    failsAt (preLig VIRAMA ref s) j ↔
      ∃ fc, s.vFontChar[j]? = some fc ∧ fc.ligatureList ≠ [] ∧
        fc.curName = "InvalidObject" ∧ mapGet (seededMap ref s) "InvalidObject" = "" := by
  unfold failsAt
  rw [preLig_nameMap]
  constructor
  · rintro ⟨x, hx, hl, hn, hm⟩
    rw [preLig_vFontChar_eq, List.map_map, List.getElem?_map] at hx
    cases hfc : s.vFontChar[j]? with
    | none => rw [hfc] at hx; simp at hx
    | some fc =>
      rw [hfc] at hx
      simp only [Option.map_some', Option.some.injEq, Function.comp] at hx
      subst hx
      rw [syncRec_ligatureList, seedRec_ligatureList] at hl
      rw [syncRec_curName, seedRec_curName] at hn
      exact ⟨fc, rfl, hl, hn, hm⟩
  · rintro ⟨fc, hfc, hl, hn, hm⟩
    refine ⟨_, preLig_getElem VIRAMA ref s j fc hfc, ?_, ?_, hm⟩
    · rw [syncRec_ligatureList, seedRec_ligatureList]; exact hl
    · rw [syncRec_curName, seedRec_curName]; exact hn

/-- A call of `renameGlyphs` reaches the statement `return (FAIL)` exactly when
a glyph has a ligature and the current name `InvalidObject` while the rename
map has no name for `InvalidObject` after the base character stage. -/
theorem renameGlyphs_fail_iff (VIRAMA : String) (ref : RefTable) (s : State) :
    ∃ r, renameGlyphs VIRAMA ref s = some r ∧ (r.1 = SUCCESS ∨ r.1 = FAIL) ∧
      (r.1 = FAIL ↔ ∃ (j : Nat) (fc : FontChar), s.vFontChar[j]? = some fc ∧
        fc.ligatureList ≠ [] ∧ fc.curName = "InvalidObject" ∧
        mapGet (seededMap ref s) "InvalidObject" = "") := by
  obtain ⟨r, hr⟩ := renameGlyphs_some VIRAMA ref s
  obtain ⟨h1, h2⟩ := ligLoop_fail_iff VIRAMA _ _ _ r hr
  refine ⟨r, hr, h2, ?_⟩
  rw [h1]
  constructor
  · rintro ⟨j, _, _, hj⟩
    exact ⟨j, (preLig_failsAt VIRAMA ref s j).1 hj⟩
  · rintro ⟨j, hj⟩
    have hf := (preLig_failsAt VIRAMA ref s j).2 hj
    have hf2 := hf
    obtain ⟨x, hx, _⟩ := hf2
    have hlt := (List.getElem?_eq_some_iff.1 hx).1
    exact ⟨j, Nat.zero_le _, by omega, hf⟩

theorem formLoopStrict_eq (curName : String) : ∀ (forms : List Ligature) (sc : Scan),
    formLoopStrict curName forms sc
      = if (formLoop curName forms sc).1 = FAIL then none
        else some (formLoop curName forms sc) := by
  intro forms
  induction forms with
  | nil =>
    intro sc
    simp only [formLoopStrict, formLoop]
    rw [if_neg (by decide)]
  | cons f rest ih =>
    intro sc
    simp only [formLoopStrict, formLoop]
    by_cases hc : curName = "InvalidObject"
    · rw [if_pos hc, if_pos hc, if_pos rfl]
    · rw [if_neg hc, if_neg hc]
      exact ih _

/-- The body of the ligature stage executes `delete &tLig` exactly when
`ligStep` has the value `FAIL`, and is `ligStep` otherwise. -/
theorem ligStepStrict_eq (VIRAMA : String) (i : Nat) (s : State) :
    ligStepStrict VIRAMA i s
      = match ligStep VIRAMA i s with
        | none => none
        | some q => if q.1 = FAIL then none else some q := by
  have hsf : ¬ SUCCESS = FAIL := by decide
  unfold ligStepStrict ligStep
  cases hi : s.vFontChar[i]? with
  | none => simp only [if_neg hsf]
  | some fc =>
    simp only
    by_cases h0 : fc.ligatureList.length = 0
    · simp only [if_pos h0, if_neg hsf]
    · simp only [if_neg h0]
      by_cases hl : (mapGet s.nameMap fc.curName).length > 0
      · simp only [if_pos hl, if_neg hsf]
      · simp only [if_neg hl]
        rw [formLoopStrict_eq]
        by_cases hf : (formLoop fc.curName fc.ligatureList
            (scanInit (mapTouch s.nameMap fc.curName))).1 = FAIL
        · simp only [if_pos hf, if_true]
        · simp only [if_neg hf]
          cases hsel : selectComps fc.ligatureList.length
              (formLoop fc.curName fc.ligatureList
                (scanInit (mapTouch s.nameMap fc.curName))).2 with
          | none => simp only [if_neg hsf]
          | some finalComps =>
            simp only
            split
            · rfl
            · simp only [if_neg hsf]

theorem ligLoopStrict_eq (VIRAMA : String) : ∀ (n i : Nat) (s : State),
    ligLoopStrict VIRAMA n i s
      = match ligLoop VIRAMA n i s with
        | none => none
        | some r => if r.1 = FAIL then none else some r := by
  have hsf : ¬ SUCCESS = FAIL := by decide
  intro n
  induction n with
  | zero =>
    intro i s
    simp only [ligLoopStrict, ligLoop, if_neg hsf]
  | succ k ih =>
    intro i s
    simp only [ligLoopStrict, ligLoop]
    rw [ligStepStrict_eq]
    cases hstep : ligStep VIRAMA i s with
    | none => rfl
    | some q =>
      simp only
      by_cases hf : q.1 = FAIL
      · simp only [if_pos hf, if_true]
      · simp only [if_neg hf]
        exact ih _ _

/-- C33 (the code diverges from the claim): a call of `renameGlyphs` that visits
a glyph with a ligature, the current name `InvalidObject` and no name in the
rename map (after the base character stage, `seededMap`) does not return
`FAIL`: before `return (FAIL)` it runs `delete &tLig` on an element of the
ligature vector, so the call has no defined result (`none` in
`renameGlyphsStrict`); `renameGlyphs` gives the value `FAIL` the `return` after
the `delete` would return. Every other call returns `SUCCESS` with the state
`renameGlyphs` gives: the test looks at the current name of the glyph, and the
collision loop never makes the call fail and never keeps it from returning.
For `invalidGlyphs` the call has no defined result. -/
theorem C33_invalid_object_undefined (VIRAMA : String) (ref : RefTable) (s : State) :
    (renameGlyphsStrict VIRAMA ref s = none ↔
      ∃ (j : Nat) (fc : FontChar), s.vFontChar[j]? = some fc ∧
        fc.ligatureList ≠ [] ∧ fc.curName = "InvalidObject" ∧
        mapGet (seededMap ref s) "InvalidObject" = "") ∧
    (renameGlyphsStrict VIRAMA ref s = none ↔
      ∃ r, renameGlyphs VIRAMA ref s = some r ∧ r.1 = FAIL) ∧
    (∀ r, renameGlyphsStrict VIRAMA ref s = some r ↔
      (renameGlyphs VIRAMA ref s = some r ∧ r.1 = SUCCESS)) ∧
    renameGlyphsStrict "VIRAMA" loopRef (initState invalidGlyphs) = none ∧
    (renameGlyphs "VIRAMA" loopRef (initState invalidGlyphs)).map (fun r => r.1)
      = some FAIL := by
  have hsf : ¬ SUCCESS = FAIL := by decide
  obtain ⟨r, hr, hor, hiff⟩ := renameGlyphs_fail_iff VIRAMA ref s
  have hs : renameGlyphsStrict VIRAMA ref s = if r.1 = FAIL then none else some r := by
    have h := ligLoopStrict_eq VIRAMA (preLig VIRAMA ref s).vFontChar.length 0
      (preLig VIRAMA ref s)
    have hr2 : ligLoop VIRAMA (preLig VIRAMA ref s).vFontChar.length 0 (preLig VIRAMA ref s)
        = some r := hr
    rw [hr2] at h
    exact h
  have hnone : renameGlyphsStrict VIRAMA ref s = none ↔ r.1 = FAIL := by
    rw [hs]
    by_cases hf : r.1 = FAIL
    · rw [if_pos hf]
      exact ⟨fun _ => hf, fun _ => rfl⟩
    · rw [if_neg hf]
      exact ⟨fun h => absurd h (Option.some_ne_none r), fun h => absurd h hf⟩
  refine ⟨hnone.trans hiff, ?_, ?_, by decide, by decide⟩
  · rw [hnone]
    constructor
    · intro hf
      exact ⟨r, hr, hf⟩
    · rintro ⟨r2, hr2, hf⟩
      rw [hr] at hr2
      cases hr2
      exact hf
  · intro r2
    rw [hs, hr]
    by_cases hf : r.1 = FAIL
    · rw [if_pos hf]
      constructor
      · intro h; cases h
      · rintro ⟨h1, h2⟩
        cases h1
        rw [hf] at h2
        exact absurd h2.symm hsf
    · rw [if_neg hf]
      constructor
      · intro h
        cases h
        rcases hor with h1 | h1
        · exact ⟨rfl, h1⟩
        · exact absurd h1 hf
      · rintro ⟨h1, _⟩
        exact h1

/-! ### The end of the scan for a name -/

theorem mul_step (a b c : Nat) (h : a + 1 ≤ b) : a * c + c ≤ b * c := by
  have := Nat.mul_le_mul_right c h
  rw [Nat.add_mul, Nat.one_mul] at this
  exact this

theorem getD_mid (A w rest : List Char) (hw : ' ' ∉ w) (i : Nat)
    (h1 : A.length ≤ i) (h2 : i < A.length + w.length) :
    (A ++ w ++ rest).getD i ' ' ≠ ' ' := by
  have hi : i - A.length < w.length := by omega
  have e : (A ++ w ++ rest)[i]? = some (w[i - A.length]) := by
    rw [List.getElem?_append_left (by simp; omega),
      List.getElem?_append_right h1]
    exact List.getElem?_eq_getElem hi
  rw [List.getD_eq_getElem?_getD, e]
  simp only [Option.getD_some]
  intro hc
  exact hw (hc ▸ List.getElem_mem hi)

theorem strReplace_length (T : String) (g len : Nat) (n : String) (h : g + len ≤ T.length) :
    (strReplace T g len n).length = T.length - len + n.length := by
  have hT : T.length = T.data.length := rfl
  have hn : n.length = n.data.length := rfl
  unfold strReplace
  show (T.data.take g ++ n.data ++ T.data.drop (g + len)).length = _
  simp only [List.length_append, List.length_take, List.length_drop]
  omega

theorem scanLoop_past_end (R : NameMap) (o : String) (fuel nextPos : Nat) (T : String)
    (h : T.length < nextPos) : scanLoop R o (fuel + 1) nextPos T = some T := by
  have hf : strFind T o nextPos = none := by
    unfold strFind
    rw [if_pos h]
  simp only [scanLoop, hf]

/-- The scan for a name that has a new name without a space ends: the
characters before the offset `B` that the search has not passed were written by
a replacement, so that no match that starts there is accepted, and the fuel
covers what is left of the list. -/
theorem scanLoop_ends (R : NameMap) (o : String) (ho : o ≠ "") (hn : mapGet R o ≠ "")
    (hns : ' ' ∉ (mapGet R o).data) :
    ∀ (fuel : Nat) (T : String) (nextPos B : Nat), nextPos ≤ B → B ≤ T.length →
    (∀ p, nextPos ≤ p → p < B → p ≠ 0 ∧ strAt T (p - 1) ≠ ' ') →
    (T.length - B) * ((mapGet R o).length + 1) + (B - nextPos) + 1 ≤ fuel →
    ∃ out, scanLoop R o fuel nextPos T = some out := by
  have hol : 1 ≤ o.length := by
    have := (length_ne_zero_iff o).2 ho
    omega
  intro fuel
  induction fuel with
  | zero => intro T nextPos B _ _ _ hf; omega
  | succ f ih =>
    intro T nextPos B hnB hB hinv hfuel
    cases hfind : strFind T o nextPos with
    | none => exact ⟨T, by simp only [scanLoop, hfind]⟩
    | some g =>
      obtain ⟨hge, hend, _⟩ := strFind_some T o nextPos g hfind
      -- a step that goes on with the same list
      have hrej : (g ≠ 0 ∧ strAt T (g - 1) ≠ ' ') ∨
          (g ≠ 0 ∧ g + o.length < T.length ∧ strAt T (g + o.length) ≠ ' ') →
          ∃ out, scanLoop R o (f + 1) nextPos T = some out := by
        intro hb
        rw [scanLoop_reject R o f nextPos T g hfind hn hb]
        by_cases hle : g + o.length ≤ B
        · exact ih T (g + o.length) B hle hB
            (fun p hp1 hp2 => hinv p (by omega) hp2) (by omega)
        · have hm := mul_step (T.length - (g + o.length)) (T.length - B)
            ((mapGet R o).length + 1) (by omega)
          exact ih T (g + o.length) (g + o.length) (Nat.le_refl _) hend
            (fun p hp1 hp2 => by omega) (by omega)
      by_cases hgB : g < B
      · exact hrej (Or.inl (hinv g hge hgB))
      · by_cases h1 : g ≠ 0 ∧ strAt T (g - 1) ≠ ' '
        · exact hrej (Or.inl h1)
        · by_cases h2 : g ≠ 0 ∧ g + o.length < T.length ∧ strAt T (g + o.length) ≠ ' '
          · exact hrej (Or.inr h2)
          · rw [scanLoop_accept R o f nextPos T g hfind hn h1 h2]
            have hlen := strReplace_length T g o.length (mapGet R o) hend
            have hm1 := mul_step (T.length - (g + o.length)) (T.length - g)
              ((mapGet R o).length + 1) (by omega)
            have hm2 := Nat.mul_le_mul_right ((mapGet R o).length + 1)
              (show T.length - g ≤ T.length - B by omega)
            have hf1 : 1 ≤ f := by
              have : 1 ≤ T.length - B := by omega
              have := Nat.mul_le_mul_right ((mapGet R o).length + 1) this
              omega
            by_cases hpast : (strReplace T g o.length (mapGet R o)).length < g + o.length
            · obtain ⟨f2, rfl⟩ : ∃ f2, f = f2 + 1 := ⟨f - 1, by omega⟩
              exact ⟨_, scanLoop_past_end R o f2 _ _ hpast⟩
            · have hm3 := Nat.mul_le_mul_right ((mapGet R o).length + 1)
                (show (strReplace T g o.length (mapGet R o)).length
                    - max (g + (mapGet R o).length) (g + o.length)
                  ≤ T.length - (g + o.length) by
                    rw [hlen]
                    have := Nat.le_max_left (g + (mapGet R o).length) (g + o.length)
                    omega)
              refine ih _ (g + o.length) (max (g + (mapGet R o).length) (g + o.length))
                (Nat.le_max_right _ _) ?_ ?_ ?_
              · rw [hlen]
                rw [hlen] at hpast
                apply Nat.max_le.2
                constructor <;> omega
              · intro p hp1 hp2
                have hp3 : p < g + (mapGet R o).length := by
                  rcases Nat.lt_or_ge p (g + (mapGet R o).length) with h | h
                  · exact h
                  · exfalso
                    have := Nat.max_le.2 ⟨h, hp1⟩
                    omega
                refine ⟨by omega, ?_⟩
                show (T.data.take g ++ (mapGet R o).data ++ T.data.drop (g + o.length)).getD
                  (p - 1) ' ' ≠ ' '
                have htl : (T.data.take g).length = g := by
                  rw [List.length_take]
                  have : T.length = T.data.length := rfl
                  omega
                exact getD_mid _ _ _ hns (p - 1) (by rw [htl]; omega)
                  (by
                    rw [htl]
                    have : (mapGet R o).length = (mapGet R o).data.length := rfl
                    omega)
              · have hb2 : max (g + (mapGet R o).length) (g + o.length) - (g + o.length)
                    ≤ (mapGet R o).length := by
                  rcases Nat.le_total (g + (mapGet R o).length) (g + o.length) with h | h
                  · rw [Nat.max_eq_right h]; omega
                  · rw [Nat.max_eq_left h]; omega
                omega

theorem scanLoop_fuel_succ (R : NameMap) (o : String) : ∀ (fuel nextPos : Nat)
    (T out : String), scanLoop R o fuel nextPos T = some out →
    scanLoop R o (fuel + 1) nextPos T = some out := by
  intro fuel
  induction fuel with
  | zero => intro nextPos T out h; simp [scanLoop] at h
  | succ f ih =>
    intro nextPos T out h
    rw [scanLoop] at h ⊢
    cases hfind : strFind T o nextPos with
    | none =>
      rw [hfind] at h
      exact h
    | some g =>
      rw [hfind] at h
      simp only at h ⊢
      by_cases c1 : (mapGet R o).length = 0
      · rw [if_pos c1] at h ⊢
        exact ih _ _ _ h
      · rw [if_neg c1] at h ⊢
        by_cases c2 : g ≠ 0 ∧ strAt T (g - 1) ≠ ' '
        · rw [if_pos c2] at h ⊢
          exact ih _ _ _ h
        · rw [if_neg c2] at h ⊢
          by_cases c3 : g ≠ 0 ∧ g + o.length < T.length ∧ strAt T (g + o.length) ≠ ' '
          · rw [if_pos c3] at h ⊢
            exact ih _ _ _ h
          · rw [if_neg c3] at h ⊢
            exact ih _ _ _ h

theorem scanLoop_fuel_le (R : NameMap) (o : String) (nextPos : Nat) (T out : String)
    (fuel : Nat) (h : scanLoop R o fuel nextPos T = some out) :
    ∀ fuel2, fuel ≤ fuel2 → scanLoop R o fuel2 nextPos T = some out := by
  intro fuel2 hle
  obtain ⟨k, rfl⟩ : ∃ k, fuel2 = fuel + k := ⟨fuel2 - fuel, by omega⟩
  clear hle
  induction k with
  | zero => exact h
  | succ k ih => exact scanLoop_fuel_succ R o _ _ _ _ ih

theorem mapGet_nospace : ∀ (R : NameMap), (∀ p ∈ R, ' ' ∉ p.2.data) →
    ∀ k, ' ' ∉ (mapGet R k).data := by
  intro R
  induction R with
  | nil => intro _ k; simp [mapGet]
  | cons a rest ih =>
    intro h k
    obtain ⟨k1, v1⟩ := a
    simp only [mapGet]
    split
    · exact h (k1, v1) (List.mem_cons_self _ _)
    · exact ih (fun p hp => h p (List.mem_cons_of_mem _ hp)) k

/-- The scan of a glyph list for a name that is not empty ends within the
fuel `scanFuel`, when the new name has no space. -/
theorem scanLoop_total (R : NameMap) (T o : String) (ho : o ≠ "")
    (hns : ' ' ∉ (mapGet R o).data) :
    ∃ out, scanLoop R o (scanFuel T (mapGet R o)) 0 T = some out := by
  by_cases hm : mapGet R o = ""
  · exact ⟨T, scanLoop_empty R o hm ho T _ 0 (by unfold scanFuel; omega)
      (by unfold scanFuel; rw [hm]; simp)⟩
  · exact scanLoop_ends R o ho hm hns _ T 0 0 (Nat.le_refl _) (Nat.zero_le _)
      (fun p _ hp => absurd hp (Nat.not_lt_zero _))
      (by unfold scanFuel; simp only [Nat.sub_zero]; omega)

theorem substLoop_total (R : NameMap) (hR : ∀ k, ' ' ∉ (mapGet R k).data) :
    ∀ (names : List String) (T : String), (∀ o ∈ names, o ≠ "") →
    ∃ out, substLoop R names T = some out := by
  intro names
  induction names with
  | nil => intro T _; exact ⟨T, rfl⟩
  | cons o rest ih =>
    intro T h
    obtain ⟨out, hout⟩ := scanLoop_total R T o (h o (List.mem_cons_self _ _)) (hR o)
    simp only [substLoop, hout]
    exact ih out (fun x hx => h x (List.mem_cons_of_mem _ hx))

/-- C32: for a rename map whose values contain no space, the scan of every
glyph list for every name that is not empty ends, with the same result for every
fuel from `scanFuel` on, and `replaceGlyphNames` returns for every line; this
holds also for a new name that is longer than the old name and contains it. -/
theorem C32_scan_terminates (R : NameMap) (hR : ∀ p ∈ R, ' ' ∉ p.2.data) :
    (∀ (glyphNames oldName : String), oldName ≠ "" →
      ∃ out, ∀ fuel, scanFuel glyphNames (mapGet R oldName) ≤ fuel →
        scanLoop R oldName fuel 0 glyphNames = some out) ∧
    (∀ (sfdData : String), ∃ res, replaceGlyphNames R sfdData = some res) := by
  have hR2 := mapGet_nospace R hR
  constructor
  · intro T o ho
    obtain ⟨out, hout⟩ := scanLoop_total R T o ho (hR2 o)
    exact ⟨out, scanLoop_fuel_le R o 0 T out _ hout⟩
  · intro sfdData
    unfold replaceGlyphNames
    simp only
    split
    · obtain ⟨out, hout⟩ := substLoop_total R hR2
        ((glyphComps (getTok sfdData "" '"' 3).2).map (fun m => m.1))
        (getTok sfdData "" '"' 3).2 (glyphComps_keys _)
      rw [hout]
      simp only
      split
      · exact ⟨_, rfl⟩
      · exact ⟨_, rfl⟩
    · exact ⟨_, rfl⟩

/-- Witness of C32: the new name `k1k1` of `k1` is longer than `k1` and
contains it. -/
theorem C32_scan_terminates_witness :
    (∀ p ∈ [("k1", "k1k1")], ' ' ∉ p.2.data) ∧
    ((∀ (glyphNames oldName : String), oldName ≠ "" →
      ∃ out, ∀ fuel, scanFuel glyphNames (mapGet [("k1", "k1k1")] oldName) ≤ fuel →
        scanLoop [("k1", "k1k1")] oldName fuel 0 glyphNames = some out) ∧
    (∀ (sfdData : String), ∃ res, replaceGlyphNames [("k1", "k1k1")] sfdData = some res)) ∧
    replaceGlyphNames [("k1", "k1k1")] "Ligature2: \"'liga' sub\" k1 xk1 k1"
      = some (SUCCESS, "Ligature2: \"'liga' sub\" k1k1 xk1 k1k1") :=
  ⟨by decide, C32_scan_terminates [("k1", "k1k1")] (by decide), by decide⟩

/-! ### Where the rewritten glyph list is written -/

/-- C31 (the code diverges from the claim): `replaceGlyphNames` writes the
rewritten glyph list at the first place of the line where the text of the glyph
list occurs (`strFind` from offset `0`). In `nameInQuotesLine` that text, ` k1`,
occurs inside the quoted subtable name, so the quoted name is altered and the
glyph list after the second double quote is kept. A line whose glyph list does
not occur earlier is rewritten after the second double quote. -/
theorem C31_written_at_first_occurrence (R : NameMap) (sfdData : String) :
    (∀ (glyphNames : String) (gPos : Nat),
      (getTok sfdData "" '"' 3).1 = SUCCESS →
      substLoop R ((glyphComps (getTok sfdData "" '"' 3).2).map (fun m => m.1))
        (getTok sfdData "" '"' 3).2 = some glyphNames →
      strFind sfdData (getTok sfdData "" '"' 3).2 0 = some gPos →
      replaceGlyphNames R sfdData
        = some (SUCCESS,
            strReplace sfdData gPos (getTok sfdData "" '"' 3).2.length glyphNames)) ∧
    getTok nameInQuotesLine "" '"' 3 = (SUCCESS, " k1") ∧
    strFind nameInQuotesLine " k1" 0 = some 13 ∧
    replaceGlyphNames [("k1", "N")] nameInQuotesLine
      = some (SUCCESS, "Ligature2: \"x N\" k1") ∧
    replaceGlyphNames [("k1", "N")] "Ligature2: \"'liga' sub\" k1"
      = some (SUCCESS, "Ligature2: \"'liga' sub\" N") := by
  refine ⟨?_, by decide, by decide, by decide, by decide⟩
  intro glyphNames gPos h1 h2 h3
  unfold replaceGlyphNames
  simp only [h1, if_true, h2, h3]

/-! ### Rewriting a line twice -/

theorem splitFields_ne_nil (d : Char) (l : List Char) : splitFields d l ≠ [] := by
  intro e
  have h := splitFields_length d l
  rw [e] at h
  simp at h

theorem splitFields_append (d : Char) : ∀ (X Y : List Char),
    splitFields d (X ++ d :: Y) = splitFields d X ++ splitFields d Y := by
  intro X
  induction X with
  | nil =>
    intro Y
    rw [List.nil_append, splitFields_cons, if_pos rfl]
    rfl
  | cons c X ih =>
    intro Y
    rw [List.cons_append, splitFields_cons, splitFields_cons, ih Y]
    by_cases h : c = d
    · rw [if_pos h, if_pos h]; rfl
    · rw [if_neg h, if_neg h]
      obtain ⟨f, fs, hfs⟩ := List.exists_cons_of_ne_nil (splitFields_ne_nil d X)
      rw [hfs]
      rfl

theorem splitFields_word_frag : ∀ (ts : List String) (w : List Char), ' ' ∉ w →
    (∀ t ∈ ts, ' ' ∉ t.data) →
    splitFields ' ' (w ++ fragChars ts) = w :: ts.map (fun t => t.data) := by
  intro ts
  induction ts with
  | nil =>
    intro w hw _
    simp only [fragChars, List.append_nil, List.map_nil]
    exact splitFields_of_not_mem ' ' w hw
  | cons t rest ih =>
    intro w hw ht
    simp only [fragChars]
    rw [splitFields_append, splitFields_of_not_mem ' ' w hw,
      ih t.data (ht t (List.mem_cons_self _ _)) (fun x hx => ht x (List.mem_cons_of_mem _ hx))]
    rfl

/-- The fields of a glyph list: an empty field, then the names. -/
theorem splitFields_frag (ts : List String) (ht : ∀ t ∈ ts, ' ' ∉ t.data) :
    splitFields ' ' (fragChars ts) = [] :: ts.map (fun t => t.data) := by
  have h := splitFields_word_frag ts [] (by simp) ht
  simpa using h

theorem count_space_frag (ts : List String) (ht : ∀ t ∈ ts, ' ' ∉ t.data) :
    (fragChars ts).count ' ' = ts.length := by
  have h1 := splitFields_length ' ' (fragChars ts)
  rw [splitFields_frag ts ht] at h1
  simp only [List.length_cons, List.length_map] at h1
  omega

theorem getTok_frag (ts : List String) (ht : ∀ t ∈ ts, ' ' ∉ t.data) (pos : Nat)
    (hpos : 1 ≤ pos) :
    getTok (frag ts) "" ' ' pos
      = if 1 ≤ ts.length ∧ (pos ≤ ts.length ∨ (pos = ts.length + 1 ∧
            (([] : List Char) :: ts.map (fun t => t.data)).getD (pos - 1) [] ≠ []))
        then (SUCCESS,
          String.mk ((([] : List Char) :: ts.map (fun t => t.data)).getD (pos - 1) []))
        else (FAIL, "") := by
  have h := getTok_fields (frag ts) "" ' ' pos hpos
  have hd : (frag ts).data = fragChars ts := rfl
  rw [hd, splitFields_frag ts ht, count_space_frag ts ht] at h
  exact h

theorem getTok_frag_success (ts : List String) (ht : ∀ t ∈ ts, ' ' ∉ t.data) (q : Nat)
    (h1 : 1 ≤ q) (h2 : q ≤ ts.length) : (getTok (frag ts) "" ' ' q).1 = SUCCESS := by
  rw [getTok_frag ts ht q h1, if_pos ⟨by omega, Or.inl h2⟩]

theorem getD_names (ts : List String) (k : Nat) (t : String) (hk : ts[k]? = some t) :
    (([] : List Char) :: ts.map (fun t => t.data)).getD (k + 1) [] = t.data := by
  rw [List.getD_cons_succ, List.getD_eq_getElem?_getD, List.getElem?_map, hk]
  rfl

/-- The call of `getTok` that reads the name number `k` of a glyph list. -/
theorem getTok_frag_tok (ts : List String) (ht : ∀ t ∈ ts, ' ' ∉ t.data) (k : Nat)
    (t : String) (hk : ts[k]? = some t) (hne : t ≠ "") :
    getTok (frag ts) "" ' ' (k + 2) = (SUCCESS, t) := by
  have hlt := (List.getElem?_eq_some_iff.1 hk).1
  have hg := getD_names ts k t hk
  have hdne : t.data ≠ [] := fun e => hne (String.ext e)
  rw [getTok_frag ts ht (k + 2) (by omega)]
  simp only [Nat.add_sub_cancel, show k + 2 - 1 = k + 1 from rfl, hg]
  rw [if_pos ⟨by omega, by
    by_cases h : k + 2 ≤ ts.length
    · exact Or.inl h
    · exact Or.inr ⟨by omega, hdne⟩⟩]

theorem getTok_frag_mem (ts : List String) (ht : ∀ t ∈ ts, ' ' ∉ t.data) (i : Nat)
    (hi : 1 ≤ i) (hne : (getTok (frag ts) "" ' ' i).2 ≠ "") :
    (getTok (frag ts) "" ' ' i).2 ∈ ts := by
  rw [getTok_frag ts ht i hi] at hne ⊢
  split at hne
  · rename_i hc
    rw [if_pos hc]
    simp only at hne ⊢
    obtain ⟨m, rfl⟩ : ∃ m, i = m + 1 := ⟨i - 1, by omega⟩
    simp only [Nat.add_sub_cancel] at hne ⊢
    cases m with
    | zero => exact absurd rfl hne
    | succ j =>
      cases hj : ts[j]? with
      | none =>
        exfalso
        apply hne
        rw [List.getD_cons_succ, List.getD_eq_getElem?_getD, List.getElem?_map, hj]
        rfl
      | some t =>
        rw [getD_names ts j t hj]
        exact List.mem_iff_getElem?.2 ⟨j, hj⟩
  · exact absurd rfl hne

theorem compsLoop_keep (g : String) : ∀ (fuel i : Nat) (gc : NameMap) (t : String),
    mapGet gc t = t → mapGet (compsLoop g fuel i gc) t = t := by
  intro fuel
  induction fuel with
  | zero => intro i gc t h; exact h
  | succ k ih =>
    intro i gc t h
    simp only [compsLoop]
    split
    · apply ih
      split
      · rw [mapGet_mapSet]
        split
        · rename_i e; exact e
        · exact h
      · exact h
    · exact h

/-- The loop that stores the names of the glyph list stores every name that is
not empty and is read before a call of `getTok` fails. -/
theorem compsLoop_collect (g : String) : ∀ (fuel i : Nat) (gc : NameMap) (pos : Nat),
    i ≤ pos → pos < i + fuel →
    (∀ q, i ≤ q → q ≤ pos → (getTok g "" ' ' q).1 = SUCCESS) →
    (getTok g "" ' ' pos).2 ≠ "" →
    mapGet (compsLoop g fuel i gc) (getTok g "" ' ' pos).2 = (getTok g "" ' ' pos).2 := by
  intro fuel
  induction fuel with
  | zero => intro i gc pos h1 h2; omega
  | succ k ih =>
    intro i gc pos h1 h2 hs hne
    simp only [compsLoop]
    rw [if_pos (hs i (Nat.le_refl _) h1)]
    by_cases e : pos = i
    · subst e
      apply compsLoop_keep
      rw [if_pos ((length_ne_zero_iff _).2 hne), mapGet_mapSet, if_pos rfl]
    · exact ih (i + 1) _ pos (by omega) (by omega)
        (fun q hq1 hq2 => hs q (by omega) hq2) hne

/-- Every name of a glyph list that is not empty is a key of `glyphComps`. -/
theorem glyphComps_mem (ts : List String) (ht : ∀ t ∈ ts, ' ' ∉ t.data) (t : String)
    (hm : t ∈ ts) (hne : t ≠ "") : t ∈ (glyphComps (frag ts)).map (fun m => m.1) := by
  obtain ⟨k, hk⟩ := List.mem_iff_getElem?.1 hm
  have hlt := (List.getElem?_eq_some_iff.1 hk).1
  have htok := getTok_frag_tok ts ht k t hk hne
  have hlen : ts.length ≤ (frag ts).length := fragChars_length_ge ts
  have h := compsLoop_collect (frag ts) ((frag ts).length + 2) 1 [] (k + 2) (by omega)
    (by omega)
    (fun q hq1 hq2 => by
      by_cases hq : q = k + 2
      · rw [hq, htok]
      · exact getTok_frag_success ts ht q hq1 (by omega))
    (by rw [htok]; exact hne)
  rw [htok] at h
  have h2 : mapGet (glyphComps (frag ts)) t = t := h
  have h3 := mem_of_mapGet (glyphComps (frag ts)) t (by rw [h2]; exact hne)
  exact List.mem_map.2 ⟨_, h3, rfl⟩

theorem compsLoop_sub (ts : List String) (ht : ∀ t ∈ ts, ' ' ∉ t.data) :
    ∀ (fuel i : Nat) (gc : NameMap), 1 ≤ i → (∀ p ∈ gc, p.1 ∈ ts) →
    ∀ p ∈ compsLoop (frag ts) fuel i gc, p.1 ∈ ts := by
  intro fuel
  induction fuel with
  | zero => intro i gc _ h; exact h
  | succ k ih =>
    intro i gc hi h
    simp only [compsLoop]
    split
    · apply ih (i + 1) _ (by omega)
      split
      · rename_i hlen
        intro p hp
        rcases mapSet_keys _ _ gc p hp with h1 | ⟨q, hq, h1⟩
        · rw [h1]
          exact getTok_frag_mem ts ht i hi ((length_ne_zero_iff _).1 hlen)
        · rw [← h1]; exact h q hq
      · exact h
    · exact h

/-- Every key of `glyphComps` is a name of the glyph list. -/
theorem glyphComps_sub (ts : List String) (ht : ∀ t ∈ ts, ' ' ∉ t.data) :
    ∀ o ∈ (glyphComps (frag ts)).map (fun m => m.1), o ∈ ts := by
  intro o ho
  obtain ⟨p, hp, rfl⟩ := List.mem_map.1 ho
  exact compsLoop_sub ts ht _ 1 [] (Nat.le_refl _)
    (fun _ h => absurd h (List.not_mem_nil _)) p hp

/-! ### The scan for a name that is shortened by more than one character -/

/-- The scan for a name `o` that has a new name, in a glyph list made of names
without spaces, each after one space: every name equal to `o` that the scan has
not passed is replaced by the new name, and nothing else changes, when the new
name has no space and either `o` is at most one character longer than it, or
`o` is the name of at most one glyph of the list (after its replacement the
search starts again past the beginning of the names that follow, which hold
no `o`). -/
theorem scanLoop_gen (R : NameMap) (o : String) (hn : mapGet R o ≠ "") (ho : o ≠ "")
    (hos : ' ' ∉ o.data) (hns : ' ' ∉ (mapGet R o).data) :
    ∀ (fuel : Nat) (ts : List String) (A : List Char) (nextPos : Nat),
    (∀ t ∈ ts, ' ' ∉ t.data) →
    ((nextPos ≤ A.length + 1 ∧
        (o.length ≤ (mapGet R o).length + 1 ∨ ts.count o ≤ 1)) ∨ o ∉ ts) →
    (∀ p, nextPos ≤ p → p < A.length → o.data <+: (A ++ fragChars ts).drop p →
      p ≠ 0 ∧ (A ++ fragChars ts).getD (p - 1) ' ' ≠ ' ') →
    (A.length + 1 - nextPos) + (fragChars ts).length + ts.length * (mapGet R o).length + 1
      ≤ fuel →
    scanLoop R o fuel nextPos (String.mk (A ++ fragChars ts))
      = some (String.mk (A ++ fragChars (ts.map (renameTok o (mapGet R o))))) := by
  have hol : 1 ≤ o.length := by
    have := (length_ne_zero_iff o).2 ho
    omega
  have hod : o.length = o.data.length := rfl
  intro fuel
  induction fuel with
  | zero => intro ts A nextPos _ _ _ hf; omega
  | succ f ih =>
    -- an occurrence found in the part of the list the scan has passed
    have stepA : ∀ (ts : List String) (A : List Char) (nextPos g : Nat),
        (∀ t ∈ ts, ' ' ∉ t.data) →
        ((nextPos ≤ A.length + 1 ∧
            (o.length ≤ (mapGet R o).length + 1 ∨ ts.count o ≤ 1)) ∨ o ∉ ts) →
        (∀ p, nextPos ≤ p → p < A.length → o.data <+: (A ++ fragChars ts).drop p →
          p ≠ 0 ∧ (A ++ fragChars ts).getD (p - 1) ' ' ≠ ' ') →
        (A.length + 1 - nextPos) + (fragChars ts).length + ts.length * (mapGet R o).length + 1
          ≤ f + 1 →
        strFind (String.mk (A ++ fragChars ts)) o nextPos = some g → g < A.length →
        scanLoop R o (f + 1) nextPos (String.mk (A ++ fragChars ts))
          = some (String.mk (A ++ fragChars (ts.map (renameTok o (mapGet R o))))) := by
      intro ts A nextPos g htok hcase hinv hfuel hfind hg
      obtain ⟨hge, hocc⟩ := strFind_occ _ _ _ _ hfind
      have hin := occ_inside o.data A ts g hos hocc hg
      have hblock := hinv g hge hg hocc
      rw [scanLoop_reject R o f nextPos _ g hfind hn (Or.inl hblock)]
      refine ih ts A (g + o.length) htok ?_ ?_ (by omega)
      · rcases hcase with hc | hc
        · exact Or.inl ⟨by omega, hc.2⟩
        · exact Or.inr hc
      · intro p hp1 hp2 hp3
        exact hinv p (by omega) hp2 hp3
    intro ts
    induction ts with
    | nil =>
      intro A nextPos htok hcase hinv hfuel
      cases hfind : strFind (String.mk (A ++ fragChars [])) o nextPos with
      | none => simp only [scanLoop, hfind]; rfl
      | some g =>
        obtain ⟨hge, hocc⟩ := strFind_occ _ _ _ _ hfind
        have hl : g + o.data.length ≤ (A ++ fragChars []).length := by
          rcases occ_length _ _ _ hocc with h | h
          · exact h
          · rw [h] at hod; simp at hod; omega
        simp only [fragChars, List.append_nil] at hl
        exact stepA [] A nextPos g htok hcase hinv hfuel hfind (by omega)
    | cons t ts1 iht =>
      intro A nextPos htok hcase hinv hfuel
      have htok1 : ∀ x ∈ ts1, ' ' ∉ x.data := fun x hx => htok x (List.mem_cons_of_mem _ hx)
      have htd : t.length = t.data.length := rfl
      have hts : ' ' ∉ t.data := htok t (List.mem_cons_self _ _)
      have hsplit := frag_split A t ts1
      have hlenA1 : (A ++ ' ' :: t.data).length = A.length + 1 + t.length := by
        simp only [List.length_append, List.length_cons]; omega
      have hfl := fragChars_length_cons t ts1
      have hmul : (t :: ts1).length * (mapGet R o).length
          = ts1.length * (mapGet R o).length + (mapGet R o).length := by
        rw [List.length_cons, Nat.succ_mul]
      have hTlen : (String.mk (A ++ fragChars (t :: ts1))).length
          = A.length + 1 + t.length + (fragChars ts1).length := by
        show (A ++ fragChars (t :: ts1)).length = _
        rw [List.length_append, hfl]; omega
      -- what is known for the names after `t` when `t` is not `o`
      have hcase1 : t ≠ o → ∀ q, q ≤ A.length + 1 + t.length + 1 →
          ((q ≤ (A ++ ' ' :: t.data).length + 1 ∧
            (o.length ≤ (mapGet R o).length + 1 ∨ ts1.count o ≤ 1)) ∨ o ∉ ts1) := by
        intro hto q hq
        rcases hcase with hc | hc
        · left
          refine ⟨by rw [hlenA1]; exact hq, ?_⟩
          rcases hc.2 with h | h
          · exact Or.inl h
          · right
            rw [List.count_cons_of_ne (fun e => hto e.symm)] at h
            exact h
        · right
          intro hm
          exact hc (List.mem_cons_of_mem _ hm)
      -- the token `t` holds no occurrence the search can find
      have hskip : (∀ p, nextPos ≤ p → p < A.length + 1 + t.length →
            ¬ o.data <+: (A ++ fragChars (t :: ts1)).drop p) →
          scanLoop R o (f + 1) nextPos (String.mk (A ++ fragChars (t :: ts1)))
            = some (String.mk (A ++ fragChars ((t :: ts1).map (renameTok o (mapGet R o))))) := by
        intro hno
        have hto : t ≠ o := by
          intro e
          rcases hcase with hc | hc
          · apply hno (A.length + 1) hc.1 (by rw [e]; omega)
            rw [hsplit, e]
            have e3 : (A ++ ' ' :: o.data) ++ fragChars ts1
                = (A ++ [' ']) ++ (o.data ++ fragChars ts1) := by simp
            rw [e3]
            have e4 : A.length + 1 = (A ++ [' ']).length := by simp
            rw [e4, List.drop_left]
            exact List.prefix_append _ _
          · exact hc (e ▸ List.mem_cons_self _ _)
        have hcase2 : (nextPos ≤ (A ++ ' ' :: t.data).length + 1 ∧
            (o.length ≤ (mapGet R o).length + 1 ∨ ts1.count o ≤ 1)) ∨ o ∉ ts1 := by
          rcases hcase with hc | hc
          · exact hcase1 hto nextPos (by have := hc.1; omega)
          · right
            intro hm
            exact hc (List.mem_cons_of_mem _ hm)
        have hinv1 : ∀ p, nextPos ≤ p → p < (A ++ ' ' :: t.data).length →
            o.data <+: ((A ++ ' ' :: t.data) ++ fragChars ts1).drop p →
            p ≠ 0 ∧ ((A ++ ' ' :: t.data) ++ fragChars ts1).getD (p - 1) ' ' ≠ ' ' := by
          intro p hp1 hp2 hp3
          rw [hlenA1] at hp2
          rw [← hsplit] at hp3
          exact absurd hp3 (hno p hp1 hp2)
        have hres := iht (A ++ ' ' :: t.data) nextPos htok1 hcase2 hinv1
          (by rw [hlenA1]; rw [hfl, hmul] at hfuel; omega)
        rw [hsplit, hres]
        simp [fragChars, renameTok, hto]
      cases hfind : strFind (String.mk (A ++ fragChars (t :: ts1))) o nextPos with
      | none =>
        apply hskip
        intro p hp1 hp2 hp3
        obtain ⟨g, hg, _⟩ := strFind_le (String.mk (A ++ fragChars (t :: ts1))) o nextPos p hp1
          (by rw [hTlen]; omega) hp3
        rw [hfind] at hg
        exact absurd hg (by simp)
      | some g =>
        obtain ⟨hge, hocc⟩ := strFind_occ _ _ _ _ hfind
        change o.data <+: (A ++ fragChars (t :: ts1)).drop g at hocc
        by_cases hgA : g < A.length
        · exact stepA (t :: ts1) A nextPos g htok hcase hinv hfuel hfind hgA
        · by_cases hgB : A.length + 1 + t.length ≤ g
          · apply hskip
            intro p hp1 hp2 hp3
            obtain ⟨g2, hg2, hle⟩ := strFind_le (String.mk (A ++ fragChars (t :: ts1))) o
              nextPos p hp1 (by rw [hTlen]; omega) hp3
            rw [hfind] at hg2
            simp only [Option.some.injEq] at hg2
            omega
          · -- the occurrence starts in the token `t`
            have hne : g ≠ A.length := by
              intro e
              have e1 := occ_getElem o.data _ g 0 hocc (by omega)
              rw [Nat.add_zero, e, List.getElem?_append_right (Nat.le_refl _), Nat.sub_self,
                List.getElem?_eq_getElem (by omega : 0 < o.data.length)] at e1
              simp only [fragChars, List.getElem?_cons_zero, Option.some.injEq] at e1
              exact hos (e1 ▸ List.getElem_mem _)
            have hend : g + o.data.length ≤ A.length + 1 + t.length := by
              have hocc1 := hocc
              rw [hsplit] at hocc1
              have := occ_inside o.data (A ++ ' ' :: t.data) ts1 g hos hocc1
                (by rw [hlenA1]; omega)
              rw [hlenA1] at this
              exact this
            -- what is left to do after the step, for the token `w` that stands for `t`
            have hrest : ∀ (w : String), renameTok o (mapGet R o) t = w → ' ' ∉ w.data →
                w.length ≤ t.length + (mapGet R o).length →
                ((g + o.length ≤ (A ++ ' ' :: w.data).length + 1 ∧
                  (o.length ≤ (mapGet R o).length + 1 ∨ ts1.count o ≤ 1)) ∨ o ∉ ts1) →
                scanLoop R o f (g + o.length) (String.mk ((A ++ ' ' :: w.data) ++ fragChars ts1))
                  = some (String.mk
                      (A ++ fragChars ((t :: ts1).map (renameTok o (mapGet R o))))) := by
              intro w hw hws hwl hcw
              have hwd : w.length = w.data.length := rfl
              have hlenW : (A ++ ' ' :: w.data).length = A.length + 1 + w.length := by
                simp only [List.length_append, List.length_cons]; omega
              have hinvW : ∀ p, g + o.length ≤ p → p < (A ++ ' ' :: w.data).length →
                  o.data <+: ((A ++ ' ' :: w.data) ++ fragChars ts1).drop p →
                  p ≠ 0 ∧ ((A ++ ' ' :: w.data) ++ fragChars ts1).getD (p - 1) ' ' ≠ ' ' := by
                intro p hp1 hp2 _
                rw [hlenW] at hp2
                exact ⟨by omega, getD_token A w.data _ hws (p - 1) (by omega) (by omega)⟩
              have hres := ih ts1 (A ++ ' ' :: w.data) (g + o.length) htok1 hcw hinvW
                (by rw [hlenW]; rw [hfl, hmul] at hfuel; omega)
              rw [hres]
              simp [fragChars, hw]
            by_cases hd : A.length + 1 < g
            · -- inside the token: the character before is not a space
              have hto : t ≠ o := by
                intro e; rw [e] at hend; omega
              have hb : g ≠ 0 ∧ strAt (String.mk (A ++ fragChars (t :: ts1))) (g - 1) ≠ ' ' := by
                refine ⟨by omega, ?_⟩
                show (A ++ fragChars (t :: ts1)).getD (g - 1) ' ' ≠ ' '
                rw [hsplit]
                exact getD_token A t.data _ hts (g - 1) (by omega) (by omega)
              rw [scanLoop_reject R o f nextPos _ g hfind hn (Or.inl hb), hsplit]
              exact hrest t (by simp [renameTok, hto]) hts (by omega)
                (hcase1 hto (g + o.length) (by omega))
            · have hg1 : g = A.length + 1 := by omega
              by_cases hlt : o.length < t.length
              · -- a proper prefix of the token: the character after is not a space
                have hto : t ≠ o := by
                  intro e; rw [e] at hlt; omega
                have hb : g ≠ 0 ∧ g + o.length
                      < (String.mk (A ++ fragChars (t :: ts1))).length ∧
                    strAt (String.mk (A ++ fragChars (t :: ts1))) (g + o.length) ≠ ' ' := by
                  refine ⟨by omega, by rw [hTlen]; omega, ?_⟩
                  show (A ++ fragChars (t :: ts1)).getD (g + o.length) ' ' ≠ ' '
                  rw [hsplit]
                  exact getD_token A t.data _ hts (g + o.length) (by omega) (by omega)
                rw [scanLoop_reject R o f nextPos _ g hfind hn (Or.inr hb), hsplit]
                exact hrest t (by simp [renameTok, hto]) hts (by omega)
                  (hcase1 hto (g + o.length) (by omega))
              · -- the whole token: it is replaced
                have hleq : o.data.length = t.data.length := by omega
                have hto : t = o := by
                  have hp1 : o.data <+: t.data ++ fragChars ts1 := by
                    have e3 : A ++ fragChars (t :: ts1)
                        = (A ++ [' ']) ++ (t.data ++ fragChars ts1) := by simp [fragChars]
                    have e4 : g = (A ++ [' ']).length := by simp [hg1]
                    rw [e3, e4, List.drop_left] at hocc
                    exact hocc
                  have hp2 : o.data <+: t.data :=
                    List.prefix_of_prefix_length_le hp1 (List.prefix_append _ _) (by omega)
                  exact String.ext (hp2.eq_of_length hleq).symm
                have h1 : ¬ (g ≠ 0 ∧
                    strAt (String.mk (A ++ fragChars (t :: ts1))) (g - 1) ≠ ' ') := by
                  intro hc
                  apply hc.2
                  show (A ++ fragChars (t :: ts1)).getD (g - 1) ' ' = ' '
                  have e5 : g - 1 = A.length := by omega
                  rw [e5]
                  exact getD_end A (t :: ts1)
                have h2 : ¬ (g ≠ 0 ∧ g + o.length
                      < (String.mk (A ++ fragChars (t :: ts1))).length ∧
                    strAt (String.mk (A ++ fragChars (t :: ts1))) (g + o.length) ≠ ' ') := by
                  intro hc
                  apply hc.2.2
                  show (A ++ fragChars (t :: ts1)).getD (g + o.length) ' ' = ' '
                  have e5 : g + o.length = (A ++ ' ' :: t.data).length := by
                    rw [hlenA1]; omega
                  rw [hsplit, e5]
                  exact getD_end _ ts1
                have hrep : strReplace (String.mk (A ++ fragChars (t :: ts1))) g o.length
                    (mapGet R o)
                    = String.mk ((A ++ ' ' :: (mapGet R o).data) ++ fragChars ts1) := by
                  unfold strReplace
                  show String.mk ((A ++ fragChars (t :: ts1)).take g ++ (mapGet R o).data
                    ++ (A ++ fragChars (t :: ts1)).drop (g + o.length)) = _
                  have e6 : A ++ fragChars (t :: ts1)
                      = (A ++ [' ']) ++ (t.data ++ fragChars ts1) := by simp [fragChars]
                  have e7 : g = (A ++ [' ']).length := by simp [hg1]
                  have e8 : g + o.length = (A ++ ' ' :: t.data).length := by
                    rw [hlenA1]; omega
                  have t1 : (A ++ fragChars (t :: ts1)).take g = A ++ [' '] := by
                    rw [e6, e7, List.take_left]
                  have t2 : (A ++ fragChars (t :: ts1)).drop (g + o.length) = fragChars ts1 := by
                    rw [hsplit, e8, List.drop_left]
                  rw [t1, t2]
                  simp
                have hcw : (g + o.length ≤ (A ++ ' ' :: (mapGet R o).data).length + 1 ∧
                    (o.length ≤ (mapGet R o).length + 1 ∨ ts1.count o ≤ 1)) ∨ o ∉ ts1 := by
                  have hlenN : (A ++ ' ' :: (mapGet R o).data).length
                      = A.length + 1 + (mapGet R o).length := by
                    have : (mapGet R o).length = (mapGet R o).data.length := rfl
                    simp only [List.length_append, List.length_cons]; omega
                  rcases hcase with hc | hc
                  · rcases hc.2 with h | h
                    · exact Or.inl ⟨by rw [hlenN]; omega, Or.inl h⟩
                    · right
                      rw [hto, List.count_cons_self] at h
                      intro hm
                      have := List.count_pos_iff.2 hm
                      omega
                  · exact absurd (hto ▸ List.mem_cons_self _ _) hc
                rw [scanLoop_accept R o f nextPos _ g hfind hn h1 h2, hrep]
                exact hrest (mapGet R o) (by simp [renameTok, hto]) hns (by omega) hcw

theorem count_map_renameTok_le (o n o2 : String) (h : o2 ≠ n) : ∀ (ts : List String),
    (ts.map (renameTok o n)).count o2 ≤ ts.count o2 := by
  intro ts
  induction ts with
  | nil => simp
  | cons t rest ih =>
    rw [List.map_cons, List.count_cons, List.count_cons]
    have h1 : (renameTok o n t == o2) = true → (t == o2) = true := by
      intro e
      have e1 : renameTok o n t = o2 := by simpa using e
      unfold renameTok at e1
      split at e1
      · exact absurd e1.symm h
      · simpa using e1
    by_cases hc : (renameTok o n t == o2) = true
    · rw [if_pos hc, if_pos (h1 hc)]
      omega
    · rw [if_neg hc]
      split <;> omega

/-- The loop of `replaceGlyphNames` over the names, on a glyph list made of names
without spaces, each after one space: it returns the list in which every name
is replaced as `renameAll` tells. Every name searched for is non-empty and has
no space; a new name has no space, has no new name other than itself, and is
at most one character shorter than the name it replaces unless that name
is the name of one glyph of the list only. -/
theorem substLoop_gen (R : NameMap) : ∀ (names ts : List String),
    (∀ t ∈ ts, ' ' ∉ t.data) →
    (∀ o ∈ names, o ≠ "" ∧ ' ' ∉ o.data ∧ (mapGet R o ≠ "" →
      ' ' ∉ (mapGet R o).data ∧ (o.length ≤ (mapGet R o).length + 1 ∨ ts.count o ≤ 1) ∧
      (mapGet R (mapGet R o) = "" ∨ mapGet R (mapGet R o) = mapGet R o))) →
    substLoop R names (frag ts) = some (frag (ts.map (renameAll R names))) := by
  intro names
  induction names with
  | nil =>
    intro ts _ _
    have e : ts.map (renameAll R []) = ts := by
      conv_rhs => rw [← List.map_id ts]
      exact List.map_congr_left (fun _ _ => rfl)
    rw [e]; rfl
  | cons o rest ih =>
    intro ts htok hnames
    obtain ⟨ho, hos, hnew⟩ := hnames o (List.mem_cons_self _ _)
    have hrest := fun x hx => hnames x (List.mem_cons_of_mem _ hx)
    simp only [substLoop]
    by_cases hm : mapGet R o = ""
    · rw [scanLoop_empty R o hm ho (frag ts) _ 0 (by unfold scanFuel; omega)
        (by unfold scanFuel; rw [hm]; simp)]
      simp only
      rw [ih ts htok hrest]
      have e : ts.map (renameAll R (o :: rest)) = ts.map (renameAll R rest) :=
        List.map_congr_left (fun t _ => by simp [renameAll, hm])
      rw [e]
    · obtain ⟨hns, hlen, hch⟩ := hnew hm
      have hscan := scanLoop_gen R o hm ho hos hns
        (scanFuel (frag ts) (mapGet R o)) ts [] 0 htok
        (Or.inl ⟨by simp, hlen⟩)
        (fun p _ hp _ => absurd hp (by simp))
        (by
          have h1 := fragChars_length_ge ts
          have h2 : (frag ts).length = (fragChars ts).length := rfl
          have h3 := Nat.mul_le_mul_right (mapGet R o).length h1
          unfold scanFuel
          rw [h2, Nat.mul_add, Nat.mul_one]
          simp only [List.length_nil]
          omega)
      simp only [List.nil_append] at hscan
      have hscan2 : scanLoop R o (scanFuel (frag ts) (mapGet R o)) 0 (frag ts)
          = some (frag (ts.map (renameTok o (mapGet R o)))) := hscan
      rw [hscan2]
      simp only
      rw [ih (ts.map (renameTok o (mapGet R o))) (by
        intro t ht
        obtain ⟨x, hx, rfl⟩ := List.mem_map.1 ht
        unfold renameTok
        split
        · exact hns
        · exact htok x hx) (by
        intro o2 ho2
        obtain ⟨a1, a2, a3⟩ := hrest o2 ho2
        refine ⟨a1, a2, fun hm2 => ?_⟩
        obtain ⟨b1, b2, b3⟩ := a3 hm2
        refine ⟨b1, ?_, b3⟩
        rcases b2 with b2 | b2
        · exact Or.inl b2
        · by_cases e : o2 = mapGet R o
          · left
            rcases hch with h | h
            · rw [e] at hm2; exact absurd h hm2
            · rw [e, h]; omega
          · right
            exact Nat.le_trans (count_map_renameTok_le o (mapGet R o) o2 e ts) b2)]
      rw [List.map_map]
      have e : ts.map (renameAll R rest ∘ renameTok o (mapGet R o))
          = ts.map (renameAll R (o :: rest)) :=
        List.map_congr_left (fun t _ => by simp [renameAll, hm])
      rw [e]

theorem renameAll_fixed (R : NameMap) : ∀ (names : List String) (t : String),
    (mapGet R t = "" ∨ mapGet R t = t) → renameAll R names t = t := by
  intro names
  induction names with
  | nil => intro t _; rfl
  | cons o rest ih =>
    intro t h
    simp only [renameAll]
    by_cases hm : mapGet R o = ""
    · rw [if_pos hm]; exact ih t h
    · rw [if_neg hm]
      unfold renameTok
      by_cases e : t = o
      · rw [if_pos e]
        subst e
        rcases h with h | h
        · exact absurd h hm
        · rw [h]; exact ih t (Or.inr h)
      · rw [if_neg e]; exact ih t h

theorem renameAll_not_mem (R : NameMap) : ∀ (names : List String) (t : String),
    t ∉ names → renameAll R names t = t := by
  intro names
  induction names with
  | nil => intro t _; rfl
  | cons o rest ih =>
    intro t h
    simp only [List.mem_cons, not_or] at h
    simp only [renameAll]
    unfold renameTok
    rw [if_neg h.1]
    simp only [ite_self]
    exact ih t h.2

/-- When a new name has no new name other than itself, the scans for the names
`names`, in that order, leave a name that is renamed with its new name and keep
every other name. -/
theorem renameAll_chain (R : NameMap) : ∀ (names : List String),
    (∀ o ∈ names, mapGet R o ≠ "" →
      mapGet R (mapGet R o) = "" ∨ mapGet R (mapGet R o) = mapGet R o) →
    ∀ (t : String), renameAll R names t
      = if t ∈ names ∧ mapGet R t ≠ "" then mapGet R t else t := by
  intro names
  induction names with
  | nil => intro _ t; simp [renameAll]
  | cons o rest ih =>
    intro hchain t
    have hchain1 : ∀ a ∈ rest, mapGet R a ≠ "" →
        mapGet R (mapGet R a) = "" ∨ mapGet R (mapGet R a) = mapGet R a :=
      fun a ha h1 => hchain a (List.mem_cons_of_mem _ ha) h1
    simp only [renameAll]
    by_cases hm : mapGet R o = ""
    · rw [if_pos hm, ih hchain1 t]
      by_cases hto : t = o
      · subst hto
        simp [hm]
      · simp [hto]
    · rw [if_neg hm]
      unfold renameTok
      by_cases hto : t = o
      · subst hto
        rw [if_pos rfl, renameAll_fixed R rest _ (hchain t (List.mem_cons_self _ _) hm)]
        simp [hm]
      · rw [if_neg hto, ih hchain1 t]
        simp [hto]

/-- The loop of `replaceGlyphNames` over the names of a glyph list, in the key
order of the code: it returns the glyph list in which every name that has a
new name is replaced by it. The names have no space; the new name of a name of
the list has no space, has no new name other than itself, and is at most one
character shorter than the name unless the name is the name of one glyph of
the list only. -/
theorem substLoop_newTok (R : NameMap) (ts : List String)
    (ht : ∀ t ∈ ts, ' ' ∉ t.data)
    (hnew : ∀ t ∈ ts, t ≠ "" → mapGet R t ≠ "" →
      ' ' ∉ (mapGet R t).data ∧ (t.length ≤ (mapGet R t).length + 1 ∨ ts.count t = 1) ∧
      (mapGet R (mapGet R t) = "" ∨ mapGet R (mapGet R t) = mapGet R t)) :
    substLoop R ((glyphComps (frag ts)).map (fun m => m.1)) (frag ts)
      = some (frag (ts.map (newTok R))) := by
  have hkeys : ∀ o ∈ (glyphComps (frag ts)).map (fun m => m.1), o ≠ "" ∧ ' ' ∉ o.data ∧
      (mapGet R o ≠ "" → ' ' ∉ (mapGet R o).data ∧
        (o.length ≤ (mapGet R o).length + 1 ∨ ts.count o ≤ 1) ∧
        (mapGet R (mapGet R o) = "" ∨ mapGet R (mapGet R o) = mapGet R o)) := by
    intro o ho
    refine ⟨glyphComps_keys _ o ho, glyphComps_nospace _ o ho, fun hm => ?_⟩
    obtain ⟨h1, h2, h3⟩ := hnew o (glyphComps_sub ts ht o ho) (glyphComps_keys _ o ho) hm
    refine ⟨h1, ?_, h3⟩
    rcases h2 with h | h
    · exact Or.inl h
    · exact Or.inr (by omega)
  have hchain : ∀ o ∈ (glyphComps (frag ts)).map (fun m => m.1), mapGet R o ≠ "" →
      mapGet R (mapGet R o) = "" ∨ mapGet R (mapGet R o) = mapGet R o :=
    fun o ho hm => (hnew o (glyphComps_sub ts ht o ho) (glyphComps_keys _ o ho) hm).2.2
  rw [substLoop_gen R _ ts ht hkeys]
  congr 2
  apply List.map_congr_left
  intro t htm
  rw [renameAll_chain R _ hchain t]
  unfold newTok
  by_cases hne : t = ""
  · have hnot : t ∉ (glyphComps (frag ts)).map (fun m => m.1) :=
      fun h => glyphComps_keys _ t h hne
    rw [if_neg (fun h => hnot h.1), if_neg (fun h => h.1 hne)]
  · have hin := glyphComps_mem ts ht t htm hne
    by_cases hm : mapGet R t = ""
    · rw [if_neg (fun h => h.2 hm), if_neg (fun h => h.2 hm)]
    · rw [if_pos ⟨hin, hm⟩, if_pos ⟨hne, hm⟩]

/-- A name that stands in the rewritten glyph list is empty, or has no new
name, or is its own new name. -/
theorem newTok_stable (R : NameMap) (t : String)
    (h : t ≠ "" → mapGet R t ≠ "" →
      mapGet R (mapGet R t) = "" ∨ mapGet R (mapGet R t) = mapGet R t) :
    newTok R t = "" ∨ mapGet R (newTok R t) = "" ∨ mapGet R (newTok R t) = newTok R t := by
  unfold newTok
  by_cases hc : t ≠ "" ∧ mapGet R t ≠ ""
  · rw [if_pos hc]
    exact Or.inr (h hc.1 hc.2)
  · rw [if_neg hc]
    by_cases h1 : t = ""
    · exact Or.inl h1
    · right; left
      by_contra h2
      exact hc ⟨h1, h2⟩

theorem newTok_of_stable (R : NameMap) (t : String)
    (h : t = "" ∨ mapGet R t = "" ∨ mapGet R t = t) : newTok R t = t := by
  unfold newTok
  by_cases hc : t ≠ "" ∧ mapGet R t ≠ ""
  · rw [if_pos hc]
    rcases h with h | h | h
    · exact absurd h hc.1
    · exact absurd h hc.2
    · exact h
  · rw [if_neg hc]

theorem not_mem_fragChars (c : Char) (hc : c ≠ ' ') : ∀ (ts : List String),
    (∀ t ∈ ts, c ∉ t.data) → c ∉ fragChars ts := by
  intro ts
  induction ts with
  | nil => intro _; simp [fragChars]
  | cons t rest ih =>
    intro h
    simp only [fragChars, List.mem_cons, List.mem_append, not_or]
    exact ⟨hc, h t (List.mem_cons_self _ _),
      ih (fun x hx => h x (List.mem_cons_of_mem _ hx))⟩

/-- The glyph list `getTok` reads from a ligature line. -/
theorem getTok_ligLine (X : List Char) (ts : List String) (hX : X.count '"' = 1)
    (hq : ∀ t ∈ ts, '"' ∉ t.data) (hne : ts ≠ []) :
    getTok (ligLine X ts) "" '"' 3 = (SUCCESS, frag ts) := by
  have hG : '"' ∉ fragChars ts := not_mem_fragChars '"' (by decide) ts hq
  have h := getTok_fields (ligLine X ts) "" '"' 3 (by omega)
  have hd : (ligLine X ts).data = X ++ '"' :: fragChars ts := rfl
  have hcount : (X ++ '"' :: fragChars ts).count '"' = 2 := by
    rw [List.count_append, List.count_cons_self, hX, List.count_eq_zero_of_not_mem hG]
  have hF : splitFields '"' (X ++ '"' :: fragChars ts)
      = splitFields '"' X ++ [fragChars ts] := by
    rw [splitFields_append, splitFields_of_not_mem _ _ hG]
  have hlenX : (splitFields '"' X).length = 2 := by rw [splitFields_length, hX]
  have hget : (splitFields '"' X ++ [fragChars ts]).getD (3 - 1) [] = fragChars ts := by
    rw [List.getD_eq_getElem?_getD, List.getElem?_append_right (by omega), hlenX]
    rfl
  have hfne : fragChars ts ≠ [] := by
    cases ts with
    | nil => exact absurd rfl hne
    | cons t rest => simp [fragChars]
  rw [hd, hcount, hF, hget, if_pos ⟨by omega, Or.inr ⟨rfl, hfne⟩⟩] at h
  exact h

theorem strReplace_ligLine (X : List Char) (ts us : List String) :
    strReplace (ligLine X ts) (X.length + 1) (frag ts).length (frag us) = ligLine X us := by
  unfold strReplace ligLine
  have e1 : X ++ '"' :: fragChars ts = (X ++ ['"']) ++ fragChars ts := by simp
  have hl : (X ++ ['"']).length = X.length + 1 := by simp
  have hfl : (frag ts).length = (fragChars ts).length := rfl
  have hfd : (frag us).data = fragChars us := rfl
  congr 1
  show List.take (X.length + 1) (X ++ '"' :: fragChars ts) ++ (frag us).data
      ++ List.drop (X.length + 1 + (frag ts).length) (X ++ '"' :: fragChars ts)
    = X ++ '"' :: fragChars us
  rw [e1, ← hl, List.take_left, hfl, hfd]
  have hd : List.drop ((X ++ ['"']).length + (fragChars ts).length)
      ((X ++ ['"']) ++ fragChars ts) = [] := by
    apply List.drop_eq_nil_of_le
    simp only [List.length_append]
    omega
  rw [hd]
  simp

/-- The rewriting of a ligature line whose glyph-list text does not occur
earlier in the line: every name of the list that has a new name is replaced
by it. -/
theorem replaceGlyphNames_ligLine (R : NameMap) (X : List Char) (ts : List String)
    (hX : X.count '"' = 1)
    (htok : ∀ t ∈ ts, ' ' ∉ t.data ∧ '"' ∉ t.data)
    (hnew : ∀ t ∈ ts, t ≠ "" → mapGet R t ≠ "" →
      ' ' ∉ (mapGet R t).data ∧ (t.length ≤ (mapGet R t).length + 1 ∨ ts.count t = 1) ∧
      (mapGet R (mapGet R t) = "" ∨ mapGet R (mapGet R t) = mapGet R t))
    (hocc : strFind (ligLine X ts) (frag ts) 0 = some (X.length + 1)) :
    replaceGlyphNames R (ligLine X ts) = some (SUCCESS, ligLine X (ts.map (newTok R))) := by
  have hne : ts ≠ [] := by
    intro e
    subst e
    have h0 : strFind (ligLine X []) (frag []) 0 = some 0 := by
      unfold strFind
      rw [if_neg (by omega)]
      cases hdat : (ligLine X []).data.drop 0 with
      | nil => simp [findAux, frag, fragChars]
      | cons c rest => simp [findAux, frag, fragChars]
    rw [h0] at hocc
    simp only [Option.some.injEq] at hocc
    omega
  unfold replaceGlyphNames
  simp only [getTok_ligLine X ts hX (fun t h => (htok t h).2) hne, if_true]
  rw [substLoop_newTok R ts (fun t h => (htok t h).1) hnew]
  simp only [hocc, strReplace_ligLine]

/-- The rewriting of a ligature line in which every name is empty, has no new
name, or is its own new name: the line is returned as it is. -/
theorem replaceGlyphNames_stable (R : NameMap) (X : List Char) (us : List String)
    (hX : X.count '"' = 1)
    (htok : ∀ u ∈ us, ' ' ∉ u.data ∧ '"' ∉ u.data) (hne : us ≠ [])
    (hst : ∀ u ∈ us, u = "" ∨ mapGet R u = "" ∨ mapGet R u = u) :
    replaceGlyphNames R (ligLine X us) = some (SUCCESS, ligLine X us) := by
  have hmap : us.map (newTok R) = us := by
    conv_rhs => rw [← List.map_id us]
    exact List.map_congr_left (fun u hu => newTok_of_stable R u (hst u hu))
  have hsub := substLoop_newTok R us (fun u h => (htok u h).1) (by
    intro u hu hune hm
    rcases hst u hu with h | h | h
    · exact absurd h hune
    · exact absurd h hm
    · rw [h]
      exact ⟨(htok u hu).1, Or.inl (by omega), Or.inr h⟩)
  rw [hmap] at hsub
  unfold replaceGlyphNames
  simp only [getTok_ligLine X us hX (fun t h => (htok t h).2) hne, if_true]
  rw [hsub]
  simp only
  cases hf : strFind (ligLine X us) (frag us) 0 with
  | none => rfl
  | some gPos => simp only [strReplace_self (ligLine X us) (frag us) gPos hf]

/-- C16, amended: for every rename map `R` and every ligature line made of the
characters `X`, which hold one double quote, a second double quote, and a
glyph list of names `ts` without space or double quote, each after one space,
whose text does not occur earlier in the line: when every name of the list
that has a new name in `R` has one that (a) holds no space and no double
quote, (b) has no new name other than itself, and (c) is at most one
character shorter than the name unless the name is the name of one glyph of
the list only, `replaceGlyphNames` returns `SUCCESS` with the line in which
every such name is replaced by its new name, and rewriting that line again
returns it unchanged. -/
theorem C16_rewrite_twice (R : NameMap) (X : List Char) (ts : List String)
    (hX : X.count '"' = 1)
    (htok : ∀ t ∈ ts, ' ' ∉ t.data ∧ '"' ∉ t.data)
    (hnew : ∀ t ∈ ts, t ≠ "" → mapGet R t ≠ "" →
      (' ' ∉ (mapGet R t).data ∧ '"' ∉ (mapGet R t).data) ∧
      (mapGet R (mapGet R t) = "" ∨ mapGet R (mapGet R t) = mapGet R t) ∧
      (t.length ≤ (mapGet R t).length + 1 ∨ ts.count t = 1))
    (hocc : strFind (ligLine X ts) (frag ts) 0 = some (X.length + 1)) :
    replaceGlyphNames R (ligLine X ts) = some (SUCCESS, ligLine X (ts.map (newTok R))) ∧
    replaceGlyphNames R (ligLine X (ts.map (newTok R)))
      = some (SUCCESS, ligLine X (ts.map (newTok R))) := by
  have hne : ts ≠ [] := by
    intro e
    subst e
    have h0 : strFind (ligLine X []) (frag []) 0 = some 0 := by
      unfold strFind
      rw [if_neg (by omega)]
      cases hdat : (ligLine X []).data.drop 0 with
      | nil => simp [findAux, frag, fragChars]
      | cons c rest => simp [findAux, frag, fragChars]
    rw [h0] at hocc
    simp only [Option.some.injEq] at hocc
    omega
  constructor
  · exact replaceGlyphNames_ligLine R X ts hX htok
      (fun t ht h1 h2 => ⟨(hnew t ht h1 h2).1.1, (hnew t ht h1 h2).2.2, (hnew t ht h1 h2).2.1⟩)
      hocc
  · apply replaceGlyphNames_stable R X (ts.map (newTok R)) hX
    · intro u hu
      obtain ⟨t, ht, rfl⟩ := List.mem_map.1 hu
      unfold newTok
      by_cases hc : t ≠ "" ∧ mapGet R t ≠ ""
      · rw [if_pos hc]
        exact (hnew t ht hc.1 hc.2).1
      · rw [if_neg hc]
        exact htok t ht
    · intro e
      exact hne (List.map_eq_nil_iff.1 e)
    · intro u hu
      obtain ⟨t, ht, rfl⟩ := List.mem_map.1 hu
      exact newTok_stable R t (fun h1 h2 => (hnew t ht h1 h2).2.1)

/-- Witness of C16: a line with the names `uni0D15`, `xk1` and `k1`; `uni0D15`
has a new name that is five characters shorter and `k1` one that is one
character shorter. -/
theorem C16_rewrite_twice_witness :
    (akhnPrefix.count '"' = 1 ∧
      (∀ t ∈ ["uni0D15", "xk1", "k1"], ' ' ∉ t.data ∧ '"' ∉ t.data) ∧
      (∀ t ∈ ["uni0D15", "xk1", "k1"], t ≠ "" →
        mapGet [("k1", "N"), ("uni0D15", "ka")] t ≠ "" →
        (' ' ∉ (mapGet [("k1", "N"), ("uni0D15", "ka")] t).data ∧
          '"' ∉ (mapGet [("k1", "N"), ("uni0D15", "ka")] t).data) ∧
        (mapGet [("k1", "N"), ("uni0D15", "ka")]
            (mapGet [("k1", "N"), ("uni0D15", "ka")] t) = "" ∨
          mapGet [("k1", "N"), ("uni0D15", "ka")]
            (mapGet [("k1", "N"), ("uni0D15", "ka")] t)
            = mapGet [("k1", "N"), ("uni0D15", "ka")] t) ∧
        (t.length ≤ (mapGet [("k1", "N"), ("uni0D15", "ka")] t).length + 1 ∨
          ["uni0D15", "xk1", "k1"].count t = 1)) ∧
      strFind (ligLine akhnPrefix ["uni0D15", "xk1", "k1"])
        (frag ["uni0D15", "xk1", "k1"]) 0 = some (akhnPrefix.length + 1)) ∧
    (replaceGlyphNames [("k1", "N"), ("uni0D15", "ka")]
        (ligLine akhnPrefix ["uni0D15", "xk1", "k1"])
      = some (SUCCESS, ligLine akhnPrefix
          (["uni0D15", "xk1", "k1"].map (newTok [("k1", "N"), ("uni0D15", "ka")]))) ∧
    replaceGlyphNames [("k1", "N"), ("uni0D15", "ka")]
        (ligLine akhnPrefix
          (["uni0D15", "xk1", "k1"].map (newTok [("k1", "N"), ("uni0D15", "ka")])))
      = some (SUCCESS, ligLine akhnPrefix
          (["uni0D15", "xk1", "k1"].map (newTok [("k1", "N"), ("uni0D15", "ka")])))) ∧
    ligLine akhnPrefix ["uni0D15", "xk1", "k1"]
      = "Ligature2: \"'akhn' sub\" uni0D15 xk1 k1" ∧
    ligLine akhnPrefix
        (["uni0D15", "xk1", "k1"].map (newTok [("k1", "N"), ("uni0D15", "ka")]))
      = "Ligature2: \"'akhn' sub\" ka xk1 N" :=
  ⟨⟨by decide, by decide, by decide, by decide⟩,
    C16_rewrite_twice [("k1", "N"), ("uni0D15", "ka")] akhnPrefix
      ["uni0D15", "xk1", "k1"] (by decide) (by decide) (by decide) (by decide),
    by decide, by decide⟩

end GlyphRen
